import Mathlib

/-!
# pjson: a verification development for the JSON scanner of `pjson.go`

The scanner of `src/pjson.go` is embedded as Lean functions over a byte buffer
(`List UInt8`).  Offsets are natural numbers, the visitor is a function of the
events delivered so far and of the current event, and every delivered event is
recorded in a log that is threaded through the scanner.  An index expression
`json[k]` is the fallible read `rd json k`; loops and the mutual recursion
between the value, object and array scanners run on a recursion budget.
-/

/-- ASCII bytes of a string literal (used for the concrete inputs of the tests) -/
def bytes (s : String) : List UInt8 := s.toList.map (fun c => c.toNat.toUInt8)

namespace pjson

/-! ## Classification bits (`const ( _ = 1 << iota; String; ... )`) -/

namespace Info
def String : Nat := 1 <<< 1
def Number : Nat := 1 <<< 2
def True : Nat := 1 <<< 3
def False : Nat := 1 <<< 4
def Null : Nat := 1 <<< 5
def Object : Nat := 1 <<< 6
def Array : Nat := 1 <<< 7
def Comma : Nat := 1 <<< 8
def Colon : Nat := 1 <<< 9
def Start : Nat := 1 <<< 10
def End : Nat := 1 <<< 11
def Open : Nat := 1 <<< 12
def Close : Nat := 1 <<< 13
def Key : Nat := 1 <<< 14
def Value : Nat := 1 <<< 15
def Escaped : Nat := 1 <<< 16
def Sign : Nat := 1 <<< 17
def Dot : Nat := 1 <<< 18
def E : Nat := 1 <<< 19
end Info

/-- Bit pattern of Go's `^x` on a 64-bit `int`, for the non-negative flag words used here -/
def bnot (x : Nat) : Nat := (2 ^ 64 - 1) ^^^ x

/-! ## Execution outcomes -/

/-- Result of running a piece of the scanner: a value, an index-out-of-range
panic of a `json[k]` expression, or exhaustion of the recursion budget. -/
inductive Run (α : Type) where
  | ret (a : α) : Run α
  | panic : Run α
  | starved : Run α
  deriving DecidableEq, Repr

/-- Sequencing of scanner steps: a panic or an exhausted budget ends the run -/
def Run.bind {α β : Type} (x : Run α) (k : α → Run β) : Run β :=
  match x with
  | .ret a => k a
  | .panic => .panic
  | .starved => .starved

instance : Monad Run where
  pure := Run.ret
  bind := Run.bind

/-- The index expression `json[i]`, as the numeric value of the byte -/
def rd (json : List UInt8) (i : Nat) : Run Nat :=
  match json[i]? with
  | some b => .ret b.toNat
  | none => .panic

/-! ## Events and visitors -/

/-- One call `iter(start, end, info)` -/
structure Event where
  start : Nat
  fin : Nat
  info : Nat
  deriving DecidableEq, Repr

/-- The visitor `func(start, end, info int) int`.  A Go closure may keep state
between calls, so the answer is a function of the events delivered before and
of the current event. -/
abbrev vfn := List Event → Event → Int

/-- The tuple `(oi int, ok, stop bool)` returned by the scanners, with the log
of the events delivered so far -/
structure St where
  i : Nat
  ok : Bool
  stop : Bool
  log : List Event
  deriving DecidableEq, Repr

/-- The guarded call `if f != nil { r := f(start, end, info) ... }`: the event is
delivered and logged when a visitor is present; without a visitor nothing is
delivered and the code goes on as after the answer 1. -/
def fire (f : Option vfn) (log : List Event) (e : Event) : Int × List Event :=
  match f with
  | none => (1, log)
  | some g => (g log e, log ++ [e])

/-! ## Character classes -/

/-- The table `ws = [256]byte{' ': 1, '\t': 1, '\n': 1, '\r': 1}` -/
def ws (ch : Nat) : Nat :=
  if ch = 32 ∨ ch = 9 ∨ ch = 10 ∨ ch = 13 then 1 else 0

def isws (ch : Nat) : Bool := ws ch == 1

/-- The table `strtoks`: entries `0x00 .. 0x1F`, `'"'` and `'\\'` are 1 -/
def strtoks (ch : Nat) : Nat :=
  if ch ≤ 0x1F ∨ ch = 34 ∨ ch = 92 then 1 else 0

def isstrtok (ch : Nat) : Bool := strtoks ch == 1

def isnum (ch : Nat) : Bool := decide (48 ≤ ch) && decide (ch ≤ 57)

/-- The test of the `\u` loop: `(c >= '0' && c <= '9') || (c >= 'a' && c <= 'f') || (c >= 'A' && c <= 'F')` -/
def ishex (ch : Nat) : Bool :=
  (decide (48 ≤ ch) && decide (ch ≤ 57)) || (decide (97 ≤ ch) && decide (ch ≤ 102)) ||
    (decide (65 ≤ ch) && decide (ch ≤ 70))

/-- The constant `unroll` -/
def unroll : Bool := true

/-! ## String scanner -/

/-- How a scanning loop of `vstring` is left: `ret i` is `return i, info, true, false`
(the closing quote was at `i - 1`), `tok i` is `goto tok` with the cursor at `i`,
`fall i` is the loop condition failing with the cursor at `i`. -/
inductive Scan where
  | ret (i : Nat) : Scan
  | tok (i : Nat) : Scan
  | fall (i : Nat) : Scan
  deriving DecidableEq, Repr

/-- The body `if isstrtok(json[i]) { if json[i] == '"' { return i + 1, ... }; goto tok }; i++`
repeated `k` times, as in one round of the unrolled loop; `fall` is the cursor after `k`
bytes that are not string tokens. -/
def probes (json : List UInt8) : Nat → Nat → Run Scan
  | 0, i => pure (.fall i)
  | k + 1, i => do
    let c ← rd json i
    if isstrtok c then
      if c = 34 then pure (.ret (i + 1)) else pure (.tok i)
    else probes json k (i + 1)

/-- The loop `for i < len(json)-7 { ... eight probes ... }` -/
def scanUnrolled (json : List UInt8) : Nat → Nat → Run Scan
  | 0, _ => .starved
  | n + 1, i =>
    if i + 7 < json.length then do
      let s ← probes json 8 i
      match s with
      | .fall j => scanUnrolled json n j
      | s => pure s
    else pure (.fall i)

/-- The loop `for ; i < len(json); i++ { if isstrtok(json[i]) { ... } }` -/
def scanPlain (json : List UInt8) : Nat → Nat → Run Scan
  | 0, _ => .starved
  | n + 1, i =>
    if i < json.length then do
      let c ← rd json i
      if isstrtok c then
        if c = 34 then pure (.ret (i + 1)) else pure (.tok i)
      else scanPlain json n (i + 1)
    else pure (.fall i)

/-- The two scanning loops at the head of the `for { ... }` of `vstring` -/
def scan (u : Bool) (json : List UInt8) (i : Nat) : Run Scan :=
  if u then do
    let s ← scanUnrolled json (json.length + 1) i
    match s with
    | .fall j => scanPlain json (json.length + 1) j
    | s => pure s
  else scanPlain json (json.length + 1) i

/-- The loop `for j := 0; j < 4; j++ { i++; ... }` of the `\u` escape with `k` rounds to go:
the cursor and whether all rounds passed -/
def hex4 (json : List UInt8) : Nat → Nat → Run (Nat × Bool)
  | 0, i => pure (i, true)
  | k + 1, i =>
    if i + 1 ≥ json.length then pure (i + 1, false)
    else do
      let c ← rd json (i + 1)
      if !ishex c then pure (i + 1, false) else hex4 json k (i + 1)

/-- How the code after the label `tok` is left: with a `return`, or at the end of
the body of `for { ... }` with a new cursor and info -/
inductive Tok where
  | done (i info : Nat) (ok stop : Bool) : Tok
  | more (i info : Nat) : Tok
  deriving DecidableEq, Repr

/-- The code from the label `tok` to the final `i++` -/
def tok (json : List UInt8) (i info : Nat) : Run Tok := do
  let c ← rd json i
  if c = 34 then pure (.done (i + 1) info true false)
  else if c < 32 then pure (.done i info false true)
  else if c = 92 then
    let info := info ||| Info.Escaped
    let i := i + 1
    if i = json.length then pure (.done i info false true)
    else do
      let d ← rd json i
      if d = 34 ∨ d = 92 ∨ d = 47 ∨ d = 98 ∨ d = 102 ∨ d = 110 ∨ d = 114 ∨ d = 116 then
        pure (.more (i + 1) info)
      else if d = 117 then do
        let (j, good) ← hex4 json 4 i
        if good then pure (.more (j + 1) info) else pure (.done j info false true)
      else pure (.done i info false true)
  else pure (.more (i + 1) info)

/-- The loop `for { ... }` of `vstring` -/
def vstringLoop (u : Bool) (json : List UInt8) : Nat → Nat → Nat → Run (Nat × Nat × Bool × Bool)
  | 0, _, _ => .starved
  | n + 1, i, info => do
    let s ← scan u json i
    match s with
    | .ret j => pure (j, info, true, false)
    | .fall j => pure (j, info, false, true)
    | .tok j => do
      let t ← tok json j info
      match t with
      | .done k info ok stop => pure (k, info, ok, stop)
      | .more k info => vstringLoop u json n k info

/-- The function `vstring` with the constant `unroll` as a parameter -/
def vstringWith (u : Bool) (json : List UInt8) (i : Nat) : Run (Nat × Nat × Bool × Bool) :=
  vstringLoop u json (json.length + 1) i 0

/-- validstring - the prefix quote character has already been processed -/
def vstring (json : List UInt8) (i : Nat) : Run (Nat × Nat × Bool × Bool) :=
  vstringWith unroll json i

/-! ## Number scanner -/

/-- The loops `for ; i < len(json); i++ { if !isnum(json[i]) { goto ... } }`: the first
offset from `i` on that is the end of the buffer or holds no digit -/
def digits (json : List UInt8) : Nat → Nat → Run Nat
  | 0, _ => .starved
  | n + 1, i =>
    if i < json.length then do
      let c ← rd json i
      if !isnum c then pure i else digits json n (i + 1)
    else pure i

/-- The code of `vnumber` from the label `exp` on -/
def vnumberExp (json : List UInt8) (i info : Nat) : Run (Nat × Nat × Bool × Bool) := do
  let c ← rd json i
  if c = 101 ∨ c = 69 then
    let info := info ||| Info.E
    let i := i + 1
    if i = json.length then pure (i, info, false, true)
    else do
      let s ← rd json i
      let i := if s = 43 ∨ s = 45 then i + 1 else i
      if i = json.length then pure (i, info, false, true)
      else do
        let d ← rd json i
        if !isnum d then pure (i, info, false, true)
        else do
          let j ← digits json (json.length + 1) (i + 1)
          pure (j, info, true, false)
  else pure (i, info, true, false)

/-- The code of `vnumber` from the label `frac` on -/
def vnumberFrac (json : List UInt8) (i info : Nat) : Run (Nat × Nat × Bool × Bool) := do
  let c ← rd json i
  if c = 46 then
    let info := info ||| Info.Dot
    let i := i + 1
    if i = json.length then pure (i, info, false, true)
    else do
      let d ← rd json i
      if !isnum d then pure (i, info, false, true)
      else do
        let j ← digits json (json.length + 1) (i + 1)
        if j = json.length then pure (j, info, true, false)
        else vnumberExp json j info
  else if i = json.length then pure (i, info, true, false)
  else vnumberExp json i info

/-- The integer part of `vnumber`: `if json[i] == '0' { i++ } else { digits }`, then
`if i == len(json) { return i, info, true, false }` and the label `frac` -/
def vnumberInt (json : List UInt8) (i info : Nat) : Run (Nat × Nat × Bool × Bool) := do
  let c ← rd json i
  let j ← if c = 48 then pure (i + 1) else digits json (json.length + 1) i
  if j = json.length then pure (j, info, true, false)
  else vnumberFrac json j info

/-- The function `vnumber`; the cursor is one past the first byte of the number,
and `i--` takes it back -/
def vnumber (json : List UInt8) (i : Nat) : Run (Nat × Nat × Bool × Bool) :=
  match i with
  | 0 => .panic
  | i + 1 => do
    let c ← rd json i
    if c = 45 then
      let info := Info.Sign
      let i := i + 1
      if i = json.length then pure (i, info, false, true)
      else do
        let d ← rd json i
        if !isnum d then pure (i, info, false, true)
        else vnumberInt json i info
    else vnumberInt json i 0

/-! ## Literal matchers -/

def vtrue (json : List UInt8) (i : Nat) : Run (Nat × Bool × Bool) :=
  if i + 3 ≤ json.length then do
    let a ← rd json i
    let b ← rd json (i + 1)
    let c ← rd json (i + 2)
    if a ||| b <<< 8 ||| c <<< 16 = 6649202 then pure (i + 3, true, false)
    else pure (i, false, true)
  else pure (i, false, true)

def vfalse (json : List UInt8) (i : Nat) : Run (Nat × Bool × Bool) :=
  if i + 4 ≤ json.length then do
    let a ← rd json i
    let b ← rd json (i + 1)
    let c ← rd json (i + 2)
    let d ← rd json (i + 3)
    if a ||| b <<< 8 ||| c <<< 16 ||| d <<< 24 = 1702063201 then pure (i + 4, true, false)
    else pure (i, false, true)
  else pure (i, false, true)

def vnull (json : List UInt8) (i : Nat) : Run (Nat × Bool × Bool) :=
  if i + 3 ≤ json.length then do
    let a ← rd json i
    let b ← rd json (i + 1)
    let c ← rd json (i + 2)
    if a ||| b <<< 8 ||| c <<< 16 = 7105653 then pure (i + 3, true, false)
    else pure (i, false, true)
  else pure (i, false, true)

/-! ## Punctuation -/

/-- The loop of `vcolon` (label `loop`) -/
def vcolonLoop (json : List UInt8) : Nat → Nat → Run (Nat × Bool × Bool)
  | 0, _ => .starved
  | n + 1, i =>
    if i < json.length then do
      let c ← rd json i
      if c = 58 then pure (i + 1, true, false)
      else if isws c then vcolonLoop json n (i + 1)
      else pure (i, false, true)
    else pure (i, false, true)

def vcolon (json : List UInt8) (i : Nat) : Run (Nat × Bool × Bool) :=
  vcolonLoop json (json.length + 1) i

/-- The loop of `vcomma` (label `loop`) -/
def vcommaLoop (json : List UInt8) (e : Nat) : Nat → Nat → Run (Nat × Bool × Bool)
  | 0, _ => .starved
  | n + 1, i =>
    if i < json.length then do
      let c ← rd json i
      if c = 44 then pure (i, true, false)
      else if c = e then pure (i, true, false)
      else if isws c then vcommaLoop json e n (i + 1)
      else pure (i, false, true)
    else pure (i, false, true)

def vcomma (json : List UInt8) (i : Nat) (e : Nat) : Run (Nat × Bool × Bool) :=
  vcommaLoop json e (json.length + 1) i

/-! ## Value, object and array scanners -/

/-- The role bits of the event of a string, number or literal:
`if dinfo&Start == Start { dinfo |= End }`, inside `if f != nil` -/
def tailInfo (f : Option vfn) (dinfo : Nat) : Nat :=
  if f.isSome ∧ dinfo &&& Info.Start = Info.Start then dinfo ||| Info.End else dinfo

/-- The role bits of a Close event:
`if dinfo&Start == Start { dinfo &= ^Start; dinfo |= End }`, inside `if f != nil` -/
def closeInfo (f : Option vfn) (dinfo : Nat) : Nat :=
  if f.isSome ∧ dinfo &&& Info.Start = Info.Start then (dinfo &&& bnot Info.Start) ||| Info.End
  else dinfo

/-- The end of `vany` for a string, number or literal: `if stop { return }`, the
event of the value, `return i, ok, stop` -/
def vanyTail (mark i info dinfo : Nat) (ok stop : Bool) (f : Option vfn) (log : List Event) : St :=
  if stop then ⟨i, ok, stop, log⟩
  else
    let r := fire f log ⟨mark, i, info ||| tailInfo f dinfo⟩
    if r.1 = 0 then ⟨i, true, true, r.2⟩ else ⟨i, ok, stop, r.2⟩

/-- The end of `vany` for an object or array (`kind` is `Object` or `Array`), after
`vobject` or `varray` returned `s`: `if stop { return }`, the Close event, `return i, true, false` -/
def vanyClose (kind dinfo : Nat) (s : St) (f : Option vfn) : St :=
  if s.stop then s
  else
    let r := fire f s.log ⟨s.i - 1, s.i, kind ||| Info.Close ||| closeInfo f dinfo⟩
    if r.1 = 0 then ⟨s.i, true, true, r.2⟩ else ⟨s.i, true, false, r.2⟩

/-- The visitor handed to `vobject` or `varray`: `f2 := f; if r == -1 { f2 = nil }` -/
def inner (f : Option vfn) (r : Int) : Option vfn :=
  if r = -1 then none else f

mutual

/-- The function `vany` -/
def vany (json : List UInt8) : Nat → Nat → Nat → Option vfn → List Event → Run St
  | 0, _, _, _, _ => .starved
  | n + 1, i, dinfo, f, log =>
    if i < json.length then do
      let c ← rd json i
      if isws c then vany json n (i + 1) dinfo f log
      else if c = 34 then do
        let (j, info, ok, stop) ← vstring json (i + 1)
        pure (vanyTail i j (info ||| Info.String) dinfo ok stop f log)
      else if c = 123 then
        let (r, log) := fire f log ⟨i, i + 1, Info.Object ||| Info.Open ||| dinfo⟩
        if r = 0 then pure ⟨i, true, true, log⟩
        else do
          let s ← vobject json n (i + 1) (inner f r) log
          pure (vanyClose Info.Object dinfo s f)
      else if c = 91 then
        let (r, log) := fire f log ⟨i, i + 1, Info.Array ||| Info.Open ||| dinfo⟩
        if r = 0 then pure ⟨i, true, true, log⟩
        else do
          let s ← varray json n (i + 1) (inner f r) log
          pure (vanyClose Info.Array dinfo s f)
      else if c = 45 ∨ isnum c then do
        let (j, info, ok, stop) ← vnumber json (i + 1)
        pure (vanyTail i j (info ||| Info.Number) dinfo ok stop f log)
      else if c = 116 then do
        let (j, ok, stop) ← vtrue json (i + 1)
        pure (vanyTail i j Info.True dinfo ok stop f log)
      else if c = 110 then do
        let (j, ok, stop) ← vnull json (i + 1)
        pure (vanyTail i j Info.Null dinfo ok stop f log)
      else if c = 102 then do
        let (j, ok, stop) ← vfalse json (i + 1)
        pure (vanyTail i j Info.False dinfo ok stop f log)
      else pure ⟨i, false, true, log⟩
    else pure ⟨i, false, true, log⟩

/-- The function `vobject`: the outer loop up to the first key -/
def vobject (json : List UInt8) : Nat → Nat → Option vfn → List Event → Run St
  | 0, _, _, _ => .starved
  | n + 1, i, f, log =>
    if i < json.length then do
      let c ← rd json i
      if isws c then vobject json n (i + 1) f log
      else if c = 125 then pure ⟨i + 1, true, false, log⟩
      else if c = 34 then vobjectKey json n i f log
      else pure ⟨i, false, true, log⟩
    else pure ⟨i, false, true, log⟩

/-- The code of `vobject` from the label `key` to the comma event -/
def vobjectKey (json : List UInt8) : Nat → Nat → Option vfn → List Event → Run St
  | 0, _, _, _ => .starved
  | n + 1, i, f, log => do
    let (j, info, ok, stop) ← vstring json (i + 1)
    if stop then pure ⟨j, ok, stop, log⟩
    else
      let (r, log) := fire f log ⟨i, j, info ||| Info.Key ||| Info.String⟩
      if r = 0 then pure ⟨j, true, true, log⟩
      else do
        let (j, ok, stop) ← vcolon json j
        if stop then pure ⟨j, ok, stop, log⟩
        else
          let (r, log) := fire f log ⟨j - 1, j, Info.Colon⟩
          if r = 0 then pure ⟨j, true, true, log⟩
          else do
            let s ← vany json n j Info.Value f log
            if s.stop then pure s
            else do
              let (j, ok, stop) ← vcomma json s.i 125
              if stop then pure ⟨j, ok, stop, s.log⟩
              else do
                let c ← rd json j
                if c = 125 then pure ⟨j + 1, true, false, s.log⟩
                else
                  let (r, log) := fire f s.log ⟨j, j + 1, Info.Comma⟩
                  if r = 0 then pure ⟨j, true, true, log⟩
                  else vobjectNext json n (j + 1) f log

/-- The loop of `vobject` after a comma, which looks for the next key -/
def vobjectNext (json : List UInt8) : Nat → Nat → Option vfn → List Event → Run St
  | 0, _, _, _ => .starved
  | n + 1, i, f, log =>
    if i < json.length then do
      let c ← rd json i
      if isws c then vobjectNext json n (i + 1) f log
      else if c = 34 then vobjectKey json n i f log
      else pure ⟨i, false, true, log⟩
    else pure ⟨i, false, true, log⟩

/-- The function `varray`: the outer loop -/
def varray (json : List UInt8) : Nat → Nat → Option vfn → List Event → Run St
  | 0, _, _, _ => .starved
  | n + 1, i, f, log =>
    if i < json.length then do
      let c ← rd json i
      if isws c then varray json n (i + 1) f log
      else if c = 93 then pure ⟨i + 1, true, false, log⟩
      else varrayElems json n i f log
    else pure ⟨i, false, true, log⟩

/-- The inner loop of `varray`.  When its condition fails the body of the outer
loop is over: the outer `i++` runs, the outer condition fails as well, and the
function ends with `return i, false, true`. -/
def varrayElems (json : List UInt8) : Nat → Nat → Option vfn → List Event → Run St
  | 0, _, _, _ => .starved
  | n + 1, i, f, log =>
    if i < json.length then do
      let c ← rd json i
      if isws c then varrayElems json n (i + 1) f log
      else do
        let s ← vany json n i Info.Value f log
        if s.stop then pure s
        else do
          let (j, ok, stop) ← vcomma json s.i 93
          if stop then pure ⟨j, ok, stop, s.log⟩
          else do
            let c ← rd json j
            if c = 93 then pure ⟨j + 1, true, false, s.log⟩
            else
              let (r, log) := fire f s.log ⟨j, j + 1, Info.Comma⟩
              if r = 0 then pure ⟨j, true, true, log⟩
              else varrayElems json n (j + 1) f log
    else pure ⟨i + 1, false, true, log⟩

end

/-- The trailing loop of `vdoc`: `for ; i < len(json); i++ { if isws(json[i]) { continue }; return i, false, true }` -/
def vdocLoop (json : List UInt8) : Nat → Nat → Run (Nat × Bool × Bool)
  | 0, _ => .starved
  | n + 1, i =>
    if i < json.length then do
      let c ← rd json i
      if isws c then vdocLoop json n (i + 1) else pure (i, false, true)
    else pure (i, true, false)

/-- The recursion budget that `vdoc` gives to `vany` -/
def budget (json : List UInt8) : Nat := 3 * json.length + 3

/-- The function `vdoc` -/
def vdoc (json : List UInt8) (i : Nat) (f : Option vfn) : Run St := do
  let s ← vany json (budget json) i Info.Start f []
  if s.stop then pure s
  else do
    let (j, ok, stop) ← vdocLoop json (json.length + 1) s.i
    pure ⟨j, ok, stop, s.log⟩

/-- The result of `Parse`: `i, ok, _ := vdoc(json, 0, iter); if !ok { i *= -1 }; return i` -/
def verdict (s : St) : Int := if s.ok then (s.i : Int) else (s.i : Int) * -1

/-- The function `Parse` -/
def Parse (json : List UInt8) (iter : Option vfn) : Run Int := do
  let s ← vdoc json 0 iter
  pure (verdict s)

/-- The events that `Parse` delivers to the visitor, in order -/
def events (json : List UInt8) (iter : Option vfn) : Run (List Event) := do
  let s ← vdoc json 0 iter
  pure s.log

/-! ## Program points and the big-step relation used in the proofs -/

/-- The code of `vobject` and `varray` from the call of `vcomma` on (`e` is the
closing byte, 125 or 93): `vcomma`, the test for the closing byte, the comma
event, and the loop that follows. -/
def contSep (json : List UInt8) (n e i : Nat) (f : Option vfn) (log : List Event) : Run St := do
  let (j, ok, stop) ← vcomma json i e
  if stop then pure ⟨j, ok, stop, log⟩
  else do
    let c ← rd json j
    if c = e then pure ⟨j + 1, true, false, log⟩
    else
      let (r, log) := fire f log ⟨j, j + 1, Info.Comma⟩
      if r = 0 then pure ⟨j, true, true, log⟩
      else if e = 125 then vobjectNext json n (j + 1) f log
      else varrayElems json n (j + 1) f log

/-- The code of `vobject` and of the inner loop of `varray` from the call of `vany` on -/
def contMember (json : List UInt8) (n e k : Nat) (f : Option vfn) (log : List Event) : Run St := do
  let s ← vany json n k Info.Value f log
  if s.stop then pure s else contSep json n e s.i f s.log

/-- The code of `vobject` from the call of `vcolon` on -/
def contColon (json : List UInt8) (n j : Nat) (f : Option vfn) (log : List Event) : Run St := do
  let (j, ok, stop) ← vcolon json j
  if stop then pure ⟨j, ok, stop, log⟩
  else
    let (r, log) := fire f log ⟨j - 1, j, Info.Colon⟩
    if r = 0 then pure ⟨j, true, true, log⟩
    else contMember json n 125 j f log

/-- The string, number and literal branches of `vany` for the first byte `c` at
offset `i`: the scanner that is called, with the kind bit added to its info;
`none` when `c` starts no such value. -/
def scalar (json : List UInt8) (c i : Nat) : Option (Run (Nat × Nat × Bool × Bool)) :=
  if c = 34 then
    some (do let (j, info, ok, stop) ← vstring json (i + 1); pure (j, info ||| Info.String, ok, stop))
  else if c = 123 ∨ c = 91 then none
  else if c = 45 ∨ isnum c then
    some (do let (j, info, ok, stop) ← vnumber json (i + 1); pure (j, info ||| Info.Number, ok, stop))
  else if c = 116 then
    some (do let (j, ok, stop) ← vtrue json (i + 1); pure (j, Info.True, ok, stop))
  else if c = 110 then
    some (do let (j, ok, stop) ← vnull json (i + 1); pure (j, Info.Null, ok, stop))
  else if c = 102 then
    some (do let (j, ok, stop) ← vfalse json (i + 1); pure (j, Info.False, ok, stop))
  else none

/-- A program point of the value, object and array scanners, with its cursor -/
inductive Call where
  | any (i dinfo : Nat) : Call
  | object (i : Nat) : Call
  | key (i : Nat) : Call
  | colon (i : Nat) : Call
  | member (e i : Nat) : Call
  | sep (e i : Nat) : Call
  | next (i : Nat) : Call
  | array (i : Nat) : Call
  | elems (i : Nat) : Call
  deriving DecidableEq, Repr

/-- The cursor of a program point -/
def Call.pos : Call → Nat
  | .any i _ => i
  | .object i => i
  | .key i => i
  | .colon i => i
  | .member _ i => i
  | .sep _ i => i
  | .next i => i
  | .array i => i
  | .elems i => i

/-- The code that runs from a program point, on the budget `n` for the calls it makes -/
def run (json : List UInt8) (n : Nat) : Call → Option vfn → List Event → Run St
  | .any i d => vany json n i d
  | .object i => vobject json n i
  | .key i => vobjectKey json n i
  | .colon i => contColon json n i
  | .member e i => contMember json n e i
  | .sep e i => contSep json n e i
  | .next i => vobjectNext json n i
  | .array i => varray json n i
  | .elems i => varrayElems json n i

/-- The event of an opening bracket -/
def openEv (kind i dinfo : Nat) : Event := ⟨i, i + 1, kind ||| Info.Open ||| dinfo⟩

/-- The loop that follows a comma: the next key in an object, the next element in an array -/
def afterComma (e i : Nat) : Call := if e = 125 then .next i else .elems i

/-- Big-step relation of the scanners: `Exec json c f log s` says that the code at the
program point `c`, run with the visitor `f` after the events `log`, ends in `s`. -/
inductive Exec (json : List UInt8) : Call → Option vfn → List Event → St → Prop where
  | any_eob {i d f log} : ¬ i < json.length → Exec json (.any i d) f log ⟨i, false, true, log⟩
  | any_ws {i d f log c s} : rd json i = .ret c → isws c = true →
      Exec json (.any (i + 1) d) f log s → Exec json (.any i d) f log s
  | any_scalar {i d f log c j info ok stop} : rd json i = .ret c → isws c = false →
      scalar json c i = some (.ret (j, info, ok, stop)) →
      Exec json (.any i d) f log (vanyTail i j info d ok stop f log)
  | any_bad {i d f log c} : rd json i = .ret c → isws c = false → c ≠ 123 → c ≠ 91 →
      scalar json c i = none → Exec json (.any i d) f log ⟨i, false, true, log⟩
  | any_obj_stop {i d f log} : rd json i = .ret 123 →
      (fire f log (openEv Info.Object i d)).1 = 0 →
      Exec json (.any i d) f log ⟨i, true, true, (fire f log (openEv Info.Object i d)).2⟩
  | any_obj {i d f log s} : rd json i = .ret 123 →
      (fire f log (openEv Info.Object i d)).1 ≠ 0 →
      Exec json (.object (i + 1)) (inner f (fire f log (openEv Info.Object i d)).1)
        (fire f log (openEv Info.Object i d)).2 s →
      Exec json (.any i d) f log (vanyClose Info.Object d s f)
  | any_arr_stop {i d f log} : rd json i = .ret 91 →
      (fire f log (openEv Info.Array i d)).1 = 0 →
      Exec json (.any i d) f log ⟨i, true, true, (fire f log (openEv Info.Array i d)).2⟩
  | any_arr {i d f log s} : rd json i = .ret 91 →
      (fire f log (openEv Info.Array i d)).1 ≠ 0 →
      Exec json (.array (i + 1)) (inner f (fire f log (openEv Info.Array i d)).1)
        (fire f log (openEv Info.Array i d)).2 s →
      Exec json (.any i d) f log (vanyClose Info.Array d s f)
  | obj_eob {i f log} : ¬ i < json.length → Exec json (.object i) f log ⟨i, false, true, log⟩
  | obj_ws {i f log c s} : rd json i = .ret c → isws c = true →
      Exec json (.object (i + 1)) f log s → Exec json (.object i) f log s
  | obj_close {i f log} : rd json i = .ret 125 → Exec json (.object i) f log ⟨i + 1, true, false, log⟩
  | obj_key {i f log s} : rd json i = .ret 34 →
      Exec json (.key i) f log s → Exec json (.object i) f log s
  | obj_bad {i f log c} : rd json i = .ret c → isws c = false → c ≠ 125 → c ≠ 34 →
      Exec json (.object i) f log ⟨i, false, true, log⟩
  | key_fail {i f log j info ok} : vstring json (i + 1) = .ret (j, info, ok, true) →
      Exec json (.key i) f log ⟨j, ok, true, log⟩
  | key_stop {i f log j info ok} : vstring json (i + 1) = .ret (j, info, ok, false) →
      (fire f log ⟨i, j, info ||| Info.Key ||| Info.String⟩).1 = 0 →
      Exec json (.key i) f log ⟨j, true, true, (fire f log ⟨i, j, info ||| Info.Key ||| Info.String⟩).2⟩
  | key_go {i f log j info ok s} : vstring json (i + 1) = .ret (j, info, ok, false) →
      (fire f log ⟨i, j, info ||| Info.Key ||| Info.String⟩).1 ≠ 0 →
      Exec json (.colon j) f (fire f log ⟨i, j, info ||| Info.Key ||| Info.String⟩).2 s →
      Exec json (.key i) f log s
  | colon_fail {i f log j ok} : vcolon json i = .ret (j, ok, true) →
      Exec json (.colon i) f log ⟨j, ok, true, log⟩
  | colon_stop {i f log j ok} : vcolon json i = .ret (j, ok, false) →
      (fire f log ⟨j - 1, j, Info.Colon⟩).1 = 0 →
      Exec json (.colon i) f log ⟨j, true, true, (fire f log ⟨j - 1, j, Info.Colon⟩).2⟩
  | colon_go {i f log j ok s} : vcolon json i = .ret (j, ok, false) →
      (fire f log ⟨j - 1, j, Info.Colon⟩).1 ≠ 0 →
      Exec json (.member 125 j) f (fire f log ⟨j - 1, j, Info.Colon⟩).2 s →
      Exec json (.colon i) f log s
  | member_stop {e i f log s} : Exec json (.any i Info.Value) f log s → s.stop = true →
      Exec json (.member e i) f log s
  | member_go {e i f log s t} : Exec json (.any i Info.Value) f log s → s.stop = false →
      Exec json (.sep e s.i) f s.log t → Exec json (.member e i) f log t
  | sep_fail {e i f log j ok} : vcomma json i e = .ret (j, ok, true) →
      Exec json (.sep e i) f log ⟨j, ok, true, log⟩
  | sep_close {e i f log j ok} : vcomma json i e = .ret (j, ok, false) → rd json j = .ret e →
      Exec json (.sep e i) f log ⟨j + 1, true, false, log⟩
  | sep_stop {e i f log j ok c} : vcomma json i e = .ret (j, ok, false) → rd json j = .ret c →
      c ≠ e → (fire f log ⟨j, j + 1, Info.Comma⟩).1 = 0 →
      Exec json (.sep e i) f log ⟨j, true, true, (fire f log ⟨j, j + 1, Info.Comma⟩).2⟩
  | sep_go {e i f log j ok c s} : vcomma json i e = .ret (j, ok, false) → rd json j = .ret c →
      c ≠ e → (fire f log ⟨j, j + 1, Info.Comma⟩).1 ≠ 0 →
      Exec json (afterComma e (j + 1)) f (fire f log ⟨j, j + 1, Info.Comma⟩).2 s →
      Exec json (.sep e i) f log s
  | next_eob {i f log} : ¬ i < json.length → Exec json (.next i) f log ⟨i, false, true, log⟩
  | next_ws {i f log c s} : rd json i = .ret c → isws c = true →
      Exec json (.next (i + 1)) f log s → Exec json (.next i) f log s
  | next_key {i f log s} : rd json i = .ret 34 →
      Exec json (.key i) f log s → Exec json (.next i) f log s
  | next_bad {i f log c} : rd json i = .ret c → isws c = false → c ≠ 34 →
      Exec json (.next i) f log ⟨i, false, true, log⟩
  | arr_eob {i f log} : ¬ i < json.length → Exec json (.array i) f log ⟨i, false, true, log⟩
  | arr_ws {i f log c s} : rd json i = .ret c → isws c = true →
      Exec json (.array (i + 1)) f log s → Exec json (.array i) f log s
  | arr_close {i f log} : rd json i = .ret 93 → Exec json (.array i) f log ⟨i + 1, true, false, log⟩
  | arr_elems {i f log c s} : rd json i = .ret c → isws c = false → c ≠ 93 →
      Exec json (.elems i) f log s → Exec json (.array i) f log s
  | elems_eob {i f log} : ¬ i < json.length → Exec json (.elems i) f log ⟨i + 1, false, true, log⟩
  | elems_ws {i f log c s} : rd json i = .ret c → isws c = true →
      Exec json (.elems (i + 1)) f log s → Exec json (.elems i) f log s
  | elems_go {i f log c s} : rd json i = .ret c → isws c = false →
      Exec json (.member 93 i) f log s → Exec json (.elems i) f log s

end pjson
namespace pjson

/-! ## Definitions used in the statements and proofs -/

/-- The six functions at budget `n` are sound for the relation -/
def SoundAt (json : List UInt8) (n : Nat) : Prop :=
  (∀ i d f log s, vany json n i d f log = Run.ret s → Exec json (.any i d) f log s) ∧
  (∀ i f log s, vobject json n i f log = Run.ret s → Exec json (.object i) f log s) ∧
  (∀ i f log s, vobjectKey json n i f log = Run.ret s → Exec json (.key i) f log s) ∧
  (∀ i f log s, vobjectNext json n i f log = Run.ret s → Exec json (.next i) f log s) ∧
  (∀ i f log s, varray json n i f log = Run.ret s → Exec json (.array i) f log s) ∧
  (∀ i f log s, varrayElems json n i f log = Run.ret s → Exec json (.elems i) f log s)

/-- The numeric values of the bytes of a buffer -/
def vals (json : List UInt8) : List Nat := json.map UInt8.toNat

/-- The bytes `json[a:b]`, as numbers -/
def slice (json : List UInt8) (a b : Nat) : List Nat := ((vals json).drop a).take (b - a)

/-- The first offset from `i` on whose byte satisfies `p`, or the end of the buffer
(`i` itself when `i` is past the end) -/
def findFrom (p : Nat → Bool) (json : List UInt8) (i : Nat) : Nat :=
  i + (((vals json).drop i).takeWhile (fun c => !p c)).length

/-- The first offset from `i` on that holds no whitespace -/
def skipWs (json : List UInt8) (i : Nat) : Nat := findFrom (fun c => !isws c) json i

/-- What `vcolon` returns from the cursor `i` -/
def colonRes (json : List UInt8) (i : Nat) : Nat × Bool × Bool :=
  if rd json (skipWs json i) = Run.ret 58 then (skipWs json i + 1, true, false)
  else (skipWs json i, false, true)

/-- What `vcomma` returns from the cursor `i` for the closing byte `e` -/
def commaRes (json : List UInt8) (i e : Nat) : Nat × Bool × Bool :=
  if rd json (skipWs json i) = Run.ret 44 ∨ rd json (skipWs json i) = Run.ret e then
    (skipWs json i, true, false)
  else (skipWs json i, false, true)

/-- What the trailing loop of `vdoc` returns from the cursor `i` -/
def docRes (json : List UInt8) (i : Nat) : Nat × Bool × Bool :=
  if skipWs json i < json.length then (skipWs json i, false, true)
  else (skipWs json i, true, false)

/-- The end of the run of decimal digits that starts at `i` -/
def digitsEnd (json : List UInt8) (i : Nat) : Nat := findFrom (fun c => !isnum c) json i

/-- The first string token (control byte, quote or backslash) from `i` on -/
def tokAt (json : List UInt8) (i : Nat) : Nat := findFrom isstrtok json i

/-- How the scanning loops of `vstring` end from the cursor `i` -/
def scanRes (json : List UInt8) (i : Nat) : Scan :=
  if rd json (tokAt json i) = Run.ret 34 then .ret (tokAt json i + 1)
  else if tokAt json i < json.length then .tok (tokAt json i)
  else .fall (tokAt json i)

/-- The infos that `vany` computes for a string, number or literal before the role
bits are added -/
def ScalarInfo (info : Nat) : Prop :=
  info = Info.String ∨ info = Info.Escaped ||| Info.String ∨ info = Info.True ∨
  info = Info.False ∨ info = Info.Null ∨
  ∃ s f e, (s = 0 ∨ s = Info.Sign) ∧ (f = 0 ∨ f = Info.Dot) ∧ (e = 0 ∨ e = Info.E) ∧
    info = s ||| f ||| e ||| Info.Number

/-- The budget that the code at a program point needs beyond three units per
byte that is left -/
def Call.need : Call → Nat
  | .any _ _ => 1
  | .object _ => 2
  | .key _ => 1
  | .colon _ => 1
  | .member _ _ => 1
  | .sep _ _ => 1
  | .next _ => 2
  | .array _ => 3
  | .elems _ => 2

/-- The budget `n` is enough for the code at the program point `c` -/
def fits (json : List UInt8) (n : Nat) (c : Call) : Prop :=
  3 * json.length + c.need ≤ n + 3 * c.pos

/-- The cursor of a program point is inside the buffer (at a key: on a byte of it) -/
def Call.inb (json : List UInt8) : Call → Prop
  | .key i => i < json.length
  | c => c.pos ≤ json.length

/-- The order in which the program points at one cursor follow each other -/
def Call.rank : Call → Nat
  | .any _ _ => 1
  | .object _ => 2
  | .key _ => 1
  | .colon _ => 1
  | .member _ _ => 2
  | .sep _ _ => 1
  | .next _ => 2
  | .array _ => 4
  | .elems _ => 3

/-- The size of what is left to do at a program point: four units per byte that is
left, and the rank of the point -/
def Call.size (json : List UInt8) (c : Call) : Nat := 4 * (json.length - c.pos) + c.rank

/-- What `vdoc` makes of the state that `vany` returns: the state itself after a
stop, else the outcome of the trailing loop -/
def finish (json : List UInt8) (s : St) : St :=
  if s.stop then s
  else ⟨(docRes json s.i).1, (docRes json s.i).2.1, (docRes json s.i).2.2, s.log⟩

/-- The visitor, if there is one, never answers 0 -/
def NonZero (f : Option vfn) : Prop := ∀ g, f = some g → ∀ l e, g l e ≠ 0

/-- The visitor of a scan in which `g` was handed to `Parse`: `g` itself, or none
inside a container that `g` chose to skip -/
def Vis (g : vfn) (f : Option vfn) : Prop := f = none ∨ f = some g

/-- Every event of the log was answered with a value other than 0 -/
def Answered (g : vfn) (log : List Event) : Prop := ∀ l e r, log = l ++ e :: r → g l e ≠ 0

/-- An event of the log that was answered with 0 is the last one -/
def EndsAtZero (g : vfn) (log : List Event) : Prop := ∀ l e r, log = l ++ e :: r → g l e = 0 → r = []

/-- The bit `b` is set in `info`: `info&b == b` -/
def hasBit (info b : Nat) : Bool := info &&& b == b

/-- The bits that say what an event is -/
def kinds : List Nat :=
  [Info.String, Info.Number, Info.True, Info.False, Info.Null, Info.Object, Info.Array,
    Info.Comma, Info.Colon]

/-- The number of kind bits that are set in `info` -/
def kindCount (info : Nat) : Nat := (kinds.filter (hasBit info)).length

/-- Exactly one kind bit is set; Open and Close are not both set; one of them is set
exactly when the kind is Object or Array -/
def KindOK (info : Nat) : Bool :=
  kindCount info == 1 && !(hasBit info Info.Open && hasBit info Info.Close) &&
    ((hasBit info Info.Open || hasBit info Info.Close) ==
      (hasBit info Info.Object || hasBit info Info.Array))

/-- The infos that `vany` computes for a string, number or literal before the role
bits are added, as a list -/
def scalarInfos : List Nat :=
  [Info.String, Info.Escaped ||| Info.String, Info.True, Info.False, Info.Null] ++
    [0, Info.Sign].flatMap (fun s => [0, Info.Dot].flatMap (fun f => [0, Info.E].map (fun e =>
      s ||| f ||| e ||| Info.Number)))

/-- The infos of the events below the root of the document -/
def innerInfos : List Nat :=
  [Info.Object ||| Info.Open ||| Info.Value, Info.Array ||| Info.Open ||| Info.Value,
    Info.Object ||| Info.Close ||| Info.Value, Info.Array ||| Info.Close ||| Info.Value,
    0 ||| Info.Key ||| Info.String, Info.Escaped ||| Info.Key ||| Info.String,
    Info.Colon, Info.Comma] ++ scalarInfos.map (fun x => x ||| Info.Value)

/-- The infos of the events of the root of the document -/
def rootInfos : List Nat :=
  [Info.Object ||| Info.Open ||| Info.Start, Info.Array ||| Info.Open ||| Info.Start,
    Info.Object ||| Info.Close ||| (Info.Start &&& bnot Info.Start ||| Info.End),
    Info.Array ||| Info.Close ||| (Info.Start &&& bnot Info.Start ||| Info.End)] ++
    scalarInfos.map (fun x => x ||| (Info.Start ||| Info.End))

/-- The log `log'` is the log `log` followed by events that satisfy `P` -/
def Ext (P : Event → Prop) (log log' : List Event) : Prop :=
  ∃ new, log' = log ++ new ∧ ∀ e ∈ new, P e

/-- The value scanner at the first byte `p` that is no whitespace: the cases of
`vany` without the loop over whitespace -/
inductive AnyAt (json : List UInt8) : Nat → Nat → Option vfn → List Event → St → Prop where
  | eob {p d f log} : ¬ p < json.length → AnyAt json p d f log ⟨p, false, true, log⟩
  | scalar {p d f log c j info ok stop} : rd json p = .ret c → isws c = false →
      scalar json c p = some (.ret (j, info, ok, stop)) →
      AnyAt json p d f log (vanyTail p j info d ok stop f log)
  | bad {p d f log c} : rd json p = .ret c → isws c = false → c ≠ 123 → c ≠ 91 →
      scalar json c p = none → AnyAt json p d f log ⟨p, false, true, log⟩
  | obj_stop {p d f log} : rd json p = .ret 123 →
      (fire f log (openEv Info.Object p d)).1 = 0 →
      AnyAt json p d f log ⟨p, true, true, (fire f log (openEv Info.Object p d)).2⟩
  | obj {p d f log s} : rd json p = .ret 123 →
      (fire f log (openEv Info.Object p d)).1 ≠ 0 →
      Exec json (.object (p + 1)) (inner f (fire f log (openEv Info.Object p d)).1)
        (fire f log (openEv Info.Object p d)).2 s →
      AnyAt json p d f log (vanyClose Info.Object d s f)
  | arr_stop {p d f log} : rd json p = .ret 91 →
      (fire f log (openEv Info.Array p d)).1 = 0 →
      AnyAt json p d f log ⟨p, true, true, (fire f log (openEv Info.Array p d)).2⟩
  | arr {p d f log s} : rd json p = .ret 91 →
      (fire f log (openEv Info.Array p d)).1 ≠ 0 →
      Exec json (.array (p + 1)) (inner f (fire f log (openEv Info.Array p d)).1)
        (fire f log (openEv Info.Array p d)).2 s →
      AnyAt json p d f log (vanyClose Info.Array d s f)

/-- The role bits of an Open event: at the root of the document, below it -/
def openRole (root : Bool) : Nat := if root then Info.Start else Info.Value

/-- The role bits of the event of a string, number or literal -/
def tailRole (root : Bool) : Nat := if root then Info.Start ||| Info.End else Info.Value

/-- The role bits of a Close event -/
def closeRole (root : Bool) : Nat :=
  if root then Info.Start &&& bnot Info.Start ||| Info.End else Info.Value

/-- The events that the scanners deliver, with what the code has seen of the buffer when
it delivers them; `root` says whether the value scanner was called for the document -/
inductive Ev (json : List UInt8) (root : Bool) : Event → Prop where
  | opnObj {p} : rd json p = .ret 123 →
      Ev json root ⟨p, p + 1, Info.Object ||| Info.Open ||| openRole root⟩
  | opnArr {p} : rd json p = .ret 91 →
      Ev json root ⟨p, p + 1, Info.Array ||| Info.Open ||| openRole root⟩
  | clsObj {q} : 0 < q → rd json (q - 1) = .ret 125 →
      Ev json root ⟨q - 1, q, Info.Object ||| Info.Close ||| closeRole root⟩
  | clsArr {q} : 0 < q → rd json (q - 1) = .ret 93 →
      Ev json root ⟨q - 1, q, Info.Array ||| Info.Close ||| closeRole root⟩
  | scalar {p c j info ok} : rd json p = .ret c → isws c = false →
      scalar json c p = some (.ret (j, info, ok, false)) →
      Ev json root ⟨p, j, info ||| tailRole root⟩
  | key {p j info ok} : root = false → rd json p = .ret 34 →
      vstring json (p + 1) = .ret (j, info, ok, false) →
      Ev json root ⟨p, j, info ||| Info.Key ||| Info.String⟩
  | colon {j} : root = false → 0 < j → rd json (j - 1) = .ret 58 →
      Ev json root ⟨j - 1, j, Info.Colon⟩
  | comma {j} : root = false → rd json j = .ret 44 → Ev json root ⟨j, j + 1, Info.Comma⟩

/-- What the callers of a program point have established: the byte at a key is a
quote, and the closing byte of a member list is `}` or `]` -/
def Call.good (json : List UInt8) : Call → Prop
  | .key i => rd json i = .ret 34
  | .member e _ => e = 125 ∨ e = 93
  | .sep e _ => e = 125 ∨ e = 93
  | _ => True

/-- The closing byte that ends the code of a program point when it goes through -/
def Call.closer : Call → Option Nat
  | .any _ _ => none
  | .array _ => some 93
  | .elems _ => some 93
  | .member e _ => some e
  | .sep e _ => some e
  | _ => some 125

/-- One step of the scan: the code at a program point, with its visitor and the log so
far, enters the code at another program point -/
inductive Child (json : List UInt8) :
    Call → Option vfn → List Event → Call → Option vfn → List Event → Prop where
  | any_ws {i d f log c} : rd json i = .ret c → isws c = true →
      Child json (.any i d) f log (.any (i + 1) d) f log
  | any_obj {i d f log} : rd json i = .ret 123 →
      (fire f log (openEv Info.Object i d)).1 ≠ 0 →
      Child json (.any i d) f log (.object (i + 1))
        (inner f (fire f log (openEv Info.Object i d)).1) (fire f log (openEv Info.Object i d)).2
  | any_arr {i d f log} : rd json i = .ret 91 →
      (fire f log (openEv Info.Array i d)).1 ≠ 0 →
      Child json (.any i d) f log (.array (i + 1))
        (inner f (fire f log (openEv Info.Array i d)).1) (fire f log (openEv Info.Array i d)).2
  | obj_ws {i f log c} : rd json i = .ret c → isws c = true →
      Child json (.object i) f log (.object (i + 1)) f log
  | obj_key {i f log} : rd json i = .ret 34 → Child json (.object i) f log (.key i) f log
  | key_go {i f log j info ok} : vstring json (i + 1) = .ret (j, info, ok, false) →
      (fire f log ⟨i, j, info ||| Info.Key ||| Info.String⟩).1 ≠ 0 →
      Child json (.key i) f log (.colon j) f (fire f log ⟨i, j, info ||| Info.Key ||| Info.String⟩).2
  | colon_go {i f log j ok} : vcolon json i = .ret (j, ok, false) →
      (fire f log ⟨j - 1, j, Info.Colon⟩).1 ≠ 0 →
      Child json (.colon i) f log (.member 125 j) f (fire f log ⟨j - 1, j, Info.Colon⟩).2
  | member_any {e i f log} : Child json (.member e i) f log (.any i Info.Value) f log
  | member_sep {e i f log s} : Exec json (.any i Info.Value) f log s → s.stop = false →
      Child json (.member e i) f log (.sep e s.i) f s.log
  | sep_go {e i f log j ok c} : vcomma json i e = .ret (j, ok, false) → rd json j = .ret c →
      c ≠ e → (fire f log ⟨j, j + 1, Info.Comma⟩).1 ≠ 0 →
      Child json (.sep e i) f log (afterComma e (j + 1)) f (fire f log ⟨j, j + 1, Info.Comma⟩).2
  | next_ws {i f log c} : rd json i = .ret c → isws c = true →
      Child json (.next i) f log (.next (i + 1)) f log
  | next_key {i f log} : rd json i = .ret 34 → Child json (.next i) f log (.key i) f log
  | arr_ws {i f log c} : rd json i = .ret c → isws c = true →
      Child json (.array i) f log (.array (i + 1)) f log
  | arr_elems {i f log c} : rd json i = .ret c → isws c = false → c ≠ 93 →
      Child json (.array i) f log (.elems i) f log
  | elems_ws {i f log c} : rd json i = .ret c → isws c = true →
      Child json (.elems i) f log (.elems (i + 1)) f log
  | elems_go {i f log c} : rd json i = .ret c → isws c = false →
      Child json (.elems i) f log (.member 93 i) f log

/-- The program points that `Parse` with the visitor `f0` passes through, each with
the visitor in force there and the events delivered before -/
inductive Reach (json : List UInt8) (f0 : Option vfn) : Call → Option vfn → List Event → Prop where
  | root : Reach json f0 (.any 0 Info.Start) f0 []
  | step {c f log c' f' log'} : Reach json f0 c f log → Child json c f log c' f' log' →
      Reach json f0 c' f' log'

/-- In the log every Key event that has a successor is followed by a Colon event on the
one byte of a colon -/
def KeyColon (json : List UInt8) (log : List Event) : Prop :=
  ∀ l e e' r, log = l ++ e :: e' :: r → hasBit e.info Info.Key = true →
    e'.info = Info.Colon ∧ e'.fin = e'.start + 1 ∧ rd json e'.start = .ret 58

/-- The last event of the log is no Key event -/
def LastNotKey (log : List Event) : Prop := ∀ l e, log = l ++ [e] → hasBit e.info Info.Key = false

/-- The value scanner is called with Start (for the document) or Value -/
def Call.rooted : Call → Prop
  | .any _ d => d = Info.Value ∨ d = Info.Start
  | _ => True

/-- The visitor that answers 1 where `v` answers -1 on an event without the Open bit,
and answers as `v` elsewhere -/
def relax (v : vfn) : vfn :=
  fun l e => if v l e = -1 ∧ hasBit e.info Info.Open = false then 1 else v l e

/-- The bytes of the ranges of the events of a log, one range after the other -/
def cat (json : List UInt8) (log : List Event) : List Nat :=
  log.flatMap (fun e => slice json e.start e.fin)

/-- The bytes of a text without the whitespace (space, tab, LF, CR) outside string
literals.  `inStr` says that the text starts inside a string literal, `esc` that its
first byte follows a backslash of the literal. -/
def strip : Bool → Bool → List Nat → List Nat
  | _, _, [] => []
  | false, _, c :: s =>
    if c = 0x20 ∨ c = 0x09 ∨ c = 0x0A ∨ c = 0x0D then strip false false s
    else if c = 0x22 then c :: strip true false s
    else c :: strip false false s
  | true, true, c :: s => c :: strip true false s
  | true, false, c :: s =>
    if c = 0x5C then c :: strip true true s
    else if c = 0x22 then c :: strip false false s
    else c :: strip true false s

/-- The minified form of a text -/
def minify (s : List Nat) : List Nat := strip false false s

/-- The text `x` is a sequence of whole tokens and whitespace that minifies to `out`,
whatever follows it -/
def Outs (x out : List Nat) : Prop := ∀ y, minify (x ++ y) = out ++ minify y

/-- A program point below the root of the document: the value scanner is called for
a member or an element -/
def Call.below : Call → Prop
  | .any _ d => d = Info.Value
  | _ => True

/-- The bit `x` when the list `s` is not empty, else no bit -/
def flag (s : List Nat) (x : Nat) : Nat := if s = [] then 0 else x

/-- The byte that follows a value in a JSON text, if any: whitespace, a comma or
a closing bracket -/
def Delim (rest : List Nat) : Prop := ∀ c ∈ rest.head?, isws c = true ∨ c = 44 ∨ c = 93 ∨ c = 125

/-! ## The JSON grammar of RFC 8259 over byte values

Whitespace is space, tab, LF and CR; a text is one value between optional
whitespace; a string body holds any byte from 0x20 on other than the quote and
the backslash, and the escapes listed; a number is an optional minus, an
integer part without a leading zero, an optional fraction and an optional
exponent. -/

def IsWs (c : Nat) : Prop := c = 0x20 ∨ c = 0x09 ∨ c = 0x0A ∨ c = 0x0D

def IsDigit (c : Nat) : Prop := 0x30 ≤ c ∧ c ≤ 0x39

def IsHex (c : Nat) : Prop := IsDigit c ∨ (0x41 ≤ c ∧ c ≤ 0x46) ∨ (0x61 ≤ c ∧ c ≤ 0x66)

/-- The byte after the backslash of a two-byte escape: one of `" \ / b f n r t` -/
def IsEscape (c : Nat) : Prop :=
  c = 0x22 ∨ c = 0x5C ∨ c = 0x2F ∨ c = 0x62 ∨ c = 0x66 ∨ c = 0x6E ∨ c = 0x72 ∨ c = 0x74

def AllWs (w : List Nat) : Prop := ∀ c ∈ w, IsWs c

def AllDigits (w : List Nat) : Prop := ∀ c ∈ w, IsDigit c

/-- The body of a string: `*char` -/
inductive JChars : List Nat → Prop where
  | nil : JChars []
  | plain {c : Nat} {s : List Nat} : 0x20 ≤ c → c ≠ 0x22 → c ≠ 0x5C → JChars s → JChars (c :: s)
  | esc {c : Nat} {s : List Nat} : IsEscape c → JChars s → JChars (0x5C :: c :: s)
  | uni {a b c d : Nat} {s : List Nat} : IsHex a → IsHex b → IsHex c → IsHex d → JChars s →
      JChars (0x5C :: 0x75 :: a :: b :: c :: d :: s)

/-- The rule `string = quotation-mark *char quotation-mark` -/
def JString (s : List Nat) : Prop := ∃ body, JChars body ∧ s = 0x22 :: body ++ [0x22]

/-- The rule `int = zero / ( digit1-9 *DIGIT )` -/
def JInt (s : List Nat) : Prop :=
  s = [0x30] ∨ ∃ d ds, 0x31 ≤ d ∧ d ≤ 0x39 ∧ AllDigits ds ∧ s = d :: ds

/-- The rule `[ frac ]` with `frac = decimal-point 1*DIGIT` -/
def JFrac (s : List Nat) : Prop := s = [] ∨ ∃ ds, ds ≠ [] ∧ AllDigits ds ∧ s = 0x2E :: ds

/-- The rule `[ exp ]` with `exp = e [ minus / plus ] 1*DIGIT` -/
def JExp (s : List Nat) : Prop :=
  s = [] ∨ ∃ e sg ds, (e = 0x65 ∨ e = 0x45) ∧ (sg = [] ∨ sg = [0x2B] ∨ sg = [0x2D]) ∧
    ds ≠ [] ∧ AllDigits ds ∧ s = e :: sg ++ ds

/-- The rule `number = [ minus ] int [ frac ] [ exp ]` -/
def JNumber (s : List Nat) : Prop :=
  ∃ sign int frac exp, (sign = [] ∨ sign = [0x2D]) ∧ JInt int ∧ JFrac frac ∧ JExp exp ∧
    s = sign ++ int ++ frac ++ exp

instance (c : Nat) : Decidable (IsWs c) := by unfold IsWs; exact inferInstance

instance (c : Nat) : Decidable (IsDigit c) := by unfold IsDigit; exact inferInstance

instance (c : Nat) : Decidable (IsHex c) := by unfold IsHex; exact inferInstance

instance (c : Nat) : Decidable (IsEscape c) := by unfold IsEscape; exact inferInstance

/-- Where the `k` hexadecimal digits of a `\u` escape fail in the bytes `t` that follow
the `u`: the number of hexadecimal digits before the first byte that is none, or before
the end of the text; `none` when `k` hexadecimal digits are there -/
def hexFail : Nat → List Nat → Option Nat
  | 0, _ => none
  | _ + 1, [] => some 0
  | k + 1, c :: t => if IsHex c then (hexFail k t).map (fun n => n + 1) else some 0

/-- Where an escape fails in the bytes `rest` that follow its backslash, as the distance
from the backslash to the offending byte (or to the end of the text when the escape is cut
short); `none` for the escapes of the grammar -/
def escapeFail : List Nat → Option Nat
  | [] => some 1
  | c :: t =>
    if IsEscape c then none
    else if c = 0x75 then (hexFail 4 t).map (fun n => n + 2)
    else some 1

/-- The nonterminals of the grammar of values -/
inductive Sym where
  | value : Sym
  | elements : Sym
  | members : Sym
  deriving DecidableEq, Repr

/-- The rules `value`, `array` and `object`; `elements` and `members` are the
non-empty comma-separated lists between the brackets, whitespace included -/
inductive Derives : Sym → List Nat → Prop where
  | str {s : List Nat} : JString s → Derives .value s
  | num {s : List Nat} : JNumber s → Derives .value s
  | litTrue : Derives .value [0x74, 0x72, 0x75, 0x65]
  | litFalse : Derives .value [0x66, 0x61, 0x6C, 0x73, 0x65]
  | litNull : Derives .value [0x6E, 0x75, 0x6C, 0x6C]
  | emptyObject {w : List Nat} : AllWs w → Derives .value (0x7B :: w ++ [0x7D])
  | object {m : List Nat} : Derives .members m → Derives .value (0x7B :: m ++ [0x7D])
  | emptyArray {w : List Nat} : AllWs w → Derives .value (0x5B :: w ++ [0x5D])
  | array {e : List Nat} : Derives .elements e → Derives .value (0x5B :: e ++ [0x5D])
  | element {w1 v w2 : List Nat} : AllWs w1 → Derives .value v → AllWs w2 →
      Derives .elements (w1 ++ v ++ w2)
  | elements {w1 v w2 es : List Nat} : AllWs w1 → Derives .value v → AllWs w2 →
      Derives .elements es → Derives .elements (w1 ++ v ++ w2 ++ 0x2C :: es)
  | member {w1 k w2 w3 v w4 : List Nat} : AllWs w1 → JString k → AllWs w2 → AllWs w3 →
      Derives .value v → AllWs w4 → Derives .members (w1 ++ k ++ w2 ++ 0x3A :: (w3 ++ v ++ w4))
  | members {w1 k w2 w3 v w4 ms : List Nat} : AllWs w1 → JString k → AllWs w2 → AllWs w3 →
      Derives .value v → AllWs w4 → Derives .members ms →
      Derives .members (w1 ++ k ++ w2 ++ 0x3A :: (w3 ++ v ++ w4) ++ 0x2C :: ms)

/-- The rule `JSON-text = ws value ws` -/
def JsonText (s : List Nat) : Prop :=
  ∃ w1 v w2, AllWs w1 ∧ Derives .value v ∧ AllWs w2 ∧ s = w1 ++ v ++ w2

/-! ## The grammar and the program points -/

/-- The list between the brackets after a comma: members before `}`, elements else -/
def Items (e : Nat) (t : List Nat) : Prop :=
  if e = 125 then Derives .members t else Derives .elements t

/-- What follows a member value or an element up to the closing byte `e`: whitespace and
the closing byte, or whitespace, a comma, more items and the closing byte -/
def Tail (e : Nat) (x : List Nat) : Prop :=
  ∃ w, AllWs w ∧ (x = w ++ [e] ∨ ∃ t, Items e t ∧ x = w ++ 44 :: t ++ [e])

/-- The bytes that the code at a program point goes over when it goes through -/
def Shape : Call → List Nat → Prop
  | .any _ _, x => ∃ w v, AllWs w ∧ Derives .value v ∧ x = w ++ v
  | .object _, x => (∃ w, AllWs w ∧ x = w ++ [125]) ∨ ∃ m, Derives .members m ∧ x = m ++ [125]
  | .key _, x => ∃ m, Derives .members m ∧ x = m ++ [125]
  | .colon _, x => ∃ w2 w3 v tl, AllWs w2 ∧ AllWs w3 ∧ Derives .value v ∧ Tail 125 tl ∧
      x = w2 ++ 58 :: (w3 ++ v ++ tl)
  | .member e _, x => ∃ w3 v tl, AllWs w3 ∧ Derives .value v ∧ Tail e tl ∧ x = w3 ++ v ++ tl
  | .sep e _, x => Tail e x
  | .next _, x => ∃ m, Derives .members m ∧ x = m ++ [125]
  | .array _, x => (∃ w, AllWs w ∧ x = w ++ [93]) ∨ ∃ es, Derives .elements es ∧ x = es ++ [93]
  | .elems _, x => ∃ es, Derives .elements es ∧ x = es ++ [93]

/-- The scan without a visitor goes over a text of the grammar: a value that is followed
by `rest` (after a number: by a delimiter), elements that are followed by `]`, members
that are followed by `}` -/
def Complete : Sym → List Nat → Prop
  | .value, x => ∀ (json : List UInt8) (i d : Nat) (rest : List Nat) (log : List Event),
      (vals json).drop i = x ++ rest →
      (∀ c ∈ x.head?, (c = 45 ∨ isnum c = true) → Delim rest) →
      Exec json (.any i d) none log ⟨i + x.length, true, false, log⟩
  | .elements, x => ∀ (json : List UInt8) (i : Nat) (rest : List Nat) (log : List Event),
      (vals json).drop i = x ++ 93 :: rest →
      ∃ c, rd json (skipWs json i) = .ret c ∧ c ≠ 93 ∧
        Exec json (.member 93 (skipWs json i)) none log ⟨i + x.length + 1, true, false, log⟩
  | .members, x => ∀ (json : List UInt8) (i : Nat) (rest : List Nat) (log : List Event),
      (vals json).drop i = x ++ 125 :: rest →
      rd json (skipWs json i) = .ret 34 ∧
        Exec json (.key (skipWs json i)) none log ⟨i + x.length + 1, true, false, log⟩

/-! ## Skipped containers -/

/-- The event `cl` is the Close event of the container that the Open event `e` opens:
it has the Close bit and the Object and Array bits of `e`, its range is the one byte of
the closing bracket of the kind of the opening bracket, and the bytes from the opening
bracket to the closing bracket are a value of the grammar -/
def Closes (json : List UInt8) (e cl : Event) : Prop :=
  hasBit cl.info Info.Close = true ∧ cl.fin = cl.start + 1 ∧
  hasBit cl.info Info.Object = hasBit e.info Info.Object ∧
  hasBit cl.info Info.Array = hasBit e.info Info.Array ∧
  ((rd json e.start = .ret 123 ∧ rd json cl.start = .ret 125) ∨
    (rd json e.start = .ret 91 ∧ rd json cl.start = .ret 93)) ∧
  Derives .value (slice json e.start cl.fin)

/-- The bytes from the offset `p` on start with a value of the grammar -/
def ValueAt (json : List UInt8) (p : Nat) : Prop :=
  ∃ x rest, (vals json).drop p = x ++ rest ∧ Derives .value x

/-- Every Open event of the log that the visitor answered with -1 is followed by the
Close event of its container, or it is the last event and no value starts at its bracket -/
def Skips (json : List UInt8) (g : vfn) (log : List Event) : Prop :=
  ∀ l e r, log = l ++ e :: r → hasBit e.info Info.Open = true → g l e = -1 →
    (r = [] ∧ ¬ ValueAt json e.start) ∨ ∃ cl r', r = cl :: r' ∧ Closes json e cl

/-- The last event of the log is no Open event that the visitor answered with -1 -/
def LastNotSkip (g : vfn) (log : List Event) : Prop :=
  ∀ l e, log = l ++ [e] → ¬ (hasBit e.info Info.Open = true ∧ g l e = -1)

/-- The ranges of the events of the log lie one after the other between the offsets `p`
and `q`, none is empty, and the bytes from `p` to `q` that lie in none of them are
whitespace -/
def Tiles (json : List UInt8) : Nat → List Event → Nat → Prop
  | p, [], q => p ≤ q ∧ AllWs (slice json p q)
  | p, e :: r, q =>
    p ≤ e.start ∧ AllWs (slice json p e.start) ∧ e.start < e.fin ∧ Tiles json e.fin r q

/-- What a visitor `v` is shown of the events `full` that a visitor that answers 1 on
every event is shown, when skipping works as documented: after the events `hist`, outside
a skipped container (`depth` 0) every event is delivered, and an Open event that `v`
answers with -1 starts a skipped container; inside one (`depth` counts the containers
that are open since the skipped bracket) no event is delivered until the Close event that
brings the depth back to 0, which is delivered. -/
def prune (v : vfn) : List Event → Nat → List Event → List Event
  | _, _, [] => []
  | hist, 0, e :: r =>
    e :: (if hasBit e.info Info.Open = true ∧ v hist e = -1 then prune v (hist ++ [e]) 1 r
      else prune v (hist ++ [e]) 0 r)
  | hist, d + 1, e :: r =>
    if hasBit e.info Info.Open = true then prune v hist (d + 2) r
    else if hasBit e.info Info.Close = true then
      (if d = 0 then e :: prune v (hist ++ [e]) 0 r else prune v hist d r)
    else prune v hist (d + 1) r

/-- The events that a scan with the visitor `v` has added to the log `log` (it ended with
the log `slog`) are what `prune` leaves of the events that the same scan with a visitor
that answers 1 on every event has added to the log `logF` (it ended with `sFlog`); when
the scan goes on (`stop` is false) this holds with every continuation `rest` -/
def Sim (v : vfn) (log logF slog sFlog : List Event) (stop : Bool) : Prop :=
  ∃ new newF, slog = log ++ new ∧ sFlog = logF ++ newF ∧ prune v log 0 newF = new ∧
    (stop = false → ∀ rest, prune v log 0 (newF ++ rest) = new ++ prune v (log ++ new) 0 rest)

end pjson
namespace pjson

@[simp] theorem Run.pure_eq {α : Type} (a : α) : (pure a : Run α) = Run.ret a := rfl
@[simp] theorem Run.ret_bind {α β : Type} (a : α) (k : α → Run β) : (Run.ret a >>= k) = k a := rfl
@[simp] theorem Run.panic_bind {α β : Type} (k : α → Run β) : (Run.panic >>= k) = Run.panic := rfl
@[simp] theorem Run.starved_bind {α β : Type} (k : α → Run β) : (Run.starved >>= k) = Run.starved := rfl

theorem Run.bind_eq_ret {α β : Type} {x : Run α} {k : α → Run β} {b : β} :
    (x >>= k) = Run.ret b ↔ ∃ a, x = Run.ret a ∧ k a = Run.ret b := by
  cases x <;> simp

theorem rd_lt {json : List UInt8} {i c : Nat} (h : rd json i = Run.ret c) : i < json.length := by
  unfold rd at h
  split at h
  · rename_i b hb
    exact (List.getElem?_eq_some_iff.mp hb).1
  · cases h

theorem rd_total {json : List UInt8} {i : Nat} (h : i < json.length) : ∃ c, rd json i = Run.ret c := by
  unfold rd
  rw [List.getElem?_eq_getElem h]
  exact ⟨_, rfl⟩


/-- Soundness of the relation for the code after `vcomma` -/
theorem exec_sep {json : List UInt8} {n : Nat}
    (hnext : ∀ i f log s, vobjectNext json n i f log = Run.ret s → Exec json (.next i) f log s)
    (helems : ∀ i f log s, varrayElems json n i f log = Run.ret s → Exec json (.elems i) f log s)
    {e i : Nat} {f : Option vfn} {log : List Event} {s : St}
    (h : contSep json n e i f log = Run.ret s) : Exec json (.sep e i) f log s := by
  simp only [contSep] at h
  obtain ⟨⟨j, ok, stop⟩, hv, h1⟩ := Run.bind_eq_ret.mp h
  clear h
  simp only at h1
  split at h1
  · rename_i hs
    subst hs
    simp at h1; subst h1
    exact Exec.sep_fail hv
  · rename_i hs
    simp at hs; subst hs
    obtain ⟨c, hc, h2⟩ := Run.bind_eq_ret.mp h1
    clear h1
    split at h2
    · rename_i hce
      subst hce
      simp at h2; subst h2
      exact Exec.sep_close hv hc
    · rename_i hce
      split at h2
      · rename_i hr
        simp at h2; subst h2
        exact Exec.sep_stop hv hc hce hr
      · rename_i hr
        refine Exec.sep_go hv hc hce hr ?_
        unfold afterComma
        split at h2
        · rename_i he; simp only [he, if_true]; exact hnext _ _ _ _ h2
        · rename_i he; simp only [he, if_false]; exact helems _ _ _ _ h2

theorem exec_member {json : List UInt8} {n : Nat}
    (hany : ∀ i d f log s, vany json n i d f log = Run.ret s → Exec json (.any i d) f log s)
    (hnext : ∀ i f log s, vobjectNext json n i f log = Run.ret s → Exec json (.next i) f log s)
    (helems : ∀ i f log s, varrayElems json n i f log = Run.ret s → Exec json (.elems i) f log s)
    {e i : Nat} {f : Option vfn} {log : List Event} {s : St}
    (h : contMember json n e i f log = Run.ret s) : Exec json (.member e i) f log s := by
  simp only [contMember] at h
  obtain ⟨t, ht, h1⟩ := Run.bind_eq_ret.mp h
  clear h
  split at h1
  · rename_i hs
    simp at h1; subst h1
    exact Exec.member_stop (hany _ _ _ _ _ ht) hs
  · rename_i hs
    simp at hs
    exact Exec.member_go (hany _ _ _ _ _ ht) hs (exec_sep hnext helems h1)

theorem exec_colon {json : List UInt8} {n : Nat}
    (hany : ∀ i d f log s, vany json n i d f log = Run.ret s → Exec json (.any i d) f log s)
    (hnext : ∀ i f log s, vobjectNext json n i f log = Run.ret s → Exec json (.next i) f log s)
    (helems : ∀ i f log s, varrayElems json n i f log = Run.ret s → Exec json (.elems i) f log s)
    {i : Nat} {f : Option vfn} {log : List Event} {s : St}
    (h : contColon json n i f log = Run.ret s) : Exec json (.colon i) f log s := by
  simp only [contColon] at h
  obtain ⟨⟨j, ok, stop⟩, hv, h1⟩ := Run.bind_eq_ret.mp h
  clear h
  simp only at h1
  split at h1
  · rename_i hs
    subst hs
    simp at h1; subst h1
    exact Exec.colon_fail hv
  · rename_i hs
    simp at hs; subst hs
    split at h1
    · rename_i hr
      simp at h1; subst h1
      exact Exec.colon_stop hv hr
    · rename_i hr
      exact Exec.colon_go hv hr (exec_member hany hnext helems h1)

theorem vobjectKey_succ (json : List UInt8) (n i : Nat) (f : Option vfn) (log : List Event) :
    vobjectKey json (n + 1) i f log = (do
      let (j, info, ok, stop) ← vstring json (i + 1)
      if stop then pure ⟨j, ok, stop, log⟩
      else
        let (r, log) := fire f log ⟨i, j, info ||| Info.Key ||| Info.String⟩
        if r = 0 then pure ⟨j, true, true, log⟩
        else contColon json n j f log) := by
  simp only [vobjectKey, contColon, contMember, contSep]
  rfl

theorem varrayElems_succ (json : List UInt8) (n i : Nat) (f : Option vfn) (log : List Event) :
    varrayElems json (n + 1) i f log =
      if i < json.length then do
        let c ← rd json i
        if isws c then varrayElems json n (i + 1) f log
        else contMember json n 93 i f log
      else pure ⟨i + 1, false, true, log⟩ := by
  simp only [varrayElems, contMember, contSep]
  rfl

theorem scalar_some_of {json : List UInt8} {c i : Nat} {r : Run (Nat × Nat × Bool × Bool)}
    (h : scalar json c i = some r) : c ≠ 123 ∧ c ≠ 91 := by
  unfold scalar at h
  constructor
  · rintro rfl; simp at h
  · rintro rfl; simp at h

theorem vany_scalar_eq {json : List UInt8} {n i d : Nat} {f : Option vfn} {log : List Event} {c : Nat}
    {r : Run (Nat × Nat × Bool × Bool)}
    (hc : rd json i = Run.ret c) (hw : isws c = false) (hs : scalar json c i = some r) :
    vany json (n + 1) i d f log = (do
      let (j, info, ok, stop) ← r
      pure (vanyTail i j info d ok stop f log)) := by
  have hlt := rd_lt hc
  simp only [vany, hlt, if_true, hc, Run.ret_bind, hw]
  unfold scalar at hs
  by_cases h1 : c = 34
  · simp only [h1, if_true, Option.some.injEq] at hs ⊢
    subst hs
    cases vstring json (i + 1) <;> simp
  · simp only [h1, if_false] at hs ⊢
    by_cases h2 : c = 123 ∨ c = 91
    · simp [h2] at hs
    · simp only [h2, if_false] at hs
      have h2a : c ≠ 123 := fun h => h2 (Or.inl h)
      have h2b : c ≠ 91 := fun h => h2 (Or.inr h)
      simp only [h2a, h2b, if_false]
      by_cases h3 : c = 45 ∨ isnum c = true
      · simp only [h3, if_true, Option.some.injEq] at hs ⊢
        subst hs
        cases vnumber json (i + 1) <;> simp
      · simp only [h3, if_false] at hs ⊢
        by_cases h4 : c = 116
        · simp only [h4, if_true, Option.some.injEq] at hs ⊢
          subst hs
          cases vtrue json (i + 1) <;> simp
        · simp only [h4, if_false] at hs ⊢
          by_cases h5 : c = 110
          · simp only [h5, if_true, Option.some.injEq] at hs ⊢
            subst hs
            cases vnull json (i + 1) <;> simp
          · simp only [h5, if_false] at hs ⊢
            by_cases h6 : c = 102
            · simp only [h6, if_true, Option.some.injEq] at hs ⊢
              subst hs
              cases vfalse json (i + 1) <;> simp
            · simp [h6] at hs

theorem vany_bad_eq {json : List UInt8} {n i d : Nat} {f : Option vfn} {log : List Event} {c : Nat}
    (hc : rd json i = Run.ret c) (hw : isws c = false) (h1 : c ≠ 123) (h2 : c ≠ 91)
    (hs : scalar json c i = none) :
    vany json (n + 1) i d f log = Run.ret ⟨i, false, true, log⟩ := by
  have hlt := rd_lt hc
  simp only [vany, hlt, if_true, hc, Run.ret_bind, hw]
  unfold scalar at hs
  have h12 : ¬ (c = 123 ∨ c = 91) := by simp [h1, h2]
  by_cases h0 : c = 34
  · simp [h0] at hs
  · simp only [h0, h12, if_false] at hs
    by_cases h3 : c = 45 ∨ isnum c = true
    · simp [h3] at hs
    · simp only [h3, if_false] at hs
      by_cases h4 : c = 116
      · simp [h4] at hs
      · simp only [h4, if_false] at hs
        by_cases h5 : c = 110
        · simp [h5] at hs
        · simp only [h5, if_false] at hs
          by_cases h6 : c = 102
          · simp [h6] at hs
          · simp [h0, h1, h2, h3, h4, h5, h6]

theorem scalar_dec (json : List UInt8) (c i : Nat) :
    c = 123 ∨ c = 91 ∨ (c ≠ 123 ∧ c ≠ 91 ∧ scalar json c i = none) ∨ ∃ r, scalar json c i = some r := by
  by_cases h1 : c = 123
  · exact Or.inl h1
  by_cases h2 : c = 91
  · exact Or.inr (Or.inl h2)
  cases h : scalar json c i
  · exact Or.inr (Or.inr (Or.inl ⟨h1, h2, rfl⟩))
  · exact Or.inr (Or.inr (Or.inr ⟨_, rfl⟩))

theorem sound_succ {json : List UInt8} {n : Nat} (ih : SoundAt json n) : SoundAt json (n + 1) := by
  obtain ⟨hany, hobj, hkey, hnext, harr, helems⟩ := ih
  refine ⟨?_, ?_, ?_, ?_, ?_, ?_⟩
  · -- vany
    intro i d f log s h
    by_cases hlt : i < json.length
    · obtain ⟨c, hc⟩ := rd_total hlt
      cases hw : isws c
      · rcases scalar_dec json c i with h1 | h1 | h1 | ⟨r, h1⟩
        · subst h1
          simp only [vany, hlt, if_true, hc, Run.ret_bind, hw, Bool.false_eq_true, if_false] at h
          simp only [show ¬ ((123 : Nat) = 34) by decide, if_false, if_true] at h
          by_cases hr : (fire f log (openEv Info.Object i d)).1 = 0
          · simp only [openEv] at hr
            simp only [hr, if_true, Run.pure_eq, Run.ret.injEq] at h
            subst h
            exact Exec.any_obj_stop hc hr
          · simp only [openEv] at hr
            simp only [hr, if_false] at h
            obtain ⟨t, ht, h2⟩ := Run.bind_eq_ret.mp h
            simp only [Run.pure_eq, Run.ret.injEq] at h2
            subst h2
            exact Exec.any_obj hc hr (hobj _ _ _ _ ht)
        · subst h1
          simp only [vany, hlt, if_true, hc, Run.ret_bind, hw, Bool.false_eq_true, if_false] at h
          simp only [show ¬ ((91 : Nat) = 34) by decide, show ¬ ((91 : Nat) = 123) by decide,
            if_false, if_true] at h
          by_cases hr : (fire f log (openEv Info.Array i d)).1 = 0
          · simp only [openEv] at hr
            simp only [hr, if_true, Run.pure_eq, Run.ret.injEq] at h
            subst h
            exact Exec.any_arr_stop hc hr
          · simp only [openEv] at hr
            simp only [hr, if_false] at h
            obtain ⟨t, ht, h2⟩ := Run.bind_eq_ret.mp h
            simp only [Run.pure_eq, Run.ret.injEq] at h2
            subst h2
            exact Exec.any_arr hc hr (harr _ _ _ _ ht)
        · obtain ⟨h123, h91, h1⟩ := h1
          rw [vany_bad_eq hc hw h123 h91 h1] at h
          simp only [Run.ret.injEq] at h
          subst h
          exact Exec.any_bad hc hw h123 h91 h1
        · rw [vany_scalar_eq hc hw h1] at h
          obtain ⟨⟨j, info, ok, stop⟩, hr, h2⟩ := Run.bind_eq_ret.mp h
          simp at h2; subst h2
          exact Exec.any_scalar hc hw (hr ▸ h1)
      · simp only [vany, hlt, if_true, hc, Run.ret_bind, hw] at h
        exact Exec.any_ws hc hw (hany _ _ _ _ _ h)
    · simp only [vany, hlt, if_false] at h
      simp at h; subst h
      exact Exec.any_eob hlt
  · -- vobject
    intro i f log s h
    by_cases hlt : i < json.length
    · obtain ⟨c, hc⟩ := rd_total hlt
      simp only [vobject, hlt, if_true, hc, Run.ret_bind] at h
      cases hw : isws c
      · simp only [hw, Bool.false_eq_true, if_false] at h
        by_cases h1 : c = 125
        · subst h1
          simp only [if_true, Run.pure_eq, Run.ret.injEq] at h
          subst h
          exact Exec.obj_close hc
        · simp only [h1, if_false] at h
          by_cases h2 : c = 34
          · subst h2
            simp only [if_true] at h
            exact Exec.obj_key hc (hkey _ _ _ _ h)
          · simp only [h2, if_false, Run.pure_eq, Run.ret.injEq] at h
            subst h
            exact Exec.obj_bad hc hw h1 h2
      · simp only [hw, if_true] at h
        exact Exec.obj_ws hc hw (hobj _ _ _ _ h)
    · simp only [vobject, hlt, if_false, Run.pure_eq, Run.ret.injEq] at h
      subst h
      exact Exec.obj_eob hlt
  · -- vobjectKey
    intro i f log s h
    rw [vobjectKey_succ] at h
    obtain ⟨⟨j, info, ok, stop⟩, hv, h1⟩ := Run.bind_eq_ret.mp h
    clear h
    simp only at h1
    cases stop
    · simp only [Bool.false_eq_true, if_false] at h1
      by_cases hr : (fire f log ⟨i, j, info ||| Info.Key ||| Info.String⟩).1 = 0
      · simp only [hr, if_true, Run.pure_eq, Run.ret.injEq] at h1
        subst h1
        exact Exec.key_stop hv hr
      · simp only [hr, if_false] at h1
        exact Exec.key_go hv hr (exec_colon hany hnext helems h1)
    · simp only [if_true, Run.pure_eq, Run.ret.injEq] at h1
      subst h1
      exact Exec.key_fail hv
  · -- vobjectNext
    intro i f log s h
    by_cases hlt : i < json.length
    · obtain ⟨c, hc⟩ := rd_total hlt
      simp only [vobjectNext, hlt, if_true, hc, Run.ret_bind] at h
      cases hw : isws c
      · simp only [hw, Bool.false_eq_true, if_false] at h
        by_cases h2 : c = 34
        · subst h2
          simp only [if_true] at h
          exact Exec.next_key hc (hkey _ _ _ _ h)
        · simp only [h2, if_false, Run.pure_eq, Run.ret.injEq] at h
          subst h
          exact Exec.next_bad hc hw h2
      · simp only [hw, if_true] at h
        exact Exec.next_ws hc hw (hnext _ _ _ _ h)
    · simp only [vobjectNext, hlt, if_false, Run.pure_eq, Run.ret.injEq] at h
      subst h
      exact Exec.next_eob hlt
  · -- varray
    intro i f log s h
    by_cases hlt : i < json.length
    · obtain ⟨c, hc⟩ := rd_total hlt
      simp only [varray, hlt, if_true, hc, Run.ret_bind] at h
      cases hw : isws c
      · simp only [hw, Bool.false_eq_true, if_false] at h
        by_cases h1 : c = 93
        · subst h1
          simp only [if_true, Run.pure_eq, Run.ret.injEq] at h
          subst h
          exact Exec.arr_close hc
        · simp only [h1, if_false] at h
          exact Exec.arr_elems hc hw h1 (helems _ _ _ _ h)
      · simp only [hw, if_true] at h
        exact Exec.arr_ws hc hw (harr _ _ _ _ h)
    · simp only [varray, hlt, if_false, Run.pure_eq, Run.ret.injEq] at h
      subst h
      exact Exec.arr_eob hlt
  · -- varrayElems
    intro i f log s h
    rw [varrayElems_succ] at h
    by_cases hlt : i < json.length
    · obtain ⟨c, hc⟩ := rd_total hlt
      simp only [hlt, if_true, hc, Run.ret_bind] at h
      cases hw : isws c
      · simp only [hw, Bool.false_eq_true, if_false] at h
        exact Exec.elems_go hc hw (exec_member hany hnext helems h)
      · simp only [hw, if_true] at h
        exact Exec.elems_ws hc hw (helems _ _ _ _ h)
    · simp only [hlt, if_false, Run.pure_eq, Run.ret.injEq] at h
      subst h
      exact Exec.elems_eob hlt

theorem sound_zero (json : List UInt8) : SoundAt json 0 := by
  refine ⟨?_, ?_, ?_, ?_, ?_, ?_⟩ <;> intros <;> rename_i h <;>
    simp [vany, vobject, vobjectKey, vobjectNext, varray, varrayElems] at h

theorem sound_all (json : List UInt8) (n : Nat) : SoundAt json n := by
  induction n with
  | zero => exact sound_zero json
  | succ n ih => exact sound_succ ih

/-- Whatever the code at a program point returns is related to its input by `Exec` -/
theorem exec_of_run (json : List UInt8) (n : Nat) (c : Call) (f : Option vfn) (log : List Event)
    (s : St) (h : run json n c f log = Run.ret s) : Exec json c f log s := by
  obtain ⟨hany, hobj, hkey, hnext, harr, helems⟩ := sound_all json n
  cases c with
  | any i d => exact hany _ _ _ _ _ h
  | object i => exact hobj _ _ _ _ h
  | key i => exact hkey _ _ _ _ h
  | colon i => exact exec_colon hany hnext helems h
  | member e i => exact exec_member hany hnext helems h
  | sep e i => exact exec_sep hnext helems h
  | next i => exact hnext _ _ _ _ h
  | array i => exact harr _ _ _ _ h
  | elems i => exact helems _ _ _ _ h

end pjson
namespace pjson

/-! ## Reads and slices -/

theorem vals_length (json : List UInt8) : (vals json).length = json.length := by
  simp [vals]

theorem rd_iff {json : List UInt8} {i c : Nat} :
    rd json i = Run.ret c ↔ (vals json)[i]? = some c := by
  unfold rd vals
  rw [List.getElem?_map]
  cases h : json[i]? <;> simp

theorem rd_panic {json : List UInt8} {i : Nat} (h : ¬ i < json.length) : rd json i = Run.panic := by
  unfold rd
  rw [List.getElem?_eq_none (by omega)]

theorem rd_byte {json : List UInt8} {i c : Nat} (h : rd json i = Run.ret c) : c < 256 := by
  unfold rd at h
  cases hb : json[i]? with
  | none => rw [hb] at h; cases h
  | some b =>
    rw [hb] at h
    simp only [Run.ret.injEq] at h
    subst h
    exact UInt8.toNat_lt_size b

theorem rd_not_starved (json : List UInt8) (i : Nat) : rd json i ≠ Run.starved := by
  unfold rd
  cases json[i]? <;> simp

theorem drop_of_rd {json : List UInt8} {i c : Nat} (h : rd json i = Run.ret c) :
    (vals json).drop i = c :: (vals json).drop (i + 1) := by
  have h1 := rd_iff.mp h
  obtain ⟨hlt, hget⟩ := List.getElem?_eq_some_iff.mp h1
  rw [List.drop_eq_getElem_cons hlt, hget]

theorem drop_of_eob {json : List UInt8} {i : Nat} (h : ¬ i < json.length) :
    (vals json).drop i = [] := by
  apply List.drop_eq_nil_of_le
  rw [vals_length]; omega

theorem rd_of_drop {json : List UInt8} {i c : Nat} {t : List Nat}
    (h : (vals json).drop i = c :: t) : rd json i = Run.ret c ∧ (vals json).drop (i + 1) = t := by
  have hlt : i < (vals json).length := by
    by_contra hc
    rw [List.drop_eq_nil_of_le (by omega)] at h
    cases h
  rw [List.drop_eq_getElem_cons hlt] at h
  simp only [List.cons.injEq] at h
  refine ⟨rd_iff.mpr ?_, h.2⟩
  rw [List.getElem?_eq_getElem hlt, h.1]

theorem slice_self (json : List UInt8) (a : Nat) : slice json a a = [] := by
  simp [slice]

theorem slice_append (json : List UInt8) {a b c : Nat} (hab : a ≤ b) (hbc : b ≤ c) :
    slice json a b ++ slice json b c = slice json a c := by
  unfold slice
  have h1 : c - a = (b - a) + (c - b) := by omega
  rw [h1, List.take_add, List.drop_drop]
  have h2 : a + (b - a) = b := by omega
  rw [h2]

theorem slice_one {json : List UInt8} {i c : Nat} (h : rd json i = Run.ret c) :
    slice json i (i + 1) = [c] := by
  unfold slice
  rw [drop_of_rd h]
  simp

theorem slice_cons {json : List UInt8} {i j c : Nat} (h : rd json i = Run.ret c) (hij : i < j) :
    slice json i j = c :: slice json (i + 1) j := by
  rw [← slice_append json (Nat.le_succ i) hij, slice_one h]
  rfl

theorem slice_snoc {json : List UInt8} {i j c : Nat} (h : rd json j = Run.ret c) (hij : i ≤ j) :
    slice json i (j + 1) = slice json i j ++ [c] := by
  rw [← slice_append json hij (Nat.le_succ j), slice_one h]

theorem slice_length {json : List UInt8} {a b : Nat} (hab : a ≤ b) (hb : b ≤ json.length) :
    (slice json a b).length = b - a := by
  unfold slice
  rw [List.length_take, List.length_drop, vals_length]
  omega

theorem slice_all (json : List UInt8) : slice json 0 json.length = vals json := by
  unfold slice
  simp [vals]

theorem slice_eq_of_drop {json : List UInt8} {i : Nat} {x t : List Nat}
    (h : (vals json).drop i = x ++ t) : slice json i (i + x.length) = x := by
  unfold slice
  rw [h]
  simp

theorem drop_add_of_drop {json : List UInt8} {i : Nat} {x t : List Nat}
    (h : (vals json).drop i = x ++ t) : (vals json).drop (i + x.length) = t := by
  rw [← List.drop_drop, h]
  simp

theorem drop_le_length {json : List UInt8} {i : Nat} {x t : List Nat}
    (h : (vals json).drop i = x ++ t) (hx : x ≠ []) : i + x.length ≤ json.length := by
  have h1 : ((vals json).drop i).length = (x ++ t).length := by rw [h]
  rw [List.length_drop, vals_length, List.length_append] at h1
  have h2 : 0 < x.length := List.length_pos.mpr hx
  omega

theorem drop_of_slice (json : List UInt8) {a b : Nat} (hab : a ≤ b) :
    (vals json).drop a = slice json a b ++ (vals json).drop b := by
  unfold slice
  have h : (vals json).drop b = ((vals json).drop a).drop (b - a) := by
    rw [List.drop_drop]; congr 1; omega
  rw [h]
  exact (List.take_append_drop _ _).symm

/-! ## First offset with a property -/

theorem findFrom_eob {p : Nat → Bool} {json : List UInt8} {i : Nat} (h : ¬ i < json.length) :
    findFrom p json i = i := by
  unfold findFrom
  rw [drop_of_eob h]
  simp

theorem findFrom_hit {p : Nat → Bool} {json : List UInt8} {i c : Nat} (h : rd json i = Run.ret c)
    (hp : p c = true) : findFrom p json i = i := by
  unfold findFrom
  rw [drop_of_rd h]
  simp [hp]

theorem findFrom_step {p : Nat → Bool} {json : List UInt8} {i c : Nat} (h : rd json i = Run.ret c)
    (hp : p c = false) : findFrom p json i = findFrom p json (i + 1) := by
  unfold findFrom
  rw [drop_of_rd h]
  simp [hp]
  omega

theorem findFrom_ge (p : Nat → Bool) (json : List UInt8) (i : Nat) : i ≤ findFrom p json i := by
  unfold findFrom; omega

theorem findFrom_le (p : Nat → Bool) (json : List UInt8) {i : Nat} (h : i ≤ json.length) :
    findFrom p json i ≤ json.length := by
  unfold findFrom
  have h1 : (((vals json).drop i).takeWhile (fun c => !p c)).length ≤ ((vals json).drop i).length :=
    (List.takeWhile_sublist _).length_le
  rw [List.length_drop, vals_length] at h1
  omega

/-- Induction from the cursor up to the end of the buffer -/
theorem upward_induction (json : List UInt8) (P : Nat → Prop)
    (hend : ∀ i, ¬ i < json.length → P i)
    (hstep : ∀ i, i < json.length → P (i + 1) → P i) : ∀ i, P i := by
  have key : ∀ k i, json.length ≤ i + k → P i := by
    intro k
    induction k with
    | zero => intro i h; exact hend i (by omega)
    | succ k ih =>
      intro i h
      by_cases hlt : i < json.length
      · exact hstep i hlt (ih (i + 1) (by omega))
      · exact hend i hlt
  intro i
  exact key json.length i (by omega)

theorem findFrom_spec (p : Nat → Bool) (json : List UInt8) (i : Nat) :
    (∀ k c, i ≤ k → k < findFrom p json i → rd json k = Run.ret c → p c = false) ∧
    (∀ c, rd json (findFrom p json i) = Run.ret c → p c = true) := by
  revert i
  apply upward_induction json
  · intro i h
    rw [findFrom_eob h]
    constructor
    · intro k c h1 h2; omega
    · intro c hc; exact absurd (rd_lt hc) h
  · intro i h ih
    obtain ⟨c, hc⟩ := rd_total h
    cases hp : p c
    · rw [findFrom_step hc hp]
      refine ⟨?_, ih.2⟩
      intro k d h1 h2 hd
      by_cases hk : k = i
      · subst hk; rw [hc] at hd; cases hd; exact hp
      · exact ih.1 k d (by omega) h2 hd
    · rw [findFrom_hit hc hp]
      constructor
      · intro k c h1 h2; omega
      · intro d hd; rw [hc] at hd; cases hd; exact hp

theorem slice_findFrom_all (p : Nat → Bool) (json : List UInt8) (i : Nat) :
    ∀ c ∈ slice json i (findFrom p json i), p c = false := by
  unfold slice findFrom
  intro c hc
  simp only [Nat.add_sub_cancel_left] at hc
  have h := List.takeWhile_prefix (fun c => !p c) (l := (vals json).drop i)
  rw [List.prefix_iff_eq_take] at h
  rw [← h] at hc
  have := List.mem_takeWhile_imp hc
  simpa using this

/-- The offset found is the end of a given run of bytes without the property that
is followed by the end of the buffer or a byte with the property -/
theorem findFrom_of_drop {p : Nat → Bool} {json : List UInt8} {i : Nat} {x t : List Nat}
    (h : (vals json).drop i = x ++ t) (hx : ∀ c ∈ x, p c = false)
    (ht : ∀ c ∈ t.head?, p c = true) : findFrom p json i = i + x.length := by
  unfold findFrom
  rw [h]
  congr 1
  clear h
  induction x with
  | nil =>
    cases t with
    | nil => simp
    | cons c t =>
      have := ht c (by simp)
      simp [this]
  | cons a x ih =>
    have ha := hx a (by simp)
    simp only [List.cons_append, List.takeWhile_cons, ha, Bool.not_false, if_true, List.length_cons]
    rw [ih (fun c hc => hx c (by simp [hc]))]

theorem findFrom_mid (p : Nat → Bool) (json : List UInt8) :
    ∀ d i, i + d ≤ findFrom p json i → findFrom p json (i + d) = findFrom p json i := by
  intro d
  induction d with
  | zero => intro i _; rfl
  | succ d ih =>
    intro i h
    have hlt : i < json.length := by
      by_contra hc
      rw [findFrom_eob hc] at h
      omega
    obtain ⟨c, hc⟩ := rd_total hlt
    have hp : p c = false := (findFrom_spec p json i).1 i c (Nat.le_refl i) (by omega) hc
    have hs := findFrom_step hc hp
    have := ih (i + 1) (by rw [← hs]; omega)
    rw [hs, ← this]
    congr 1
    omega

end pjson
namespace pjson

/-! ## The whitespace loops -/

theorem skipWs_ws {json : List UInt8} {i c : Nat} (h : rd json i = Run.ret c) (hw : isws c = true) :
    skipWs json i = skipWs json (i + 1) :=
  findFrom_step h (by simp [hw])

theorem skipWs_hit {json : List UInt8} {i c : Nat} (h : rd json i = Run.ret c)
    (hw : isws c = false) : skipWs json i = i :=
  findFrom_hit h (by simp [hw])

theorem skipWs_eob {json : List UInt8} {i : Nat} (h : ¬ i < json.length) : skipWs json i = i :=
  findFrom_eob h

theorem skipWs_ge (json : List UInt8) (i : Nat) : i ≤ skipWs json i := findFrom_ge _ json i

theorem skipWs_le (json : List UInt8) {i : Nat} (h : i ≤ json.length) :
    skipWs json i ≤ json.length := findFrom_le _ json h

theorem skipWs_not_ws {json : List UInt8} {i c : Nat} (h : rd json (skipWs json i) = Run.ret c) :
    isws c = false := by
  have := (findFrom_spec (fun c => !isws c) json i).2 c h
  simpa using this

theorem skipWs_slice (json : List UInt8) (i : Nat) :
    ∀ c ∈ slice json i (skipWs json i), isws c = true := by
  intro c hc
  have := slice_findFrom_all (fun c => !isws c) json i c hc
  simpa using this

theorem skipWs_idem (json : List UInt8) (i : Nat) : skipWs json (skipWs json i) = skipWs json i := by
  by_cases h : skipWs json i < json.length
  · obtain ⟨c, hc⟩ := rd_total h
    exact skipWs_hit hc (skipWs_not_ws hc)
  · exact skipWs_eob h

theorem vcolonLoop_eq (json : List UInt8) : ∀ n i, 0 < n → json.length < n + i →
    vcolonLoop json n i = Run.ret (colonRes json i) := by
  intro n
  induction n with
  | zero => intro i h0 h; omega
  | succ n ih =>
    intro i _ h
    by_cases hlt : i < json.length
    · obtain ⟨c, hc⟩ := rd_total hlt
      simp only [vcolonLoop, hlt, if_true, hc, Run.ret_bind]
      by_cases h58 : c = 58
      · subst h58
        have hs := skipWs_hit hc (by decide)
        simp [colonRes, hs, hc]
      · simp only [h58, if_false]
        cases hw : isws c
        · have hs := skipWs_hit hc hw
          simp [colonRes, hs, hc, h58]
        · simp only [if_true]
          rw [ih (i + 1) (by omega) (by omega)]
          simp [colonRes, skipWs_ws hc hw]
    · simp only [vcolonLoop, hlt, if_false]
      have hs := skipWs_eob hlt
      simp [colonRes, hs, rd_panic hlt]

theorem vcolon_eq (json : List UInt8) (i : Nat) : vcolon json i = Run.ret (colonRes json i) :=
  vcolonLoop_eq json _ i (by omega) (by omega)

theorem vcommaLoop_eq (json : List UInt8) (e : Nat) (hwe : isws e = false) :
    ∀ n i, 0 < n → json.length < n + i →
    vcommaLoop json e n i = Run.ret (commaRes json i e) := by
  intro n
  induction n with
  | zero => intro i h0 h; omega
  | succ n ih =>
    intro i _ h
    by_cases hlt : i < json.length
    · obtain ⟨c, hc⟩ := rd_total hlt
      simp only [vcommaLoop, hlt, if_true, hc, Run.ret_bind]
      by_cases h44 : c = 44
      · subst h44
        have hs := skipWs_hit hc (by decide)
        simp [commaRes, hs, hc]
      · simp only [h44, if_false]
        by_cases he : c = e
        · subst he
          have hs := skipWs_hit hc hwe
          simp [commaRes, hs, hc]
        · simp only [he, if_false]
          cases hw : isws c
          · have hs := skipWs_hit hc hw
            simp [commaRes, hs, hc, h44, he]
          · simp only [if_true]
            rw [ih (i + 1) (by omega) (by omega)]
            simp [commaRes, skipWs_ws hc hw]
    · simp only [vcommaLoop, hlt, if_false]
      have hs := skipWs_eob hlt
      simp [commaRes, hs, rd_panic hlt]

theorem vcomma_eq (json : List UInt8) (i e : Nat) (hwe : isws e = false) :
    vcomma json i e = Run.ret (commaRes json i e) :=
  vcommaLoop_eq json e hwe _ i (by omega) (by omega)

theorem vdocLoop_eq (json : List UInt8) : ∀ n i, 0 < n → json.length < n + i →
    vdocLoop json n i = Run.ret (docRes json i) := by
  intro n
  induction n with
  | zero => intro i h0 h; omega
  | succ n ih =>
    intro i _ h
    by_cases hlt : i < json.length
    · obtain ⟨c, hc⟩ := rd_total hlt
      simp only [vdocLoop, hlt, if_true, hc, Run.ret_bind]
      cases hw : isws c
      · have hs := skipWs_hit hc hw
        simp [docRes, hs, hlt]
      · simp only [if_true]
        rw [ih (i + 1) (by omega) (by omega)]
        simp [docRes, skipWs_ws hc hw]
    · simp only [vdocLoop, hlt, if_false]
      have hs := skipWs_eob hlt
      simp [docRes, hs, hlt]

theorem digits_eq (json : List UInt8) : ∀ n i, 0 < n → json.length < n + i →
    digits json n i = Run.ret (digitsEnd json i) := by
  intro n
  induction n with
  | zero => intro i h0 h; omega
  | succ n ih =>
    intro i _ h
    by_cases hlt : i < json.length
    · obtain ⟨c, hc⟩ := rd_total hlt
      simp only [digits, hlt, if_true, hc, Run.ret_bind]
      cases hw : isnum c
      · have hs : digitsEnd json i = i := findFrom_hit hc (by simp [hw])
        simp [hs]
      · have hs : digitsEnd json i = digitsEnd json (i + 1) := findFrom_step hc (by simp [hw])
        simp only [Bool.not_true, Bool.false_eq_true, if_false]
        rw [ih (i + 1) (by omega) (by omega), hs]
    · simp only [digits, hlt, if_false]
      have hs : digitsEnd json i = i := findFrom_eob hlt
      simp [hs]

theorem scanPlain_eq (json : List UInt8) : ∀ n i, 0 < n → json.length < n + i →
    scanPlain json n i = Run.ret (scanRes json i) := by
  intro n
  induction n with
  | zero => intro i h0 h; omega
  | succ n ih =>
    intro i _ h
    by_cases hlt : i < json.length
    · obtain ⟨c, hc⟩ := rd_total hlt
      simp only [scanPlain, hlt, if_true, hc, Run.ret_bind]
      cases hw : isstrtok c
      · have hs : tokAt json i = tokAt json (i + 1) := findFrom_step hc hw
        simp only [Bool.false_eq_true, if_false]
        rw [ih (i + 1) (by omega) (by omega)]
        simp [scanRes, hs]
      · have hs : tokAt json i = i := findFrom_hit hc hw
        simp only [if_true]
        by_cases h34 : c = 34
        · subst h34
          simp [scanRes, hs, hc]
        · simp [scanRes, hs, hc, h34, hlt]
    · simp only [scanPlain, hlt, if_false]
      have hs : tokAt json i = i := findFrom_eob hlt
      simp [scanRes, hs, hlt, rd_panic hlt]

end pjson
namespace pjson

/-! ## The scanning loops of the string scanner -/

theorem scanRes_congr {json : List UInt8} {i j : Nat} (h : tokAt json j = tokAt json i) :
    scanRes json j = scanRes json i := by
  unfold scanRes
  rw [h]

theorem probes_eq (json : List UInt8) : ∀ k i, i + k ≤ json.length →
    probes json k i =
      Run.ret (if tokAt json i < i + k then scanRes json i else Scan.fall (i + k)) := by
  intro k
  induction k with
  | zero =>
    intro i _
    have := findFrom_ge isstrtok json i
    have h2 : ¬ tokAt json i < i + 0 := by unfold tokAt; omega
    simp only [Nat.add_zero] at h2
    simp only [probes, h2, if_false, Run.pure_eq, Nat.add_zero]
  | succ k ih =>
    intro i h
    have hlt : i < json.length := by omega
    obtain ⟨c, hc⟩ := rd_total hlt
    simp only [probes, hc, Run.ret_bind]
    cases hw : isstrtok c
    · have hs : tokAt json i = tokAt json (i + 1) := findFrom_step hc hw
      simp only [Bool.false_eq_true, if_false]
      rw [ih (i + 1) (by omega), scanRes_congr hs.symm, hs]
      have e : i + 1 + k = i + (k + 1) := by omega
      rw [e]
    · have hs : tokAt json i = i := findFrom_hit hc hw
      have h1 : tokAt json i < i + (k + 1) := by omega
      simp only [if_true, h1]
      by_cases h34 : c = 34
      · subst h34
        simp [scanRes, hs, hc]
      · simp [scanRes, hs, hc, h34, hlt]

/-- The unrolled loop finds what the plain loop finds, or falls through at a
cursor from which the plain loop finds it -/
theorem scanUnrolled_spec (json : List UInt8) : ∀ n i, 0 < n → json.length < n + i →
    scanUnrolled json n i = Run.ret (scanRes json i) ∨
    ∃ j, scanUnrolled json n i = Run.ret (Scan.fall j) ∧ tokAt json j = tokAt json i := by
  intro n
  induction n with
  | zero => intro i h0 h; omega
  | succ n ih =>
    intro i _ h
    by_cases hlt : i + 7 < json.length
    · simp only [scanUnrolled, hlt, if_true]
      rw [probes_eq json 8 i (by omega)]
      by_cases ht : tokAt json i < i + 8
      · simp only [ht, if_true, Run.ret_bind]
        left
        have hl : tokAt json i < json.length := by omega
        unfold scanRes
        by_cases h34 : rd json (tokAt json i) = Run.ret 34
        · simp [h34]
        · simp [h34, hl]
      · simp only [ht, if_false, Run.ret_bind]
        have hfrom : tokAt json (i + 8) = tokAt json i :=
          findFrom_mid isstrtok json 8 i (by unfold tokAt at ht; omega)
        rcases ih (i + 8) (by omega) (by omega) with h1 | ⟨j, h1, h2⟩
        · left; rw [h1, scanRes_congr hfrom]
        · right; exact ⟨j, h1, h2.trans hfrom⟩
    · simp only [scanUnrolled, hlt, if_false, Run.pure_eq]
      right
      exact ⟨i, rfl, rfl⟩

/-- With or without the unrolled loop, the scanning loops end at the first string token -/
theorem scan_eq (u : Bool) (json : List UInt8) (i : Nat) : scan u json i = Run.ret (scanRes json i) := by
  cases u
  · simp only [scan, Bool.false_eq_true, if_false]
    exact scanPlain_eq json _ i (by omega) (by omega)
  · simp only [scan, if_true]
    rcases scanUnrolled_spec json (json.length + 1) i (by omega) (by omega) with h | ⟨j, h, hj⟩
    · rw [h]
      simp only [Run.ret_bind]
      cases hs : scanRes json i with
      | ret k => rfl
      | tok k => rfl
      | fall k =>
        simp only
        have hk : scanRes json k = Scan.fall k := by
          unfold scanRes at hs ⊢
          by_cases h34 : rd json (tokAt json i) = Run.ret 34
          · simp [h34] at hs
          · by_cases hl : tokAt json i < json.length
            · simp [h34, hl] at hs
            · simp only [h34, hl, if_false, Scan.fall.injEq] at hs
              subst hs
              have e : tokAt json (tokAt json i) = tokAt json i := findFrom_eob hl
              rw [e]
              simp [h34, hl]
        rw [scanPlain_eq json _ k (by omega) (by omega), hk]
    · rw [h]
      simp only [Run.ret_bind]
      rw [scanPlain_eq json _ j (by omega) (by omega), scanRes_congr hj]

theorem vstringLoop_succ (u : Bool) (json : List UInt8) (n i info : Nat) :
    vstringLoop u json (n + 1) i info =
      match scanRes json i with
      | .ret j => Run.ret (j, info, true, false)
      | .fall j => Run.ret (j, info, false, true)
      | .tok j => (tok json j info >>= fun t =>
          match t with
          | .done k info ok stop => Run.ret (k, info, ok, stop)
          | .more k info => vstringLoop u json n k info) := by
  simp only [vstringLoop, scan_eq, Run.ret_bind]
  cases scanRes json i <;> rfl

/-- The unrolled loop does not change what the string scanner returns -/
theorem vstringLoop_unroll (json : List UInt8) : ∀ n i info,
    vstringLoop true json n i info = vstringLoop false json n i info := by
  intro n
  induction n with
  | zero => intro i info; rfl
  | succ n ih =>
    intro i info
    rw [vstringLoop_succ, vstringLoop_succ]
    cases scanRes json i with
    | ret j => rfl
    | fall j => rfl
    | tok j =>
      simp only
      cases tok json j info with
      | ret t =>
        cases t with
        | done k info ok stop => rfl
        | more k info => simp only [Run.ret_bind]; exact ih k info
      | panic => rfl
      | starved => rfl

end pjson
namespace pjson

/-! ## Character classes of the code and of the grammar -/

theorem isws_iff (c : Nat) : isws c = true ↔ IsWs c := by
  unfold isws ws IsWs
  by_cases h : c = 32 ∨ c = 9 ∨ c = 10 ∨ c = 13
  · simp [h]
  · simp [h]

theorem isnum_iff (c : Nat) : isnum c = true ↔ IsDigit c := by
  unfold isnum IsDigit
  simp

theorem ishex_iff (c : Nat) : ishex c = true ↔ IsHex c := by
  unfold ishex IsHex IsDigit
  simp only [Bool.or_eq_true, Bool.and_eq_true, decide_eq_true_eq]
  omega

theorem isstrtok_false_iff (c : Nat) : isstrtok c = false ↔ 32 ≤ c ∧ c ≠ 34 ∧ c ≠ 92 := by
  unfold isstrtok strtoks
  by_cases h : c ≤ 31 ∨ c = 34 ∨ c = 92
  · simp only [h, if_true]; simp; omega
  · simp only [h, if_false]; simp; omega

theorem allWs_of_isws {w : List Nat} (h : ∀ c ∈ w, isws c = true) : AllWs w :=
  fun c hc => (isws_iff c).mp (h c hc)

theorem isws_of_allWs {w : List Nat} (h : AllWs w) : ∀ c ∈ w, isws c = true :=
  fun c hc => (isws_iff c).mpr (h c hc)

/-! ## String bodies -/

theorem JChars.append {a b : List Nat} (ha : JChars a) (hb : JChars b) : JChars (a ++ b) := by
  induction ha with
  | nil => exact hb
  | plain h1 h2 h3 _ ih => exact JChars.plain h1 h2 h3 ih
  | esc h1 _ ih => exact JChars.esc h1 ih
  | uni h1 h2 h3 h4 _ ih => exact JChars.uni h1 h2 h3 h4 ih

theorem JChars.of_plain {a : List Nat} (h : ∀ c ∈ a, isstrtok c = false) : JChars a := by
  induction a with
  | nil => exact JChars.nil
  | cons c a ih =>
    have hc := (isstrtok_false_iff c).mp (h c (by simp))
    exact JChars.plain hc.1 hc.2.1 hc.2.2 (ih (fun d hd => h d (by simp [hd])))

theorem hex4_spec (json : List UInt8) : ∀ k i, ∃ j good, hex4 json k i = Run.ret (j, good) ∧
    i ≤ j ∧ (i < json.length → j ≤ json.length) ∧
    (good = true → j = i + k ∧ (slice json (i + 1) (i + k + 1)).length = k ∧
      ∀ c ∈ slice json (i + 1) (i + k + 1), ishex c = true) ∧
    (good = false → i < j ∧ j ≤ i + k ∧ ∀ c ∈ slice json (i + 1) j, ishex c = true) := by
  intro k
  induction k with
  | zero =>
    intro i
    refine ⟨i, true, rfl, Nat.le_refl _, fun h => Nat.le_of_lt h, ?_, ?_⟩
    · intro _
      simp [slice_self]
    · intro h; cases h
  | succ k ih =>
    intro i
    by_cases hge : i + 1 ≥ json.length
    · refine ⟨i + 1, false, by simp [hex4, hge], by omega, fun h => by omega, ?_, ?_⟩
      · intro h; cases h
      · intro _
        refine ⟨by omega, by omega, ?_⟩
        simp [slice_self]
    · have hlt : i + 1 < json.length := by omega
      obtain ⟨c, hc⟩ := rd_total hlt
      cases hh : ishex c
      · refine ⟨i + 1, false, by simp [hex4, hge, hc, hh], by omega, fun h => by omega, ?_, ?_⟩
        · intro h; cases h
        · intro _
          refine ⟨by omega, by omega, ?_⟩
          simp [slice_self]
      · obtain ⟨j, good, h1, h2, h3, h4, h5⟩ := ih (i + 1)
        refine ⟨j, good, by simp [hex4, hge, hc, hh, h1], by omega, fun _ => h3 hlt, ?_, ?_⟩
        · intro hg
          obtain ⟨e1, e2, e3⟩ := h4 hg
          have hs : slice json (i + 1) (i + (k + 1) + 1) = c :: slice json (i + 1 + 1) (i + 1 + k + 1) := by
            have e : i + (k + 1) + 1 = i + 1 + k + 1 := by omega
            rw [e, slice_cons hc (by omega)]
          refine ⟨by omega, ?_, ?_⟩
          · rw [hs, List.length_cons, e2]
          · intro d hd
            rw [hs] at hd
            rcases List.mem_cons.mp hd with rfl | hd
            · exact hh
            · exact e3 d hd
        · intro hg
          obtain ⟨e1, e2, e3⟩ := h5 hg
          refine ⟨by omega, by omega, ?_⟩
          intro d hd
          rw [slice_cons hc (by omega)] at hd
          rcases List.mem_cons.mp hd with rfl | hd
          · exact hh
          · exact e3 d hd

theorem slice_no_tok (json : List UInt8) (i : Nat) :
    ∀ c ∈ slice json i (tokAt json i), isstrtok c = false :=
  slice_findFrom_all isstrtok json i

theorem or_escaped_idem (x : Nat) : x ||| Info.Escaped ||| Info.Escaped = x ||| Info.Escaped := by
  rw [Nat.or_assoc, Nat.or_self]

theorem list_length_four {l : List Nat} (h : l.length = 4) : ∃ a b c d, l = [a, b, c, d] := by
  match l, h with
  | [a, b, c, d], _ => exact ⟨a, b, c, d, rfl⟩

/-- What the code after the label `tok` does at a backslash or control byte -/
theorem tok_spec {json : List UInt8} {i c : Nat} (info : Nat) (hc : rd json i = Run.ret c)
    (hc34 : c ≠ 34) (ht : isstrtok c = true) :
    (∃ j, tok json i info = Run.ret (Tok.done j (if c = 92 then info ||| Info.Escaped else info) false true) ∧
      i ≤ j ∧ j ≤ json.length ∧ (c = 92 → i < j) ∧ (c ≠ 92 → j = i)) ∨
    (∃ k, tok json i info = Run.ret (Tok.more k (info ||| Info.Escaped)) ∧ c = 92 ∧ i + 2 ≤ k ∧
      k ≤ json.length ∧ ∃ x, slice json i k = x ∧ ∀ t, JChars t → JChars (x ++ t)) := by
  have hlt := rd_lt hc
  have hcase : c < 32 ∨ c = 92 := by
    by_contra hn
    have : isstrtok c = false := (isstrtok_false_iff c).mpr (by omega)
    rw [this] at ht; cases ht
  rcases hcase with h32 | h92
  · left
    have h92 : c ≠ 92 := by omega
    exact ⟨i, by simp [tok, hc, hc34, h32, h92], Nat.le_refl _, by omega, fun h => absurd h h92,
      fun _ => rfl⟩
  · subst h92
    by_cases hend : i + 1 = json.length
    · left
      exact ⟨i + 1, by simp [tok, hc, hend], by omega, by omega, fun _ => by omega,
        fun h => absurd rfl h⟩
    · have hlt1 : i + 1 < json.length := by omega
      obtain ⟨d, hd⟩ := rd_total hlt1
      by_cases hesc : d = 34 ∨ d = 92 ∨ d = 47 ∨ d = 98 ∨ d = 102 ∨ d = 110 ∨ d = 114 ∨ d = 116
      · right
        refine ⟨i + 2, by simp [tok, hc, hend, hd, hesc], rfl, Nat.le_refl _, by omega, _, rfl, ?_⟩
        intro t hjt
        rw [slice_cons hc (by omega), slice_one hd]
        exact JChars.esc hesc hjt
      · by_cases hu : d = 117
        · subst hu
          obtain ⟨j, good, h1, h2, h3, h4, h5⟩ := hex4_spec json 4 (i + 1)
          cases good
          · left
            obtain ⟨e1, e2, e3⟩ := h5 rfl
            exact ⟨j, by simp [tok, hc, hend, hd, h1], by omega, h3 hlt1, fun _ => by omega,
              fun h => absurd rfl h⟩
          · right
            obtain ⟨e1, e2, e3⟩ := h4 rfl
            have hj := h3 hlt1
            subst e1
            refine ⟨i + 1 + 4 + 1, by simp [tok, hc, hend, hd, h1], rfl, by omega, ?_, _, rfl, ?_⟩
            · have hl : (slice json (i + 1 + 1) (i + 1 + 4 + 1)).length ≤ json.length - (i + 1 + 1) := by
                unfold slice
                rw [List.length_take, List.length_drop, vals_length]
                omega
              omega
            · intro t hjt
              obtain ⟨a, b, c, e, habce⟩ := list_length_four e2
              rw [slice_cons hc (by omega), slice_cons hd (by omega), habce]
              have ha := (ishex_iff a).mp (e3 a (by simp [habce]))
              have hb := (ishex_iff b).mp (e3 b (by simp [habce]))
              have hc' := (ishex_iff c).mp (e3 c (by simp [habce]))
              have he := (ishex_iff e).mp (e3 e (by simp [habce]))
              exact JChars.uni ha hb hc' he hjt
        · left
          exact ⟨i + 1, by simp [tok, hc, hend, hd, hesc, hu], by omega, by omega, fun _ => by omega,
            fun h => absurd rfl h⟩

theorem tokAt_ge (json : List UInt8) (i : Nat) : i ≤ tokAt json i := findFrom_ge _ json i

theorem tokAt_le (json : List UInt8) {i : Nat} (h : i ≤ json.length) : tokAt json i ≤ json.length :=
  findFrom_le _ json h

theorem not_mem_92_of_no_tok {x : List Nat} (h : ∀ c ∈ x, isstrtok c = false) : 92 ∉ x := by
  intro hm
  have := h 92 hm
  revert this
  decide

/-- The string scanner from the cursor `i` (just past the opening quote, or past an
escape): it returns, the cursor stays inside the buffer, the info gains `Escaped`
exactly when a backslash was passed, and on success the bytes passed are a
string body and its closing quote -/
theorem vstringLoop_spec (u : Bool) (json : List UInt8) : ∀ n i info0, 0 < n →
    json.length < n + i → i ≤ json.length →
    ∃ j info ok, vstringLoop u json n i info0 = Run.ret (j, info, ok, !ok) ∧ i ≤ j ∧
      j ≤ json.length ∧
      (92 ∈ slice json i j → info = info0 ||| Info.Escaped) ∧
      (92 ∉ slice json i j → info = info0) ∧
      (ok = true → i < j ∧ rd json (j - 1) = Run.ret 34 ∧ JChars (slice json i (j - 1))) := by
  intro n
  induction n with
  | zero => intro i info0 h0; omega
  | succ n ih =>
    intro i info0 _ hfuel hi
    rw [vstringLoop_succ]
    have hge := tokAt_ge json i
    have hle := tokAt_le json hi
    have hplain := slice_no_tok json i
    have hno := not_mem_92_of_no_tok hplain
    by_cases h34 : rd json (tokAt json i) = Run.ret 34
    · have hlt := rd_lt h34
      simp only [scanRes, h34, if_true]
      refine ⟨tokAt json i + 1, info0, true, rfl, by omega, by omega, ?_, fun _ => rfl, ?_⟩
      · intro hm
        rw [slice_snoc h34 hge] at hm
        rcases List.mem_append.mp hm with h | h
        · exact absurd h hno
        · simp at h
      · intro _
        refine ⟨by omega, ?_, ?_⟩
        · simpa using h34
        · simpa using JChars.of_plain hplain
    · by_cases hlt : tokAt json i < json.length
      · simp only [scanRes, h34, hlt, if_true, if_false]
        obtain ⟨c, hc⟩ := rd_total hlt
        have hc34 : c ≠ 34 := by
          rintro rfl; exact h34 hc
        have htok : isstrtok c = true := (findFrom_spec isstrtok json i).2 c hc
        rcases tok_spec info0 hc hc34 htok with ⟨j, h1, h2, h3, h4, h5⟩ | ⟨k, h1, h2, h3, h4, x, h5, h6⟩
        · rw [h1]
          simp only [Run.ret_bind]
          refine ⟨j, _, false, rfl, by omega, h3, ?_, ?_, ?_⟩
          · intro hm
            by_cases h92 : c = 92
            · simp [h92]
            · exfalso
              rw [h5 h92] at hm
              exact hno hm
          · intro hm
            by_cases h92 : c = 92
            · exfalso
              apply hm
              rw [← slice_append json hge h2, slice_cons hc (h4 h92), h92]
              simp
            · simp [h92]
          · intro h; cases h
        · rw [h1]
          simp only [Run.ret_bind]
          subst h2
          obtain ⟨j, info, ok, e1, e2, e3, e4, e5, e6⟩ :=
            ih k (info0 ||| Info.Escaped) (by omega) (by omega) h4
          refine ⟨j, info, ok, e1, by omega, e3, ?_, ?_, ?_⟩
          · intro _
            by_cases hm : 92 ∈ slice json k j
            · rw [e4 hm, or_escaped_idem]
            · exact e5 hm
          · intro hm
            exfalso
            apply hm
            rw [← slice_append json hge (show tokAt json i ≤ j by omega),
              slice_cons hc (by omega)]
            simp
          · intro hok
            obtain ⟨f1, f2, f3⟩ := e6 hok
            refine ⟨by omega, f2, ?_⟩
            rw [← slice_append json hge (show tokAt json i ≤ j - 1 by omega),
              ← slice_append json (show tokAt json i ≤ k by omega) (show k ≤ j - 1 by omega), h5]
            exact JChars.append (JChars.of_plain hplain) (h6 _ f3)
      · simp only [scanRes, h34, hlt, if_false]
        exact ⟨tokAt json i, info0, false, rfl, hge, hle, fun hm => absurd hm hno, fun _ => rfl,
          fun h => by cases h⟩

end pjson
namespace pjson

theorem vstringLoop_skip (u : Bool) (json : List UInt8) {i c : Nat} (n info : Nat)
    (hc : rd json i = Run.ret c) (ht : isstrtok c = false) :
    vstringLoop u json (n + 1) i info = vstringLoop u json (n + 1) (i + 1) info := by
  have hs : tokAt json i = tokAt json (i + 1) := findFrom_step hc ht
  rw [vstringLoop_succ, vstringLoop_succ, scanRes_congr hs]

theorem scanRes_tok {json : List UInt8} {i c : Nat} (hc : rd json i = Run.ret c)
    (ht : isstrtok c = true) (h34 : c ≠ 34) : scanRes json i = Scan.tok i := by
  have hs : tokAt json i = i := findFrom_hit hc ht
  have hlt := rd_lt hc
  unfold scanRes
  simp [hs, hc, h34, hlt]

theorem scanRes_quote {json : List UInt8} {i : Nat} (hc : rd json i = Run.ret 34) :
    scanRes json i = Scan.ret (i + 1) := by
  have hs : tokAt json i = i := findFrom_hit hc (by decide)
  unfold scanRes
  simp [hs, hc]

/-- The string scanner accepts every string body that is followed by a quote -/
theorem vstringLoop_complete (u : Bool) (json : List UInt8) {body : List Nat} (hb : JChars body) :
    ∀ (rest : List Nat) (n i info0 : Nat), 0 < n → json.length < n + i →
      (vals json).drop i = body ++ 34 :: rest →
      ∃ info, vstringLoop u json n i info0 = Run.ret (i + body.length + 1, info, true, false) := by
  induction hb with
  | nil =>
    intro rest n i info0 h0 _ hd
    obtain ⟨m, rfl⟩ : ∃ m, n = m + 1 := ⟨n - 1, by omega⟩
    obtain ⟨hc, _⟩ := rd_of_drop hd
    rw [vstringLoop_succ, scanRes_quote hc]
    exact ⟨info0, rfl⟩
  | @plain c s h1 h2 h3 _ ih =>
    intro rest n i info0 h0 hf hd
    obtain ⟨m, rfl⟩ : ∃ m, n = m + 1 := ⟨n - 1, by omega⟩
    obtain ⟨hc, hd1⟩ := rd_of_drop hd
    have ht : isstrtok c = false := (isstrtok_false_iff c).mpr ⟨h1, h2, h3⟩
    rw [vstringLoop_skip u json m info0 hc ht]
    obtain ⟨info, hr⟩ := ih rest (m + 1) (i + 1) info0 (by omega) (by omega) hd1
    refine ⟨info, ?_⟩
    rw [hr]
    simp only [List.length_cons]
    have e : i + 1 + s.length + 1 = i + (s.length + 1) + 1 := by omega
    rw [e]
  | @esc c s h1 _ ih =>
    intro rest n i info0 h0 hf hd
    obtain ⟨m, rfl⟩ : ∃ m, n = m + 1 := ⟨n - 1, by omega⟩
    obtain ⟨hc, hd1⟩ := rd_of_drop hd
    obtain ⟨hc1, hd2⟩ := rd_of_drop hd1
    have hl1 := rd_lt hc1
    have hl2 := @drop_le_length json (i + 1 + 1) (s ++ [34]) rest
      (by simpa using hd2) (by simp)
    simp only [List.length_append, List.length_singleton] at hl2
    rw [vstringLoop_succ, scanRes_tok hc (by decide) (by decide)]
    have hne : ¬ (i + 1 = json.length) := by omega
    have htok : tok json i info0 = Run.ret (Tok.more (i + 1 + 1) (info0 ||| Info.Escaped)) := by
      unfold IsEscape at h1
      simp [tok, hc, hne, hc1, h1]
    simp only [htok, Run.ret_bind]
    obtain ⟨info, hr⟩ := ih rest m (i + 1 + 1) (info0 ||| Info.Escaped) (by omega) (by omega) hd2
    refine ⟨info, ?_⟩
    rw [hr]
    simp only [List.length_cons]
    have e : i + 1 + 1 + s.length + 1 = i + (s.length + 1 + 1) + 1 := by omega
    rw [e]
  | @uni a b c d s ha hb hc hd _ ih =>
    intro rest n i info0 h0 hf hdrop
    obtain ⟨m, rfl⟩ : ∃ m, n = m + 1 := ⟨n - 1, by omega⟩
    obtain ⟨r0, hd0⟩ := rd_of_drop hdrop
    obtain ⟨r1, hd1⟩ := rd_of_drop hd0
    obtain ⟨r2, hd2⟩ := rd_of_drop hd1
    obtain ⟨r3, hd3⟩ := rd_of_drop hd2
    obtain ⟨r4, hd4⟩ := rd_of_drop hd3
    obtain ⟨r5, hd5⟩ := rd_of_drop hd4
    have l1 := rd_lt r1
    have l2 := rd_lt r2
    have l3 := rd_lt r3
    have l4 := rd_lt r4
    have l5 := rd_lt r5
    have hl := @drop_le_length json (i + 1 + 1 + 1 + 1 + 1 + 1) (s ++ [34])
      rest (by simpa using hd5) (by simp)
    simp only [List.length_append, List.length_singleton] at hl
    rw [vstringLoop_succ, scanRes_tok r0 (by decide) (by decide)]
    have hne : ¬ (i + 1 = json.length) := by omega
    have xa := (ishex_iff a).mpr ha
    have xb := (ishex_iff b).mpr hb
    have xc := (ishex_iff c).mpr hc
    have xd := (ishex_iff d).mpr hd
    have hhex : hex4 json 4 (i + 1) = Run.ret (i + 1 + 1 + 1 + 1 + 1, true) := by
      have g1 : ¬ (i + 1 + 1 ≥ json.length) := by omega
      have g2 : ¬ (i + 1 + 1 + 1 ≥ json.length) := by omega
      have g3 : ¬ (i + 1 + 1 + 1 + 1 ≥ json.length) := by omega
      have g4 : ¬ (i + 1 + 1 + 1 + 1 + 1 ≥ json.length) := by omega
      simp only [hex4, g1, g2, g3, g4, if_false, r2, r3, r4, r5, Run.ret_bind, xa, xb, xc, xd,
        Bool.not_true, Bool.false_eq_true, Run.pure_eq]
    have htok : tok json i info0 =
        Run.ret (Tok.more (i + 1 + 1 + 1 + 1 + 1 + 1) (info0 ||| Info.Escaped)) := by
      simp [tok, r0, hne, r1, hhex]
    simp only [htok, Run.ret_bind]
    obtain ⟨info, hr⟩ := ih rest m (i + 1 + 1 + 1 + 1 + 1 + 1) (info0 ||| Info.Escaped) (by omega)
      (by omega) hd5
    refine ⟨info, ?_⟩
    rw [hr]
    simp only [List.length_cons]
    have e : i + 1 + 1 + 1 + 1 + 1 + 1 + s.length + 1 =
        i + (s.length + 1 + 1 + 1 + 1 + 1 + 1) + 1 := by omega
    rw [e]

end pjson
namespace pjson

/-! ## The string scanner as called -/

theorem vstring_spec (json : List UInt8) {i : Nat} (hi : i ≤ json.length) :
    ∃ j info ok, vstring json i = Run.ret (j, info, ok, !ok) ∧ i ≤ j ∧ j ≤ json.length ∧
      (92 ∈ slice json i j → info = Info.Escaped) ∧ (92 ∉ slice json i j → info = 0) ∧
      (ok = true → i < j ∧ rd json (j - 1) = Run.ret 34 ∧ JChars (slice json i (j - 1))) := by
  obtain ⟨j, info, ok, h1, h2, h3, h4, h5, h6⟩ :=
    vstringLoop_spec unroll json (json.length + 1) i 0 (by omega) (by omega) hi
  refine ⟨j, info, ok, h1, h2, h3, ?_, h5, h6⟩
  intro hm
  rw [h4 hm]
  exact Nat.zero_or _

theorem vstring_complete (json : List UInt8) {body rest : List Nat} {i : Nat} (hb : JChars body)
    (hd : (vals json).drop i = body ++ 34 :: rest) :
    ∃ info, vstring json i = Run.ret (i + body.length + 1, info, true, false) :=
  vstringLoop_complete unroll json hb rest (json.length + 1) i 0 (by omega) (by omega) hd

/-- A string token: from the opening quote at `i`, a successful scan ends after a string -/
theorem vstring_JString {json : List UInt8} {i j info : Nat} {ok : Bool}
    (hq : rd json i = Run.ret 34) (h : vstring json (i + 1) = Run.ret (j, info, ok, false)) :
    ok = true ∧ i + 2 ≤ j ∧ j ≤ json.length ∧ JString (slice json i j) ∧
      (info = 0 ∨ info = Info.Escaped) := by
  obtain ⟨j1, info1, ok1, h1, h2, h3, h4, h5, h6⟩ := vstring_spec json (Nat.succ_le_of_lt (rd_lt hq))
  rw [h1] at h
  simp only [Run.ret.injEq, Prod.mk.injEq] at h
  obtain ⟨rfl, rfl, rfl, hk⟩ := h
  have hok : ok1 = true := by cases ok1 <;> simp_all
  subst hok
  obtain ⟨f1, f2, f3⟩ := h6 rfl
  refine ⟨rfl, by omega, h3, ?_, ?_⟩
  · refine ⟨slice json (i + 1) (j1 - 1), f3, ?_⟩
    have e : j1 = j1 - 1 + 1 := by omega
    rw [slice_cons hq (by omega)]
    conv_lhs => rw [e]
    rw [slice_snoc f2 (by omega)]
    rfl
  · by_cases hm : 92 ∈ slice json (i + 1) j1
    · exact Or.inr (h4 hm)
    · exact Or.inl (h5 hm)

/-! ## The literal matchers -/

theorem pack3 {a b c : Nat} (ha : a < 256) (hb : b < 256) :
    a ||| b <<< 8 ||| c <<< 16 = a + 256 * b + 65536 * c := by
  have h1 : a ||| b <<< 8 = 256 * b + a := by
    rw [Nat.or_comm, Nat.shiftLeft_eq, Nat.mul_comm]
    exact (Nat.mul_add_lt_is_or (i := 8) (by omega) b).symm
  rw [h1, Nat.or_comm, Nat.shiftLeft_eq, Nat.mul_comm]
  have h2 := (Nat.mul_add_lt_is_or (i := 16) (b := 256 * b + a) (by omega) c).symm
  rw [h2]
  omega

theorem pack4 {a b c d : Nat} (ha : a < 256) (hb : b < 256) (hc : c < 256) :
    a ||| b <<< 8 ||| c <<< 16 ||| d <<< 24 = a + 256 * b + 65536 * c + 16777216 * d := by
  rw [pack3 ha hb, Nat.or_comm, Nat.shiftLeft_eq, Nat.mul_comm]
  have h2 := (Nat.mul_add_lt_is_or (i := 24) (b := a + 256 * b + 65536 * c) (by omega) d).symm
  rw [h2]
  omega

/-- The three-byte matchers `vtrue` and `vnull` for the bytes `x y z` -/
theorem lit3_spec (json : List UInt8) (i x y z : Nat) (hx : x < 256) (hy : y < 256) (hz : z < 256) :
    (if i + 3 ≤ json.length then (do
        let a ← rd json i
        let b ← rd json (i + 1)
        let c ← rd json (i + 2)
        if a ||| b <<< 8 ||| c <<< 16 = x + 256 * y + 65536 * z then pure (i + 3, true, false)
        else pure (i, false, true))
      else pure (i, false, true) : Run (Nat × Bool × Bool)) =
    Run.ret (if (vals json).drop i = x :: y :: z :: (vals json).drop (i + 3) ∧ i + 3 ≤ json.length
      then (i + 3, true, false) else (i, false, true)) := by
  by_cases h : i + 3 ≤ json.length
  · obtain ⟨a, ha⟩ := rd_total (show i < json.length by omega)
    obtain ⟨b, hb⟩ := rd_total (show i + 1 < json.length by omega)
    obtain ⟨c, hc⟩ := rd_total (show i + 2 < json.length by omega)
    have hd : (vals json).drop i = a :: b :: c :: (vals json).drop (i + 3) := by
      rw [drop_of_rd ha, drop_of_rd hb, drop_of_rd hc]
    simp only [h, if_true, ha, hb, hc, Run.ret_bind, hd, and_true, List.cons.injEq]
    rw [pack3 (rd_byte ha) (rd_byte hb)]
    have ba := rd_byte ha
    have bb := rd_byte hb
    have bc := rd_byte hc
    by_cases e : a = x ∧ b = y ∧ c = z
    · obtain ⟨rfl, rfl, rfl⟩ := e
      simp
    · have e2 : ¬ (a + 256 * b + 65536 * c = x + 256 * y + 65536 * z) := by omega
      simp only [e2, if_false, Run.pure_eq]
      simp [e]
  · simp [h]

theorem vtrue_eq (json : List UInt8) (i : Nat) : vtrue json i =
    Run.ret (if (vals json).drop i = 114 :: 117 :: 101 :: (vals json).drop (i + 3) ∧
      i + 3 ≤ json.length then (i + 3, true, false) else (i, false, true)) :=
  lit3_spec json i 114 117 101 (by decide) (by decide) (by decide)

theorem vnull_eq (json : List UInt8) (i : Nat) : vnull json i =
    Run.ret (if (vals json).drop i = 117 :: 108 :: 108 :: (vals json).drop (i + 3) ∧
      i + 3 ≤ json.length then (i + 3, true, false) else (i, false, true)) :=
  lit3_spec json i 117 108 108 (by decide) (by decide) (by decide)

theorem vfalse_eq (json : List UInt8) (i : Nat) : vfalse json i =
    Run.ret (if (vals json).drop i = 97 :: 108 :: 115 :: 101 :: (vals json).drop (i + 4) ∧
      i + 4 ≤ json.length then (i + 4, true, false) else (i, false, true)) := by
  unfold vfalse
  by_cases h : i + 4 ≤ json.length
  · obtain ⟨a, ha⟩ := rd_total (show i < json.length by omega)
    obtain ⟨b, hb⟩ := rd_total (show i + 1 < json.length by omega)
    obtain ⟨c, hc⟩ := rd_total (show i + 2 < json.length by omega)
    obtain ⟨d, hd⟩ := rd_total (show i + 3 < json.length by omega)
    have hdr : (vals json).drop i = a :: b :: c :: d :: (vals json).drop (i + 4) := by
      rw [drop_of_rd ha, drop_of_rd hb, drop_of_rd hc, drop_of_rd hd]
    simp only [h, if_true, ha, hb, hc, hd, Run.ret_bind, hdr, and_true, List.cons.injEq]
    rw [pack4 (rd_byte ha) (rd_byte hb) (rd_byte hc)]
    have ba := rd_byte ha
    have bb := rd_byte hb
    have bc := rd_byte hc
    have bd := rd_byte hd
    by_cases e : a = 97 ∧ b = 108 ∧ c = 115 ∧ d = 101
    · obtain ⟨rfl, rfl, rfl, rfl⟩ := e
      simp
    · have e2 : ¬ (a + 256 * b + 65536 * c + 16777216 * d = 1702063201) := by omega
      simp only [e2, if_false, Run.pure_eq]
      simp [e]
  · simp [h]

end pjson
namespace pjson

/-! ## The number scanner -/

theorem digitsEnd_ge (json : List UInt8) (i : Nat) : i ≤ digitsEnd json i := findFrom_ge _ json i

theorem digitsEnd_le (json : List UInt8) {i : Nat} (h : i ≤ json.length) :
    digitsEnd json i ≤ json.length := findFrom_le _ json h

theorem digitsEnd_slice (json : List UInt8) (i : Nat) : AllDigits (slice json i (digitsEnd json i)) := by
  intro c hc
  have := slice_findFrom_all (fun c => !isnum c) json i c hc
  exact (isnum_iff c).mp (by simpa using this)

theorem digitsEnd_step {json : List UInt8} {i c : Nat} (h : rd json i = Run.ret c)
    (hn : isnum c = true) : digitsEnd json i = digitsEnd json (i + 1) :=
  findFrom_step h (by simp [hn])

theorem digitsEnd_of_drop {json : List UInt8} {i : Nat} {ds t : List Nat}
    (h : (vals json).drop i = ds ++ t) (hds : AllDigits ds) (ht : ∀ c ∈ t.head?, isnum c = false) :
    digitsEnd json i = i + ds.length :=
  findFrom_of_drop h (fun c hc => by simp [(isnum_iff c).mpr (hds c hc)])
    (fun c hc => by simp [ht c hc])

theorem flag_nil (x : Nat) : flag [] x = 0 := rfl

theorem flag_cons (c : Nat) (s : List Nat) (x : Nat) : flag (c :: s) x = x := rfl

theorem digits_run (json : List UInt8) (i : Nat) :
    digits json (json.length + 1) i = Run.ret (digitsEnd json i) :=
  digits_eq json (json.length + 1) i (Nat.succ_pos _) (by omega)

theorem vnumberExp_spec {json : List UInt8} {i c : Nat} (info : Nat) (hc : rd json i = Run.ret c) :
    ∃ j info1 ok, vnumberExp json i info = Run.ret (j, info1, ok, !ok) ∧ i ≤ j ∧ j ≤ json.length ∧
      (ok = true → JExp (slice json i j) ∧ info1 = info ||| flag (slice json i j) Info.E) := by
  have hlt := rd_lt hc
  by_cases he : c = 101 ∨ c = 69
  · by_cases h1 : i + 1 = json.length
    · refine ⟨i + 1, info ||| Info.E, false, ?_, by omega, by omega, fun h => by cases h⟩
      simp only [vnumberExp, hc, Run.ret_bind, if_pos he, if_pos h1, Run.pure_eq, Bool.not_false]
    · obtain ⟨s, hs⟩ := rd_total (show i + 1 < json.length by omega)
      by_cases hsg : s = 43 ∨ s = 45
      · by_cases h2 : i + 1 + 1 = json.length
        · refine ⟨i + 1 + 1, info ||| Info.E, false, ?_, by omega, by omega, fun h => by cases h⟩
          simp only [vnumberExp, hc, Run.ret_bind, if_pos he, if_neg h1, hs, if_pos hsg, if_pos h2,
            Run.pure_eq, Bool.not_false]
        · obtain ⟨d, hd⟩ := rd_total (show i + 1 + 1 < json.length by omega)
          cases hn : isnum d
          · refine ⟨i + 1 + 1, info ||| Info.E, false, ?_, by omega, by omega, fun h => by cases h⟩
            simp only [vnumberExp, hc, Run.ret_bind, if_pos he, if_neg h1, hs, if_pos hsg,
              if_neg h2, hd, hn, Bool.not_false, if_true, Run.pure_eq]
          · have hge := digitsEnd_ge json (i + 1 + 1 + 1)
            have hle := digitsEnd_le json (show i + 1 + 1 + 1 ≤ json.length by omega)
            refine ⟨digitsEnd json (i + 1 + 1 + 1), info ||| Info.E, true, ?_, by omega, hle, ?_⟩
            · simp only [vnumberExp, hc, Run.ret_bind, if_pos he, if_neg h1, hs, if_pos hsg,
                if_neg h2, hd, hn, Bool.not_true, Bool.false_eq_true, if_false, digits_run,
                Run.pure_eq]
            · intro _
              have e : slice json i (digitsEnd json (i + 1 + 1 + 1)) =
                  c :: [s] ++ (d :: slice json (i + 1 + 1 + 1) (digitsEnd json (i + 1 + 1 + 1))) := by
                rw [slice_cons hc (by omega), slice_cons hs (by omega), slice_cons hd (by omega)]
                rfl
              rw [e]
              refine ⟨Or.inr ⟨c, [s], _, he, ?_, by simp, ?_, rfl⟩, by simp [flag]⟩
              · rcases hsg with rfl | rfl
                · exact Or.inr (Or.inl rfl)
                · exact Or.inr (Or.inr rfl)
              · intro x hx
                rcases List.mem_cons.mp hx with rfl | hx
                · exact (isnum_iff _).mp hn
                · exact digitsEnd_slice json _ x hx
      · cases hn : isnum s
        · refine ⟨i + 1, info ||| Info.E, false, ?_, by omega, by omega, fun h => by cases h⟩
          simp only [vnumberExp, hc, Run.ret_bind, if_pos he, if_neg h1, hs, if_neg hsg, hn,
            Bool.not_false, if_true, Run.pure_eq]
        · have hge := digitsEnd_ge json (i + 1 + 1)
          have hle := digitsEnd_le json (show i + 1 + 1 ≤ json.length by omega)
          refine ⟨digitsEnd json (i + 1 + 1), info ||| Info.E, true, ?_, by omega, hle, ?_⟩
          · simp only [vnumberExp, hc, Run.ret_bind, if_pos he, if_neg h1, hs, if_neg hsg, hn,
              Bool.not_true, Bool.false_eq_true, if_false, digits_run, Run.pure_eq]
          · intro _
            have e : slice json i (digitsEnd json (i + 1 + 1)) =
                c :: [] ++ (s :: slice json (i + 1 + 1) (digitsEnd json (i + 1 + 1))) := by
              rw [slice_cons hc (by omega), slice_cons hs (by omega)]
              rfl
            rw [e]
            refine ⟨Or.inr ⟨c, [], _, he, Or.inl rfl, by simp, ?_, rfl⟩, by simp [flag]⟩
            intro x hx
            rcases List.mem_cons.mp hx with rfl | hx
            · exact (isnum_iff _).mp hn
            · exact digitsEnd_slice json _ x hx
  · refine ⟨i, info, true, ?_, Nat.le_refl _, by omega, ?_⟩
    · simp only [vnumberExp, hc, Run.ret_bind, if_neg he, Run.pure_eq, Bool.not_true]
    · intro _
      rw [slice_self]
      exact ⟨Or.inl rfl, by simp [flag_nil]⟩

theorem vnumberFrac_spec {json : List UInt8} {i c : Nat} (info : Nat) (hc : rd json i = Run.ret c) :
    ∃ j info1 ok, vnumberFrac json i info = Run.ret (j, info1, ok, !ok) ∧ i ≤ j ∧ j ≤ json.length ∧
      (ok = true → ∃ m, i ≤ m ∧ m ≤ j ∧ JFrac (slice json i m) ∧ JExp (slice json m j) ∧
        info1 = info ||| flag (slice json i m) Info.Dot ||| flag (slice json m j) Info.E) := by
  have hlt := rd_lt hc
  have hne : ¬ (i = json.length) := by omega
  by_cases hdot : c = 46
  · by_cases h1 : i + 1 = json.length
    · refine ⟨i + 1, info ||| Info.Dot, false, ?_, by omega, by omega, fun h => by cases h⟩
      simp only [vnumberFrac, hc, Run.ret_bind, if_pos hdot, if_pos h1, Run.pure_eq, Bool.not_false]
    · obtain ⟨d, hd⟩ := rd_total (show i + 1 < json.length by omega)
      cases hn : isnum d
      · refine ⟨i + 1, info ||| Info.Dot, false, ?_, by omega, by omega, fun h => by cases h⟩
        simp only [vnumberFrac, hc, Run.ret_bind, if_pos hdot, if_neg h1, hd, hn, Bool.not_false,
          if_true, Run.pure_eq]
      · have hge := digitsEnd_ge json (i + 1 + 1)
        have hle := digitsEnd_le json (show i + 1 + 1 ≤ json.length by omega)
        have hfrac : JFrac (slice json i (digitsEnd json (i + 1 + 1))) ∧
            flag (slice json i (digitsEnd json (i + 1 + 1))) Info.Dot = Info.Dot := by
          rw [slice_cons hc (by omega), slice_cons hd (by omega), hdot]
          refine ⟨Or.inr ⟨_, by simp, ?_, rfl⟩, flag_cons _ _ _⟩
          intro x hx
          rcases List.mem_cons.mp hx with rfl | hx
          · exact (isnum_iff _).mp hn
          · exact digitsEnd_slice json _ x hx
        by_cases hend : digitsEnd json (i + 1 + 1) = json.length
        · refine ⟨digitsEnd json (i + 1 + 1), info ||| Info.Dot, true, ?_, by omega, hle, ?_⟩
          · simp only [vnumberFrac, hc, Run.ret_bind, if_pos hdot, if_neg h1, hd, hn, Bool.not_true,
              Bool.false_eq_true, if_false, digits_run, if_pos hend, Run.pure_eq]
          · intro _
            refine ⟨digitsEnd json (i + 1 + 1), by omega, Nat.le_refl _, hfrac.1, ?_, ?_⟩
            · rw [slice_self]; exact Or.inl rfl
            · rw [slice_self, flag_nil, hfrac.2, Nat.or_zero]
        · obtain ⟨e, he⟩ := rd_total (show digitsEnd json (i + 1 + 1) < json.length by omega)
          obtain ⟨j, info1, ok, f1, f2, f3, f4⟩ := vnumberExp_spec (info ||| Info.Dot) he
          refine ⟨j, info1, ok, ?_, by omega, f3, ?_⟩
          · simp only [vnumberFrac, hc, Run.ret_bind, if_pos hdot, if_neg h1, hd, hn, Bool.not_true,
              Bool.false_eq_true, if_false, digits_run, if_neg hend, f1]
          · intro hok
            obtain ⟨g1, g2⟩ := f4 hok
            refine ⟨digitsEnd json (i + 1 + 1), by omega, f2, hfrac.1, g1, ?_⟩
            rw [g2, hfrac.2]
  · obtain ⟨j, info1, ok, f1, f2, f3, f4⟩ := vnumberExp_spec info hc
    refine ⟨j, info1, ok, ?_, f2, f3, ?_⟩
    · simp only [vnumberFrac, hc, Run.ret_bind, if_neg hdot, if_neg hne, f1]
    · intro hok
      obtain ⟨g1, g2⟩ := f4 hok
      refine ⟨i, Nat.le_refl _, f2, ?_, g1, ?_⟩
      · rw [slice_self]; exact Or.inl rfl
      · rw [g2, slice_self, flag_nil, Nat.or_zero]

theorem vnumberInt_unfold {json : List UInt8} {i c : Nat} (info : Nat) (hc : rd json i = Run.ret c) :
    vnumberInt json i info =
      if (if c = 48 then i + 1 else digitsEnd json i) = json.length then
        Run.ret ((if c = 48 then i + 1 else digitsEnd json i), info, true, false)
      else vnumberFrac json (if c = 48 then i + 1 else digitsEnd json i) info := by
  by_cases h0 : c = 48
  · simp only [vnumberInt, hc, Run.ret_bind, if_pos h0, Run.pure_eq]
  · simp only [vnumberInt, hc, Run.ret_bind, if_neg h0, digits_run, Run.pure_eq]

theorem vnumberInt_spec {json : List UInt8} {i c : Nat} (info : Nat) (hc : rd json i = Run.ret c)
    (hn : isnum c = true) :
    ∃ j info1 ok, vnumberInt json i info = Run.ret (j, info1, ok, !ok) ∧ i < j ∧ j ≤ json.length ∧
      (ok = true → ∃ m1 m2, i < m1 ∧ m1 ≤ m2 ∧ m2 ≤ j ∧ JInt (slice json i m1) ∧
        JFrac (slice json m1 m2) ∧ JExp (slice json m2 j) ∧
        info1 = info ||| flag (slice json m1 m2) Info.Dot ||| flag (slice json m2 j) Info.E) := by
  have hlt := rd_lt hc
  -- the end of the integer part
  obtain ⟨j0, hj0, hlo, hhi, hint⟩ : ∃ j0,
      vnumberInt json i info = (if j0 = json.length then Run.ret (j0, info, true, false)
        else vnumberFrac json j0 info) ∧
      i < j0 ∧ j0 ≤ json.length ∧ JInt (slice json i j0) := by
    by_cases h0 : c = 48
    · refine ⟨i + 1, ?_, by omega, by omega, ?_⟩
      · simp only [vnumberInt, hc, Run.ret_bind, if_pos h0, Run.pure_eq]
      · rw [slice_one hc, h0]
        exact Or.inl rfl
    · have hs := digitsEnd_step hc hn
      have hge := digitsEnd_ge json (i + 1)
      have hle := digitsEnd_le json (show i + 1 ≤ json.length by omega)
      refine ⟨digitsEnd json i, ?_, by omega, by omega, ?_⟩
      · simp only [vnumberInt, hc, Run.ret_bind, if_neg h0, digits_run, Run.pure_eq]
      · rw [slice_cons hc (by omega), hs]
        have hd := (isnum_iff c).mp hn
        unfold IsDigit at hd
        exact Or.inr ⟨c, _, by omega, hd.2, digitsEnd_slice json _, rfl⟩
  by_cases hend : j0 = json.length
  · refine ⟨j0, info, true, ?_, hlo, hhi, ?_⟩
    · rw [hj0, if_pos hend]; rfl
    · intro _
      refine ⟨j0, j0, hlo, Nat.le_refl _, Nat.le_refl _, hint, ?_, ?_, ?_⟩
      · rw [slice_self]; exact Or.inl rfl
      · rw [slice_self]; exact Or.inl rfl
      · rw [slice_self, flag_nil, flag_nil, Nat.or_zero, Nat.or_zero]
  · obtain ⟨e, he⟩ := rd_total (show j0 < json.length by omega)
    obtain ⟨j, info1, ok, f1, f2, f3, f4⟩ := vnumberFrac_spec info he
    refine ⟨j, info1, ok, ?_, by omega, f3, ?_⟩
    · rw [hj0, if_neg hend, f1]
    · intro hok
      obtain ⟨m, g1, g2, g3, g4, g5⟩ := f4 hok
      exact ⟨j0, m, hlo, g1, g2, hint, g3, g4, g5⟩

/-- The number scanner, called on a minus sign or digit at `i`: it returns, the
cursor moves on inside the buffer, and on success the bytes passed are a number
whose parts are recorded in the info -/
theorem vnumber_spec {json : List UInt8} {i c : Nat} (hc : rd json i = Run.ret c)
    (hcn : c = 45 ∨ isnum c = true) :
    ∃ j info ok, vnumber json (i + 1) = Run.ret (j, info, ok, !ok) ∧ i < j ∧ j ≤ json.length ∧
      (ok = true → ∃ sign int frac exp, slice json i j = sign ++ int ++ frac ++ exp ∧
        (sign = [] ∨ sign = [45]) ∧ JInt int ∧ JFrac frac ∧ JExp exp ∧
        info = flag sign Info.Sign ||| flag frac Info.Dot ||| flag exp Info.E) := by
  have hlt := rd_lt hc
  by_cases hm : c = 45
  · by_cases h1 : i + 1 = json.length
    · refine ⟨i + 1, Info.Sign, false, ?_, by omega, by omega, fun h => by cases h⟩
      simp only [vnumber, hc, Run.ret_bind, if_pos hm, if_pos h1, Run.pure_eq, Bool.not_false]
    · obtain ⟨d, hd⟩ := rd_total (show i + 1 < json.length by omega)
      cases hn : isnum d
      · refine ⟨i + 1, Info.Sign, false, ?_, by omega, by omega, fun h => by cases h⟩
        simp only [vnumber, hc, Run.ret_bind, if_pos hm, if_neg h1, hd, hn, Bool.not_false,
          if_true, Run.pure_eq]
      · obtain ⟨j, info1, ok, f1, f2, f3, f4⟩ := vnumberInt_spec Info.Sign hd hn
        refine ⟨j, info1, ok, ?_, by omega, f3, ?_⟩
        · simp only [vnumber, hc, Run.ret_bind, if_pos hm, if_neg h1, hd, hn, Bool.not_true,
            Bool.false_eq_true, if_false, f1]
        · intro hok
          obtain ⟨m1, m2, g1, g2, g3, g4, g5, g6, g7⟩ := f4 hok
          refine ⟨[45], _, _, _, ?_, Or.inr rfl, g4, g5, g6, ?_⟩
          · rw [slice_cons hc (by omega), hm,
              ← slice_append json (show i + 1 ≤ m2 by omega) g3,
              ← slice_append json (show i + 1 ≤ m1 by omega) g2]
            simp
          · rw [g7, flag_cons]
  · have hn : isnum c = true := by
      rcases hcn with h | h
      · exact absurd h hm
      · exact h
    obtain ⟨j, info1, ok, f1, f2, f3, f4⟩ := vnumberInt_spec 0 hc hn
    refine ⟨j, info1, ok, ?_, f2, f3, ?_⟩
    · simp only [vnumber, hc, Run.ret_bind, if_neg hm, f1]
    · intro hok
      obtain ⟨m1, m2, g1, g2, g3, g4, g5, g6, g7⟩ := f4 hok
      refine ⟨[], _, _, _, ?_, Or.inl rfl, g4, g5, g6, ?_⟩
      · rw [← slice_append json (show i ≤ m2 by omega) g3,
          ← slice_append json (show i ≤ m1 by omega) g2]
        simp
      · rw [g7, flag_nil]

end pjson
namespace pjson

/-! ## Completeness of the number scanner -/

theorem delim_cases {rest : List Nat} (h : Delim rest) :
    ∀ c ∈ rest.head?, isnum c = false ∧ c ≠ 46 ∧ c ≠ 101 ∧ c ≠ 69 ∧ c ≠ 45 ∧ c ≠ 43 := by
  intro c hc
  have h1 := h c hc
  have hw : isws c = true → c = 32 ∨ c = 9 ∨ c = 10 ∨ c = 13 := fun hw => (isws_iff c).mp hw
  have hn : isnum c = false ↔ ¬ (48 ≤ c ∧ c ≤ 57) := by
    unfold isnum; simp
  rw [hn]
  rcases h1 with h1 | h1 | h1 | h1
  · have := hw h1; omega
  · omega
  · omega
  · omega

theorem vnumberExp_complete {json : List UInt8} {i : Nat} {exp rest : List Nat} (info : Nat)
    (hd : (vals json).drop i = exp ++ rest) (hexp : JExp exp) (hrest : Delim rest)
    (hlt : i < json.length) :
    ∃ info1, vnumberExp json i info = Run.ret (i + exp.length, info1, true, false) := by
  rcases hexp with rfl | ⟨e, sg, ds, he, hsg, hds, hall, rfl⟩
  · obtain ⟨c, hc⟩ := rd_total hlt
    have hdr := drop_of_rd hc
    rw [hd] at hdr
    simp only [List.nil_append] at hdr
    have hcase := delim_cases hrest c (by rw [hdr]; simp)
    have hne : ¬ (c = 101 ∨ c = 69) := by omega
    exact ⟨info, by simp only [vnumberExp, hc, Run.ret_bind, if_neg hne, Run.pure_eq,
      List.length_nil, Nat.add_zero]⟩
  · obtain ⟨d, ds1, rfl⟩ : ∃ d ds1, ds = d :: ds1 := by
      cases ds with
      | nil => exact absurd rfl hds
      | cons d ds1 => exact ⟨d, ds1, rfl⟩
    have hdd : isnum d = true := (isnum_iff d).mpr (hall d (by simp))
    have hd1 : AllDigits ds1 := fun c hc => hall c (by simp [hc])
    have hrd : ∀ c ∈ rest.head?, isnum c = false := fun c hc => (delim_cases hrest c hc).1
    obtain ⟨r0, d0⟩ := rd_of_drop (show (vals json).drop i = e :: (sg ++ d :: ds1 ++ rest) by
      rw [hd]; simp)
    rcases hsg with rfl | hsg
    · obtain ⟨r1, d1⟩ := rd_of_drop (show (vals json).drop (i + 1) = d :: (ds1 ++ rest) by
        rw [d0]; simp)
      have l1 := rd_lt r1
      have hnd : ¬ (d = 43 ∨ d = 45) := by
        have := (isnum_iff d).mp hdd
        unfold IsDigit at this
        omega
      have hend := digitsEnd_of_drop d1 hd1 hrd
      refine ⟨info ||| Info.E, ?_⟩
      simp only [vnumberExp, r0, Run.ret_bind, if_pos he, if_neg (show ¬ (i + 1 = json.length) by omega),
        r1, if_neg hnd, hdd, Bool.not_true, Bool.false_eq_true, if_false, digits_run, hend,
        Run.pure_eq, Run.ret.injEq, Prod.mk.injEq, and_true]
      simp only [List.length_cons, List.length_append, List.length_nil]
      omega
    · obtain ⟨s, rfl, hs⟩ : ∃ s, sg = [s] ∧ (s = 43 ∨ s = 45) := by
        rcases hsg with rfl | rfl
        · exact ⟨43, rfl, Or.inl rfl⟩
        · exact ⟨45, rfl, Or.inr rfl⟩
      obtain ⟨r1, d1⟩ := rd_of_drop (show (vals json).drop (i + 1) = s :: (d :: ds1 ++ rest) by
        rw [d0]; simp)
      obtain ⟨r2, d2⟩ := rd_of_drop (show (vals json).drop (i + 1 + 1) = d :: (ds1 ++ rest) by
        rw [d1]; simp)
      have l1 := rd_lt r1
      have l2 := rd_lt r2
      have hend := digitsEnd_of_drop d2 hd1 hrd
      refine ⟨info ||| Info.E, ?_⟩
      simp only [vnumberExp, r0, Run.ret_bind, if_pos he, if_neg (show ¬ (i + 1 = json.length) by omega),
        r1, if_pos hs, if_neg (show ¬ (i + 1 + 1 = json.length) by omega), r2, hdd, Bool.not_true,
        Bool.false_eq_true, if_false, digits_run, hend, Run.pure_eq, Run.ret.injEq,
        Prod.mk.injEq, and_true]
      simp only [List.length_cons, List.length_append, List.length_nil]
      omega

theorem exp_head {exp rest : List Nat} (hexp : JExp exp) (hrest : Delim rest) :
    ∀ c ∈ (exp ++ rest).head?, isnum c = false ∧ c ≠ 46 := by
  intro c hc
  rcases hexp with rfl | ⟨e, sg, ds, he, _, _, _, rfl⟩
  · have := delim_cases hrest c (by simpa using hc)
    exact ⟨this.1, this.2.1⟩
  · simp only [List.cons_append, List.head?_cons, Option.mem_def, Option.some.injEq] at hc
    subst hc
    constructor
    · unfold isnum; rcases he with rfl | rfl <;> decide
    · omega

theorem vnumberFrac_complete {json : List UInt8} {i : Nat} {frac exp rest : List Nat} (info : Nat)
    (hd : (vals json).drop i = frac ++ exp ++ rest) (hfrac : JFrac frac) (hexp : JExp exp)
    (hrest : Delim rest) (hlt : i < json.length) :
    ∃ info1, vnumberFrac json i info =
      Run.ret (i + frac.length + exp.length, info1, true, false) := by
  have hne : ¬ (i = json.length) := by omega
  rcases hfrac with rfl | ⟨ds, hds, hall, rfl⟩
  · obtain ⟨c, hc⟩ := rd_total hlt
    have hdr := drop_of_rd hc
    rw [hd] at hdr
    simp only [List.nil_append] at hdr
    have hcase := exp_head hexp hrest c (by rw [hdr]; simp)
    obtain ⟨info1, h1⟩ := vnumberExp_complete info (by simpa using hd) hexp hrest hlt
    refine ⟨info1, ?_⟩
    simp only [vnumberFrac, hc, Run.ret_bind, if_neg hcase.2, if_neg hne, h1, List.length_nil,
      Nat.add_zero]
  · obtain ⟨d, ds1, rfl⟩ : ∃ d ds1, ds = d :: ds1 := by
      cases ds with
      | nil => exact absurd rfl hds
      | cons d ds1 => exact ⟨d, ds1, rfl⟩
    have hdd : isnum d = true := (isnum_iff d).mpr (hall d (by simp))
    have hd1 : AllDigits ds1 := fun c hc => hall c (by simp [hc])
    obtain ⟨r0, d0⟩ := rd_of_drop (show (vals json).drop i = 46 :: (d :: ds1 ++ (exp ++ rest)) by
      rw [hd]; simp)
    obtain ⟨r1, d1⟩ := rd_of_drop (show (vals json).drop (i + 1) = d :: (ds1 ++ (exp ++ rest)) by
      rw [d0]; simp)
    have l1 := rd_lt r1
    have hend := digitsEnd_of_drop d1 hd1 (fun c hc => (exp_head hexp hrest c hc).1)
    have hle := drop_add_of_drop d1
    rw [← hend] at hle
    by_cases hfin : digitsEnd json (i + 1 + 1) = json.length
    · have hnil : exp ++ rest = [] := by
        rw [← hle]
        exact drop_of_eob (by omega)
      have hexp0 : exp = [] := (List.append_eq_nil.mp hnil).1
      refine ⟨info ||| Info.Dot, ?_⟩
      simp only [vnumberFrac, r0, Run.ret_bind, if_true, if_neg (show ¬ (i + 1 = json.length) by omega),
        r1, hdd, Bool.not_true, Bool.false_eq_true, if_false, digits_run, if_pos hfin,
        Run.pure_eq, Run.ret.injEq, Prod.mk.injEq, and_true]
      rw [hend, hexp0]
      simp only [List.length_cons, List.length_nil]
      omega
    · have hl2 : digitsEnd json (i + 1 + 1) < json.length := by
        have := digitsEnd_le json (show i + 1 + 1 ≤ json.length by omega)
        omega
      obtain ⟨info1, h1⟩ := vnumberExp_complete (info ||| Info.Dot) hle hexp hrest hl2
      refine ⟨info1, ?_⟩
      simp only [vnumberFrac, r0, Run.ret_bind, if_true, if_neg (show ¬ (i + 1 = json.length) by omega),
        r1, hdd, Bool.not_true, Bool.false_eq_true, if_false, digits_run, if_neg hfin, h1,
        Run.ret.injEq, Prod.mk.injEq, and_true]
      rw [hend]
      simp only [List.length_cons]
      omega

theorem frac_head {frac exp rest : List Nat} (hfrac : JFrac frac) (hexp : JExp exp)
    (hrest : Delim rest) : ∀ c ∈ (frac ++ exp ++ rest).head?, isnum c = false := by
  intro c hc
  rcases hfrac with rfl | ⟨ds, _, _, rfl⟩
  · exact (exp_head hexp hrest c (by simpa using hc)).1
  · simp only [List.cons_append, List.head?_cons, Option.mem_def, Option.some.injEq] at hc
    subst hc
    decide

theorem vnumberInt_complete {json : List UInt8} {i : Nat} {int frac exp rest : List Nat}
    (info : Nat) (hd : (vals json).drop i = int ++ frac ++ exp ++ rest) (hint : JInt int)
    (hfrac : JFrac frac) (hexp : JExp exp) (hrest : Delim rest) :
    ∃ info1, vnumberInt json i info =
      Run.ret (i + int.length + frac.length + exp.length, info1, true, false) := by
  -- the end of the integer part
  obtain ⟨c, hc, hj0, hdj, hpos⟩ : ∃ c, rd json i = Run.ret c ∧
      (if c = 48 then i + 1 else digitsEnd json i) = i + int.length ∧
      (vals json).drop (i + int.length) = frac ++ exp ++ rest ∧ 0 < int.length := by
    rcases hint with rfl | ⟨d, ds, h1, h2, hall, rfl⟩
    · obtain ⟨r0, d0⟩ := rd_of_drop (show (vals json).drop i = 48 :: (frac ++ exp ++ rest) by
        rw [hd]; simp)
      exact ⟨48, r0, by simp, by simpa using d0, by simp⟩
    · obtain ⟨r0, d0⟩ := rd_of_drop (show (vals json).drop i = d :: (ds ++ (frac ++ exp ++ rest)) by
        rw [hd]; simp)
      have hall2 : AllDigits (d :: ds) := by
        intro x hx
        rcases List.mem_cons.mp hx with rfl | hx
        · exact ⟨by omega, h2⟩
        · exact hall x hx
      have hend := digitsEnd_of_drop (show (vals json).drop i = (d :: ds) ++ (frac ++ exp ++ rest) by
        rw [hd]; simp) hall2 (frac_head hfrac hexp hrest)
      refine ⟨d, r0, ?_, ?_, by simp⟩
      · simp only [if_neg (show ¬ (d = 48) by omega), hend]
      · have := drop_add_of_drop (show (vals json).drop i = (d :: ds) ++ (frac ++ exp ++ rest) by
          rw [hd]; simp)
        exact this
  rw [vnumberInt_unfold info hc, hj0]
  by_cases hfin : i + int.length = json.length
  · have hnil : frac ++ exp ++ rest = [] := by
      rw [← hdj]
      exact drop_of_eob (by omega)
    have h1 : frac = [] := by
      have := (List.append_eq_nil.mp hnil).1
      exact (List.append_eq_nil.mp this).1
    have h2 : exp = [] := by
      have := (List.append_eq_nil.mp hnil).1
      exact (List.append_eq_nil.mp this).2
    refine ⟨info, ?_⟩
    subst h1 h2
    simp only [if_pos hfin, List.length_nil, Nat.add_zero]
  · have hl : i + int.length < json.length := by
      by_contra hge
      have := @drop_of_eob json (i + int.length) hge
      rw [hdj] at this
      have hlen : ((vals json).drop i).length = (int ++ frac ++ exp ++ rest).length := by rw [hd]
      rw [List.length_drop, vals_length] at hlen
      simp only [List.length_append] at hlen
      omega
    obtain ⟨info1, h1⟩ := vnumberFrac_complete info hdj hfrac hexp hrest hl
    refine ⟨info1, ?_⟩
    simp only [if_neg hfin, h1]

/-- The number scanner accepts every number that is followed by the end of the
buffer, whitespace, a comma or a closing bracket -/
theorem vnumber_complete {json : List UInt8} {i : Nat} {num rest : List Nat}
    (hd : (vals json).drop i = num ++ rest) (hnum : JNumber num) (hrest : Delim rest) :
    ∃ info, vnumber json (i + 1) = Run.ret (i + num.length, info, true, false) := by
  obtain ⟨sign, int, frac, exp, hsign, hint, hfrac, hexp, rfl⟩ := hnum
  have hint1 : ∃ d t, int = d :: t ∧ isnum d = true ∧ d ≠ 45 := by
    rcases hint with rfl | ⟨d, ds, h1, h2, _, rfl⟩
    · exact ⟨48, [], rfl, by decide, by decide⟩
    · exact ⟨d, ds, rfl, (isnum_iff d).mpr ⟨by omega, h2⟩, by omega⟩
  obtain ⟨d, t, hdt, hdn, hd45⟩ := hint1
  rcases hsign with rfl | rfl
  · have hd0 : (vals json).drop i = int ++ frac ++ exp ++ rest := by rw [hd]; simp
    obtain ⟨r0, _⟩ := rd_of_drop (show (vals json).drop i = d :: (t ++ frac ++ exp ++ rest) by
      rw [hd0, hdt]; simp)
    obtain ⟨info1, h1⟩ := vnumberInt_complete 0 hd0 hint hfrac hexp hrest
    refine ⟨info1, ?_⟩
    simp only [vnumber, r0, Run.ret_bind, if_neg hd45, h1, Run.ret.injEq, Prod.mk.injEq, and_true]
    simp only [List.length_append, List.length_nil]
    omega
  · obtain ⟨r0, d0⟩ := rd_of_drop (show (vals json).drop i = 45 :: (int ++ frac ++ exp ++ rest) by
      rw [hd]; simp)
    obtain ⟨r1, _⟩ := rd_of_drop (show (vals json).drop (i + 1) = d :: (t ++ frac ++ exp ++ rest) by
      rw [d0, hdt]; simp)
    have l1 := rd_lt r1
    obtain ⟨info1, h1⟩ := vnumberInt_complete Info.Sign d0 hint hfrac hexp hrest
    refine ⟨info1, ?_⟩
    simp only [vnumber, r0, Run.ret_bind, if_true, if_neg (show ¬ (i + 1 = json.length) by omega),
      r1, hdn, Bool.not_true, Bool.false_eq_true, if_false, h1, Run.ret.injEq, Prod.mk.injEq,
      and_true]
    simp only [List.length_append, List.length_cons, List.length_nil]
    omega

end pjson
namespace pjson

/-! ## Strings, numbers and literals as values -/

theorem flag_cases (s : List Nat) (x : Nat) : flag s x = 0 ∨ flag s x = x := by
  cases s with
  | nil => exact Or.inl rfl
  | cons c s => exact Or.inr rfl

theorem slice_of_drop_eq {json : List UInt8} {i n : Nat} {x : List Nat}
    (h : (vals json).drop i = x ++ (vals json).drop (i + n)) (hn : x.length = n) :
    slice json i (i + n) = x := by
  rw [← hn]
  exact slice_eq_of_drop (hn ▸ h)

/-- What `vany` gets from the scanner of a string, number or literal that starts at `i` -/
theorem scalar_spec {json : List UInt8} {i c : Nat} {r : Run (Nat × Nat × Bool × Bool)}
    (hc : rd json i = Run.ret c) (hs : scalar json c i = some r) :
    ∃ j info ok, r = Run.ret (j, info, ok, !ok) ∧ i < j ∧ j ≤ json.length ∧
      (ok = true → ScalarInfo info ∧ Derives .value (slice json i j)) := by
  have hlt := rd_lt hc
  unfold scalar at hs
  by_cases h1 : c = 34
  · simp only [if_pos h1, Option.some.injEq] at hs
    subst hs
    obtain ⟨j, info, ok, f1, f2, f3, f4, f5, f6⟩ := vstring_spec json (show i + 1 ≤ json.length by omega)
    refine ⟨j, info ||| Info.String, ok, by simp only [f1, Run.ret_bind, Run.pure_eq], by omega, f3,
      ?_⟩
    intro hok
    constructor
    · by_cases hm : 92 ∈ slice json (i + 1) j
      · rw [f4 hm]; exact Or.inr (Or.inl rfl)
      · rw [f5 hm, Nat.zero_or]; exact Or.inl rfl
    · obtain ⟨g1, g2, g3⟩ := f6 hok
      refine Derives.str ⟨slice json (i + 1) (j - 1), g3, ?_⟩
      have e : j = j - 1 + 1 := by omega
      rw [slice_cons hc (by omega), h1]
      conv_lhs => rw [e]
      rw [slice_snoc g2 (by omega)]
      rfl
  · simp only [if_neg h1] at hs
    by_cases h2 : c = 123 ∨ c = 91
    · simp only [if_pos h2] at hs; cases hs
    · simp only [if_neg h2] at hs
      by_cases h3 : c = 45 ∨ isnum c = true
      · simp only [if_pos h3, Option.some.injEq] at hs
        subst hs
        obtain ⟨j, info, ok, f1, f2, f3, f4⟩ := vnumber_spec hc h3
        refine ⟨j, info ||| Info.Number, ok, by simp only [f1, Run.ret_bind, Run.pure_eq], f2, f3,
          ?_⟩
        intro hok
        obtain ⟨sign, int, frac, exp, g1, g2, g3, g4, g5, g⟩ := f4 hok
        constructor
        · right; right; right; right; right
          exact ⟨_, _, _, flag_cases sign _, flag_cases frac _, flag_cases exp _, by rw [g]⟩
        · exact Derives.num ⟨sign, int, frac, exp, g2, g3, g4, g5, g1⟩
      · simp only [if_neg h3] at hs
        by_cases h4 : c = 116
        · simp only [if_pos h4, Option.some.injEq] at hs
          subst hs
          rw [vtrue_eq]
          by_cases hm : (vals json).drop (i + 1) = 114 :: 117 :: 101 :: (vals json).drop (i + 1 + 3) ∧
              i + 1 + 3 ≤ json.length
          · refine ⟨i + 1 + 3, Info.True, true, by simp only [if_pos hm, Run.ret_bind, Run.pure_eq,
              Bool.not_true], by omega, hm.2, ?_⟩
            intro _
            refine ⟨Or.inr (Or.inr (Or.inl rfl)), ?_⟩
            have e : slice json i (i + 1 + 3) = [116, 114, 117, 101] := by
              rw [slice_cons hc (by omega), h4]
              congr 1
              exact slice_of_drop_eq hm.1 rfl
            rw [e]
            exact Derives.litTrue
          · exact ⟨i + 1, Info.True, false, by simp only [if_neg hm, Run.ret_bind, Run.pure_eq,
              Bool.not_false], by omega, by omega, fun h => by cases h⟩
        · simp only [if_neg h4] at hs
          by_cases h5 : c = 110
          · simp only [if_pos h5, Option.some.injEq] at hs
            subst hs
            rw [vnull_eq]
            by_cases hm : (vals json).drop (i + 1) = 117 :: 108 :: 108 :: (vals json).drop (i + 1 + 3) ∧
                i + 1 + 3 ≤ json.length
            · refine ⟨i + 1 + 3, Info.Null, true, by simp only [if_pos hm, Run.ret_bind, Run.pure_eq,
                Bool.not_true], by omega, hm.2, ?_⟩
              intro _
              refine ⟨Or.inr (Or.inr (Or.inr (Or.inr (Or.inl rfl)))), ?_⟩
              have e : slice json i (i + 1 + 3) = [110, 117, 108, 108] := by
                rw [slice_cons hc (by omega), h5]
                congr 1
                exact slice_of_drop_eq hm.1 rfl
              rw [e]
              exact Derives.litNull
            · exact ⟨i + 1, Info.Null, false, by simp only [if_neg hm, Run.ret_bind, Run.pure_eq,
                Bool.not_false], by omega, by omega, fun h => by cases h⟩
          · simp only [if_neg h5] at hs
            by_cases h6 : c = 102
            · simp only [if_pos h6, Option.some.injEq] at hs
              subst hs
              rw [vfalse_eq]
              by_cases hm : (vals json).drop (i + 1) =
                  97 :: 108 :: 115 :: 101 :: (vals json).drop (i + 1 + 4) ∧ i + 1 + 4 ≤ json.length
              · refine ⟨i + 1 + 4, Info.False, true, by simp only [if_pos hm, Run.ret_bind,
                  Run.pure_eq, Bool.not_true], by omega, hm.2, ?_⟩
                intro _
                refine ⟨Or.inr (Or.inr (Or.inr (Or.inl rfl))), ?_⟩
                have e : slice json i (i + 1 + 4) = [102, 97, 108, 115, 101] := by
                  rw [slice_cons hc (by omega), h6]
                  congr 1
                  exact slice_of_drop_eq hm.1 rfl
                rw [e]
                exact Derives.litFalse
              · exact ⟨i + 1, Info.False, false, by simp only [if_neg hm, Run.ret_bind, Run.pure_eq,
                  Bool.not_false], by omega, by omega, fun h => by cases h⟩
            · simp only [if_neg h6] at hs; cases hs

/-! ## The comma scanner for any closing byte -/

theorem vcommaLoop_spec (json : List UInt8) (e : Nat) : ∀ n i, 0 < n → json.length < n + i →
    ∃ j ok, vcommaLoop json e n i = Run.ret (j, ok, !ok) ∧ i ≤ j ∧
      (∀ c ∈ slice json i j, isws c = true) ∧
      (ok = true → j < json.length ∧ (rd json j = Run.ret 44 ∨ rd json j = Run.ret e)) ∧
      (i ≤ json.length → j ≤ json.length) := by
  intro n
  induction n with
  | zero => intro i h0; omega
  | succ n ih =>
    intro i _ h
    by_cases hlt : i < json.length
    · obtain ⟨c, hc⟩ := rd_total hlt
      by_cases h44 : c = 44
      · refine ⟨i, true, ?_, Nat.le_refl _, by simp [slice_self], fun _ => ⟨hlt, Or.inl (h44 ▸ hc)⟩,
          fun h => h⟩
        simp only [vcommaLoop, hlt, if_true, hc, Run.ret_bind, if_pos h44, Run.pure_eq, Bool.not_true]
      · by_cases he : c = e
        · refine ⟨i, true, ?_, Nat.le_refl _, by simp [slice_self], fun _ => ⟨hlt, Or.inr (he ▸ hc)⟩,
            fun h => h⟩
          simp only [vcommaLoop, hlt, if_true, hc, Run.ret_bind, if_neg h44, if_pos he, Run.pure_eq,
            Bool.not_true]
        · cases hw : isws c
          · refine ⟨i, false, ?_, Nat.le_refl _, by simp [slice_self], (fun h => by cases h),
              fun h => h⟩
            simp only [vcommaLoop, hlt, if_true, hc, Run.ret_bind, if_neg h44, if_neg he, hw,
              Bool.false_eq_true, if_false, Run.pure_eq, Bool.not_false]
          · obtain ⟨j, ok, f1, f2, f3, f4, f5⟩ := ih (i + 1) (by omega) (by omega)
            refine ⟨j, ok, ?_, by omega, ?_, f4, fun _ => f5 (by omega)⟩
            · simp only [vcommaLoop, hlt, if_true, hc, Run.ret_bind, if_neg h44, if_neg he, hw, f1]
            · intro x hx
              rw [slice_cons hc (by omega)] at hx
              rcases List.mem_cons.mp hx with rfl | hx
              · exact hw
              · exact f3 x hx
    · refine ⟨i, false, ?_, Nat.le_refl _, by simp [slice_self], (fun h => by cases h), fun h => h⟩
      simp only [vcommaLoop, hlt, if_false, Run.pure_eq, Bool.not_false]

theorem vcomma_spec (json : List UInt8) (i e : Nat) :
    ∃ j ok, vcomma json i e = Run.ret (j, ok, !ok) ∧ i ≤ j ∧
      (∀ c ∈ slice json i j, isws c = true) ∧
      (ok = true → j < json.length ∧ (rd json j = Run.ret 44 ∨ rd json j = Run.ret e)) ∧
      (i ≤ json.length → j ≤ json.length) :=
  vcommaLoop_spec json e (json.length + 1) i (by omega) (by omega)

theorem vcolon_spec (json : List UInt8) (i : Nat) :
    ∃ j ok, vcolon json i = Run.ret (j, ok, !ok) ∧ i ≤ j ∧ (i ≤ json.length → j ≤ json.length) ∧
      (ok = true → i < j ∧ rd json (j - 1) = Run.ret 58 ∧
        ∀ c ∈ slice json i (j - 1), isws c = true) := by
  rw [vcolon_eq]
  have hge := skipWs_ge json i
  unfold colonRes
  by_cases h : rd json (skipWs json i) = Run.ret 58
  · have hlt := rd_lt h
    refine ⟨skipWs json i + 1, true, by simp only [if_pos h, Bool.not_true], by omega,
      fun _ => by omega, fun _ => ⟨by omega, by simpa using h, ?_⟩⟩
    simpa using skipWs_slice json i
  · exact ⟨skipWs json i, false, by simp only [if_neg h, Bool.not_false], hge,
      fun hi => skipWs_le json hi, fun h => by cases h⟩

end pjson
namespace pjson

/-! ## Cursor bounds of the big-step relation -/

theorem scalar_bounds {json : List UInt8} {i c j info : Nat} {ok stop : Bool}
    (hc : rd json i = Run.ret c) (hs : scalar json c i = some (Run.ret (j, info, ok, stop))) :
    stop = (!ok) ∧ i < j ∧ j ≤ json.length := by
  obtain ⟨j1, info1, ok1, h1, h2, h3, _⟩ := scalar_spec hc hs
  simp only [Run.ret.injEq, Prod.mk.injEq] at h1
  obtain ⟨rfl, rfl, rfl, rfl⟩ := h1
  exact ⟨rfl, h2, h3⟩

theorem vanyTail_i (mark i info d : Nat) (ok stop : Bool) (f : Option vfn) (log : List Event) :
    (vanyTail mark i info d ok stop f log).i = i := by
  unfold vanyTail
  split
  · rfl
  · simp only
    split <;> rfl

theorem vanyTail_stop {mark i info d : Nat} {ok : Bool} {f : Option vfn} {log : List Event} :
    vanyTail mark i info d ok true f log = ⟨i, ok, true, log⟩ := by
  simp [vanyTail]

theorem vanyTail_zero {mark i info d : Nat} {ok : Bool} {f : Option vfn} {log : List Event}
    (hr : (fire f log ⟨mark, i, info ||| tailInfo f d⟩).1 = 0) :
    vanyTail mark i info d ok false f log =
      ⟨i, true, true, (fire f log ⟨mark, i, info ||| tailInfo f d⟩).2⟩ := by
  simp [vanyTail, hr]

theorem vanyTail_nonzero {mark i info d : Nat} {ok : Bool} {f : Option vfn} {log : List Event}
    (hr : (fire f log ⟨mark, i, info ||| tailInfo f d⟩).1 ≠ 0) :
    vanyTail mark i info d ok false f log =
      ⟨i, ok, false, (fire f log ⟨mark, i, info ||| tailInfo f d⟩).2⟩ := by
  simp [vanyTail, hr]

theorem vanyTail_go {mark i info d : Nat} {ok stop : Bool} {f : Option vfn} {log : List Event}
    (h : (vanyTail mark i info d ok stop f log).stop = false) :
    stop = false ∧ (vanyTail mark i info d ok stop f log).ok = ok ∧
      (fire f log ⟨mark, i, info ||| tailInfo f d⟩).1 ≠ 0 ∧
      (vanyTail mark i info d ok stop f log).log = (fire f log ⟨mark, i, info ||| tailInfo f d⟩).2 := by
  cases stop
  · by_cases hr : (fire f log ⟨mark, i, info ||| tailInfo f d⟩).1 = 0
    · rw [vanyTail_zero hr] at h; cases h
    · rw [vanyTail_nonzero hr]
      exact ⟨rfl, rfl, hr, rfl⟩
  · rw [vanyTail_stop] at h; cases h

theorem vanyClose_i (kind d : Nat) (s : St) (f : Option vfn) : (vanyClose kind d s f).i = s.i := by
  unfold vanyClose
  split
  · rfl
  · simp only
    split <;> rfl

theorem vanyClose_stop {kind d : Nat} {s : St} {f : Option vfn} (hs : s.stop = true) :
    vanyClose kind d s f = s := by
  simp [vanyClose, hs]

theorem vanyClose_zero {kind d : Nat} {s : St} {f : Option vfn} (hs : s.stop = false)
    (hr : (fire f s.log ⟨s.i - 1, s.i, kind ||| Info.Close ||| closeInfo f d⟩).1 = 0) :
    vanyClose kind d s f =
      ⟨s.i, true, true, (fire f s.log ⟨s.i - 1, s.i, kind ||| Info.Close ||| closeInfo f d⟩).2⟩ := by
  simp [vanyClose, hs, hr]

theorem vanyClose_nonzero {kind d : Nat} {s : St} {f : Option vfn} (hs : s.stop = false)
    (hr : (fire f s.log ⟨s.i - 1, s.i, kind ||| Info.Close ||| closeInfo f d⟩).1 ≠ 0) :
    vanyClose kind d s f =
      ⟨s.i, true, false, (fire f s.log ⟨s.i - 1, s.i, kind ||| Info.Close ||| closeInfo f d⟩).2⟩ := by
  simp [vanyClose, hs, hr]

theorem vanyClose_go {kind d : Nat} {s : St} {f : Option vfn}
    (h : (vanyClose kind d s f).stop = false) : s.stop = false ∧ (vanyClose kind d s f).ok = true ∧
      (fire f s.log ⟨s.i - 1, s.i, kind ||| Info.Close ||| closeInfo f d⟩).1 ≠ 0 ∧
      (vanyClose kind d s f).log =
        (fire f s.log ⟨s.i - 1, s.i, kind ||| Info.Close ||| closeInfo f d⟩).2 := by
  cases hs : s.stop
  · by_cases hr : (fire f s.log ⟨s.i - 1, s.i, kind ||| Info.Close ||| closeInfo f d⟩).1 = 0
    · rw [vanyClose_zero hs hr] at h; cases h
    · rw [vanyClose_nonzero hs hr]
      exact ⟨rfl, rfl, hr, rfl⟩
  · rw [vanyClose_stop hs, hs] at h; cases h

@[simp] theorem afterComma_pos (e i : Nat) : (afterComma e i).pos = i := by
  unfold afterComma; split <;> rfl

theorem afterComma_inb {json : List UInt8} {e i : Nat} (h : i ≤ json.length) :
    (afterComma e i).inb json := by
  unfold afterComma; split <;> exact h

theorem inb_pos {json : List UInt8} {c : Call} (h : c.inb json) : c.pos ≤ json.length := by
  cases c <;> simp only [Call.inb, Call.pos] at h ⊢ <;> omega

theorem vstring_bounds {json : List UInt8} {i j info : Nat} {ok stop : Bool}
    (hi : i < json.length) (h : vstring json (i + 1) = Run.ret (j, info, ok, stop)) :
    stop = (!ok) ∧ i + 1 ≤ j ∧ j ≤ json.length ∧ (ok = true → i + 2 ≤ j) := by
  obtain ⟨j1, info1, ok1, h1, h2, h3, _, _, h4⟩ := vstring_spec json (i := i + 1) hi
  rw [h1] at h
  simp only [Run.ret.injEq, Prod.mk.injEq] at h
  obtain ⟨rfl, rfl, rfl, rfl⟩ := h
  exact ⟨rfl, h2, h3, fun hok => by have := (h4 hok).1; omega⟩

theorem vcolon_bounds {json : List UInt8} {i j : Nat} {ok stop : Bool}
    (hi : i ≤ json.length) (h : vcolon json i = Run.ret (j, ok, stop)) :
    stop = (!ok) ∧ i ≤ j ∧ j ≤ json.length ∧ (ok = true → i < j) := by
  obtain ⟨j1, ok1, h1, h2, h3, h4⟩ := vcolon_spec json i
  rw [h1] at h
  simp only [Run.ret.injEq, Prod.mk.injEq] at h
  obtain ⟨rfl, rfl, rfl⟩ := h
  exact ⟨rfl, h2, h3 hi, fun hok => (h4 hok).1⟩

theorem vcomma_bounds {json : List UInt8} {i e j : Nat} {ok stop : Bool}
    (hi : i ≤ json.length) (h : vcomma json i e = Run.ret (j, ok, stop)) :
    stop = (!ok) ∧ i ≤ j ∧ j ≤ json.length ∧ (ok = true → j < json.length) := by
  obtain ⟨j1, ok1, h1, h2, _, h4, h5⟩ := vcomma_spec json i e
  rw [h1] at h
  simp only [Run.ret.injEq, Prod.mk.injEq] at h
  obtain ⟨rfl, rfl, rfl⟩ := h
  exact ⟨rfl, h2, h5 hi, fun hok => (h4 hok).1⟩

/-- The cursor never moves back, it ends at most one byte past the buffer, and when
the scan goes on (no stop) it made progress inside the buffer and is ok -/
theorem exec_bounds {json : List UInt8} {c : Call} {f : Option vfn} {log : List Event} {s : St}
    (h : Exec json c f log s) : c.inb json →
    c.pos ≤ s.i ∧ s.i ≤ json.length + 1 ∧
      (s.stop = false → s.ok = true ∧ c.pos < s.i ∧ s.i ≤ json.length) := by
  induction h with
  | any_eob h | obj_eob h | next_eob h | arr_eob h =>
    intro h0; simp only [Call.inb, Call.pos] at h0 ⊢
    exact ⟨Nat.le_refl _, by omega, fun h => by cases h⟩
  | any_ws hc hw _ ih | obj_ws hc hw _ ih | next_ws hc hw _ ih | arr_ws hc hw _ ih
  | elems_ws hc hw _ ih =>
    intro h0
    have hlt := rd_lt hc
    have := ih (by simp only [Call.inb, Call.pos]; omega)
    simp only [Call.pos] at this ⊢
    exact ⟨by omega, this.2.1, fun h => ⟨(this.2.2 h).1, by have := (this.2.2 h).2.1; omega,
      (this.2.2 h).2.2⟩⟩
  | any_scalar hc hw hs =>
    intro _
    obtain ⟨h1, h2, h3⟩ := scalar_bounds hc hs
    simp only [Call.pos, vanyTail_i]
    refine ⟨by omega, by omega, fun h => ?_⟩
    obtain ⟨g1, g2, _, _⟩ := vanyTail_go h
    subst g1
    rw [g2]
    refine ⟨?_, h2, h3⟩
    revert h1; cases ‹Bool› <;> simp
  | any_bad hc _ _ _ _ | obj_bad hc _ _ _ | next_bad hc _ _ =>
    intro h0; simp only [Call.inb, Call.pos] at h0 ⊢
    exact ⟨Nat.le_refl _, by omega, fun h => by cases h⟩
  | any_obj_stop hc _ | any_arr_stop hc _ =>
    intro h0; simp only [Call.inb, Call.pos] at h0 ⊢
    exact ⟨Nat.le_refl _, by omega, fun h => by cases h⟩
  | any_obj hc _ _ ih | any_arr hc _ _ ih =>
    intro _
    have hlt := rd_lt hc
    have := ih (by simp only [Call.inb, Call.pos]; omega)
    simp only [Call.pos, vanyClose_i] at this ⊢
    refine ⟨by omega, this.2.1, fun h => ?_⟩
    obtain ⟨g1, g2, _, _⟩ := vanyClose_go h
    have := this.2.2 g1
    exact ⟨g2, by omega, this.2.2⟩
  | obj_close hc | arr_close hc =>
    intro _
    have hlt := rd_lt hc
    simp only [Call.pos]
    exact ⟨by omega, by omega, fun _ => ⟨by trivial, by omega, by omega⟩⟩
  | obj_key hc _ ih | next_key hc _ ih =>
    intro _
    exact ih (rd_lt hc)
  | key_fail hv | key_stop hv _ =>
    intro h0
    simp only [Call.inb, Call.pos] at h0
    obtain ⟨_, h2, h3, _⟩ := vstring_bounds h0 hv
    simp only [Call.pos]
    exact ⟨by omega, by omega, fun h => by cases h⟩
  | key_go hv _ _ ih =>
    intro h0
    simp only [Call.inb, Call.pos] at h0
    obtain ⟨_, h2, h3, _⟩ := vstring_bounds h0 hv
    have := ih h3
    simp only [Call.pos] at this ⊢
    exact ⟨by omega, this.2.1, fun h => ⟨(this.2.2 h).1, by have := (this.2.2 h).2.1; omega,
      (this.2.2 h).2.2⟩⟩
  | colon_fail hv | colon_stop hv _ =>
    intro h0
    simp only [Call.inb, Call.pos] at h0
    obtain ⟨_, h2, h3, _⟩ := vcolon_bounds h0 hv
    simp only [Call.pos]
    exact ⟨by omega, by omega, fun h => by cases h⟩
  | colon_go hv _ _ ih =>
    intro h0
    simp only [Call.inb, Call.pos] at h0
    obtain ⟨_, h2, h3, _⟩ := vcolon_bounds h0 hv
    have := ih h3
    simp only [Call.pos] at this ⊢
    exact ⟨by omega, this.2.1, fun h => ⟨(this.2.2 h).1, by have := (this.2.2 h).2.1; omega,
      (this.2.2 h).2.2⟩⟩
  | member_stop _ hs ih =>
    intro h0
    have := ih h0
    simp only [Call.pos] at this ⊢
    exact ⟨this.1, this.2.1, fun h => by rw [hs] at h; cases h⟩
  | member_go _ hs _ ih1 ih2 =>
    intro h0
    have h1 := ih1 h0
    simp only [Call.inb, Call.pos] at h0
    have h1' := h1.2.2 hs
    have := ih2 h1'.2.2
    simp only [Call.pos] at this h1 h1' ⊢
    exact ⟨by omega, this.2.1, fun h => ⟨(this.2.2 h).1, by have := (this.2.2 h).2.1; omega,
      (this.2.2 h).2.2⟩⟩
  | sep_fail hv | sep_stop hv _ _ _ =>
    intro h0
    simp only [Call.inb, Call.pos] at h0
    obtain ⟨_, h2, h3, _⟩ := vcomma_bounds h0 hv
    simp only [Call.pos]
    exact ⟨by omega, by omega, fun h => by cases h⟩
  | sep_close hv hc =>
    intro h0
    simp only [Call.inb, Call.pos] at h0
    obtain ⟨_, h2, h3, _⟩ := vcomma_bounds h0 hv
    have := rd_lt hc
    simp only [Call.pos]
    exact ⟨by omega, by omega, fun _ => ⟨by trivial, by omega, by omega⟩⟩
  | sep_go hv hc _ _ _ ih =>
    intro h0
    simp only [Call.inb, Call.pos] at h0
    obtain ⟨_, h2, h3, _⟩ := vcomma_bounds h0 hv
    have hlt := rd_lt hc
    have := ih (afterComma_inb hlt)
    rw [afterComma_pos] at this
    simp only [Call.pos] at this ⊢
    exact ⟨by omega, this.2.1, fun h => ⟨(this.2.2 h).1, by have := (this.2.2 h).2.1; omega,
      (this.2.2 h).2.2⟩⟩
  | arr_elems hc _ _ _ ih =>
    intro h0
    exact ih h0
  | elems_eob h =>
    intro h0; simp only [Call.inb, Call.pos] at h0 ⊢
    exact ⟨by omega, by omega, fun h => by cases h⟩
  | elems_go hc _ _ ih =>
    intro h0
    exact ih h0

end pjson
namespace pjson

/-! ## The budget is enough: the relation determines what the code returns -/

theorem afterComma_fits {json : List UInt8} {n e i : Nat} (h : 3 * json.length + 2 ≤ n + 3 * i) :
    fits json n (afterComma e i) := by
  unfold afterComma; split <;> simp only [fits, Call.need, Call.pos] <;> omega

theorem run_afterComma (json : List UInt8) (n e i : Nat) (f : Option vfn) (log : List Event) :
    run json n (afterComma e i) f log =
      if e = 125 then vobjectNext json n i f log else varrayElems json n i f log := by
  unfold afterComma; split <;> rfl

theorem fits_pos {json : List UInt8} {n : Nat} {c : Call} (h : fits json n c) (hb : c.inb json) :
    ∃ m, n = m + 1 := by
  have hp := inb_pos hb
  have : 1 ≤ c.need := by cases c <;> simp [Call.need]
  unfold fits at h
  exact ⟨n - 1, by omega⟩

/-- On a budget that fits, the code at a program point returns the state that the
relation gives -/
theorem run_of_exec {json : List UInt8} {c : Call} {f : Option vfn} {log : List Event} {s : St}
    (h : Exec json c f log s) : ∀ n, fits json n c → c.inb json → run json n c f log = Run.ret s := by
  induction h with
  | any_eob h =>
    intro n hf hb; obtain ⟨m, rfl⟩ := fits_pos hf hb
    simp only [run, vany, h, if_false]; rfl
  | any_ws hc hw _ ih =>
    intro n hf hb; obtain ⟨m, rfl⟩ := fits_pos hf hb
    have hlt := rd_lt hc
    simp only [run, vany, hlt, if_true, hc, Run.ret_bind, hw]
    exact ih m (by simp only [fits, Call.need, Call.pos] at hf ⊢; omega) hlt
  | any_scalar hc hw hs =>
    intro n hf hb; obtain ⟨m, rfl⟩ := fits_pos hf hb
    simp only [run]
    rw [vany_scalar_eq hc hw hs]; rfl
  | any_bad hc hw h1 h2 hs =>
    intro n hf hb; obtain ⟨m, rfl⟩ := fits_pos hf hb
    simp only [run]
    exact vany_bad_eq hc hw h1 h2 hs
  | any_obj_stop hc hr =>
    intro n hf hb; obtain ⟨m, rfl⟩ := fits_pos hf hb
    have hlt := rd_lt hc
    have hw : isws 123 = false := by decide
    simp only [openEv] at hr ⊢
    simp only [run, vany, hlt, if_true, hc, Run.ret_bind, hw, Bool.false_eq_true, if_false,
      show ¬ ((123 : Nat) = 34) by decide, hr]
    rfl
  | any_obj hc hr _ ih =>
    intro n hf hb; obtain ⟨m, rfl⟩ := fits_pos hf hb
    have hlt := rd_lt hc
    have hw : isws 123 = false := by decide
    have := ih m (by simp only [fits, Call.need, Call.pos] at hf ⊢; omega) hlt
    simp only [openEv, run] at hr this ⊢
    simp only [vany, hlt, if_true, hc, Run.ret_bind, hw, Bool.false_eq_true, if_false,
      show ¬ ((123 : Nat) = 34) by decide, hr, this]
    rfl
  | any_arr_stop hc hr =>
    intro n hf hb; obtain ⟨m, rfl⟩ := fits_pos hf hb
    have hlt := rd_lt hc
    have hw : isws 91 = false := by decide
    simp only [openEv] at hr ⊢
    simp only [run, vany, hlt, if_true, hc, Run.ret_bind, hw, Bool.false_eq_true, if_false,
      show ¬ ((91 : Nat) = 34) by decide, show ¬ ((91 : Nat) = 123) by decide, hr]
    rfl
  | any_arr hc hr _ ih =>
    intro n hf hb; obtain ⟨m, rfl⟩ := fits_pos hf hb
    have hlt := rd_lt hc
    have hw : isws 91 = false := by decide
    have := ih m (by simp only [fits, Call.need, Call.pos] at hf ⊢; omega) hlt
    simp only [openEv, run] at hr this ⊢
    simp only [vany, hlt, if_true, hc, Run.ret_bind, hw, Bool.false_eq_true, if_false,
      show ¬ ((91 : Nat) = 34) by decide, show ¬ ((91 : Nat) = 123) by decide, hr, this]
    rfl
  | obj_eob h =>
    intro n hf hb; obtain ⟨m, rfl⟩ := fits_pos hf hb
    simp only [run, vobject, h, if_false]; rfl
  | obj_ws hc hw _ ih =>
    intro n hf hb; obtain ⟨m, rfl⟩ := fits_pos hf hb
    have hlt := rd_lt hc
    simp only [run, vobject, hlt, if_true, hc, Run.ret_bind, hw]
    exact ih m (by simp only [fits, Call.need, Call.pos] at hf ⊢; omega) hlt
  | obj_close hc =>
    intro n hf hb; obtain ⟨m, rfl⟩ := fits_pos hf hb
    have hlt := rd_lt hc
    have hw : isws 125 = false := by decide
    simp only [run, vobject, hlt, if_true, hc, Run.ret_bind, hw, Bool.false_eq_true, if_false]
    rfl
  | obj_key hc _ ih =>
    intro n hf hb; obtain ⟨m, rfl⟩ := fits_pos hf hb
    have hlt := rd_lt hc
    have hw : isws 34 = false := by decide
    simp only [run, vobject, hlt, if_true, hc, Run.ret_bind, hw, Bool.false_eq_true, if_false,
      show ¬ ((34 : Nat) = 125) by decide]
    exact ih m (by simp only [fits, Call.need, Call.pos] at hf ⊢; omega) hlt
  | obj_bad hc hw h1 h2 =>
    intro n hf hb; obtain ⟨m, rfl⟩ := fits_pos hf hb
    have hlt := rd_lt hc
    simp only [run, vobject, hlt, if_true, hc, Run.ret_bind, hw, Bool.false_eq_true, if_false,
      h1, h2]
    rfl
  | key_fail hv =>
    intro n hf hb; obtain ⟨m, rfl⟩ := fits_pos hf hb
    simp only [run]
    rw [vobjectKey_succ, hv]; rfl
  | key_stop hv hr =>
    intro n hf hb; obtain ⟨m, rfl⟩ := fits_pos hf hb
    simp only [run]
    rw [vobjectKey_succ, hv]
    simp only [Run.ret_bind, Bool.false_eq_true, if_false, hr, if_true]; rfl
  | key_go hv hr _ ih =>
    intro n hf hb; obtain ⟨m, rfl⟩ := fits_pos hf hb
    obtain ⟨_, h2, h3, _⟩ := vstring_bounds hb hv
    have := ih m (by simp only [fits, Call.need, Call.pos] at hf ⊢; omega) h3
    simp only [run] at this ⊢
    rw [vobjectKey_succ, hv]
    simp only [Run.ret_bind, Bool.false_eq_true, if_false, hr, this]
  | colon_fail hv =>
    intro n hf hb
    simp only [run, contColon, hv, Run.ret_bind, if_true]; rfl
  | colon_stop hv hr =>
    intro n hf hb
    simp only [run, contColon, hv, Run.ret_bind, Bool.false_eq_true, if_false, hr, if_true]; rfl
  | colon_go hv hr _ ih =>
    intro n hf hb
    have hb' := hb
    simp only [Call.inb, Call.pos] at hb'
    obtain ⟨_, h2, h3, _⟩ := vcolon_bounds hb' hv
    have := ih n (by simp only [fits, Call.need, Call.pos] at hf ⊢; omega) h3
    simp only [run] at this ⊢
    simp only [contColon, hv, Run.ret_bind, Bool.false_eq_true, if_false, hr, this]
  | member_stop _ hs ih =>
    intro n hf hb
    have := ih n (by simp only [fits, Call.need, Call.pos] at hf ⊢; omega) hb
    simp only [run] at this ⊢
    simp only [contMember, this, Run.ret_bind, hs, if_true]; rfl
  | member_go h1 hs _ ih1 ih2 =>
    intro n hf hb
    have hbd := (exec_bounds h1 hb).2.2 hs
    have := ih1 n (by simp only [fits, Call.need, Call.pos] at hf ⊢; omega) hb
    have h2 := ih2 n (by simp only [fits, Call.need, Call.pos] at hf hbd ⊢; omega) hbd.2.2
    simp only [run] at this h2 ⊢
    simp only [contMember, this, Run.ret_bind, hs, Bool.false_eq_true, if_false, h2]
  | sep_fail hv =>
    intro n hf hb
    simp only [run, contSep, hv, Run.ret_bind, if_true]; rfl
  | sep_close hv hc =>
    intro n hf hb
    simp only [run, contSep, hv, Run.ret_bind, Bool.false_eq_true, if_false, hc, if_true]; rfl
  | sep_stop hv hc hce hr =>
    intro n hf hb
    simp only [run, contSep, hv, Run.ret_bind, Bool.false_eq_true, if_false, hc, hce, hr, if_true]
    rfl
  | sep_go hv hc hce hr _ ih =>
    intro n hf hb
    have hb' := hb
    simp only [Call.inb, Call.pos] at hb'
    obtain ⟨_, h2, h3, _⟩ := vcomma_bounds hb' hv
    have hlt := rd_lt hc
    have := ih n (afterComma_fits (by simp only [fits, Call.need, Call.pos] at hf; omega))
      (afterComma_inb hlt)
    rw [run_afterComma] at this
    simp only [run, contSep, hv, Run.ret_bind, Bool.false_eq_true, if_false, hc, hce, hr, this]
  | next_eob h =>
    intro n hf hb; obtain ⟨m, rfl⟩ := fits_pos hf hb
    simp only [run, vobjectNext, h, if_false]; rfl
  | next_ws hc hw _ ih =>
    intro n hf hb; obtain ⟨m, rfl⟩ := fits_pos hf hb
    have hlt := rd_lt hc
    simp only [run, vobjectNext, hlt, if_true, hc, Run.ret_bind, hw]
    exact ih m (by simp only [fits, Call.need, Call.pos] at hf ⊢; omega) hlt
  | next_key hc _ ih =>
    intro n hf hb; obtain ⟨m, rfl⟩ := fits_pos hf hb
    have hlt := rd_lt hc
    have hw : isws 34 = false := by decide
    simp only [run, vobjectNext, hlt, if_true, hc, Run.ret_bind, hw, Bool.false_eq_true, if_false]
    exact ih m (by simp only [fits, Call.need, Call.pos] at hf ⊢; omega) hlt
  | next_bad hc hw h2 =>
    intro n hf hb; obtain ⟨m, rfl⟩ := fits_pos hf hb
    have hlt := rd_lt hc
    simp only [run, vobjectNext, hlt, if_true, hc, Run.ret_bind, hw, Bool.false_eq_true, if_false,
      h2]
    rfl
  | arr_eob h =>
    intro n hf hb; obtain ⟨m, rfl⟩ := fits_pos hf hb
    simp only [run, varray, h, if_false]; rfl
  | arr_ws hc hw _ ih =>
    intro n hf hb; obtain ⟨m, rfl⟩ := fits_pos hf hb
    have hlt := rd_lt hc
    simp only [run, varray, hlt, if_true, hc, Run.ret_bind, hw]
    exact ih m (by simp only [fits, Call.need, Call.pos] at hf ⊢; omega) hlt
  | arr_close hc =>
    intro n hf hb; obtain ⟨m, rfl⟩ := fits_pos hf hb
    have hlt := rd_lt hc
    have hw : isws 93 = false := by decide
    simp only [run, varray, hlt, if_true, hc, Run.ret_bind, hw, Bool.false_eq_true, if_false]
    rfl
  | arr_elems hc hw h1 _ ih =>
    intro n hf hb; obtain ⟨m, rfl⟩ := fits_pos hf hb
    have hlt := rd_lt hc
    simp only [run, varray, hlt, if_true, hc, Run.ret_bind, hw, Bool.false_eq_true, if_false, h1]
    exact ih m (by simp only [fits, Call.need, Call.pos] at hf ⊢; omega) hb
  | elems_eob h =>
    intro n hf hb; obtain ⟨m, rfl⟩ := fits_pos hf hb
    simp only [run]
    rw [varrayElems_succ]
    simp only [h, if_false]; rfl
  | elems_ws hc hw _ ih =>
    intro n hf hb; obtain ⟨m, rfl⟩ := fits_pos hf hb
    have hlt := rd_lt hc
    have := ih m (by simp only [fits, Call.need, Call.pos] at hf ⊢; omega) hlt
    simp only [run] at this ⊢
    rw [varrayElems_succ]
    simp only [hlt, if_true, hc, Run.ret_bind, hw, this]
  | elems_go hc hw _ ih =>
    intro n hf hb; obtain ⟨m, rfl⟩ := fits_pos hf hb
    have hlt := rd_lt hc
    have := ih m (by simp only [fits, Call.need, Call.pos] at hf ⊢; omega) hb
    simp only [run] at this ⊢
    rw [varrayElems_succ]
    simp only [hlt, if_true, hc, Run.ret_bind, hw, Bool.false_eq_true, if_false, this]

end pjson
namespace pjson

/-! ## Totality: the code at every program point returns -/

theorem afterComma_size {json : List UInt8} {e i m : Nat} (h : 4 * (json.length - i) + 3 ≤ m) :
    (afterComma e i).size json ≤ m := by
  unfold afterComma; split <;> simp only [Call.size, Call.pos, Call.rank] <;> omega

theorem exec_total_aux (json : List UInt8) : ∀ m (c : Call) (f : Option vfn) (log : List Event),
    c.size json ≤ m → c.inb json → ∃ s, Exec json c f log s := by
  intro m
  induction m with
  | zero =>
    intro c f log hm _
    exfalso
    cases c <;> simp [Call.size, Call.rank] at hm
  | succ m ih =>
    intro c f log hm hb
    cases c with
    | any i d =>
      simp only [Call.size, Call.pos, Call.rank, Call.inb] at hm hb
      by_cases hlt : i < json.length
      · obtain ⟨c, hc⟩ := rd_total hlt
        cases hw : isws c
        · rcases scalar_dec json c i with h1 | h1 | h1 | ⟨r, h1⟩
          · subst h1
            by_cases hr : (fire f log (openEv Info.Object i d)).1 = 0
            · exact ⟨_, Exec.any_obj_stop hc hr⟩
            · obtain ⟨s, hs⟩ := ih (.object (i + 1))
                (inner f (fire f log (openEv Info.Object i d)).1)
                (fire f log (openEv Info.Object i d)).2
                (by simp only [Call.size, Call.pos, Call.rank]; omega) hlt
              exact ⟨_, Exec.any_obj hc hr hs⟩
          · subst h1
            by_cases hr : (fire f log (openEv Info.Array i d)).1 = 0
            · exact ⟨_, Exec.any_arr_stop hc hr⟩
            · obtain ⟨s, hs⟩ := ih (.array (i + 1))
                (inner f (fire f log (openEv Info.Array i d)).1)
                (fire f log (openEv Info.Array i d)).2
                (by simp only [Call.size, Call.pos, Call.rank]; omega) hlt
              exact ⟨_, Exec.any_arr hc hr hs⟩
          · exact ⟨_, Exec.any_bad hc hw h1.1 h1.2.1 h1.2.2⟩
          · obtain ⟨j, info, ok, hr, _⟩ := scalar_spec hc h1
            subst hr
            exact ⟨_, Exec.any_scalar hc hw h1⟩
        · obtain ⟨s, hs⟩ := ih (.any (i + 1) d) f log
            (by simp only [Call.size, Call.pos, Call.rank]; omega) hlt
          exact ⟨s, Exec.any_ws hc hw hs⟩
      · exact ⟨_, Exec.any_eob hlt⟩
    | object i =>
      simp only [Call.size, Call.pos, Call.rank, Call.inb] at hm hb
      by_cases hlt : i < json.length
      · obtain ⟨c, hc⟩ := rd_total hlt
        cases hw : isws c
        · by_cases h1 : c = 125
          · subst h1; exact ⟨_, Exec.obj_close hc⟩
          · by_cases h2 : c = 34
            · subst h2
              obtain ⟨s, hs⟩ := ih (.key i) f log
                (by simp only [Call.size, Call.pos, Call.rank]; omega) hlt
              exact ⟨s, Exec.obj_key hc hs⟩
            · exact ⟨_, Exec.obj_bad hc hw h1 h2⟩
        · obtain ⟨s, hs⟩ := ih (.object (i + 1)) f log
            (by simp only [Call.size, Call.pos, Call.rank]; omega) hlt
          exact ⟨s, Exec.obj_ws hc hw hs⟩
      · exact ⟨_, Exec.obj_eob hlt⟩
    | key i =>
      simp only [Call.size, Call.pos, Call.rank, Call.inb] at hm hb
      obtain ⟨j, info, ok, hv, h2, h3, _⟩ := vstring_spec json (i := i + 1) hb
      cases ok
      · exact ⟨_, Exec.key_fail hv⟩
      · by_cases hr : (fire f log ⟨i, j, info ||| Info.Key ||| Info.String⟩).1 = 0
        · exact ⟨_, Exec.key_stop hv hr⟩
        · obtain ⟨s, hs⟩ := ih (.colon j) f (fire f log ⟨i, j, info ||| Info.Key ||| Info.String⟩).2
            (by simp only [Call.size, Call.pos, Call.rank]; omega) h3
          exact ⟨s, Exec.key_go hv hr hs⟩
    | colon i =>
      simp only [Call.size, Call.pos, Call.rank, Call.inb] at hm hb
      obtain ⟨j, ok, hv, h2, h3, h4⟩ := vcolon_spec json i
      cases ok
      · exact ⟨_, Exec.colon_fail hv⟩
      · by_cases hr : (fire f log ⟨j - 1, j, Info.Colon⟩).1 = 0
        · exact ⟨_, Exec.colon_stop hv hr⟩
        · have := (h4 rfl).1
          have := h3 hb
          obtain ⟨s, hs⟩ := ih (.member 125 j) f (fire f log ⟨j - 1, j, Info.Colon⟩).2
            (by simp only [Call.size, Call.pos, Call.rank]; omega) (h3 hb)
          exact ⟨s, Exec.colon_go hv hr hs⟩
    | member e i =>
      simp only [Call.size, Call.pos, Call.rank, Call.inb] at hm hb
      obtain ⟨s, hs⟩ := ih (.any i Info.Value) f log
        (by simp only [Call.size, Call.pos, Call.rank]; omega) hb
      cases hst : s.stop
      · have hbd := (exec_bounds hs hb).2.2 hst
        simp only [Call.pos] at hbd
        obtain ⟨t, ht⟩ := ih (.sep e s.i) f s.log
          (by simp only [Call.size, Call.pos, Call.rank]; omega) hbd.2.2
        exact ⟨t, Exec.member_go hs hst ht⟩
      · exact ⟨s, Exec.member_stop hs hst⟩
    | sep e i =>
      simp only [Call.size, Call.pos, Call.rank, Call.inb] at hm hb
      obtain ⟨j, ok, hv, h2, _, h4, h5⟩ := vcomma_spec json i e
      cases ok
      · exact ⟨_, Exec.sep_fail hv⟩
      · obtain ⟨hlt, hj⟩ := h4 rfl
        obtain ⟨c, hc⟩ := rd_total hlt
        by_cases hce : c = e
        · subst hce; exact ⟨_, Exec.sep_close hv hc⟩
        · by_cases hr : (fire f log ⟨j, j + 1, Info.Comma⟩).1 = 0
          · exact ⟨_, Exec.sep_stop hv hc hce hr⟩
          · obtain ⟨s, hs⟩ := ih (afterComma e (j + 1)) f (fire f log ⟨j, j + 1, Info.Comma⟩).2
              (afterComma_size (by omega)) (afterComma_inb hlt)
            exact ⟨s, Exec.sep_go hv hc hce hr hs⟩
    | next i =>
      simp only [Call.size, Call.pos, Call.rank, Call.inb] at hm hb
      by_cases hlt : i < json.length
      · obtain ⟨c, hc⟩ := rd_total hlt
        cases hw : isws c
        · by_cases h2 : c = 34
          · subst h2
            obtain ⟨s, hs⟩ := ih (.key i) f log
              (by simp only [Call.size, Call.pos, Call.rank]; omega) hlt
            exact ⟨s, Exec.next_key hc hs⟩
          · exact ⟨_, Exec.next_bad hc hw h2⟩
        · obtain ⟨s, hs⟩ := ih (.next (i + 1)) f log
            (by simp only [Call.size, Call.pos, Call.rank]; omega) hlt
          exact ⟨s, Exec.next_ws hc hw hs⟩
      · exact ⟨_, Exec.next_eob hlt⟩
    | array i =>
      simp only [Call.size, Call.pos, Call.rank, Call.inb] at hm hb
      by_cases hlt : i < json.length
      · obtain ⟨c, hc⟩ := rd_total hlt
        cases hw : isws c
        · by_cases h1 : c = 93
          · subst h1; exact ⟨_, Exec.arr_close hc⟩
          · obtain ⟨s, hs⟩ := ih (.elems i) f log
              (by simp only [Call.size, Call.pos, Call.rank]; omega) hb
            exact ⟨s, Exec.arr_elems hc hw h1 hs⟩
        · obtain ⟨s, hs⟩ := ih (.array (i + 1)) f log
            (by simp only [Call.size, Call.pos, Call.rank]; omega) hlt
          exact ⟨s, Exec.arr_ws hc hw hs⟩
      · exact ⟨_, Exec.arr_eob hlt⟩
    | elems i =>
      simp only [Call.size, Call.pos, Call.rank, Call.inb] at hm hb
      by_cases hlt : i < json.length
      · obtain ⟨c, hc⟩ := rd_total hlt
        cases hw : isws c
        · obtain ⟨s, hs⟩ := ih (.member 93 i) f log
            (by simp only [Call.size, Call.pos, Call.rank]; omega) hb
          exact ⟨s, Exec.elems_go hc hw hs⟩
        · obtain ⟨s, hs⟩ := ih (.elems (i + 1)) f log
            (by simp only [Call.size, Call.pos, Call.rank]; omega) hlt
          exact ⟨s, Exec.elems_ws hc hw hs⟩
      · exact ⟨_, Exec.elems_eob hlt⟩

/-- Every program point inside the buffer has an outcome in the relation -/
theorem exec_total (json : List UInt8) (c : Call) (f : Option vfn) (log : List Event)
    (hb : c.inb json) : ∃ s, Exec json c f log s :=
  exec_total_aux json _ c f log (Nat.le_refl _) hb

theorem fits_budget (json : List UInt8) (i d : Nat) : fits json (budget json) (.any i d) := by
  simp only [fits, budget, Call.need, Call.pos]; omega

/-- The outcome of `vdoc` in terms of the relation -/
theorem vdoc_eq {json : List UInt8} {f : Option vfn} {s : St}
    (h : Exec json (.any 0 Info.Start) f [] s) : vdoc json 0 f = Run.ret (finish json s) := by
  have h1 := run_of_exec h (budget json) (fits_budget json 0 _) (Nat.zero_le _)
  simp only [run] at h1
  simp only [vdoc, h1, Run.ret_bind, finish]
  cases hs : s.stop
  · simp only [Bool.false_eq_true, if_false]
    rw [vdocLoop_eq json _ s.i (by omega) (by omega)]
    rfl
  · simp

/-- The function `vdoc` always returns: the state is the one that the relation gives
for the value scanner at offset 0, finished by the trailing loop -/
theorem vdoc_total (json : List UInt8) (f : Option vfn) :
    ∃ s, Exec json (.any 0 Info.Start) f [] s ∧ vdoc json 0 f = Run.ret (finish json s) := by
  obtain ⟨s, hs⟩ := exec_total json (.any 0 Info.Start) f [] (Nat.zero_le _)
  exact ⟨s, hs, vdoc_eq hs⟩

theorem Parse_eq {json : List UInt8} {f : Option vfn} {s : St}
    (h : Exec json (.any 0 Info.Start) f [] s) :
    Parse json f = Run.ret (verdict (finish json s)) := by
  simp only [Parse, vdoc_eq h, Run.ret_bind]; rfl

theorem events_eq {json : List UInt8} {f : Option vfn} {s : St}
    (h : Exec json (.any 0 Info.Start) f [] s) : events json f = Run.ret s.log := by
  simp only [events, vdoc_eq h, Run.ret_bind, finish]
  cases hs : s.stop <;> simp

theorem finish_stop {json : List UInt8} {s : St} (h : s.stop = true) : finish json s = s := by
  simp [finish, h]

theorem finish_go {json : List UInt8} {s : St} (h : s.stop = false) :
    finish json s = ⟨(docRes json s.i).1, (docRes json s.i).2.1, (docRes json s.i).2.2, s.log⟩ := by
  simp [finish, h]

end pjson
namespace pjson

/-! ## A visitor that never answers 0 does not change the course of the scan -/

theorem vanyTail_none (mark i info d : Nat) (ok stop : Bool) (log : List Event) :
    vanyTail mark i info d ok stop none log = ⟨i, ok, stop, log⟩ := by
  cases stop <;> simp [vanyTail, fire]

theorem vanyClose_none (kind d : Nat) (s : St) :
    vanyClose kind d s none = if s.stop then s else ⟨s.i, true, false, s.log⟩ := by
  simp [vanyClose, fire]

theorem fire_none (log : List Event) (e : Event) : fire none log e = (1, log) := rfl

theorem fire_some (g : vfn) (log : List Event) (e : Event) :
    fire (some g) log e = (g log e, log ++ [e]) := rfl

theorem inner_none (r : Int) : inner none r = none := by
  unfold inner; split <;> rfl

theorem NonZero.fire_ne {f : Option vfn} (h : NonZero f) (log : List Event) (e : Event) :
    (fire f log e).1 ≠ 0 := by
  cases f with
  | none => simp [fire_none]
  | some g => exact h g rfl log e

theorem NonZero.of_inner {f : Option vfn} (h : NonZero f) (r : Int) : NonZero (inner f r) := by
  unfold pjson.inner
  split
  · intro g hg; cases hg
  · exact h

theorem nonZero_none : NonZero none := by
  intro g hg; cases hg

theorem vanyTail_quiet {f : Option vfn} (hf : NonZero f) (mark i info d : Nat) (ok stop : Bool)
    (log : List Event) :
    (vanyTail mark i info d ok stop f log).i = i ∧
    (vanyTail mark i info d ok stop f log).ok = ok ∧
    (vanyTail mark i info d ok stop f log).stop = stop := by
  cases stop
  · rw [vanyTail_nonzero (hf.fire_ne _ _)]; exact ⟨rfl, rfl, rfl⟩
  · rw [vanyTail_stop]; exact ⟨rfl, rfl, rfl⟩

theorem vanyClose_quiet {f : Option vfn} (hf : NonZero f) (kind d : Nat) (s : St) :
    (vanyClose kind d s f).i = s.i ∧
    (vanyClose kind d s f).ok = (if s.stop then s.ok else true) ∧
    (vanyClose kind d s f).stop = s.stop := by
  cases hs : s.stop
  · rw [vanyClose_nonzero hs (hf.fire_ne _ _)]; simp
  · rw [vanyClose_stop hs]; simp [hs]

/-- With a visitor that never answers 0 the cursor, the verdict and the stop flag
are those of the scan without a visitor -/
theorem exec_quiet {json : List UInt8} {c : Call} {f : Option vfn} {log : List Event} {s : St}
    (h : Exec json c f log s) : NonZero f → ∀ log', Exec json c none log' ⟨s.i, s.ok, s.stop, log'⟩ := by
  induction h with
  | any_eob h => intro _ _; exact Exec.any_eob h
  | any_ws hc hw _ ih => intro hf l; exact Exec.any_ws hc hw (ih hf l)
  | any_scalar hc hw hs =>
    intro hf l
    obtain ⟨h1, h2, h3⟩ := vanyTail_quiet hf _ _ _ _ _ _ _
    rw [h1, h2, h3, ← vanyTail_none]
    exact Exec.any_scalar hc hw hs
  | any_bad hc hw h1 h2 hs => intro _ _; exact Exec.any_bad hc hw h1 h2 hs
  | any_obj_stop hc hr => intro hf _; exact absurd hr (hf.fire_ne _ _)
  | @any_obj i d f log s hc hr _ ih =>
    intro hf l
    have h0 := ih (hf.of_inner _) l
    obtain ⟨h1, h2, h3⟩ := vanyClose_quiet hf Info.Object d s
    rw [h1, h2, h3]
    have := @Exec.any_obj json i d none l _ hc (by simp [fire_none])
      (by rw [inner_none]; exact h0)
    rw [vanyClose_none] at this
    cases hs : s.stop <;> simpa [hs] using this
  | any_arr_stop hc hr => intro hf _; exact absurd hr (hf.fire_ne _ _)
  | @any_arr i d f log s hc hr _ ih =>
    intro hf l
    have h0 := ih (hf.of_inner _) l
    obtain ⟨h1, h2, h3⟩ := vanyClose_quiet hf Info.Array d s
    rw [h1, h2, h3]
    have := @Exec.any_arr json i d none l _ hc (by simp [fire_none])
      (by rw [inner_none]; exact h0)
    rw [vanyClose_none] at this
    cases hs : s.stop <;> simpa [hs] using this
  | obj_eob h => intro _ _; exact Exec.obj_eob h
  | obj_ws hc hw _ ih => intro hf l; exact Exec.obj_ws hc hw (ih hf l)
  | obj_close hc => intro _ _; exact Exec.obj_close hc
  | obj_key hc _ ih => intro hf l; exact Exec.obj_key hc (ih hf l)
  | obj_bad hc hw h1 h2 => intro _ _; exact Exec.obj_bad hc hw h1 h2
  | key_fail hv => intro _ _; exact Exec.key_fail hv
  | key_stop hv hr => intro hf _; exact absurd hr (hf.fire_ne _ _)
  | key_go hv hr _ ih => intro hf l; exact Exec.key_go hv (by simp [fire_none]) (ih hf l)
  | colon_fail hv => intro _ _; exact Exec.colon_fail hv
  | colon_stop hv hr => intro hf _; exact absurd hr (hf.fire_ne _ _)
  | colon_go hv hr _ ih => intro hf l; exact Exec.colon_go hv (by simp [fire_none]) (ih hf l)
  | member_stop _ hs ih => intro hf l; exact Exec.member_stop (ih hf l) hs
  | member_go _ hs _ ih1 ih2 => intro hf l; exact Exec.member_go (ih1 hf l) hs (ih2 hf l)
  | sep_fail hv => intro _ _; exact Exec.sep_fail hv
  | sep_close hv hc => intro _ _; exact Exec.sep_close hv hc
  | sep_stop hv hc hce hr => intro hf _; exact absurd hr (hf.fire_ne _ _)
  | sep_go hv hc hce hr _ ih =>
    intro hf l; exact Exec.sep_go hv hc hce (by simp [fire_none]) (ih hf l)
  | next_eob h => intro _ _; exact Exec.next_eob h
  | next_ws hc hw _ ih => intro hf l; exact Exec.next_ws hc hw (ih hf l)
  | next_key hc _ ih => intro hf l; exact Exec.next_key hc (ih hf l)
  | next_bad hc hw h2 => intro _ _; exact Exec.next_bad hc hw h2
  | arr_eob h => intro _ _; exact Exec.arr_eob h
  | arr_ws hc hw _ ih => intro hf l; exact Exec.arr_ws hc hw (ih hf l)
  | arr_close hc => intro _ _; exact Exec.arr_close hc
  | arr_elems hc hw h1 _ ih => intro hf l; exact Exec.arr_elems hc hw h1 (ih hf l)
  | elems_eob h => intro _ _; exact Exec.elems_eob h
  | elems_ws hc hw _ ih => intro hf l; exact Exec.elems_ws hc hw (ih hf l)
  | elems_go hc hw _ ih => intro hf l; exact Exec.elems_go hc hw (ih hf l)

/-- The result of `Parse` with a visitor that never answers 0 is the result without a visitor -/
theorem Parse_quiet (json : List UInt8) (f : Option vfn) (hf : NonZero f) :
    Parse json f = Parse json none := by
  obtain ⟨s, hs, _⟩ := vdoc_total json f
  have h2 := exec_quiet hs hf []
  rw [Parse_eq hs, Parse_eq h2]
  obtain ⟨i, ok, stop, lg⟩ := s
  cases stop <;> rfl

end pjson
namespace pjson

/-! ## The events that a scan delivers -/

theorem vstring_flags {json : List UInt8} {i j info : Nat} {ok stop : Bool}
    (h : vstring json i = Run.ret (j, info, ok, stop)) :
    stop = (!ok) ∧ (info = 0 ∨ info = Info.Escaped) := by
  by_cases hi : i ≤ json.length
  · obtain ⟨j1, info1, ok1, h1, _, _, h4, h5, _⟩ := vstring_spec json hi
    rw [h1] at h
    simp only [Run.ret.injEq, Prod.mk.injEq] at h
    obtain ⟨rfl, rfl, rfl, rfl⟩ := h
    refine ⟨rfl, ?_⟩
    by_cases hm : 92 ∈ slice json i j1
    · exact Or.inr (h4 hm)
    · exact Or.inl (h5 hm)
  · have hs : scanRes json i = Scan.fall i := by
      unfold scanRes tokAt
      rw [findFrom_eob (by omega), rd_panic (by omega)]
      simp only [if_neg (show ¬ i < json.length by omega)]
      simp
    unfold vstring vstringWith at h
    rw [vstringLoop_succ, hs] at h
    simp only [Run.ret.injEq, Prod.mk.injEq] at h
    obtain ⟨rfl, rfl, rfl, rfl⟩ := h
    exact ⟨rfl, Or.inl rfl⟩

theorem Ext.refl (P : Event → Prop) (log : List Event) : Ext P log log :=
  ⟨[], by simp, by simp⟩

theorem Ext.trans {P : Event → Prop} {a b c : List Event} (h1 : Ext P a b) (h2 : Ext P b c) :
    Ext P a c := by
  obtain ⟨x, rfl, hx⟩ := h1
  obtain ⟨y, rfl, hy⟩ := h2
  refine ⟨x ++ y, by simp, ?_⟩
  intro e he
  rcases List.mem_append.mp he with h | h
  · exact hx e h
  · exact hy e h

theorem Ext.of_fire {P : Event → Prop} (f : Option vfn) (log : List Event) {e : Event} (h : P e) :
    Ext P log (fire f log e).2 := by
  cases f with
  | none => exact Ext.refl P log
  | some g => exact ⟨[e], rfl, by simpa using h⟩

theorem Ext.vanyTail {P : Event → Prop} {mark i info d : Nat} {ok stop : Bool} {f : Option vfn}
    {log : List Event} (h : stop = false → P ⟨mark, i, info ||| tailInfo f d⟩) :
    Ext P log (vanyTail mark i info d ok stop f log).log := by
  cases stop
  · by_cases hr : (pjson.fire f log ⟨mark, i, info ||| tailInfo f d⟩).1 = 0
    · rw [vanyTail_zero hr]; exact Ext.of_fire f log (h rfl)
    · rw [vanyTail_nonzero hr]; exact Ext.of_fire f log (h rfl)
  · rw [vanyTail_stop]; exact Ext.refl P log

theorem Ext.vanyClose {P : Event → Prop} {kind d : Nat} {s : St} {f : Option vfn}
    (h : s.stop = false → P ⟨s.i - 1, s.i, kind ||| Info.Close ||| closeInfo f d⟩) :
    Ext P s.log (vanyClose kind d s f).log := by
  cases hs : s.stop
  · by_cases hr : (pjson.fire f s.log ⟨s.i - 1, s.i, kind ||| Info.Close ||| closeInfo f d⟩).1 = 0
    · rw [vanyClose_zero hs hr]; exact Ext.of_fire f s.log (h hs)
    · rw [vanyClose_nonzero hs hr]; exact Ext.of_fire f s.log (h hs)
  · rw [vanyClose_stop hs]; exact Ext.refl P s.log

theorem tailInfo_value (f : Option vfn) : tailInfo f Info.Value = Info.Value := by
  simp [tailInfo, show ¬ (Info.Value &&& Info.Start = Info.Start) by decide]

theorem closeInfo_value (f : Option vfn) : closeInfo f Info.Value = Info.Value := by
  simp [closeInfo, show ¬ (Info.Value &&& Info.Start = Info.Start) by decide]

theorem scalarInfo_mem {info : Nat} (h : ScalarInfo info) : info ∈ scalarInfos := by
  rcases h with h | h | h | h | h | ⟨s, f, e, hs, hf, he, h⟩
  · subst h; decide
  · subst h; decide
  · subst h; decide
  · subst h; decide
  · subst h; decide
  · subst h
    rcases hs with rfl | rfl <;> rcases hf with rfl | rfl <;> rcases he with rfl | rfl <;> decide

theorem scalar_info {json : List UInt8} {i c j info : Nat} {ok : Bool}
    (hc : rd json i = Run.ret c) (hs : scalar json c i = some (Run.ret (j, info, ok, false))) :
    info ∈ scalarInfos := by
  obtain ⟨j1, info1, ok1, h1, _, _, h4⟩ := scalar_spec hc hs
  simp only [Run.ret.injEq, Prod.mk.injEq] at h1
  obtain ⟨rfl, rfl, rfl, h5⟩ := h1
  have : ok = true := by revert h5; cases ok <;> simp
  exact scalarInfo_mem (h4 this).1

theorem key_info_mem {info : Nat} (h : info = 0 ∨ info = Info.Escaped) :
    info ||| Info.Key ||| Info.String ∈ innerInfos := by
  rcases h with rfl | rfl <;> decide

theorem open_obj_mem : Info.Object ||| Info.Open ||| Info.Value ∈ innerInfos := by decide

theorem open_arr_mem : Info.Array ||| Info.Open ||| Info.Value ∈ innerInfos := by decide

theorem close_obj_mem : Info.Object ||| Info.Close ||| Info.Value ∈ innerInfos := by decide

theorem close_arr_mem : Info.Array ||| Info.Close ||| Info.Value ∈ innerInfos := by decide

theorem colon_mem : Info.Colon ∈ innerInfos := by decide

theorem comma_mem : Info.Comma ∈ innerInfos := by decide

/-- Below the root every event has one of the infos of `innerInfos` -/
theorem exec_infos {json : List UInt8} {c : Call} {f : Option vfn} {log : List Event} {s : St}
    (h : Exec json c f log s) : c.below → Ext (fun e => e.info ∈ innerInfos) log s.log := by
  induction h with
  | any_eob _ | obj_eob _ | next_eob _ | arr_eob _ | elems_eob _ => intro _; exact Ext.refl _ _
  | any_bad _ _ _ _ _ | obj_bad _ _ _ _ | next_bad _ _ _ | obj_close _ | arr_close _ =>
    intro _; exact Ext.refl _ _
  | key_fail _ | colon_fail _ | sep_fail _ | sep_close _ _ => intro _; exact Ext.refl _ _
  | any_ws _ _ _ ih => intro hb; exact ih hb
  | obj_ws _ _ _ ih | next_ws _ _ _ ih | arr_ws _ _ _ ih | elems_ws _ _ _ ih
  | obj_key _ _ ih | next_key _ _ ih | arr_elems _ _ _ _ ih | elems_go _ _ _ ih =>
    intro _; exact ih trivial
  | @any_scalar i d f log c j info ok stop hc hw hs =>
    intro hb
    simp only [Call.below] at hb
    subst hb
    refine Ext.vanyTail ?_
    intro hst; subst hst
    rw [tailInfo_value]
    have := scalar_info hc hs
    show _ ∈ _ ++ _
    exact List.mem_append_right _ (List.mem_map_of_mem _ this)
  | @any_obj_stop i d f log hc hr | @any_arr_stop i d f log hc hr =>
    intro hb
    simp only [Call.below] at hb
    subst hb
    first
    | exact Ext.of_fire f log open_obj_mem
    | exact Ext.of_fire f log open_arr_mem
  | @any_obj i d f log s hc hr _ ih | @any_arr i d f log s hc hr _ ih =>
    intro hb
    simp only [Call.below] at hb
    subst hb
    refine ((Ext.of_fire f log ?_).trans (ih trivial)).trans (Ext.vanyClose ?_)
    · first
      | exact open_obj_mem
      | exact open_arr_mem
    · intro _; rw [closeInfo_value]
      first
      | exact close_obj_mem
      | exact close_arr_mem
  | key_stop hv _ => intro _; exact Ext.of_fire _ _ (key_info_mem (vstring_flags hv).2)
  | key_go hv _ _ ih =>
    intro _; exact (Ext.of_fire _ _ (key_info_mem (vstring_flags hv).2)).trans (ih trivial)
  | colon_stop _ _ => intro _; exact Ext.of_fire _ _ colon_mem
  | colon_go _ _ _ ih => intro _; exact (Ext.of_fire _ _ colon_mem).trans (ih trivial)
  | member_stop _ _ ih => intro _; exact ih rfl
  | member_go _ _ _ ih1 ih2 => intro _; exact (ih1 rfl).trans (ih2 trivial)
  | sep_stop _ _ _ _ => intro _; exact Ext.of_fire _ _ comma_mem
  | @sep_go e i f log j ok c s _ _ _ _ _ ih =>
    intro _
    refine (Ext.of_fire _ _ comma_mem).trans (ih ?_)
    unfold afterComma; split <;> trivial

/-! ## Stops -/

theorem answered_snoc {g : vfn} {log : List Event} {e : Event} (h : Answered g log)
    (he : g log e ≠ 0) : Answered g (log ++ [e]) := by
  intro l x r hl
  rcases List.eq_nil_or_concat r with rfl | ⟨r', y, rfl⟩
  · have := List.append_inj' (show log ++ [e] = l ++ [x] from hl) rfl
    obtain ⟨rfl, h2⟩ := this
    simp only [List.cons.injEq, and_true] at h2
    subst h2
    exact he
  · have h3 : log ++ [e] = (l ++ x :: r') ++ [y] := by simpa using hl
    have := List.append_inj' h3 rfl
    exact h l x r' this.1

theorem endsAtZero_snoc {g : vfn} {log : List Event} (e : Event) (h : Answered g log) :
    EndsAtZero g (log ++ [e]) := by
  intro l x r hl h0
  rcases List.eq_nil_or_concat r with rfl | ⟨r', y, rfl⟩
  · rfl
  · have h3 : log ++ [e] = (l ++ x :: r') ++ [y] := by simpa using hl
    have := List.append_inj' h3 rfl
    exact absurd h0 (h l x r' this.1)

theorem Answered.endsAtZero {g : vfn} {log : List Event} (h : Answered g log) : EndsAtZero g log :=
  fun l e r hl h0 => absurd h0 (h l e r hl)

theorem Vis.inner_vis {g : vfn} {f : Option vfn} (h : Vis g f) (r : Int) : Vis g (inner f r) := by
  unfold pjson.inner
  split
  · exact Or.inl rfl
  · exact h

theorem Vis.ends_fire {g : vfn} {f : Option vfn} (hv : Vis g f) {log : List Event}
    (h : Answered g log) (e : Event) : EndsAtZero g (fire f log e).2 := by
  rcases hv with rfl | rfl
  · exact h.endsAtZero
  · exact endsAtZero_snoc e h

theorem Vis.answered {g : vfn} {f : Option vfn} (hv : Vis g f) {log : List Event}
    (h : Answered g log) {e : Event} (hr : (fire f log e).1 ≠ 0) : Answered g (fire f log e).2 := by
  rcases hv with rfl | rfl
  · exact h
  · exact answered_snoc h hr

/-- After events that were all answered with a value other than 0, an event that the
scan delivers and that is answered with 0 is the last one, and a scan that goes on
has had no such answer -/
theorem exec_answered {json : List UInt8} {g : vfn} {c : Call} {f : Option vfn}
    {log : List Event} {s : St} (h : Exec json c f log s) : Vis g f → Answered g log →
    EndsAtZero g s.log ∧ (s.stop = false → Answered g s.log) := by
  induction h with
  | any_eob _ | obj_eob _ | next_eob _ | arr_eob _ | elems_eob _ =>
    intro _ ha; exact ⟨ha.endsAtZero, fun _ => ha⟩
  | any_bad _ _ _ _ _ | obj_bad _ _ _ _ | next_bad _ _ _ | obj_close _ | arr_close _ =>
    intro _ ha; exact ⟨ha.endsAtZero, fun _ => ha⟩
  | key_fail _ | colon_fail _ | sep_fail _ | sep_close _ _ =>
    intro _ ha; exact ⟨ha.endsAtZero, fun _ => ha⟩
  | any_ws _ _ _ ih | obj_ws _ _ _ ih | next_ws _ _ _ ih | arr_ws _ _ _ ih | elems_ws _ _ _ ih
  | obj_key _ _ ih | next_key _ _ ih | arr_elems _ _ _ _ ih | elems_go _ _ _ ih =>
    intro hv ha; exact ih hv ha
  | @any_scalar i d f log c j info ok stop hc hw hs =>
    intro hv ha
    cases stop
    · by_cases hr : (fire f log ⟨i, j, info ||| tailInfo f d⟩).1 = 0
      · rw [vanyTail_zero hr]; exact ⟨hv.ends_fire ha _, fun h => by cases h⟩
      · rw [vanyTail_nonzero hr]; exact ⟨(hv.answered ha hr).endsAtZero, fun _ => hv.answered ha hr⟩
    · rw [vanyTail_stop]; exact ⟨ha.endsAtZero, fun h => by cases h⟩
  | any_obj_stop _ _ | any_arr_stop _ _ | key_stop _ _ | colon_stop _ _ | sep_stop _ _ _ _ =>
    intro hv ha; exact ⟨hv.ends_fire ha _, fun h => by cases h⟩
  | @any_obj i d f log s hc hr _ ih | @any_arr i d f log s hc hr _ ih =>
    intro hv ha
    obtain ⟨h1, h2⟩ := ih (hv.inner_vis _) (hv.answered ha hr)
    cases hs : s.stop
    · rename_i kind
      have h3 := h2 hs
      first
      | (by_cases hz : (fire f s.log ⟨s.i - 1, s.i, Info.Object ||| Info.Close ||| closeInfo f d⟩).1 = 0
         · rw [vanyClose_zero hs hz]; exact ⟨hv.ends_fire h3 _, fun h => by cases h⟩
         · rw [vanyClose_nonzero hs hz]
           exact ⟨(hv.answered h3 hz).endsAtZero, fun _ => hv.answered h3 hz⟩)
      | (by_cases hz : (fire f s.log ⟨s.i - 1, s.i, Info.Array ||| Info.Close ||| closeInfo f d⟩).1 = 0
         · rw [vanyClose_zero hs hz]; exact ⟨hv.ends_fire h3 _, fun h => by cases h⟩
         · rw [vanyClose_nonzero hs hz]
           exact ⟨(hv.answered h3 hz).endsAtZero, fun _ => hv.answered h3 hz⟩)
    · rw [vanyClose_stop hs]; exact ⟨h1, fun h => by rw [hs] at h; cases h⟩
  | key_go _ hr _ ih | colon_go _ hr _ ih | sep_go _ _ _ hr _ ih =>
    intro hv ha; exact ih hv (hv.answered ha hr)
  | member_stop _ _ ih => intro hv ha; exact ih hv ha
  | member_go _ hs _ ih1 ih2 => intro hv ha; exact ih2 hv ((ih1 hv ha).2 hs)

/-- With a visitor that never answers 0, a scan that stops has failed -/
theorem exec_stop_fail {json : List UInt8} {c : Call} {f : Option vfn} {log : List Event} {s : St}
    (h : Exec json c f log s) : NonZero f → s.stop = true → s.ok = false := by
  induction h with
  | any_eob _ | obj_eob _ | next_eob _ | arr_eob _ | elems_eob _ => intro _ _; rfl
  | any_bad _ _ _ _ _ | obj_bad _ _ _ _ | next_bad _ _ _ => intro _ _; rfl
  | obj_close _ | arr_close _ | sep_close _ _ => intro _ h; cases h
  | any_ws _ _ _ ih | obj_ws _ _ _ ih | next_ws _ _ _ ih | arr_ws _ _ _ ih | elems_ws _ _ _ ih
  | obj_key _ _ ih | next_key _ _ ih | arr_elems _ _ _ _ ih | elems_go _ _ _ ih =>
    intro hf h; exact ih hf h
  | @any_scalar i d f log c j info ok stop hc hw hs =>
    intro hf h
    obtain ⟨h1, h2, h3⟩ := vanyTail_quiet hf i j info d ok stop log
    rw [h3] at h
    subst h
    rw [h2]
    have := (scalar_bounds hc hs).1
    revert this; cases ok <;> simp
  | any_obj_stop _ hr | any_arr_stop _ hr | key_stop _ hr | colon_stop _ hr | sep_stop _ _ _ hr =>
    intro hf _; exact absurd hr (hf.fire_ne _ _)
  | @any_obj i d f log s hc hr _ ih =>
    intro hf h
    obtain ⟨h1, h2, h3⟩ := vanyClose_quiet hf Info.Object d s
    rw [h3] at h
    rw [h2, h, if_pos rfl]
    exact ih (hf.of_inner _) h
  | @any_arr i d f log s hc hr _ ih =>
    intro hf h
    obtain ⟨h1, h2, h3⟩ := vanyClose_quiet hf Info.Array d s
    rw [h3] at h
    rw [h2, h, if_pos rfl]
    exact ih (hf.of_inner _) h
  | key_fail hv =>
    intro _ _
    have := (vstring_flags hv).1
    revert this; rename_i ok; cases ok; simp
  | @colon_fail i f log j ok hv =>
    intro _ _
    obtain ⟨j1, ok1, h1, _⟩ := vcolon_spec json i
    rw [h1] at hv
    simp only [Run.ret.injEq, Prod.mk.injEq] at hv
    obtain ⟨_, rfl, h2⟩ := hv
    revert h2; cases ok1 <;> simp
  | @sep_fail e i f log j ok hv =>
    intro _ _
    obtain ⟨j1, ok1, h1, _⟩ := vcomma_spec json i e
    rw [h1] at hv
    simp only [Run.ret.injEq, Prod.mk.injEq] at hv
    obtain ⟨_, rfl, h2⟩ := hv
    revert h2; cases ok1 <;> simp
  | key_go _ _ _ ih | colon_go _ _ _ ih | sep_go _ _ _ _ _ ih => intro hf h; exact ih hf h
  | member_stop _ _ ih => intro hf h; exact ih hf h
  | member_go _ _ _ _ ih2 => intro hf h; exact ih2 hf h

end pjson
namespace pjson

/-! ## The value scanner at the root of the document -/

theorem any_inv_aux {json : List UInt8} {c : Call} {f : Option vfn} {log : List Event} {s : St}
    (h : Exec json c f log s) : ∀ i d, c = .any i d → AnyAt json (skipWs json i) d f log s := by
  induction h with
  | any_eob h =>
    intro i d hc; cases hc
    rw [skipWs_eob h]; exact AnyAt.eob h
  | any_ws hc hw _ ih =>
    intro i d he; cases he
    rw [skipWs_ws hc hw]; exact ih _ _ rfl
  | any_scalar hc hw hs =>
    intro i d he; cases he
    rw [skipWs_hit hc hw]; exact AnyAt.scalar hc hw hs
  | any_bad hc hw h1 h2 hs =>
    intro i d he; cases he
    rw [skipWs_hit hc hw]; exact AnyAt.bad hc hw h1 h2 hs
  | any_obj_stop hc hr =>
    intro i d he; cases he
    rw [skipWs_hit hc (by decide)]; exact AnyAt.obj_stop hc hr
  | any_obj hc hr h _ =>
    intro i d he; cases he
    rw [skipWs_hit hc (by decide)]; exact AnyAt.obj hc hr h
  | any_arr_stop hc hr =>
    intro i d he; cases he
    rw [skipWs_hit hc (by decide)]; exact AnyAt.arr_stop hc hr
  | any_arr hc hr h _ =>
    intro i d he; cases he
    rw [skipWs_hit hc (by decide)]; exact AnyAt.arr hc hr h
  | _ => intro i d he; cases he

/-- The value scanner skips whitespace and then takes one of the cases of `AnyAt` -/
theorem any_inv {json : List UInt8} {i d : Nat} {f : Option vfn} {log : List Event} {s : St}
    (h : Exec json (.any i d) f log s) : AnyAt json (skipWs json i) d f log s :=
  any_inv_aux h i d rfl

theorem Ext.mono {P Q : Event → Prop} {a b : List Event} (h : Ext P a b)
    (hpq : ∀ e, P e → Q e) : Ext Q a b := by
  obtain ⟨x, hx, hp⟩ := h
  exact ⟨x, hx, fun e he => hpq e (hp e he)⟩

theorem Ext.of_fire_some {P : Event → Prop} (f : Option vfn) (log : List Event) {e : Event}
    (h : f ≠ none → P e) : Ext P log (pjson.fire f log e).2 := by
  cases f with
  | none => exact Ext.refl P log
  | some g => exact ⟨[e], rfl, by simpa using h (by simp)⟩

theorem tailInfo_start {f : Option vfn} (h : f ≠ none) :
    tailInfo f Info.Start = Info.Start ||| Info.End := by
  cases f with
  | none => exact absurd rfl h
  | some g => simp [tailInfo]

theorem closeInfo_start {f : Option vfn} (h : f ≠ none) :
    closeInfo f Info.Start = Info.Start &&& bnot Info.Start ||| Info.End := by
  cases f with
  | none => exact absurd rfl h
  | some g => simp [closeInfo]

theorem kindOK_inner : ∀ x ∈ innerInfos, KindOK x = true := by decide

theorem kindOK_root : ∀ x ∈ rootInfos, KindOK x = true := by decide

theorem root_scalar_mem {x : Nat} (h : x ∈ scalarInfos) :
    x ||| (Info.Start ||| Info.End) ∈ rootInfos :=
  List.mem_append_right _ (List.mem_map_of_mem _ h)

theorem root_open_obj_mem : Info.Object ||| Info.Open ||| Info.Start ∈ rootInfos := by decide

theorem root_open_arr_mem : Info.Array ||| Info.Open ||| Info.Start ∈ rootInfos := by decide

theorem root_close_obj_mem :
    Info.Object ||| Info.Close ||| (Info.Start &&& bnot Info.Start ||| Info.End) ∈ rootInfos := by
  decide

theorem root_close_arr_mem :
    Info.Array ||| Info.Close ||| (Info.Start &&& bnot Info.Start ||| Info.End) ∈ rootInfos := by
  decide

/-- Every event of a scan from the root has an info of `rootInfos` or `innerInfos` -/
theorem root_infos {json : List UInt8} {i : Nat} {f : Option vfn} {log : List Event} {s : St}
    (h : Exec json (.any i Info.Start) f log s) :
    Ext (fun e => e.info ∈ rootInfos ∨ e.info ∈ innerInfos) log s.log := by
  have h1 := any_inv h
  cases h1 with
  | eob _ => exact Ext.refl _ _
  | bad _ _ _ _ _ => exact Ext.refl _ _
  | scalar hc hw hs =>
    rename_i c j info ok stop
    cases stop
    · have hm := root_scalar_mem (scalar_info hc hs)
      by_cases hr : (fire f log ⟨skipWs json i, j, info ||| tailInfo f Info.Start⟩).1 = 0
      · rw [vanyTail_zero hr]
        exact Ext.of_fire_some f log (fun hf => Or.inl (by rw [tailInfo_start hf]; exact hm))
      · rw [vanyTail_nonzero hr]
        exact Ext.of_fire_some f log (fun hf => Or.inl (by rw [tailInfo_start hf]; exact hm))
    · rw [vanyTail_stop]; exact Ext.refl _ _
  | obj_stop hc hr => exact Ext.of_fire f log (Or.inl root_open_obj_mem)
  | arr_stop hc hr => exact Ext.of_fire f log (Or.inl root_open_arr_mem)
  | obj hc hr ht =>
    rename_i t
    have h2 : Ext (fun e => e.info ∈ rootInfos ∨ e.info ∈ innerInfos) _ t.log :=
      (exec_infos ht trivial).mono (fun e he => Or.inr he)
    refine ((Ext.of_fire f log (Or.inl root_open_obj_mem)).trans h2).trans ?_
    cases hs : t.stop
    · by_cases hz : (fire f t.log
          ⟨t.i - 1, t.i, Info.Object ||| Info.Close ||| closeInfo f Info.Start⟩).1 = 0
      · rw [vanyClose_zero hs hz]
        exact Ext.of_fire_some f t.log (fun hf => Or.inl (by rw [closeInfo_start hf]; exact root_close_obj_mem))
      · rw [vanyClose_nonzero hs hz]
        exact Ext.of_fire_some f t.log (fun hf => Or.inl (by rw [closeInfo_start hf]; exact root_close_obj_mem))
    · rw [vanyClose_stop hs]; exact Ext.refl _ _
  | arr hc hr ht =>
    rename_i t
    have h2 : Ext (fun e => e.info ∈ rootInfos ∨ e.info ∈ innerInfos) _ t.log :=
      (exec_infos ht trivial).mono (fun e he => Or.inr he)
    refine ((Ext.of_fire f log (Or.inl root_open_arr_mem)).trans h2).trans ?_
    cases hs : t.stop
    · by_cases hz : (fire f t.log
          ⟨t.i - 1, t.i, Info.Array ||| Info.Close ||| closeInfo f Info.Start⟩).1 = 0
      · rw [vanyClose_zero hs hz]
        exact Ext.of_fire_some f t.log (fun hf => Or.inl (by rw [closeInfo_start hf]; exact root_close_arr_mem))
      · rw [vanyClose_nonzero hs hz]
        exact Ext.of_fire_some f t.log (fun hf => Or.inl (by rw [closeInfo_start hf]; exact root_close_arr_mem))
    · rw [vanyClose_stop hs]; exact Ext.refl _ _

end pjson
namespace pjson

/-! ## Scans without a visitor, and the root of the document in a scan that goes through -/

/-- Without a visitor nothing is delivered -/
theorem exec_none_log {json : List UInt8} {c : Call} {f : Option vfn} {log : List Event} {s : St}
    (h : Exec json c f log s) : f = none → s.log = log := by
  induction h with
  | any_eob _ | obj_eob _ | next_eob _ | arr_eob _ | elems_eob _ => intro _; rfl
  | any_bad _ _ _ _ _ | obj_bad _ _ _ _ | next_bad _ _ _ | obj_close _ | arr_close _ =>
    intro _; rfl
  | key_fail _ | colon_fail _ | sep_fail _ | sep_close _ _ => intro _; rfl
  | any_ws _ _ _ ih | obj_ws _ _ _ ih | next_ws _ _ _ ih | arr_ws _ _ _ ih | elems_ws _ _ _ ih
  | obj_key _ _ ih | next_key _ _ ih | arr_elems _ _ _ _ ih | elems_go _ _ _ ih =>
    intro hf; exact ih hf
  | any_scalar _ _ _ => intro hf; subst hf; rw [vanyTail_none]
  | any_obj_stop _ _ | any_arr_stop _ _ | key_stop _ _ | colon_stop _ _ | sep_stop _ _ _ _ =>
    intro hf; subst hf; rfl
  | @any_obj i d f log s hc hr _ ih | @any_arr i d f log s hc hr _ ih =>
    intro hf; subst hf
    have := ih (inner_none _)
    rw [vanyClose_none]
    split
    · exact this
    · exact this
  | key_go _ _ _ ih | colon_go _ _ _ ih | sep_go _ _ _ _ _ ih =>
    intro hf; subst hf; exact ih rfl
  | member_stop _ _ ih => intro hf; exact ih hf
  | member_go _ _ _ ih1 ih2 => intro hf; rw [ih2 hf, ih1 hf]

theorem inner_cases (f : Option vfn) (r : Int) : inner f r = none ∨ inner f r = f := by
  unfold inner; split
  · exact Or.inl rfl
  · exact Or.inr rfl

/-- The events of a scan from the root that goes through with a visitor that never
answers 0: one event with Start and End for a string, number or literal, and for an
object or array the Open event with Start, events below the root, and the Close
event with End -/
theorem root_shape {json : List UInt8} {i : Nat} {g : vfn} {log : List Event} {s : St}
    (h : Exec json (.any i Info.Start) (some g) log s) (hs : s.stop = false) :
    ∃ c, rd json (skipWs json i) = Run.ret c ∧
      ((c ≠ 123 ∧ c ≠ 91 ∧ ∃ x ∈ scalarInfos,
          s.log = log ++ [⟨skipWs json i, s.i, x ||| (Info.Start ||| Info.End)⟩]) ∨
       (c = 123 ∧ ∃ mid, (∀ e ∈ mid, e.info ∈ innerInfos) ∧
          s.log = log ++ ⟨skipWs json i, skipWs json i + 1,
              Info.Object ||| Info.Open ||| Info.Start⟩ :: mid ++
            [⟨s.i - 1, s.i, Info.Object ||| Info.Close |||
              (Info.Start &&& bnot Info.Start ||| Info.End)⟩]) ∨
       (c = 91 ∧ ∃ mid, (∀ e ∈ mid, e.info ∈ innerInfos) ∧
          s.log = log ++ ⟨skipWs json i, skipWs json i + 1,
              Info.Array ||| Info.Open ||| Info.Start⟩ :: mid ++
            [⟨s.i - 1, s.i, Info.Array ||| Info.Close |||
              (Info.Start &&& bnot Info.Start ||| Info.End)⟩])) := by
  have h1 := any_inv h
  generalize skipWs json i = p at h1 ⊢
  cases h1 with
  | eob _ => cases hs
  | bad _ _ _ _ _ => cases hs
  | obj_stop _ _ => cases hs
  | arr_stop _ _ => cases hs
  | scalar hc hw hsc =>
    rename_i c j info ok stop
    obtain ⟨h2, _, _, h5⟩ := vanyTail_go hs
    subst h2
    refine ⟨c, hc, Or.inl ⟨(scalar_some_of hsc).1, (scalar_some_of hsc).2, info,
      scalar_info hc hsc, ?_⟩⟩
    rw [h5, vanyTail_i, tailInfo_start (by simp)]
    rfl
  | obj hc hr ht =>
    rename_i t
    obtain ⟨h2, _, _, h5⟩ := vanyClose_go hs
    refine ⟨123, hc, Or.inr (Or.inl ⟨rfl, ?_⟩)⟩
    obtain ⟨mid, hm, hmid⟩ := exec_infos ht trivial
    refine ⟨mid, hmid, ?_⟩
    rw [h5, vanyClose_i, closeInfo_start (by simp), fire_some, hm, fire_some]
    simp [openEv]
  | arr hc hr ht =>
    rename_i t
    obtain ⟨h2, _, _, h5⟩ := vanyClose_go hs
    refine ⟨91, hc, Or.inr (Or.inr ⟨rfl, ?_⟩)⟩
    obtain ⟨mid, hm, hmid⟩ := exec_infos ht trivial
    refine ⟨mid, hmid, ?_⟩
    rw [h5, vanyClose_i, closeInfo_start (by simp), fire_some, hm, fire_some]
    simp [openEv]

end pjson
namespace pjson

/-! ## Results of `Parse` -/

theorem verdict_pos {s : St} (h : 0 < verdict s) : s.ok = true ∧ verdict s = s.i := by
  unfold verdict at h ⊢
  cases hs : s.ok
  · simp only [hs, Bool.false_eq_true, if_false] at h
    omega
  · simp [hs]

/-- A positive result of `Parse` with a visitor that never answers 0: the value
scanner went through, only whitespace follows, and the result is the length -/
theorem parse_pos {json : List UInt8} {f : Option vfn} {s : St} {r : Int}
    (h : Exec json (.any 0 Info.Start) f [] s) (hf : NonZero f)
    (hp : Parse json f = Run.ret r) (hr : 0 < r) :
    s.stop = false ∧ s.ok = true ∧ s.i ≤ json.length ∧ skipWs json s.i = json.length ∧
      r = json.length := by
  rw [Parse_eq h] at hp
  simp only [Run.ret.injEq] at hp
  subst hp
  cases hs : s.stop
  · have hb := (exec_bounds h (Nat.zero_le _)).2.2 hs
    rw [finish_go hs] at hr ⊢
    have hle := skipWs_le json hb.2.2
    unfold docRes at hr ⊢
    by_cases hlt : skipWs json s.i < json.length
    · simp only [if_pos hlt] at hr
      have := (verdict_pos hr).1
      cases this
    · simp only [if_neg hlt]
      refine ⟨trivial, hb.1, hb.2.2, by omega, ?_⟩
      simp only [verdict, if_true]
      congr 1
      omega
  · exfalso
    rw [finish_stop hs] at hr
    have h1 := (verdict_pos hr).1
    rw [exec_stop_fail h hf hs] at h1
    cases h1

/-- A scan from the root that goes through and is followed by whitespace only makes
`Parse` return the length -/
theorem parse_len {json : List UInt8} {f : Option vfn} {s : St}
    (h : Exec json (.any 0 Info.Start) f [] s) (hs : s.stop = false)
    (hw : skipWs json s.i = json.length) : Parse json f = Run.ret (json.length : Int) := by
  rw [Parse_eq h, finish_go hs]
  unfold docRes
  rw [hw]
  simp [verdict]

theorem answered_nil (g : vfn) : Answered g [] := by
  intro l e r h
  cases l <;> cases h

end pjson
namespace pjson

/-! ## The events with their ranges -/

theorem vcolon_go {json : List UInt8} {i j : Nat} {ok : Bool}
    (h : vcolon json i = Run.ret (j, ok, false)) :
    ok = true ∧ i < j ∧ rd json (j - 1) = Run.ret 58 ∧ (i ≤ json.length → j ≤ json.length) ∧
      ∀ c ∈ slice json i (j - 1), isws c = true := by
  obtain ⟨j1, ok1, h1, _, h3, h4⟩ := vcolon_spec json i
  rw [h1] at h
  simp only [Run.ret.injEq, Prod.mk.injEq] at h
  obtain ⟨rfl, rfl, h5⟩ := h
  have hok : ok1 = true := by revert h5; cases ok1 <;> simp
  exact ⟨hok, (h4 hok).1, (h4 hok).2.1, h3, (h4 hok).2.2⟩

theorem vcomma_go {json : List UInt8} {i e j : Nat} {ok : Bool}
    (h : vcomma json i e = Run.ret (j, ok, false)) :
    ok = true ∧ i ≤ j ∧ j < json.length ∧ (rd json j = Run.ret 44 ∨ rd json j = Run.ret e) ∧
      ∀ c ∈ slice json i j, isws c = true := by
  obtain ⟨j1, ok1, h1, h2, h3, h4, _⟩ := vcomma_spec json i e
  rw [h1] at h
  simp only [Run.ret.injEq, Prod.mk.injEq] at h
  obtain ⟨rfl, rfl, h5⟩ := h
  have hok : ok1 = true := by revert h5; cases ok1 <;> simp
  exact ⟨hok, h2, (h4 hok).1, (h4 hok).2, h3⟩

theorem comma_byte {json : List UInt8} {i e j c : Nat} {ok : Bool}
    (h : vcomma json i e = Run.ret (j, ok, false)) (hc : rd json j = Run.ret c) (hce : c ≠ e) :
    rd json j = Run.ret 44 := by
  rcases (vcomma_go h).2.2.2.1 with h1 | h1
  · exact h1
  · rw [hc] at h1
    simp only [Run.ret.injEq] at h1
    exact absurd h1 hce

theorem afterComma_good (json : List UInt8) (e i : Nat) : (afterComma e i).good json := by
  unfold afterComma; split <;> trivial

theorem afterComma_below (e i : Nat) : (afterComma e i).below := by
  unfold afterComma; split <;> trivial

theorem afterComma_closer {e : Nat} (i : Nat) (h : e = 125 ∨ e = 93) :
    (afterComma e i).closer = some e := by
  rcases h with rfl | rfl <;> rfl

/-- A member list that goes through ends just after its closing byte -/
theorem exec_closer {json : List UInt8} {c : Call} {f : Option vfn} {log : List Event} {s : St}
    (h : Exec json c f log s) : c.good json → s.stop = false →
    ∀ b, c.closer = some b → 0 < s.i ∧ rd json (s.i - 1) = Run.ret b := by
  induction h with
  | any_eob _ | any_ws _ _ _ _ | any_scalar _ _ _ | any_bad _ _ _ _ _ | any_obj_stop _ _
  | any_obj _ _ _ _ | any_arr_stop _ _ | any_arr _ _ _ _ =>
    intro _ _ b hb; cases hb
  | obj_eob _ | next_eob _ | arr_eob _ | elems_eob _ | obj_bad _ _ _ _ | next_bad _ _ _
  | key_fail _ | colon_fail _ | sep_fail _ | key_stop _ _ | colon_stop _ _ | sep_stop _ _ _ _ =>
    intro _ hs; cases hs
  | obj_ws _ _ _ ih | next_ws _ _ _ ih | arr_ws _ _ _ ih | elems_ws _ _ _ ih
  | arr_elems _ _ _ _ ih | key_go _ _ _ ih =>
    intro _ hs b hb; exact ih trivial hs b hb
  | obj_close hc | arr_close hc =>
    intro _ _ b hb
    cases hb
    exact ⟨Nat.succ_pos _, hc⟩
  | obj_key hc _ ih | next_key hc _ ih => intro _ hs b hb; exact ih hc hs b hb
  | colon_go _ _ _ ih => intro _ hs b hb; exact ih (Or.inl rfl) hs b hb
  | elems_go _ _ _ ih => intro _ hs b hb; exact ih (Or.inr rfl) hs b hb
  | member_stop _ hst _ => intro _ hs; rw [hst] at hs; cases hs
  | member_go _ _ _ _ ih2 => intro hg hs b hb; exact ih2 hg hs b hb
  | sep_close _ hc =>
    intro _ _ b hb
    cases hb
    exact ⟨Nat.succ_pos _, hc⟩
  | sep_go _ _ _ _ _ ih =>
    intro hg hs b hb
    cases hb
    exact ih (afterComma_good json _ _) hs _ (afterComma_closer _ hg)

theorem key_ok {json : List UInt8} {i j info : Nat} {ok : Bool}
    (h : vstring json (i + 1) = Run.ret (j, info, ok, false)) : ok = true := by
  have := (vstring_flags h).1
  revert this; cases ok <;> simp

/-- Below the root every event is one of the events of `Ev` -/
theorem exec_evs {json : List UInt8} {c : Call} {f : Option vfn} {log : List Event} {s : St}
    (h : Exec json c f log s) : c.good json → c.below → Ext (Ev json false) log s.log := by
  induction h with
  | any_eob _ | obj_eob _ | next_eob _ | arr_eob _ | elems_eob _ => intro _ _; exact Ext.refl _ _
  | any_bad _ _ _ _ _ | obj_bad _ _ _ _ | next_bad _ _ _ | obj_close _ | arr_close _ =>
    intro _ _; exact Ext.refl _ _
  | key_fail _ | colon_fail _ | sep_fail _ | sep_close _ _ => intro _ _; exact Ext.refl _ _
  | any_ws _ _ _ ih => intro hg hb; exact ih hg hb
  | obj_ws _ _ _ ih | next_ws _ _ _ ih | arr_ws _ _ _ ih | elems_ws _ _ _ ih
  | arr_elems _ _ _ _ ih =>
    intro _ _; exact ih trivial trivial
  | obj_key hc _ ih | next_key hc _ ih => intro _ _; exact ih hc trivial
  | elems_go _ _ _ ih => intro _ _; exact ih (Or.inr rfl) trivial
  | @any_scalar i d f log c j info ok stop hc hw hs =>
    intro _ hb
    simp only [Call.below] at hb
    subst hb
    refine Ext.vanyTail ?_
    intro hst; subst hst
    rw [tailInfo_value]
    exact Ev.scalar hc hw hs
  | @any_obj_stop i d f log hc hr =>
    intro _ hb
    simp only [Call.below] at hb
    subst hb
    exact Ext.of_fire f log (Ev.opnObj hc)
  | @any_arr_stop i d f log hc hr =>
    intro _ hb
    simp only [Call.below] at hb
    subst hb
    exact Ext.of_fire f log (Ev.opnArr hc)
  | @any_obj i d f log s hc hr hsub ih =>
    intro _ hb
    simp only [Call.below] at hb
    subst hb
    refine ((Ext.of_fire f log (Ev.opnObj hc)).trans (ih trivial trivial)).trans (Ext.vanyClose ?_)
    intro hst
    rw [closeInfo_value]
    obtain ⟨h1, h2⟩ := exec_closer hsub trivial hst 125 rfl
    exact Ev.clsObj h1 h2
  | @any_arr i d f log s hc hr hsub ih =>
    intro _ hb
    simp only [Call.below] at hb
    subst hb
    refine ((Ext.of_fire f log (Ev.opnArr hc)).trans (ih trivial trivial)).trans (Ext.vanyClose ?_)
    intro hst
    rw [closeInfo_value]
    obtain ⟨h1, h2⟩ := exec_closer hsub trivial hst 93 rfl
    exact Ev.clsArr h1 h2
  | key_stop hv _ => intro hg _; exact Ext.of_fire _ _ (Ev.key rfl hg hv)
  | key_go hv _ _ ih =>
    intro hg _; exact (Ext.of_fire _ _ (Ev.key rfl hg hv)).trans (ih trivial trivial)
  | colon_stop hv _ =>
    intro _ _
    exact Ext.of_fire _ _ (Ev.colon rfl (by have := (vcolon_go hv).2.1; omega) (vcolon_go hv).2.2.1)
  | colon_go hv _ _ ih =>
    intro _ _
    exact (Ext.of_fire _ _ (Ev.colon rfl (by have := (vcolon_go hv).2.1; omega)
      (vcolon_go hv).2.2.1)).trans (ih (Or.inl rfl) trivial)
  | member_stop _ _ ih => intro _ _; exact ih trivial rfl
  | member_go _ _ _ ih1 ih2 => intro hg _; exact (ih1 trivial rfl).trans (ih2 hg trivial)
  | sep_stop hv hc hce _ => intro _ _; exact Ext.of_fire _ _ (Ev.comma rfl (comma_byte hv hc hce))
  | sep_go hv hc hce _ _ ih =>
    intro _ _
    exact (Ext.of_fire _ _ (Ev.comma rfl (comma_byte hv hc hce))).trans
      (ih (afterComma_good json _ _) (afterComma_below _ _))

/-- The events of a scan from the root: none, or an event of the root, events below the
root and, when the object or array at the root went through, its Close event -/
theorem root_evs {json : List UInt8} {i : Nat} {f : Option vfn} {log : List Event} {s : St}
    (h : Exec json (.any i Info.Start) f log s) :
    s.log = log ∨ ∃ e mid, Ev json true e ∧ (∀ x ∈ mid, Ev json false x) ∧
      (s.log = log ++ e :: mid ∨
        ∃ cl, Ev json true cl ∧ hasBit cl.info Info.Close = true ∧
          s.log = log ++ e :: mid ++ [cl]) := by
  cases f with
  | none => exact Or.inl (exec_none_log h rfl)
  | some g =>
    have h1 := any_inv h
    generalize skipWs json i = p at h1
    cases h1 with
    | eob _ => exact Or.inl rfl
    | bad _ _ _ _ _ => exact Or.inl rfl
    | obj_stop hc _ => exact Or.inr ⟨_, [], Ev.opnObj hc, by simp, Or.inl rfl⟩
    | arr_stop hc _ => exact Or.inr ⟨_, [], Ev.opnArr hc, by simp, Or.inl rfl⟩
    | scalar hc hw hsc =>
      rename_i c j info ok stop
      cases stop
      · refine Or.inr ⟨⟨p, j, info ||| tailRole true⟩, [], Ev.scalar hc hw hsc, by simp, Or.inl ?_⟩
        by_cases hr : (fire (some g) log ⟨p, j, info ||| tailInfo (some g) Info.Start⟩).1 = 0
        · rw [vanyTail_zero hr, tailInfo_start (by simp)]; rfl
        · rw [vanyTail_nonzero hr, tailInfo_start (by simp)]; rfl
      · rw [vanyTail_stop]; exact Or.inl rfl
    | obj hc hr ht =>
      rename_i t
      obtain ⟨mid, hm, hmid⟩ := exec_evs ht trivial trivial
      refine Or.inr ⟨_, mid, @Ev.opnObj json true _ hc, hmid, ?_⟩
      rw [fire_some] at hm
      cases hst : t.stop
      · obtain ⟨h2, h3⟩ := exec_closer ht trivial hst 125 rfl
        refine Or.inr ⟨⟨t.i - 1, t.i, Info.Object ||| Info.Close ||| closeRole true⟩,
          Ev.clsObj h2 h3, by dsimp only; decide, ?_⟩
        by_cases hz : (fire (some g) t.log
            ⟨t.i - 1, t.i, Info.Object ||| Info.Close ||| closeInfo (some g) Info.Start⟩).1 = 0
        · rw [vanyClose_zero hst hz, closeInfo_start (by simp), fire_some, hm]
          simp [openEv, openRole, closeRole]
        · rw [vanyClose_nonzero hst hz, closeInfo_start (by simp), fire_some, hm]
          simp [openEv, openRole, closeRole]
      · rw [vanyClose_stop hst, hm]
        exact Or.inl (by simp [openEv, openRole])
    | arr hc hr ht =>
      rename_i t
      obtain ⟨mid, hm, hmid⟩ := exec_evs ht trivial trivial
      refine Or.inr ⟨_, mid, @Ev.opnArr json true _ hc, hmid, ?_⟩
      rw [fire_some] at hm
      cases hst : t.stop
      · obtain ⟨h2, h3⟩ := exec_closer ht trivial hst 93 rfl
        refine Or.inr ⟨⟨t.i - 1, t.i, Info.Array ||| Info.Close ||| closeRole true⟩,
          Ev.clsArr h2 h3, by dsimp only; decide, ?_⟩
        by_cases hz : (fire (some g) t.log
            ⟨t.i - 1, t.i, Info.Array ||| Info.Close ||| closeInfo (some g) Info.Start⟩).1 = 0
        · rw [vanyClose_zero hst hz, closeInfo_start (by simp), fire_some, hm]
          simp [openEv, openRole, closeRole]
        · rw [vanyClose_nonzero hst hz, closeInfo_start (by simp), fire_some, hm]
          simp [openEv, openRole, closeRole]
      · rw [vanyClose_stop hst, hm]
        exact Or.inl (by simp [openEv, openRole])

end pjson
namespace pjson

/-! ## What an event says about the bytes of its range -/

/-- The branch of `vany` that made a string, number or literal -/
theorem scalar_cases {json : List UInt8} {c p j info : Nat} {ok stop : Bool}
    (hs : scalar json c p = some (Run.ret (j, info, ok, stop))) :
    (c = 34 ∧ ∃ x, vstring json (p + 1) = Run.ret (j, x, ok, stop) ∧ info = x ||| Info.String) ∨
    ((c = 45 ∨ isnum c = true) ∧ ∃ x, vnumber json (p + 1) = Run.ret (j, x, ok, stop) ∧
      info = x ||| Info.Number) ∨
    (c = 116 ∧ vtrue json (p + 1) = Run.ret (j, ok, stop) ∧ info = Info.True) ∨
    (c = 110 ∧ vnull json (p + 1) = Run.ret (j, ok, stop) ∧ info = Info.Null) ∨
    (c = 102 ∧ vfalse json (p + 1) = Run.ret (j, ok, stop) ∧ info = Info.False) := by
  unfold scalar at hs
  by_cases h1 : c = 34
  · simp only [h1, if_true, Option.some.injEq] at hs
    obtain ⟨⟨j1, x, ok1, stop1⟩, hv, h2⟩ := Run.bind_eq_ret.mp hs
    simp only [Run.pure_eq, Run.ret.injEq, Prod.mk.injEq] at h2
    obtain ⟨rfl, rfl, rfl, rfl⟩ := h2
    exact Or.inl ⟨h1, x, hv, rfl⟩
  · simp only [h1, if_false] at hs
    by_cases h2 : c = 123 ∨ c = 91
    · simp [h2] at hs
    · simp only [h2, if_false] at hs
      by_cases h3 : c = 45 ∨ isnum c = true
      · simp only [h3, if_true, Option.some.injEq] at hs
        obtain ⟨⟨j1, x, ok1, stop1⟩, hv, h2⟩ := Run.bind_eq_ret.mp hs
        simp only [Run.pure_eq, Run.ret.injEq, Prod.mk.injEq] at h2
        obtain ⟨rfl, rfl, rfl, rfl⟩ := h2
        exact Or.inr (Or.inl ⟨h3, x, hv, rfl⟩)
      · simp only [h3, if_false] at hs
        by_cases h4 : c = 116
        · simp only [h4, if_true, Option.some.injEq] at hs
          obtain ⟨⟨j1, ok1, stop1⟩, hv, h2⟩ := Run.bind_eq_ret.mp hs
          simp only [Run.pure_eq, Run.ret.injEq, Prod.mk.injEq] at h2
          obtain ⟨rfl, rfl, rfl, rfl⟩ := h2
          exact Or.inr (Or.inr (Or.inl ⟨h4, hv, rfl⟩))
        · simp only [h4, if_false] at hs
          by_cases h5 : c = 110
          · simp only [h5, if_true, Option.some.injEq] at hs
            obtain ⟨⟨j1, ok1, stop1⟩, hv, h2⟩ := Run.bind_eq_ret.mp hs
            simp only [Run.pure_eq, Run.ret.injEq, Prod.mk.injEq] at h2
            obtain ⟨rfl, rfl, rfl, rfl⟩ := h2
            exact Or.inr (Or.inr (Or.inr (Or.inl ⟨h5, hv, rfl⟩)))
          · simp only [h5, if_false] at hs
            by_cases h6 : c = 102
            · simp only [h6, if_true, Option.some.injEq] at hs
              obtain ⟨⟨j1, ok1, stop1⟩, hv, h2⟩ := Run.bind_eq_ret.mp hs
              simp only [Run.pure_eq, Run.ret.injEq, Prod.mk.injEq] at h2
              obtain ⟨rfl, rfl, rfl, rfl⟩ := h2
              exact Or.inr (Or.inr (Or.inr (Or.inr ⟨h6, hv, rfl⟩)))
            · simp [h6] at hs

/-- A string that was scanned from the quote at `p` to `j` -/
theorem string_facts {json : List UInt8} {p j x : Nat} {ok : Bool}
    (hq : rd json p = Run.ret 34) (h : vstring json (p + 1) = Run.ret (j, x, ok, false)) :
    p + 2 ≤ j ∧ j ≤ json.length ∧ rd json (j - 1) = Run.ret 34 ∧
      JString (slice json p j) ∧
      ((x = Info.Escaped ∧ 92 ∈ slice json p j) ∨ (x = 0 ∧ 92 ∉ slice json p j)) := by
  obtain ⟨_, h2, h3, h4, _⟩ := vstring_JString hq h
  obtain ⟨j1, info1, ok1, h1, _, _, g4, g5, g6⟩ :=
    vstring_spec json (Nat.succ_le_of_lt (rd_lt hq))
  rw [h1] at h
  simp only [Run.ret.injEq, Prod.mk.injEq] at h
  obtain ⟨rfl, rfl, rfl, hk⟩ := h
  have hok : ok1 = true := by revert hk; cases ok1 <;> simp
  refine ⟨h2, h3, (g6 hok).2.1, h4, ?_⟩
  have hsl : slice json p j1 = 34 :: slice json (p + 1) j1 := slice_cons hq (by omega)
  by_cases hm : 92 ∈ slice json (p + 1) j1
  · exact Or.inl ⟨g4 hm, by rw [hsl]; exact List.mem_cons_of_mem _ hm⟩
  · refine Or.inr ⟨g5 hm, ?_⟩
    rw [hsl]
    intro hmem
    rcases List.mem_cons.mp hmem with h | h
    · cases h
    · exact hm h

theorem jint_digits {s : List Nat} (h : JInt s) : s ≠ [] ∧ ∀ c ∈ s, IsDigit c := by
  rcases h with rfl | ⟨d, ds, h1, h2, h3, rfl⟩
  · refine ⟨by simp, ?_⟩
    intro c hc
    simp only [List.mem_singleton] at hc
    subst hc
    exact ⟨by decide, by decide⟩
  · refine ⟨by simp, ?_⟩
    intro c hc
    rcases List.mem_cons.mp hc with rfl | h
    · exact ⟨by omega, h2⟩
    · exact h3 c h

theorem jfrac_bytes {s : List Nat} (h : JFrac s) :
    (s = [] ∨ ∃ ds, s = 46 :: ds) ∧ ∀ c ∈ s, c = 46 ∨ IsDigit c := by
  rcases h with rfl | ⟨ds, _, h2, rfl⟩
  · exact ⟨Or.inl rfl, by simp⟩
  · refine ⟨Or.inr ⟨ds, rfl⟩, ?_⟩
    intro c hc
    rcases List.mem_cons.mp hc with rfl | h
    · exact Or.inl rfl
    · exact Or.inr (h2 c h)

theorem jexp_bytes {s : List Nat} (h : JExp s) :
    (s = [] ∨ ∃ t, s = 101 :: t ∨ s = 69 :: t) ∧
      ∀ c ∈ s, c = 101 ∨ c = 69 ∨ c = 43 ∨ c = 45 ∨ IsDigit c := by
  rcases h with rfl | ⟨e, sg, ds, he, hsg, _, hds, rfl⟩
  · exact ⟨Or.inl rfl, by simp⟩
  · refine ⟨Or.inr ⟨sg ++ ds, ?_⟩, ?_⟩
    · rcases he with rfl | rfl
      · exact Or.inl rfl
      · exact Or.inr rfl
    · intro c hc
      rcases List.mem_cons.mp hc with rfl | h
      · rcases he with rfl | rfl
        · exact Or.inl rfl
        · exact Or.inr (Or.inl rfl)
      · rcases List.mem_append.mp h with h | h
        · rcases hsg with rfl | rfl | rfl
          · cases h
          · simp only [List.mem_singleton] at h; exact Or.inr (Or.inr (Or.inl h))
          · simp only [List.mem_singleton] at h; exact Or.inr (Or.inr (Or.inr (Or.inl h)))
        · exact Or.inr (Or.inr (Or.inr (Or.inr (hds c h))))

/-- A number that was scanned from its first byte at `p` to `j`: the grammar, and which of
its parts are there -/
theorem number_facts {json : List UInt8} {p c j x : Nat} {ok : Bool}
    (hc : rd json p = Run.ret c) (hcn : c = 45 ∨ isnum c = true)
    (h : vnumber json (p + 1) = Run.ret (j, x, ok, false)) :
    p < j ∧ j ≤ json.length ∧ JNumber (slice json p j) ∧
      ∃ a b e : Bool, x = (if a then Info.Sign else 0) ||| (if b then Info.Dot else 0) |||
          (if e then Info.E else 0) ∧
        (a = true ↔ c = 45) ∧ (b = true ↔ 46 ∈ slice json p j) ∧
        (e = true ↔ (101 ∈ slice json p j ∨ 69 ∈ slice json p j)) := by
  obtain ⟨j1, x1, ok1, h1, h2, h3, h4⟩ := vnumber_spec hc hcn
  rw [h1] at h
  simp only [Run.ret.injEq, Prod.mk.injEq] at h
  obtain ⟨rfl, rfl, rfl, hk⟩ := h
  have hok : ok1 = true := by revert hk; cases ok1 <;> simp
  obtain ⟨sign, int, frac, exp, hsl, hsign, hint, hfrac, hexp, hx⟩ := h4 hok
  refine ⟨h2, h3, ⟨sign, int, frac, exp, hsign, hint, hfrac, hexp, hsl⟩, ?_⟩
  obtain ⟨hi0, hid⟩ := jint_digits hint
  obtain ⟨hf0, hfd⟩ := jfrac_bytes hfrac
  obtain ⟨he0, hed⟩ := jexp_bytes hexp
  have hhead : slice json p j1 = c :: slice json (p + 1) j1 := slice_cons hc h2
  refine ⟨decide (sign ≠ []), decide (frac ≠ []), decide (exp ≠ []), ?_, ?_, ?_, ?_⟩
  · rw [hx]
    unfold flag
    by_cases a1 : sign = [] <;> by_cases a2 : frac = [] <;> by_cases a3 : exp = [] <;>
      simp [a1, a2, a3]
  · simp only [decide_eq_true_eq]
    rcases hsign with rfl | rfl
    · simp only [ne_eq, not_true_eq_false, false_iff]
      intro h45
      subst h45
      rw [hsl] at hhead
      cases int with
      | nil => exact hi0 rfl
      | cons d ds =>
        simp only [List.nil_append, List.cons_append, List.cons.injEq] at hhead
        have := hid d (List.mem_cons_self _ _)
        rw [hhead.1] at this
        obtain ⟨h5, _⟩ := this
        omega
    · simp only [ne_eq, List.cons_ne_self, not_false_eq_true, true_iff]
      rw [hsl] at hhead
      simp only [List.cons_append, List.nil_append, List.cons.injEq] at hhead
      exact hhead.1.symm
  · simp only [decide_eq_true_eq]
    rw [hsl]
    constructor
    · intro hne
      rcases hf0 with h | ⟨ds, h⟩
      · exact absurd h hne
      · subst h; simp
    · intro hm hfe
      subst hfe
      simp only [List.append_nil, List.mem_append] at hm
      rcases hm with (hm | hm) | hm
      · rcases hsign with rfl | rfl
        · cases hm
        · simp at hm
      · have := hid 46 hm
        obtain ⟨h5, _⟩ := this
        omega
      · rcases hed 46 hm with h | h | h | h | h
        · omega
        · omega
        · omega
        · omega
        · obtain ⟨h5, _⟩ := h; omega
  · simp only [decide_eq_true_eq]
    rw [hsl]
    constructor
    · intro hne
      rcases he0 with h | ⟨t, h | h⟩
      · exact absurd h hne
      · subst h; exact Or.inl (by simp)
      · subst h; exact Or.inr (by simp)
    · intro hm hee
      subst hee
      simp only [List.append_nil, List.mem_append] at hm
      have key : ∀ v, (v = 101 ∨ v = 69) → ¬ ((v ∈ sign ∨ v ∈ int) ∨ v ∈ frac) := by
        intro v hv hmem
        rcases hmem with (hm | hm) | hm
        · rcases hsign with rfl | rfl
          · cases hm
          · simp only [List.mem_singleton] at hm; omega
        · obtain ⟨h5, h6⟩ := hid v hm
          omega
        · rcases hfd v hm with h | ⟨h5, h6⟩
          · omega
          · omega
      rcases hm with hm | hm
      · exact key 101 (Or.inl rfl) hm
      · exact key 69 (Or.inr rfl) hm

/-- The bits of the info of a number event -/
theorem number_bits (a b e root : Bool) :
    hasBit ((if a then Info.Sign else 0) ||| (if b then Info.Dot else 0) |||
      (if e then Info.E else 0) ||| Info.Number ||| tailRole root) Info.Sign = a ∧
    hasBit ((if a then Info.Sign else 0) ||| (if b then Info.Dot else 0) |||
      (if e then Info.E else 0) ||| Info.Number ||| tailRole root) Info.Dot = b ∧
    hasBit ((if a then Info.Sign else 0) ||| (if b then Info.Dot else 0) |||
      (if e then Info.E else 0) ||| Info.Number ||| tailRole root) Info.E = e ∧
    hasBit ((if a then Info.Sign else 0) ||| (if b then Info.Dot else 0) |||
      (if e then Info.E else 0) ||| Info.Number ||| tailRole root) Info.String = false ∧
    hasBit ((if a then Info.Sign else 0) ||| (if b then Info.Dot else 0) |||
      (if e then Info.E else 0) ||| Info.Number ||| tailRole root) Info.Number = true := by
  cases a <;> cases b <;> cases e <;> cases root <;> decide

end pjson
namespace pjson

/-! ## The kinds of events -/

theorem ev_info_mem {json : List UInt8} {root : Bool} {e : Event} (h : Ev json root e) :
    e.info ∈ (if root then rootInfos else innerInfos) := by
  cases h with
  | opnObj _ => cases root <;> dsimp only <;> decide
  | opnArr _ => cases root <;> dsimp only <;> decide
  | clsObj _ _ => cases root <;> dsimp only <;> decide
  | clsArr _ _ => cases root <;> dsimp only <;> decide
  | scalar hc hw hs =>
    have := scalar_info hc hs
    cases root
    · exact List.mem_append_right _ (List.mem_map_of_mem _ this)
    · exact List.mem_append_right _ (List.mem_map_of_mem _ this)
  | key hr hq hv =>
    subst hr
    exact key_info_mem (vstring_flags hv).2
  | colon hr _ _ => subst hr; exact colon_mem
  | comma hr _ => subst hr; exact comma_mem

theorem scalar_no_punct : ∀ x ∈ scalarInfos, ∀ r : Bool,
    hasBit (x ||| tailRole r) Info.Comma = false ∧ hasBit (x ||| tailRole r) Info.Colon = false ∧
    hasBit (x ||| tailRole r) Info.Key = false := by decide

/-- A Comma event is the one byte of a comma -/
theorem ev_comma {json : List UInt8} {root : Bool} {e : Event} (h : Ev json root e)
    (hb : hasBit e.info Info.Comma = true) :
    e.info = Info.Comma ∧ e.fin = e.start + 1 ∧ rd json e.start = Run.ret 44 := by
  cases h with
  | opnObj _ => cases root <;> exact absurd hb (by dsimp only; decide)
  | opnArr _ => cases root <;> exact absurd hb (by dsimp only; decide)
  | clsObj _ _ => cases root <;> exact absurd hb (by dsimp only; decide)
  | clsArr _ _ => cases root <;> exact absurd hb (by dsimp only; decide)
  | scalar hc hw hs =>
    have := (scalar_no_punct _ (scalar_info hc hs) root).1
    dsimp only at hb
    rw [this] at hb
    cases hb
  | key hr hq hv =>
    rcases (vstring_flags hv).2 with rfl | rfl <;> exact absurd hb (by dsimp only; decide)
  | colon hr _ _ => exact absurd hb (by dsimp only; decide)
  | comma hr hc => exact ⟨rfl, rfl, hc⟩

/-- A Colon event is the one byte of a colon -/
theorem ev_colon {json : List UInt8} {root : Bool} {e : Event} (h : Ev json root e)
    (hb : hasBit e.info Info.Colon = true) :
    e.info = Info.Colon ∧ e.fin = e.start + 1 ∧ rd json e.start = Run.ret 58 := by
  cases h with
  | opnObj _ => cases root <;> exact absurd hb (by dsimp only; decide)
  | opnArr _ => cases root <;> exact absurd hb (by dsimp only; decide)
  | clsObj _ _ => cases root <;> exact absurd hb (by dsimp only; decide)
  | clsArr _ _ => cases root <;> exact absurd hb (by dsimp only; decide)
  | scalar hc hw hs =>
    have := (scalar_no_punct _ (scalar_info hc hs) root).2.1
    dsimp only at hb
    rw [this] at hb
    cases hb
  | key hr hq hv =>
    rcases (vstring_flags hv).2 with rfl | rfl <;> exact absurd hb (by dsimp only; decide)
  | colon hr h0 hc => exact ⟨rfl, by dsimp only; omega, hc⟩
  | comma hr hc => exact absurd hb (by dsimp only; decide)

/-- A Key event is a string with the info Key|String or Key|String|Escaped -/
theorem ev_key {json : List UInt8} {root : Bool} {e : Event} (h : Ev json root e)
    (hb : hasBit e.info Info.Key = true) :
    (e.info = Info.Key ||| Info.String ∨ e.info = Info.Key ||| Info.String ||| Info.Escaped) ∧
      JString (slice json e.start e.fin) := by
  cases h with
  | opnObj _ => cases root <;> exact absurd hb (by dsimp only; decide)
  | opnArr _ => cases root <;> exact absurd hb (by dsimp only; decide)
  | clsObj _ _ => cases root <;> exact absurd hb (by dsimp only; decide)
  | clsArr _ _ => cases root <;> exact absurd hb (by dsimp only; decide)
  | scalar hc hw hs =>
    have := (scalar_no_punct _ (scalar_info hc hs) root).2.2
    dsimp only at hb
    rw [this] at hb
    cases hb
  | key hr hq hv =>
    refine ⟨?_, (string_facts hq hv).2.2.2.1⟩
    rcases (vstring_flags hv).2 with rfl | rfl
    · exact Or.inl (by dsimp only; decide)
    · exact Or.inr (by dsimp only; decide)
  | colon hr _ _ => exact absurd hb (by dsimp only; decide)
  | comma hr hc => exact absurd hb (by dsimp only; decide)

theorem string_bits (x : Nat) (hx : x = 0 ∨ x = Info.Escaped) (root : Bool) :
    hasBit (x ||| Info.String ||| tailRole root) Info.Escaped = decide (x = Info.Escaped) ∧
    hasBit (x ||| Info.Key ||| Info.String) Info.Escaped = decide (x = Info.Escaped) ∧
    hasBit (x ||| Info.String ||| tailRole root) Info.Number = false ∧
    hasBit (x ||| Info.Key ||| Info.String) Info.Number = false := by
  rcases hx with rfl | rfl <;> cases root <;> decide

theorem literal_bits (root : Bool) :
    hasBit (Info.True ||| tailRole root) Info.String = false ∧
    hasBit (Info.Null ||| tailRole root) Info.String = false ∧
    hasBit (Info.False ||| tailRole root) Info.String = false ∧
    hasBit (Info.True ||| tailRole root) Info.Number = false ∧
    hasBit (Info.Null ||| tailRole root) Info.Number = false ∧
    hasBit (Info.False ||| tailRole root) Info.Number = false := by
  cases root <;> decide

/-- A String event, key or value: the range is a string token between two quotes, and
Escaped is set exactly when a backslash is in it -/
theorem ev_string {json : List UInt8} {root : Bool} {e : Event} (h : Ev json root e)
    (hb : hasBit e.info Info.String = true) :
    rd json e.start = Run.ret 34 ∧ e.start + 2 ≤ e.fin ∧ e.fin ≤ json.length ∧
      rd json (e.fin - 1) = Run.ret 34 ∧ JString (slice json e.start e.fin) ∧
      (hasBit e.info Info.Escaped = true ↔ 92 ∈ slice json e.start e.fin) := by
  cases h with
  | opnObj _ => cases root <;> exact absurd hb (by dsimp only; decide)
  | opnArr _ => cases root <;> exact absurd hb (by dsimp only; decide)
  | clsObj _ _ => cases root <;> exact absurd hb (by dsimp only; decide)
  | clsArr _ _ => cases root <;> exact absurd hb (by dsimp only; decide)
  | @scalar p c j info ok hc hw hs =>
    dsimp only at hb ⊢
    rcases scalar_cases hs with ⟨rfl, x, hv, rfl⟩ | ⟨hcn, x, hv, rfl⟩ | ⟨_, _, rfl⟩ | ⟨_, _, rfl⟩ |
      ⟨_, _, rfl⟩
    · obtain ⟨h1, h2, h3, h4, h5⟩ := string_facts hc hv
      refine ⟨hc, h1, h2, h3, h4, ?_⟩
      rw [(string_bits x (vstring_flags hv).2 root).1]
      rcases h5 with ⟨rfl, hm⟩ | ⟨rfl, hm⟩
      · simp [hm]
      · simp only [hm, iff_false]
        decide
    · obtain ⟨_, _, _, a, b, e, rfl, _⟩ := number_facts hc hcn hv
      rw [(number_bits a b e root).2.2.2.1] at hb
      cases hb
    · rw [(literal_bits root).1] at hb; cases hb
    · rw [(literal_bits root).2.1] at hb; cases hb
    · rw [(literal_bits root).2.2.1] at hb; cases hb
  | @key p j x ok hr hq hv =>
    dsimp only
    obtain ⟨h1, h2, h3, h4, h5⟩ := string_facts hq hv
    refine ⟨hq, h1, h2, h3, h4, ?_⟩
    rw [(string_bits x (vstring_flags hv).2 root).2.1]
    rcases h5 with ⟨rfl, hm⟩ | ⟨rfl, hm⟩
    · simp [hm]
    · simp only [hm, iff_false]
      decide
  | colon hr _ _ => exact absurd hb (by dsimp only; decide)
  | comma hr hc => exact absurd hb (by dsimp only; decide)

/-- A Number event: the range is a number of the grammar; Sign, Dot and E say whether the
minus sign, the point and the exponent letter are there -/
theorem ev_number {json : List UInt8} {root : Bool} {e : Event} (h : Ev json root e)
    (hb : hasBit e.info Info.Number = true) :
    e.start < e.fin ∧ e.fin ≤ json.length ∧ JNumber (slice json e.start e.fin) ∧
      (hasBit e.info Info.Sign = true ↔ rd json e.start = Run.ret 45) ∧
      (hasBit e.info Info.Dot = true ↔ 46 ∈ slice json e.start e.fin) ∧
      (hasBit e.info Info.E = true ↔
        (101 ∈ slice json e.start e.fin ∨ 69 ∈ slice json e.start e.fin)) := by
  cases h with
  | opnObj _ => cases root <;> exact absurd hb (by dsimp only; decide)
  | opnArr _ => cases root <;> exact absurd hb (by dsimp only; decide)
  | clsObj _ _ => cases root <;> exact absurd hb (by dsimp only; decide)
  | clsArr _ _ => cases root <;> exact absurd hb (by dsimp only; decide)
  | @scalar p c j info ok hc hw hs =>
    dsimp only at hb ⊢
    rcases scalar_cases hs with ⟨rfl, x, hv, rfl⟩ | ⟨hcn, x, hv, rfl⟩ | ⟨_, _, rfl⟩ | ⟨_, _, rfl⟩ |
      ⟨_, _, rfl⟩
    · rw [(string_bits x (vstring_flags hv).2 root).2.2.1] at hb
      cases hb
    · obtain ⟨h1, h2, h3, a, b, e, rfl, ha, hb2, he⟩ := number_facts hc hcn hv
      obtain ⟨g1, g2, g3, _, _⟩ := number_bits a b e root
      refine ⟨h1, h2, h3, ?_, ?_, ?_⟩
      · rw [g1, ha, hc]
        simp
      · rw [g2, hb2]
      · rw [g3, he]
    · rw [(literal_bits root).2.2.2.1] at hb; cases hb
    · rw [(literal_bits root).2.2.2.2.1] at hb; cases hb
    · rw [(literal_bits root).2.2.2.2.2] at hb; cases hb
  | @key p j x ok hr hq hv =>
    dsimp only at hb
    rw [(string_bits x (vstring_flags hv).2 root).2.2.2] at hb
    cases hb
  | colon hr _ _ => exact absurd hb (by dsimp only; decide)
  | comma hr hc => exact absurd hb (by dsimp only; decide)

end pjson
namespace pjson

/-! ## A Key event is followed by a Colon event -/

theorem keyColon_snoc {json : List UInt8} {log : List Event} (e : Event)
    (hk : KeyColon json log) (hl : LastNotKey log) : KeyColon json (log ++ [e]) := by
  intro l a b r h ha
  rcases List.eq_nil_or_concat r with rfl | ⟨r', y, rfl⟩
  · have h3 : log ++ [e] = (l ++ [a]) ++ [b] := by simpa using h
    obtain ⟨h4, _⟩ := List.append_inj' h3 rfl
    have := hl l a h4
    rw [this] at ha
    cases ha
  · have h3 : log ++ [e] = (l ++ a :: b :: r') ++ [y] := by simpa using h
    obtain ⟨h4, _⟩ := List.append_inj' h3 rfl
    exact hk l a b r' h4 ha

theorem keyColon_snoc_colon {json : List UInt8} {log : List Event} {e : Event}
    (hk : KeyColon json log)
    (he : e.info = Info.Colon ∧ e.fin = e.start + 1 ∧ rd json e.start = Run.ret 58) :
    KeyColon json (log ++ [e]) := by
  intro l a b r h ha
  rcases List.eq_nil_or_concat r with rfl | ⟨r', y, rfl⟩
  · have h3 : log ++ [e] = (l ++ [a]) ++ [b] := by simpa using h
    obtain ⟨_, h5⟩ := List.append_inj' h3 rfl
    simp only [List.cons.injEq, and_true] at h5
    subst h5
    exact he
  · have h3 : log ++ [e] = (l ++ a :: b :: r') ++ [y] := by simpa using h
    obtain ⟨h4, _⟩ := List.append_inj' h3 rfl
    exact hk l a b r' h4 ha

theorem lastNotKey_snoc (log : List Event) {e : Event} (h : hasBit e.info Info.Key = false) :
    LastNotKey (log ++ [e]) := by
  intro l a hl
  obtain ⟨_, h2⟩ := List.append_inj' hl rfl
  simp only [List.cons.injEq, and_true] at h2
  subst h2
  exact h

theorem keyColon_nil (json : List UInt8) : KeyColon json [] := by
  intro l a b r h
  cases l <;> cases h

theorem lastNotKey_nil : LastNotKey [] := by
  intro l a h
  cases l <;> cases h

theorem kc_fire {json : List UInt8} {f : Option vfn} {log : List Event} {e : Event}
    (hk : KeyColon json log) (hl : LastNotKey log) (he : f ≠ none → hasBit e.info Info.Key = false) :
    KeyColon json (fire f log e).2 ∧ LastNotKey (fire f log e).2 := by
  cases f with
  | none => exact ⟨hk, hl⟩
  | some g => exact ⟨keyColon_snoc e hk hl, lastNotKey_snoc log (he (by simp))⟩

theorem kc_fire_key {json : List UInt8} {f : Option vfn} {log : List Event} (e : Event)
    (hk : KeyColon json log) (hl : LastNotKey log) :
    KeyColon json (fire f log e).2 ∧ (LastNotKey (fire f log e).2 ∨ f ≠ none) := by
  cases f with
  | none => exact ⟨hk, Or.inl hl⟩
  | some g => exact ⟨keyColon_snoc e hk hl, Or.inr (by simp)⟩

theorem kc_fire_colon {json : List UInt8} {f : Option vfn} {log : List Event} {e : Event}
    (hk : KeyColon json log) (hl : LastNotKey log ∨ f ≠ none)
    (he : e.info = Info.Colon ∧ e.fin = e.start + 1 ∧ rd json e.start = Run.ret 58) :
    KeyColon json (fire f log e).2 ∧ LastNotKey (fire f log e).2 := by
  cases f with
  | none => exact ⟨hk, hl.resolve_right (by simp)⟩
  | some g =>
    refine ⟨keyColon_snoc_colon hk he, lastNotKey_snoc log ?_⟩
    rw [he.1]
    decide

theorem afterComma_rooted (e i : Nat) : (afterComma e i).rooted := by
  unfold afterComma; split <;> trivial

theorem tail_not_key {f : Option vfn} {d x : Nat} (hd : d = Info.Value ∨ d = Info.Start)
    (hx : x ∈ scalarInfos) (hf : f ≠ none) : hasBit (x ||| tailInfo f d) Info.Key = false := by
  rcases hd with rfl | rfl
  · rw [tailInfo_value]
    exact (scalar_no_punct x hx false).2.2
  · rw [tailInfo_start hf]
    exact (scalar_no_punct x hx true).2.2

theorem open_not_key {kind d : Nat} (hk : kind = Info.Object ∨ kind = Info.Array)
    (hd : d = Info.Value ∨ d = Info.Start) :
    hasBit (kind ||| Info.Open ||| d) Info.Key = false := by
  rcases hk with rfl | rfl <;> rcases hd with rfl | rfl <;> decide

theorem close_not_key {f : Option vfn} {kind d : Nat} (hk : kind = Info.Object ∨ kind = Info.Array)
    (hd : d = Info.Value ∨ d = Info.Start) (hf : f ≠ none) :
    hasBit (kind ||| Info.Close ||| closeInfo f d) Info.Key = false := by
  rcases hd with rfl | rfl
  · rw [closeInfo_value]
    rcases hk with rfl | rfl <;> decide
  · rw [closeInfo_start hf]
    rcases hk with rfl | rfl <;> decide

theorem kc_close {json : List UInt8} {f : Option vfn} {kind d : Nat} {s : St}
    (hk : kind = Info.Object ∨ kind = Info.Array) (hd : d = Info.Value ∨ d = Info.Start)
    (h1 : KeyColon json s.log) (h2 : s.stop = false → LastNotKey s.log) :
    KeyColon json (vanyClose kind d s f).log ∧
      ((vanyClose kind d s f).stop = false → LastNotKey (vanyClose kind d s f).log) := by
  cases hs : s.stop
  · have hf := kc_fire (f := f) (e := ⟨s.i - 1, s.i, kind ||| Info.Close ||| closeInfo f d⟩)
      h1 (h2 hs) (fun hf => close_not_key hk hd hf)
    by_cases hz : (fire f s.log ⟨s.i - 1, s.i, kind ||| Info.Close ||| closeInfo f d⟩).1 = 0
    · rw [vanyClose_zero hs hz]; exact ⟨hf.1, fun h => by cases h⟩
    · rw [vanyClose_nonzero hs hz]; exact ⟨hf.1, fun _ => hf.2⟩
  · rw [vanyClose_stop hs]; exact ⟨h1, fun h => by rw [hs] at h; cases h⟩

/-- The scan keeps the log such that every Key event with a successor is followed by
the Colon event of the colon -/
theorem exec_keyColon {json : List UInt8} {c : Call} {f : Option vfn} {log : List Event} {s : St}
    (h : Exec json c f log s) : c.rooted → KeyColon json log →
    (LastNotKey log ∨ ((∃ i, c = .colon i) ∧ f ≠ none)) →
    KeyColon json s.log ∧ (s.stop = false → LastNotKey s.log) := by
  induction h with
  | any_eob _ | obj_eob _ | next_eob _ | arr_eob _ | elems_eob _ | any_bad _ _ _ _ _
  | obj_bad _ _ _ _ | next_bad _ _ _ | key_fail _ | colon_fail _ | sep_fail _ =>
    intro _ hk _; exact ⟨hk, fun h => by cases h⟩
  | obj_close _ | arr_close _ | sep_close _ _ =>
    intro _ hk hp
    exact ⟨hk, fun _ => hp.resolve_right (by rintro ⟨⟨_, h⟩, _⟩; cases h)⟩
  | any_ws _ _ _ ih =>
    intro hr hk hp
    exact ih hr hk (Or.inl (hp.resolve_right (by rintro ⟨⟨_, h⟩, _⟩; cases h)))
  | obj_ws _ _ _ ih | next_ws _ _ _ ih | arr_ws _ _ _ ih | elems_ws _ _ _ ih
  | obj_key _ _ ih | next_key _ _ ih | arr_elems _ _ _ _ ih | elems_go _ _ _ ih =>
    intro _ hk hp
    exact ih trivial hk (Or.inl (hp.resolve_right (by rintro ⟨⟨_, h⟩, _⟩; cases h)))
  | @any_scalar i d f log c j info ok stop hc hw hs =>
    intro hr hk hp
    have hl := hp.resolve_right (by rintro ⟨⟨_, h⟩, _⟩; cases h)
    cases stop
    · have hf := kc_fire (f := f) (e := ⟨i, j, info ||| tailInfo f d⟩) hk hl
        (fun hf => tail_not_key hr (scalar_info hc hs) hf)
      by_cases hz : (fire f log ⟨i, j, info ||| tailInfo f d⟩).1 = 0
      · rw [vanyTail_zero hz]; exact ⟨hf.1, fun h => by cases h⟩
      · rw [vanyTail_nonzero hz]; exact ⟨hf.1, fun _ => hf.2⟩
    · rw [vanyTail_stop]; exact ⟨hk, fun h => by cases h⟩
  | @any_obj_stop i d f log hc hr =>
    intro hd hk hp
    have hl := hp.resolve_right (by rintro ⟨⟨_, h⟩, _⟩; cases h)
    exact ⟨(kc_fire hk hl (fun _ => open_not_key (Or.inl rfl) hd)).1, fun h => by cases h⟩
  | @any_arr_stop i d f log hc hr =>
    intro hd hk hp
    have hl := hp.resolve_right (by rintro ⟨⟨_, h⟩, _⟩; cases h)
    exact ⟨(kc_fire hk hl (fun _ => open_not_key (Or.inr rfl) hd)).1, fun h => by cases h⟩
  | @any_obj i d f log s hc hr _ ih =>
    intro hd hk hp
    have hl := hp.resolve_right (by rintro ⟨⟨_, h⟩, _⟩; cases h)
    have h1 := kc_fire (f := f) (e := openEv Info.Object i d) hk hl
      (fun _ => open_not_key (Or.inl rfl) hd)
    have h2 := ih trivial h1.1 (Or.inl h1.2)
    exact kc_close (Or.inl rfl) hd h2.1 h2.2
  | @any_arr i d f log s hc hr _ ih =>
    intro hd hk hp
    have hl := hp.resolve_right (by rintro ⟨⟨_, h⟩, _⟩; cases h)
    have h1 := kc_fire (f := f) (e := openEv Info.Array i d) hk hl
      (fun _ => open_not_key (Or.inr rfl) hd)
    have h2 := ih trivial h1.1 (Or.inl h1.2)
    exact kc_close (Or.inr rfl) hd h2.1 h2.2
  | key_stop _ _ =>
    intro _ hk hp
    have hl := hp.resolve_right (by rintro ⟨⟨_, h⟩, _⟩; cases h)
    exact ⟨(kc_fire_key _ hk hl).1, fun h => by cases h⟩
  | @key_go i f log j info ok s _ _ _ ih =>
    intro _ hk hp
    have hl := hp.resolve_right (by rintro ⟨⟨_, h⟩, _⟩; cases h)
    have h1 := kc_fire_key (f := f) ⟨i, j, info ||| Info.Key ||| Info.String⟩ hk hl
    exact ih trivial h1.1 (h1.2.imp id (fun h => ⟨⟨j, rfl⟩, h⟩))
  | colon_stop hv _ =>
    intro _ hk hp
    have h0 := vcolon_go hv
    exact ⟨(kc_fire_colon hk (hp.imp id (fun h => h.2))
      ⟨rfl, by dsimp only; omega, h0.2.2.1⟩).1, fun h => by cases h⟩
  | @colon_go i f log j ok s hv _ _ ih =>
    intro _ hk hp
    have h0 := vcolon_go hv
    have h1 := kc_fire_colon (f := f) (e := ⟨j - 1, j, Info.Colon⟩) hk (hp.imp id (fun h => h.2))
      ⟨rfl, by dsimp only; omega, h0.2.2.1⟩
    exact ih trivial h1.1 (Or.inl h1.2)
  | member_stop _ _ ih =>
    intro _ hk hp
    exact ih (Or.inl rfl) hk (Or.inl (hp.resolve_right (by rintro ⟨⟨_, h⟩, _⟩; cases h)))
  | member_go _ hs _ ih1 ih2 =>
    intro _ hk hp
    have h1 := ih1 (Or.inl rfl) hk (Or.inl (hp.resolve_right (by rintro ⟨⟨_, h⟩, _⟩; cases h)))
    exact ih2 trivial h1.1 (Or.inl (h1.2 hs))
  | sep_stop _ _ _ _ =>
    intro _ hk hp
    have hl := hp.resolve_right (by rintro ⟨⟨_, h⟩, _⟩; cases h)
    exact ⟨(kc_fire hk hl (fun _ => by dsimp only; decide)).1, fun h => by cases h⟩
  | @sep_go e i f log j ok c s _ _ _ _ _ ih =>
    intro _ hk hp
    have hl := hp.resolve_right (by rintro ⟨⟨_, h⟩, _⟩; cases h)
    have h1 := kc_fire (f := f) (e := ⟨j, j + 1, Info.Comma⟩) hk hl
      (fun _ => by dsimp only; decide)
    exact ih (afterComma_rooted _ _) h1.1 (Or.inl h1.2)

end pjson
namespace pjson

/-! ## A stop at a program point that the scan reaches is the outcome of `Parse` -/

/-- When the code that a program point enters stops, the code at the program point
returns the same state -/
theorem child_stop {json : List UInt8} {c c' : Call} {f f' : Option vfn} {log log' : List Event}
    {s : St} (hch : Child json c f log c' f' log') (h : Exec json c' f' log' s)
    (hs : s.stop = true) : Exec json c f log s := by
  cases hch with
  | any_ws hc hw => exact Exec.any_ws hc hw h
  | any_obj hc hr =>
    have := Exec.any_obj hc hr h
    rw [vanyClose_stop hs] at this
    exact this
  | any_arr hc hr =>
    have := Exec.any_arr hc hr h
    rw [vanyClose_stop hs] at this
    exact this
  | obj_ws hc hw => exact Exec.obj_ws hc hw h
  | obj_key hc => exact Exec.obj_key hc h
  | key_go hv hr => exact Exec.key_go hv hr h
  | colon_go hv hr => exact Exec.colon_go hv hr h
  | member_any => exact Exec.member_stop h hs
  | member_sep h1 hst => exact Exec.member_go h1 hst h
  | sep_go hv hc hce hr => exact Exec.sep_go hv hc hce hr h
  | next_ws hc hw => exact Exec.next_ws hc hw h
  | next_key hc => exact Exec.next_key hc h
  | arr_ws hc hw => exact Exec.arr_ws hc hw h
  | arr_elems hc hw h1 => exact Exec.arr_elems hc hw h1 h
  | elems_ws hc hw => exact Exec.elems_ws hc hw h
  | elems_go hc hw => exact Exec.elems_go hc hw h

/-- A stop at a program point that the scan reaches is the outcome of the value scanner
at the root -/
theorem reach_stop {json : List UInt8} {f0 : Option vfn} {c : Call} {f : Option vfn}
    {log : List Event} (hr : Reach json f0 c f log) :
    ∀ s, Exec json c f log s → s.stop = true → Exec json (.any 0 Info.Start) f0 [] s := by
  induction hr with
  | root => intro s h _; exact h
  | step _ hch ih => intro s h hs; exact ih s (child_stop hch h hs) hs

/-- A stop at a program point that the scan reaches decides the result of `Parse` -/
theorem reach_parse {json : List UInt8} {f0 : Option vfn} {c : Call} {f : Option vfn}
    {log : List Event} {s : St} (hr : Reach json f0 c f log) (h : Exec json c f log s)
    (hs : s.stop = true) : Parse json f0 = Run.ret (verdict s) ∧ events json f0 = Run.ret s.log := by
  have h1 := reach_stop hr s h hs
  exact ⟨by rw [Parse_eq h1, finish_stop hs], events_eq h1⟩

theorem child_inb_good {json : List UInt8} {c c' : Call} {f f' : Option vfn}
    {log log' : List Event} (hch : Child json c f log c' f' log') (hb : c.inb json)
    (hg : c.good json) : c'.inb json ∧ c'.good json := by
  cases hch with
  | any_ws hc hw => exact ⟨rd_lt hc, trivial⟩
  | any_obj hc hr => exact ⟨rd_lt hc, trivial⟩
  | any_arr hc hr => exact ⟨rd_lt hc, trivial⟩
  | obj_ws hc hw => exact ⟨rd_lt hc, trivial⟩
  | obj_key hc => exact ⟨rd_lt hc, hc⟩
  | key_go hv hr => exact ⟨(vstring_bounds hb hv).2.2.1, trivial⟩
  | colon_go hv hr => exact ⟨(vcolon_go hv).2.2.2.1 hb, Or.inl rfl⟩
  | member_any => exact ⟨hb, trivial⟩
  | member_sep h1 hst => exact ⟨((exec_bounds h1 hb).2.2 hst).2.2, hg⟩
  | sep_go hv hc hce hr => exact ⟨afterComma_inb (rd_lt hc), afterComma_good json _ _⟩
  | next_ws hc hw => exact ⟨rd_lt hc, trivial⟩
  | next_key hc => exact ⟨rd_lt hc, hc⟩
  | arr_ws hc hw => exact ⟨rd_lt hc, trivial⟩
  | arr_elems hc hw h1 => exact ⟨hb, trivial⟩
  | elems_ws hc hw => exact ⟨rd_lt hc, trivial⟩
  | elems_go hc hw => exact ⟨hb, Or.inr rfl⟩

/-- The cursor of a program point that the scan reaches is inside the buffer -/
theorem reach_inb_good {json : List UInt8} {f0 : Option vfn} {c : Call} {f : Option vfn}
    {log : List Event} (hr : Reach json f0 c f log) : c.inb json ∧ c.good json := by
  induction hr with
  | root => exact ⟨Nat.zero_le _, trivial⟩
  | step _ hch ih => exact child_inb_good hch ih.1 ih.2

/-- Without a visitor no program point has one, and the log stays empty -/
theorem reach_none {json : List UInt8} {c : Call} {f : Option vfn} {log : List Event}
    (hr : Reach json none c f log) : f = none ∧ log = [] := by
  induction hr with
  | root => exact ⟨rfl, rfl⟩
  | step _ hch ih =>
    obtain ⟨rfl, rfl⟩ := ih
    cases hch with
    | any_ws _ _ | obj_ws _ _ | obj_key _ | member_any | next_ws _ _ | next_key _ | arr_ws _ _
    | arr_elems _ _ _ | elems_ws _ _ | elems_go _ _ => exact ⟨rfl, rfl⟩
    | any_obj _ _ | any_arr _ _ => exact ⟨inner_none _, rfl⟩
    | key_go _ _ | colon_go _ _ | sep_go _ _ _ _ => exact ⟨rfl, rfl⟩
    | member_sep h1 _ => exact ⟨rfl, exec_none_log h1 rfl⟩

/-- The code at a program point that the scan reaches returns -/
theorem reach_total {json : List UInt8} {f0 : Option vfn} {c : Call} {f : Option vfn}
    {log : List Event} (hr : Reach json f0 c f log) : ∃ s, Exec json c f log s :=
  exec_total json c f log (reach_inb_good hr).1

end pjson
namespace pjson

/-! ## The events of `Parse` -/

/-- The events that `Parse` delivers: none, or an event of the root, events below the
root and, when the object or array at the root went through, its Close event; and a Key
event with a successor is followed by the Colon event -/
theorem parse_events (json : List UInt8) (f : Option vfn) :
    ∃ log, events json f = Run.ret log ∧ KeyColon json log ∧
      (log = [] ∨ ∃ e mid, Ev json true e ∧ (∀ x ∈ mid, Ev json false x) ∧
        (log = e :: mid ∨ ∃ cl, Ev json true cl ∧ hasBit cl.info Info.Close = true ∧
          log = e :: mid ++ [cl])) := by
  obtain ⟨s, hs, _⟩ := vdoc_total json f
  refine ⟨s.log, events_eq hs, ?_, ?_⟩
  · exact (exec_keyColon hs (Or.inr rfl) (keyColon_nil json) (Or.inl lastNotKey_nil)).1
  · rcases root_evs hs with h | ⟨e, mid, he, hm, h | ⟨cl, hcl, hb, h⟩⟩
    · exact Or.inl h
    · exact Or.inr ⟨e, mid, he, hm, Or.inl (by simpa using h)⟩
    · exact Or.inr ⟨e, mid, he, hm, Or.inr ⟨cl, hcl, hb, by simpa using h⟩⟩

/-- Every event that `Parse` delivers is one of the events of `Ev` -/
theorem parse_evs (json : List UInt8) (f : Option vfn) :
    ∃ log, events json f = Run.ret log ∧ ∀ x ∈ log, ∃ root, Ev json root x := by
  obtain ⟨log, h1, _, h3⟩ := parse_events json f
  refine ⟨log, h1, ?_⟩
  rcases h3 with rfl | ⟨e, mid, he, hm, rfl | ⟨cl, hcl, _, rfl⟩⟩
  · simp
  · intro x hx
    rcases List.mem_cons.mp hx with rfl | hx
    · exact ⟨true, he⟩
    · exact ⟨false, hm x hx⟩
  · intro x hx
    simp only [List.cons_append, List.mem_cons, List.mem_append, List.mem_singleton,
      List.not_mem_nil, or_false] at hx
    rcases hx with rfl | hx | rfl
    · exact ⟨true, he⟩
    · exact ⟨false, hm x hx⟩
    · exact ⟨true, hcl⟩

theorem events_unique {json : List UInt8} {f : Option vfn} {a b : List Event}
    (ha : events json f = Run.ret a) (hb : events json f = Run.ret b) : a = b := by
  rw [ha] at hb
  simpa using hb

/-- An event after the first one is below the root, or is the Close event at the end -/
theorem later_event {e0 cl : Event} {mid l r : List Event} {e : Event}
    (h : e0 :: mid ++ [cl] = l ++ e :: r) (hl : l ≠ []) : e ∈ mid ∨ (r = [] ∧ e = cl) := by
  cases l with
  | nil => exact absurd rfl hl
  | cons a l' =>
    simp only [List.cons_append, List.cons.injEq] at h
    obtain ⟨_, h⟩ := h
    rcases List.eq_nil_or_concat r with rfl | ⟨r', y, rfl⟩
    · obtain ⟨_, h2⟩ := List.append_inj' h rfl
      simp only [List.cons.injEq, and_true] at h2
      exact Or.inr ⟨rfl, h2.symm⟩
    · have h3 : mid ++ [cl] = (l' ++ e :: r') ++ [y] := by simpa using h
      obtain ⟨h4, _⟩ := List.append_inj' h3 rfl
      left
      rw [h4]
      simp

theorem later_event_open {e0 : Event} {mid l r : List Event} {e : Event}
    (h : e0 :: mid = l ++ e :: r) (hl : l ≠ []) : e ∈ mid := by
  cases l with
  | nil => exact absurd rfl hl
  | cons a l' =>
    simp only [List.cons_append, List.cons.injEq] at h
    rw [h.2]
    simp

theorem inner_roles : ∀ x ∈ innerInfos, (hasBit x Info.Key = true ∨ x = Info.Colon ∨ x = Info.Comma ∨
    hasBit x Info.Value = true) := by decide

theorem value_roles_inner : ∀ x ∈ innerInfos, hasBit x Info.Value = true →
    hasBit x Info.Key = false ∧ hasBit x Info.Start = false ∧ hasBit x Info.End = false := by
  decide

theorem value_roles_root : ∀ x ∈ rootInfos, hasBit x Info.Value = false ∧
    (hasBit x Info.Close = true → hasBit x Info.End = true) := by decide

end pjson
namespace pjson

/-! ## Whitespace before a token -/

theorem exec_any_skip {json : List UInt8} {d : Nat} {f : Option vfn} {log : List Event} {s : St} :
    ∀ i, Exec json (.any (skipWs json i) d) f log s → Exec json (.any i d) f log s := by
  refine upward_induction json _ ?_ ?_
  · intro i hi h; rwa [skipWs_eob hi] at h
  · intro i hi ih h
    obtain ⟨c, hc⟩ := rd_total hi
    cases hw : isws c
    · rwa [skipWs_hit hc hw] at h
    · rw [skipWs_ws hc hw] at h; exact Exec.any_ws hc hw (ih h)

theorem exec_object_skip {json : List UInt8} {f : Option vfn} {log : List Event} {s : St} :
    ∀ i, Exec json (.object (skipWs json i)) f log s → Exec json (.object i) f log s := by
  refine upward_induction json _ ?_ ?_
  · intro i hi h; rwa [skipWs_eob hi] at h
  · intro i hi ih h
    obtain ⟨c, hc⟩ := rd_total hi
    cases hw : isws c
    · rwa [skipWs_hit hc hw] at h
    · rw [skipWs_ws hc hw] at h; exact Exec.obj_ws hc hw (ih h)

theorem exec_next_skip {json : List UInt8} {f : Option vfn} {log : List Event} {s : St} :
    ∀ i, Exec json (.next (skipWs json i)) f log s → Exec json (.next i) f log s := by
  refine upward_induction json _ ?_ ?_
  · intro i hi h; rwa [skipWs_eob hi] at h
  · intro i hi ih h
    obtain ⟨c, hc⟩ := rd_total hi
    cases hw : isws c
    · rwa [skipWs_hit hc hw] at h
    · rw [skipWs_ws hc hw] at h; exact Exec.next_ws hc hw (ih h)

theorem exec_array_skip {json : List UInt8} {f : Option vfn} {log : List Event} {s : St} :
    ∀ i, Exec json (.array (skipWs json i)) f log s → Exec json (.array i) f log s := by
  refine upward_induction json _ ?_ ?_
  · intro i hi h; rwa [skipWs_eob hi] at h
  · intro i hi ih h
    obtain ⟨c, hc⟩ := rd_total hi
    cases hw : isws c
    · rwa [skipWs_hit hc hw] at h
    · rw [skipWs_ws hc hw] at h; exact Exec.arr_ws hc hw (ih h)

theorem exec_elems_skip {json : List UInt8} {f : Option vfn} {log : List Event} {s : St} :
    ∀ i, Exec json (.elems (skipWs json i)) f log s → Exec json (.elems i) f log s := by
  refine upward_induction json _ ?_ ?_
  · intro i hi h; rwa [skipWs_eob hi] at h
  · intro i hi ih h
    obtain ⟨c, hc⟩ := rd_total hi
    cases hw : isws c
    · rwa [skipWs_hit hc hw] at h
    · rw [skipWs_ws hc hw] at h; exact Exec.elems_ws hc hw (ih h)

theorem reach_any_skip {json : List UInt8} {f0 : Option vfn} {d : Nat} {f : Option vfn}
    {log : List Event} :
    ∀ i, Reach json f0 (.any i d) f log → Reach json f0 (.any (skipWs json i) d) f log := by
  refine upward_induction json _ ?_ ?_
  · intro i hi h; rwa [skipWs_eob hi]
  · intro i hi ih h
    obtain ⟨c, hc⟩ := rd_total hi
    cases hw : isws c
    · rwa [skipWs_hit hc hw]
    · rw [skipWs_ws hc hw]; exact ih (Reach.step h (Child.any_ws hc hw))

theorem reach_object_skip {json : List UInt8} {f0 : Option vfn} {f : Option vfn}
    {log : List Event} :
    ∀ i, Reach json f0 (.object i) f log → Reach json f0 (.object (skipWs json i)) f log := by
  refine upward_induction json _ ?_ ?_
  · intro i hi h; rwa [skipWs_eob hi]
  · intro i hi ih h
    obtain ⟨c, hc⟩ := rd_total hi
    cases hw : isws c
    · rwa [skipWs_hit hc hw]
    · rw [skipWs_ws hc hw]; exact ih (Reach.step h (Child.obj_ws hc hw))

theorem reach_next_skip {json : List UInt8} {f0 : Option vfn} {f : Option vfn}
    {log : List Event} :
    ∀ i, Reach json f0 (.next i) f log → Reach json f0 (.next (skipWs json i)) f log := by
  refine upward_induction json _ ?_ ?_
  · intro i hi h; rwa [skipWs_eob hi]
  · intro i hi ih h
    obtain ⟨c, hc⟩ := rd_total hi
    cases hw : isws c
    · rwa [skipWs_hit hc hw]
    · rw [skipWs_ws hc hw]; exact ih (Reach.step h (Child.next_ws hc hw))

theorem reach_array_skip {json : List UInt8} {f0 : Option vfn} {f : Option vfn}
    {log : List Event} :
    ∀ i, Reach json f0 (.array i) f log → Reach json f0 (.array (skipWs json i)) f log := by
  refine upward_induction json _ ?_ ?_
  · intro i hi h; rwa [skipWs_eob hi]
  · intro i hi ih h
    obtain ⟨c, hc⟩ := rd_total hi
    cases hw : isws c
    · rwa [skipWs_hit hc hw]
    · rw [skipWs_ws hc hw]; exact ih (Reach.step h (Child.arr_ws hc hw))

theorem reach_elems_skip {json : List UInt8} {f0 : Option vfn} {f : Option vfn}
    {log : List Event} :
    ∀ i, Reach json f0 (.elems i) f log → Reach json f0 (.elems (skipWs json i)) f log := by
  refine upward_induction json _ ?_ ?_
  · intro i hi h; rwa [skipWs_eob hi]
  · intro i hi ih h
    obtain ⟨c, hc⟩ := rd_total hi
    cases hw : isws c
    · rwa [skipWs_hit hc hw]
    · rw [skipWs_ws hc hw]; exact ih (Reach.step h (Child.elems_ws hc hw))

/-- The offset `p` is where the whitespace from `i` on ends -/
theorem skipWs_eq {json : List UInt8} {p : Nat} :
    ∀ n i, p = i + n → (∀ k, i ≤ k → k < p → ∃ c, rd json k = Run.ret c ∧ isws c = true) →
      (∀ c, rd json p = Run.ret c → isws c = false) → skipWs json i = p := by
  intro n
  induction n with
  | zero =>
    intro i hp _ h2
    have hpi : i = p := by omega
    rw [hpi]
    by_cases hlt : p < json.length
    · obtain ⟨c, hc⟩ := rd_total hlt
      exact skipWs_hit hc (h2 c hc)
    · exact skipWs_eob hlt
  | succ n ih =>
    intro i hp h1 h2
    obtain ⟨c, hc, hw⟩ := h1 i (Nat.le_refl _) (by omega)
    rw [skipWs_ws hc hw]
    exact ih (i + 1) (by omega) (fun k hk1 hk2 => h1 k (by omega) hk2) h2

theorem skipWs_all {json : List UInt8} {i : Nat} (hi : i ≤ json.length)
    (h : ∀ k, i ≤ k → k < json.length → ∃ c, rd json k = Run.ret c ∧ isws c = true) :
    skipWs json i = json.length :=
  skipWs_eq (json.length - i) i (by omega) h
    (fun c hc => absurd (rd_lt hc) (Nat.lt_irrefl _))

theorem rd_of_vals {json : List UInt8} {k : Nat} (hk : k < json.length) :
    ∃ c, rd json k = Run.ret c ∧ c ∈ vals json := by
  obtain ⟨c, hc⟩ := rd_total hk
  refine ⟨c, hc, ?_⟩
  obtain ⟨h, he⟩ := List.getElem?_eq_some_iff.mp (rd_iff.mp hc)
  rw [← he]
  exact List.getElem_mem _

/-- A buffer of whitespace: the value scanner stops at its end -/
theorem exec_blank {json : List UInt8} (h : AllWs (vals json)) (f : Option vfn) :
    Exec json (.any 0 Info.Start) f [] ⟨json.length, false, true, []⟩ := by
  apply exec_any_skip
  have : skipWs json 0 = json.length := by
    apply skipWs_all (Nat.zero_le _)
    intro k _ hk
    obtain ⟨c, hc, hm⟩ := rd_of_vals hk
    exact ⟨c, hc, (isws_iff c).mpr (h c hm)⟩
  rw [this]
  exact Exec.any_eob (Nat.lt_irrefl _)

end pjson
namespace pjson

/-! ## The answer -1 on an event without the Open bit -/

theorem open_bit (a d : Nat) : hasBit (a ||| Info.Open ||| d) Info.Open = true := by
  unfold hasBit
  simp only [beq_iff_eq]
  apply Nat.eq_of_testBit_eq
  intro k
  simp only [Nat.testBit_and, Nat.testBit_or]
  cases a.testBit k <;> cases Info.Open.testBit k <;> cases d.testBit k <;> rfl

theorem relax_zero (v : vfn) (l : List Event) (e : Event) : relax v l e = 0 ↔ v l e = 0 := by
  unfold relax
  split
  · rename_i h
    constructor
    · intro h1; cases h1
    · intro h1; rw [h1] at h; exact absurd h.1 (by decide)
  · exact Iff.rfl

theorem relax_open (v : vfn) (l : List Event) {e : Event} (h : hasBit e.info Info.Open = true) :
    relax v l e = v l e := by
  unfold relax
  rw [if_neg]
  rintro ⟨_, h2⟩
  rw [h] at h2
  cases h2

theorem fire_relax_snd (v : vfn) (f : Option vfn) (log : List Event) (e : Event) :
    (fire (f.map (fun _ => relax v)) log e).2 = (fire f log e).2 := by
  cases f <;> rfl

theorem fire_relax_zero {v : vfn} {f : Option vfn} (hv : Vis v f) (log : List Event) (e : Event) :
    (fire (f.map (fun _ => relax v)) log e).1 = 0 ↔ (fire f log e).1 = 0 := by
  rcases hv with rfl | rfl
  · exact Iff.rfl
  · exact relax_zero v log e

theorem fire_relax_open {v : vfn} {f : Option vfn} (hv : Vis v f) (log : List Event) {e : Event}
    (h : hasBit e.info Info.Open = true) :
    (fire (f.map (fun _ => relax v)) log e).1 = (fire f log e).1 := by
  rcases hv with rfl | rfl
  · rfl
  · exact relax_open v log h

theorem inner_map (g : vfn → vfn) (f : Option vfn) (r : Int) :
    inner (f.map g) r = (inner f r).map g := by
  unfold inner
  split <;> rfl

theorem tailInfo_map (g : vfn → vfn) (f : Option vfn) (d : Nat) :
    tailInfo (f.map g) d = tailInfo f d := by
  cases f <;> rfl

theorem closeInfo_map (g : vfn → vfn) (f : Option vfn) (d : Nat) :
    closeInfo (f.map g) d = closeInfo f d := by
  cases f <;> rfl

theorem vanyTail_relax {v : vfn} {f : Option vfn} (hv : Vis v f) (mark i info d : Nat)
    (ok stop : Bool) (log : List Event) :
    vanyTail mark i info d ok stop (f.map (fun _ => relax v)) log =
      vanyTail mark i info d ok stop f log := by
  cases stop
  · by_cases hz : (fire f log ⟨mark, i, info ||| tailInfo f d⟩).1 = 0
    · rw [vanyTail_zero hz, vanyTail_zero (by rw [tailInfo_map]; exact (fire_relax_zero hv _ _).mpr hz),
        tailInfo_map, fire_relax_snd]
    · rw [vanyTail_nonzero hz,
        vanyTail_nonzero (by rw [tailInfo_map]; exact fun h => hz ((fire_relax_zero hv _ _).mp h)),
        tailInfo_map, fire_relax_snd]
  · rw [vanyTail_stop, vanyTail_stop]

theorem vanyClose_relax {v : vfn} {f : Option vfn} (hv : Vis v f) (kind d : Nat) (s : St) :
    vanyClose kind d s (f.map (fun _ => relax v)) = vanyClose kind d s f := by
  cases hs : s.stop
  · by_cases hz : (fire f s.log ⟨s.i - 1, s.i, kind ||| Info.Close ||| closeInfo f d⟩).1 = 0
    · rw [vanyClose_zero hs hz,
        vanyClose_zero hs (by rw [closeInfo_map]; exact (fire_relax_zero hv _ _).mpr hz),
        closeInfo_map, fire_relax_snd]
    · rw [vanyClose_nonzero hs hz,
        vanyClose_nonzero hs
          (by rw [closeInfo_map]; exact fun h => hz ((fire_relax_zero hv _ _).mp h)),
        closeInfo_map, fire_relax_snd]
  · rw [vanyClose_stop hs, vanyClose_stop hs]

/-- The scan with the visitor `relax v` takes the course of the scan with `v` -/
theorem exec_relax {json : List UInt8} {v : vfn} {c : Call} {f : Option vfn} {log : List Event}
    {s : St} (h : Exec json c f log s) :
    Vis v f → Exec json c (f.map (fun _ => relax v)) log s := by
  induction h with
  | any_eob h => intro _; exact Exec.any_eob h
  | any_ws hc hw _ ih => intro hv; exact Exec.any_ws hc hw (ih hv)
  | any_scalar hc hw hs =>
    intro hv
    rw [← vanyTail_relax hv]
    exact Exec.any_scalar hc hw hs
  | any_bad hc hw h1 h2 hs => intro _; exact Exec.any_bad hc hw h1 h2 hs
  | @any_obj_stop i d f log hc hr =>
    intro hv
    have := @Exec.any_obj_stop json i d (f.map (fun _ => relax v)) log hc
      ((fire_relax_zero hv _ _).mpr hr)
    rwa [fire_relax_snd] at this
  | @any_arr_stop i d f log hc hr =>
    intro hv
    have := @Exec.any_arr_stop json i d (f.map (fun _ => relax v)) log hc
      ((fire_relax_zero hv _ _).mpr hr)
    rwa [fire_relax_snd] at this
  | @any_obj i d f log s hc hr _ ih =>
    intro hv
    have h1 := ih (hv.inner_vis _)
    have hop := fire_relax_open hv log (e := openEv Info.Object i d) (open_bit _ _)
    have := @Exec.any_obj json i d (f.map (fun _ => relax v)) log s hc
      (fun h => hr ((fire_relax_zero hv _ _).mp h))
      (by rw [hop, inner_map, fire_relax_snd]; exact h1)
    rwa [vanyClose_relax hv] at this
  | @any_arr i d f log s hc hr _ ih =>
    intro hv
    have h1 := ih (hv.inner_vis _)
    have hop := fire_relax_open hv log (e := openEv Info.Array i d) (open_bit _ _)
    have := @Exec.any_arr json i d (f.map (fun _ => relax v)) log s hc
      (fun h => hr ((fire_relax_zero hv _ _).mp h))
      (by rw [hop, inner_map, fire_relax_snd]; exact h1)
    rwa [vanyClose_relax hv] at this
  | obj_eob h => intro _; exact Exec.obj_eob h
  | obj_ws hc hw _ ih => intro hv; exact Exec.obj_ws hc hw (ih hv)
  | obj_close hc => intro _; exact Exec.obj_close hc
  | obj_key hc _ ih => intro hv; exact Exec.obj_key hc (ih hv)
  | obj_bad hc hw h1 h2 => intro _; exact Exec.obj_bad hc hw h1 h2
  | key_fail hv => intro _; exact Exec.key_fail hv
  | @key_stop i f log j info ok hs hr =>
    intro hv
    have := @Exec.key_stop json i (f.map (fun _ => relax v)) log j info ok hs
      ((fire_relax_zero hv _ _).mpr hr)
    rwa [fire_relax_snd] at this
  | @key_go i f log j info ok s hs hr _ ih =>
    intro hv
    exact @Exec.key_go json i (f.map (fun _ => relax v)) log j info ok s hs
      (fun h => hr ((fire_relax_zero hv _ _).mp h)) (by rw [fire_relax_snd]; exact ih hv)
  | colon_fail hv => intro _; exact Exec.colon_fail hv
  | @colon_stop i f log j ok hs hr =>
    intro hv
    have := @Exec.colon_stop json i (f.map (fun _ => relax v)) log j ok hs
      ((fire_relax_zero hv _ _).mpr hr)
    rwa [fire_relax_snd] at this
  | @colon_go i f log j ok s hs hr _ ih =>
    intro hv
    exact @Exec.colon_go json i (f.map (fun _ => relax v)) log j ok s hs
      (fun h => hr ((fire_relax_zero hv _ _).mp h)) (by rw [fire_relax_snd]; exact ih hv)
  | member_stop _ hs ih => intro hv; exact Exec.member_stop (ih hv) hs
  | member_go _ hs _ ih1 ih2 => intro hv; exact Exec.member_go (ih1 hv) hs (ih2 hv)
  | sep_fail hv => intro _; exact Exec.sep_fail hv
  | sep_close hv hc => intro _; exact Exec.sep_close hv hc
  | @sep_stop e i f log j ok c hs hc hce hr =>
    intro hv
    have := @Exec.sep_stop json e i (f.map (fun _ => relax v)) log j ok c hs hc hce
      ((fire_relax_zero hv _ _).mpr hr)
    rwa [fire_relax_snd] at this
  | @sep_go e i f log j ok c s hs hc hce hr _ ih =>
    intro hv
    exact @Exec.sep_go json e i (f.map (fun _ => relax v)) log j ok c s hs hc hce
      (fun h => hr ((fire_relax_zero hv _ _).mp h)) (by rw [fire_relax_snd]; exact ih hv)
  | next_eob h => intro _; exact Exec.next_eob h
  | next_ws hc hw _ ih => intro hv; exact Exec.next_ws hc hw (ih hv)
  | next_key hc _ ih => intro hv; exact Exec.next_key hc (ih hv)
  | next_bad hc hw h2 => intro _; exact Exec.next_bad hc hw h2
  | arr_eob h => intro _; exact Exec.arr_eob h
  | arr_ws hc hw _ ih => intro hv; exact Exec.arr_ws hc hw (ih hv)
  | arr_close hc => intro _; exact Exec.arr_close hc
  | arr_elems hc hw h1 _ ih => intro hv; exact Exec.arr_elems hc hw h1 (ih hv)
  | elems_eob h => intro _; exact Exec.elems_eob h
  | elems_ws hc hw _ ih => intro hv; exact Exec.elems_ws hc hw (ih hv)
  | elems_go hc hw _ ih => intro hv; exact Exec.elems_go hc hw (ih hv)

/-- `Parse` with `relax v` returns what `Parse` with `v` returns, after the same events -/
theorem parse_relax (json : List UInt8) (v : vfn) :
    Parse json (some (relax v)) = Parse json (some v) ∧
      events json (some (relax v)) = events json (some v) := by
  obtain ⟨s, hs, _⟩ := vdoc_total json (some v)
  have h2 : Exec json (.any 0 Info.Start) (some (relax v)) [] s := exec_relax hs (Or.inr rfl)
  exact ⟨by rw [Parse_eq hs, Parse_eq h2], by rw [events_eq hs, events_eq h2]⟩

end pjson
namespace pjson

/-! ## Failures at a program point that the scan reaches -/

theorem verdict_fail (p : Nat) (stop : Bool) (log : List Event) :
    verdict ⟨p, false, stop, log⟩ = -(p : Int) := by
  simp [verdict]

theorem slice_len (json : List UInt8) (a b : Nat) :
    (slice json a b).length = min (b - a) (json.length - a) := by
  unfold slice
  rw [List.length_take, List.length_drop, vals_length]

theorem slice_eq_iff {json : List UInt8} {i : Nat} {x : List Nat} (hx : x ≠ []) :
    slice json i (i + x.length) = x ↔
      ((vals json).drop i = x ++ (vals json).drop (i + x.length) ∧ i + x.length ≤ json.length) := by
  constructor
  · intro h
    have hl := slice_len json i (i + x.length)
    rw [h] at hl
    have hpos : 0 < x.length := List.length_pos.mpr hx
    refine ⟨?_, by omega⟩
    have := drop_of_slice json (show i ≤ i + x.length by omega)
    rw [h] at this
    exact this
  · intro h
    exact slice_of_drop_eq h.1 rfl

/-- The test of a literal matcher, in terms of the bytes from the first letter on -/
theorem lit_cond {json : List UInt8} {p c : Nat} {x : List Nat} (hc : rd json p = Run.ret c)
    (hx : x ≠ []) :
    ((vals json).drop (p + 1) = x ++ (vals json).drop (p + 1 + x.length) ∧
      p + 1 + x.length ≤ json.length) ↔ slice json p (p + 1 + x.length) = c :: x := by
  rw [← slice_eq_iff hx, slice_cons hc (by omega)]
  simp

theorem scalar_true {json : List UInt8} {p : Nat} (hc : rd json p = Run.ret 116) :
    scalar json 116 p = some (Run.ret (if slice json p (p + 4) = [116, 114, 117, 101]
      then (p + 4, Info.True, true, false) else (p + 1, Info.True, false, true))) := by
  have h : ((vals json).drop (p + 1) = 114 :: 117 :: 101 :: (vals json).drop (p + 1 + 3) ∧
      p + 1 + 3 ≤ json.length) ↔ slice json p (p + 4) = [116, 114, 117, 101] :=
    lit_cond (x := [114, 117, 101]) hc (by simp)
  unfold scalar
  simp only [show ¬ ((116 : Nat) = 34) by decide, show ¬ ((116 : Nat) = 123 ∨ (116 : Nat) = 91) by decide,
    show ¬ ((116 : Nat) = 45 ∨ isnum 116 = true) by decide, if_false, if_true, vtrue_eq]
  by_cases hm : slice json p (p + 4) = [116, 114, 117, 101]
  · rw [if_pos hm, if_pos (h.mpr hm)]; rfl
  · rw [if_neg hm, if_neg (fun hh => hm (h.mp hh))]; rfl

theorem scalar_null {json : List UInt8} {p : Nat} (hc : rd json p = Run.ret 110) :
    scalar json 110 p = some (Run.ret (if slice json p (p + 4) = [110, 117, 108, 108]
      then (p + 4, Info.Null, true, false) else (p + 1, Info.Null, false, true))) := by
  have h : ((vals json).drop (p + 1) = 117 :: 108 :: 108 :: (vals json).drop (p + 1 + 3) ∧
      p + 1 + 3 ≤ json.length) ↔ slice json p (p + 4) = [110, 117, 108, 108] :=
    lit_cond (x := [117, 108, 108]) hc (by simp)
  unfold scalar
  simp only [show ¬ ((110 : Nat) = 34) by decide, show ¬ ((110 : Nat) = 123 ∨ (110 : Nat) = 91) by decide,
    show ¬ ((110 : Nat) = 45 ∨ isnum 110 = true) by decide, show ¬ ((110 : Nat) = 116) by decide,
    if_false, if_true, vnull_eq]
  by_cases hm : slice json p (p + 4) = [110, 117, 108, 108]
  · rw [if_pos hm, if_pos (h.mpr hm)]; rfl
  · rw [if_neg hm, if_neg (fun hh => hm (h.mp hh))]; rfl

theorem scalar_false {json : List UInt8} {p : Nat} (hc : rd json p = Run.ret 102) :
    scalar json 102 p = some (Run.ret (if slice json p (p + 5) = [102, 97, 108, 115, 101]
      then (p + 5, Info.False, true, false) else (p + 1, Info.False, false, true))) := by
  have h : ((vals json).drop (p + 1) =
      97 :: 108 :: 115 :: 101 :: (vals json).drop (p + 1 + 4) ∧
      p + 1 + 4 ≤ json.length) ↔ slice json p (p + 5) = [102, 97, 108, 115, 101] :=
    lit_cond (x := [97, 108, 115, 101]) hc (by simp)
  unfold scalar
  simp only [show ¬ ((102 : Nat) = 34) by decide, show ¬ ((102 : Nat) = 123 ∨ (102 : Nat) = 91) by decide,
    show ¬ ((102 : Nat) = 45 ∨ isnum 102 = true) by decide, show ¬ ((102 : Nat) = 116) by decide,
    show ¬ ((102 : Nat) = 110) by decide, if_false, if_true, vfalse_eq]
  by_cases hm : slice json p (p + 5) = [102, 97, 108, 115, 101]
  · rw [if_pos hm, if_pos (h.mpr hm)]; rfl
  · rw [if_neg hm, if_neg (fun hh => hm (h.mp hh))]; rfl

/-- The value scanner on a string, number or literal after whitespace -/
theorem any_scalar_skip {json : List UInt8} {i d c j info : Nat} {ok stop : Bool}
    (f : Option vfn) (log : List Event) (hc : rd json (skipWs json i) = Run.ret c)
    (hs : scalar json c (skipWs json i) = some (Run.ret (j, info, ok, stop))) :
    Exec json (.any i d) f log (vanyTail (skipWs json i) j info d ok stop f log) :=
  exec_any_skip i (Exec.any_scalar hc (skipWs_not_ws hc) hs)

/-- What `vany` returns on a budget that is large enough -/
theorem vany_of_exec {json : List UInt8} {i d : Nat} {f : Option vfn} {log : List Event} {s : St}
    (h : Exec json (.any i d) f log s) (hi : i ≤ json.length) (n : Nat)
    (hn : 3 * json.length + 1 ≤ n + 3 * i) : vany json n i d f log = Run.ret s := by
  have := run_of_exec h n (by simp only [fits, Call.need, Call.pos]; exact hn) hi
  simpa [run] using this

/-- A string, number or literal that fails at a value that the scan reaches decides the
result of `Parse` -/
theorem any_fail_parse {json : List UInt8} {f0 : Option vfn} {i d c j info : Nat}
    {f : Option vfn} {log : List Event} (hr : Reach json f0 (.any i d) f log)
    (hc : rd json (skipWs json i) = Run.ret c)
    (hs : scalar json c (skipWs json i) = some (Run.ret (j, info, false, true))) :
    Parse json f0 = Run.ret (-(j : Int)) ∧ events json f0 = Run.ret log := by
  have h := any_scalar_skip (d := d) f log hc hs
  rw [vanyTail_stop] at h
  have := reach_parse hr h rfl
  rwa [verdict_fail] at this

/-! ### A zero that is followed by a digit -/

theorem scalar_zero {json : List UInt8} {p d : Nat} (hc : rd json p = Run.ret 48)
    (hd : rd json (p + 1) = Run.ret d) (hn : isnum d = true) :
    scalar json 48 p = some (Run.ret (p + 1, 0 ||| Info.Number, true, false)) := by
  have hlt := rd_lt hd
  have hne : ¬ (p + 1 = json.length) := by omega
  have h46 : ¬ (d = 46) := by rintro rfl; revert hn; decide
  have he : ¬ (d = 101 ∨ d = 69) := by rintro (rfl | rfl) <;> revert hn <;> decide
  unfold scalar
  simp only [show ¬ ((48 : Nat) = 34) by decide, show ¬ ((48 : Nat) = 123 ∨ (48 : Nat) = 91) by decide,
    show ((48 : Nat) = 45 ∨ isnum 48 = true) by decide, if_false, if_true]
  simp only [vnumber, hc, Run.ret_bind, show ¬ ((48 : Nat) = 45) by decide, if_false,
    vnumberInt_unfold 0 hc, if_true, hne, vnumberFrac, hd, h46, vnumberExp, he, Run.pure_eq]

theorem scalar_minus_zero {json : List UInt8} {p d : Nat} (hc : rd json p = Run.ret 45)
    (hz : rd json (p + 1) = Run.ret 48) (hd : rd json (p + 2) = Run.ret d) (hn : isnum d = true) :
    scalar json 45 p = some (Run.ret (p + 2, Info.Sign ||| Info.Number, true, false)) := by
  have hlt := rd_lt hd
  have hne : ¬ (p + 1 = json.length) := by omega
  have hne2 : ¬ (p + 1 + 1 = json.length) := by omega
  have hd' : rd json (p + 1 + 1) = Run.ret d := hd
  have h46 : ¬ (d = 46) := by rintro rfl; revert hn; decide
  have he : ¬ (d = 101 ∨ d = 69) := by rintro (rfl | rfl) <;> revert hn <;> decide
  unfold scalar
  simp only [show ¬ ((45 : Nat) = 34) by decide, show ¬ ((45 : Nat) = 123 ∨ (45 : Nat) = 91) by decide,
    show ((45 : Nat) = 45 ∨ isnum 45 = true) by decide, if_false, if_true]
  simp only [vnumber, hc, Run.ret_bind, if_true, hne, if_false, hz,
    show isnum 48 = true by decide, Bool.not_true, Bool.false_eq_true,
    vnumberInt_unfold Info.Sign hz, hne2, vnumberFrac, hd', h46, vnumberExp, he, Run.pure_eq,
    true_or]

/-- After a value without a visitor, a byte that is no whitespace, no comma and not the
closing byte makes the member fail at that byte -/
theorem member_fail_after {json : List UInt8} {e i c q info b : Nat} {log : List Event}
    (he : e = 125 ∨ e = 93) (hc : rd json (skipWs json i) = Run.ret c)
    (hs : scalar json c (skipWs json i) = some (Run.ret (q, info, true, false)))
    (hb : rd json q = Run.ret b) (hw : isws b = false) (h44 : b ≠ 44) (hbe : b ≠ e) :
    Exec json (.member e i) none log ⟨q, false, true, log⟩ := by
  have h1 := any_scalar_skip (d := Info.Value) none log hc hs
  rw [vanyTail_none] at h1
  refine Exec.member_go h1 rfl ?_
  have hwe : isws e = false := by rcases he with rfl | rfl <;> decide
  have hv : vcomma json q e = Run.ret (q, false, true) := by
    rw [vcomma_eq json q e hwe]
    unfold commaRes
    rw [skipWs_hit hb hw, hb]
    simp [h44, hbe]
  exact Exec.sep_fail hv

/-- After a value at the root without a visitor, a byte that is no whitespace makes
`Parse` fail at that byte -/
theorem root_fail_after {json : List UInt8} {c q info b : Nat}
    (hc : rd json (skipWs json 0) = Run.ret c)
    (hs : scalar json c (skipWs json 0) = some (Run.ret (q, info, true, false)))
    (hb : rd json q = Run.ret b) (hw : isws b = false) :
    Parse json none = Run.ret (-(q : Int)) := by
  have h1 := any_scalar_skip (d := Info.Start) none [] hc hs
  rw [vanyTail_none] at h1
  rw [Parse_eq h1, finish_go rfl]
  unfold docRes
  dsimp only
  rw [skipWs_hit hb hw, if_pos (rd_lt hb)]
  dsimp only
  rw [verdict_fail]

/-! ### A byte that starts no token -/

theorem scalar_none {json : List UInt8} {b p : Nat} (h34 : b ≠ 34) (h45 : b ≠ 45)
    (hn : isnum b = false) (h116 : b ≠ 116) (h110 : b ≠ 110) (h102 : b ≠ 102) :
    scalar json b p = none := by
  unfold scalar
  simp [h34, h45, hn, h116, h110, h102]

/-- At a program point (other than the start of a key) where the first byte that is no
whitespace starts no token, the scan fails at that byte -/
theorem bad_byte_fail {json : List UInt8} {c : Call} {b : Nat} (f : Option vfn)
    (log : List Event) (hg : c.good json) (hk : ∀ i, c ≠ .key i)
    (hb : rd json (skipWs json c.pos) = Run.ret b) (hn : isnum b = false)
    (hl : b ∉ [34, 123, 91, 45, 116, 110, 102, 125, 93, 58, 44]) :
    Exec json c f log ⟨skipWs json c.pos, false, true, log⟩ := by
  have hw := skipWs_not_ws hb
  simp only [List.mem_cons, List.mem_singleton, List.not_mem_nil, or_false, not_or] at hl
  obtain ⟨h34, h123, h91, h45, h116, h110, h102, h125, h93, h58, h44⟩ := hl
  have hany : ∀ d, Exec json (.any (skipWs json c.pos) d) f log
      ⟨skipWs json c.pos, false, true, log⟩ :=
    fun d => Exec.any_bad hb hw h123 h91 (scalar_none h34 h45 hn h116 h110 h102)
  cases c with
  | any i d => exact exec_any_skip i (hany d)
  | object i => exact exec_object_skip i (Exec.obj_bad hb hw h125 h34)
  | key i => exact absurd rfl (hk i)
  | colon i =>
    have hv : vcolon json i = Run.ret (skipWs json i, false, true) := by
      rw [vcolon_eq]
      unfold colonRes
      simp only [Call.pos] at hb
      rw [hb]
      simp [h58]
    exact Exec.colon_fail hv
  | member e i => exact Exec.member_stop (exec_any_skip i (hany _)) rfl
  | sep e i =>
    have hwe : isws e = false := by rcases hg with rfl | rfl <;> decide
    have hv : vcomma json i e = Run.ret (skipWs json i, false, true) := by
      rw [vcomma_eq json i e hwe]
      unfold commaRes
      simp only [Call.pos] at hb
      rw [hb]
      have : b ≠ e := by rcases hg with rfl | rfl <;> assumption
      simp [h44, this]
    exact Exec.sep_fail hv
  | next i => exact exec_next_skip i (Exec.next_bad hb hw h34)
  | array i =>
    exact exec_array_skip i (Exec.arr_elems hb hw h93
      (Exec.elems_go hb hw (Exec.member_stop (hany _) rfl)))
  | elems i =>
    exact exec_elems_skip i (Exec.elems_go hb hw (Exec.member_stop (hany _) rfl))

end pjson
namespace pjson

/-! ## Escapes that fail -/

/-- The loop over the hexadecimal digits of a `\u` escape, in terms of the bytes that
follow the cursor -/
theorem hex4_eq (json : List UInt8) : ∀ k i t, (vals json).drop (i + 1) = t →
    hex4 json k i = Run.ret (match hexFail k t with
      | some n => (i + 1 + n, false)
      | none => (i + k, true)) := by
  intro k
  induction k with
  | zero => intro i t _; rfl
  | succ k ih =>
    intro i t ht
    cases t with
    | nil =>
      have hge : i + 1 ≥ json.length := by
        have := congrArg List.length ht
        simp only [List.length_drop, vals_length, List.length_nil] at this
        omega
      simp [hex4, hge, hexFail]
    | cons c t' =>
      obtain ⟨hc, hd⟩ := rd_of_drop ht
      have hlt := rd_lt hc
      have hge : ¬ (i + 1 ≥ json.length) := by omega
      by_cases hh : IsHex c
      · have hx := (ishex_iff c).mpr hh
        have := ih (i + 1) t' hd
        simp only [hex4, hge, if_false, hc, Run.ret_bind, hx, Bool.not_true, Bool.false_eq_true,
          this, hexFail, if_pos hh]
        cases hexFail k t' with
        | none => simp only [Option.map_none']; congr 2; omega
        | some n => simp only [Option.map_some']; congr 2; omega
      · have hx : ishex c = false := by
          cases h : ishex c
          · rfl
          · exact absurd ((ishex_iff c).mp h) hh
        simp [hex4, hge, hc, hx, hexFail, hh]

/-- The code after the label `tok` at a backslash -/
theorem tok_escape {json : List UInt8} {q : Nat} {rest : List Nat} (info : Nat)
    (hc : rd json q = Run.ret 92) (hd : (vals json).drop (q + 1) = rest) :
    tok json q info = Run.ret (match escapeFail rest with
      | some n => Tok.done (q + n) (info ||| Info.Escaped) false true
      | none => Tok.more (q + (if rest.head? = some 117 then 6 else 2)) (info ||| Info.Escaped)) := by
  cases rest with
  | nil =>
    have hge : q + 1 = json.length := by
      have := congrArg List.length hd
      simp only [List.length_drop, vals_length, List.length_nil] at this
      have := rd_lt hc
      omega
    simp [tok, hc, hge, escapeFail]
  | cons d t =>
    obtain ⟨hd1, hd2⟩ := rd_of_drop hd
    have hlt := rd_lt hd1
    have hne : ¬ (q + 1 = json.length) := by omega
    by_cases hesc : IsEscape d
    · have h117 : d ≠ 117 := by
        rintro rfl
        revert hesc
        decide
      have hesc' := hesc
      unfold IsEscape at hesc'
      simp [tok, hc, hne, hd1, hesc', escapeFail, hesc, h117]
    · have hesc' : ¬ (d = 34 ∨ d = 92 ∨ d = 47 ∨ d = 98 ∨ d = 102 ∨ d = 110 ∨ d = 114 ∨ d = 116) :=
        hesc
      by_cases hu : d = 117
      · subst hu
        have hh := hex4_eq json 4 (q + 1) t hd2
        simp only [tok, hc, Run.ret_bind, show ¬ ((92 : Nat) = 34) by decide,
          show ¬ ((92 : Nat) < 32) by decide, if_false, if_true, hne, hd1, hesc', hh, escapeFail,
          if_neg hesc, List.head?_cons]
        cases hexFail 4 t with
        | none => simp
        | some n => simp only [Option.map_some']; simp; omega
      · simp [tok, hc, hne, hd1, hesc', hu, escapeFail, hesc]

/-- The string scanner goes over a string body -/
theorem vstringLoop_body (u : Bool) (json : List UInt8) {body : List Nat} (hb : JChars body) :
    ∀ (tail : List Nat) (n i info0 : Nat), 0 < n → json.length < n + i →
      (vals json).drop i = body ++ tail →
      ∃ m info1, vstringLoop u json n i info0 = vstringLoop u json m (i + body.length) info1 ∧
        0 < m ∧ json.length < m + (i + body.length) := by
  induction hb with
  | nil =>
    intro tail n i info0 h0 hf _
    exact ⟨n, info0, rfl, h0, hf⟩
  | @plain c s h1 h2 h3 _ ih =>
    intro tail n i info0 h0 hf hd
    obtain ⟨m, rfl⟩ : ∃ m, n = m + 1 := ⟨n - 1, by omega⟩
    obtain ⟨hc, hd1⟩ := rd_of_drop hd
    have ht : isstrtok c = false := (isstrtok_false_iff c).mpr ⟨h1, h2, h3⟩
    rw [vstringLoop_skip u json m info0 hc ht]
    obtain ⟨m', info1, hr, hm1, hm2⟩ := ih tail (m + 1) (i + 1) info0 (by omega) (by omega) hd1
    refine ⟨m', info1, ?_, hm1, ?_⟩
    · rw [hr]
      simp only [List.length_cons]
      have e : i + 1 + s.length = i + (s.length + 1) := by omega
      rw [e]
    · simp only [List.length_cons]; omega
  | @esc c s h1 _ ih =>
    intro tail n i info0 h0 hf hd
    obtain ⟨m, rfl⟩ : ∃ m, n = m + 1 := ⟨n - 1, by omega⟩
    obtain ⟨hc, hd1⟩ := rd_of_drop hd
    obtain ⟨hc1, hd2⟩ := rd_of_drop hd1
    have hl1 := rd_lt hc1
    rw [vstringLoop_succ, scanRes_tok hc (by decide) (by decide)]
    have hd1' : (vals json).drop (i + 1) = c :: (s ++ tail) := hd1
    have htok := tok_escape info0 hc hd1'
    have hef : escapeFail (c :: (s ++ tail)) = none := by simp [escapeFail, h1]
    have h117 : c ≠ 117 := by
      rintro rfl
      revert h1
      decide
    rw [hef] at htok
    simp only [List.head?_cons, Option.some.injEq, h117, if_false] at htok
    simp only [htok, Run.ret_bind]
    by_cases hm0 : m = 0
    · exfalso; omega
    obtain ⟨m', info1, hr, hm1, hm2⟩ :=
      ih tail m (i + 1 + 1) (info0 ||| Info.Escaped) (by omega) (by omega) hd2
    refine ⟨m', info1, ?_, hm1, ?_⟩
    · rw [hr]
      simp only [List.length_cons]
      have e : i + 1 + 1 + s.length = i + (s.length + 1 + 1) := by omega
      rw [e]
    · simp only [List.length_cons]; omega
  | @uni a b c d s ha hb hc hd _ ih =>
    intro tail n i info0 h0 hf hdrop
    obtain ⟨m, rfl⟩ : ∃ m, n = m + 1 := ⟨n - 1, by omega⟩
    obtain ⟨r0, hd0⟩ := rd_of_drop hdrop
    obtain ⟨r1, hd1⟩ := rd_of_drop hd0
    obtain ⟨r2, hd2⟩ := rd_of_drop hd1
    obtain ⟨r3, hd3⟩ := rd_of_drop hd2
    obtain ⟨r4, hd4⟩ := rd_of_drop hd3
    obtain ⟨r5, hd5⟩ := rd_of_drop hd4
    have l5 := rd_lt r5
    rw [vstringLoop_succ, scanRes_tok r0 (by decide) (by decide)]
    have hd0' : (vals json).drop (i + 1) = 117 :: a :: b :: c :: d :: (s ++ tail) := hd0
    have htok := tok_escape info0 r0 hd0'
    have hef : escapeFail (117 :: a :: b :: c :: d :: (s ++ tail)) = none := by
      simp [escapeFail, hexFail, ha, hb, hc, hd, IsEscape]
    rw [hef] at htok
    simp only [List.head?_cons, if_true] at htok
    simp only [htok, Run.ret_bind]
    by_cases hm0 : m = 0
    · exfalso; omega
    obtain ⟨m', info1, hr, hm1, hm2⟩ :=
      ih tail m (i + 1 + 1 + 1 + 1 + 1 + 1) (info0 ||| Info.Escaped) (by omega) (by omega) hd5
    refine ⟨m', info1, ?_, hm1, ?_⟩
    · rw [hr]
      simp only [List.length_cons]
      have e : i + 1 + 1 + 1 + 1 + 1 + 1 + s.length = i + (s.length + 1 + 1 + 1 + 1 + 1 + 1) := by
        omega
      rw [e]
    · simp only [List.length_cons]; omega

/-- The string scanner at an escape that fails: after the string body `body` from `i`
on, the backslash at `i + body.length`, and the bytes `rest` -/
theorem vstring_escape_fail {json : List UInt8} {i n : Nat} {body rest : List Nat}
    (hb : JChars body) (hd : (vals json).drop i = body ++ 92 :: rest)
    (hf : escapeFail rest = some n) :
    ∃ info, vstring json i = Run.ret (i + body.length + n, info, false, true) := by
  obtain ⟨m, info1, hr, hm1, hm2⟩ := vstringLoop_body unroll json hb (92 :: rest)
    (json.length + 1) i 0 (by omega) (by omega) hd
  obtain ⟨m', rfl⟩ : ∃ m', m = m' + 1 := ⟨m - 1, by omega⟩
  have hd1 := drop_add_of_drop hd
  obtain ⟨hc, hd2⟩ := rd_of_drop hd1
  refine ⟨info1 ||| Info.Escaped, ?_⟩
  unfold vstring vstringWith
  rw [hr, vstringLoop_succ, scanRes_tok hc (by decide) (by decide)]
  simp only [tok_escape info1 hc hd2, hf, Run.ret_bind]

/-- A string that fails at a value or key that the scan reaches decides the result of
`Parse` -/
theorem string_fail_parse {json : List UInt8} {f0 : Option vfn} {i off info : Nat}
    (hv : vstring json i = Run.ret (off, info, false, true)) :
    (∀ j d f log, Reach json f0 (.any j d) f log → rd json (skipWs json j) = Run.ret 34 →
      i = skipWs json j + 1 → Parse json f0 = Run.ret (-(off : Int))) ∧
    (∀ k f log, Reach json f0 (.key k) f log → i = k + 1 →
      Parse json f0 = Run.ret (-(off : Int))) := by
  constructor
  · intro j d f log hr hq hi
    subst hi
    have hs : scalar json 34 (skipWs json j) =
        some (Run.ret (off, info ||| Info.String, false, true)) := by
      unfold scalar
      simp [hv]
    exact (any_fail_parse hr hq hs).1
  · intro k f log hr hi
    subst hi
    have := (reach_parse hr (Exec.key_fail hv) rfl).1
    rwa [verdict_fail] at this

end pjson
namespace pjson

/-! ## Literals at a value that the scan reaches; escapes of the grammar -/

/-- A literal at a value that the scan reaches: `word` is the text to match, `kind` the
bit of the event -/
theorem literal_at {json : List UInt8} {f0 : Option vfn} {i d c n kind : Nat} {word : List Nat}
    {f : Option vfn} {log : List Event} (hr : Reach json f0 (.any i d) f log)
    (hc : rd json (skipWs json i) = Run.ret c)
    (hs : scalar json c (skipWs json i) = some (Run.ret
      (if slice json (skipWs json i) (skipWs json i + n) = word
        then (skipWs json i + n, kind, true, false) else (skipWs json i + 1, kind, false, true)))) :
    (slice json (skipWs json i) (skipWs json i + n) = word →
      (∀ m, 3 * json.length + 1 ≤ m + 3 * i → vany json m i d f log =
        Run.ret (vanyTail (skipWs json i) (skipWs json i + n) kind d true false f log)) ∧
      (∀ g, f = some g →
        (vanyTail (skipWs json i) (skipWs json i + n) kind d true false f log).log =
          log ++ [⟨skipWs json i, skipWs json i + n, kind ||| tailInfo f d⟩])) ∧
    (slice json (skipWs json i) (skipWs json i + n) ≠ word →
      (∀ m, 3 * json.length + 1 ≤ m + 3 * i →
        vany json m i d f log = Run.ret ⟨skipWs json i + 1, false, true, log⟩) ∧
      Parse json f0 = Run.ret (-((skipWs json i + 1 : Nat) : Int))) := by
  have hi := (reach_inb_good hr).1
  constructor
  · intro hm
    rw [if_pos hm] at hs
    refine ⟨fun m hfit => vany_of_exec (any_scalar_skip f log hc hs) hi m hfit, ?_⟩
    intro g hg
    subst hg
    by_cases hz : (fire (some g) log ⟨skipWs json i, skipWs json i + n,
        kind ||| tailInfo (some g) d⟩).1 = 0
    · rw [vanyTail_zero hz]; rfl
    · rw [vanyTail_nonzero hz]; rfl
  · intro hm
    rw [if_neg hm] at hs
    have h := any_scalar_skip (d := d) f log hc hs
    rw [vanyTail_stop] at h
    exact ⟨fun m hfit => vany_of_exec h hi m hfit, (any_fail_parse hr hc hs).1⟩

theorem hexFail_none {t : List Nat} (h : hexFail 4 t = none) :
    ∃ a b c d t', t = a :: b :: c :: d :: t' ∧ IsHex a ∧ IsHex b ∧ IsHex c ∧ IsHex d := by
  cases t with
  | nil => simp [hexFail] at h
  | cons a t =>
    by_cases ha : IsHex a
    · cases t with
      | nil => simp [hexFail, ha] at h
      | cons b t =>
        by_cases hb : IsHex b
        · cases t with
          | nil => simp [hexFail, ha, hb] at h
          | cons c t =>
            by_cases hc : IsHex c
            · cases t with
              | nil => simp [hexFail, ha, hb, hc] at h
              | cons d t =>
                by_cases hd : IsHex d
                · exact ⟨a, b, c, d, t, rfl, ha, hb, hc, hd⟩
                · simp [hexFail, ha, hb, hc, hd] at h
            · simp [hexFail, ha, hb, hc] at h
        · simp [hexFail, ha, hb] at h
    · simp [hexFail, ha] at h

/-- An escape that does not fail is one of the escapes of the grammar -/
theorem escape_ok {body rest : List Nat} (hb : JChars body) (h : escapeFail rest = none) :
    ∃ esc tail, rest = esc ++ tail ∧ JChars (body ++ 92 :: esc) := by
  cases rest with
  | nil => simp [escapeFail] at h
  | cons c t =>
    by_cases hesc : IsEscape c
    · exact ⟨[c], t, rfl, JChars.append hb (JChars.esc hesc JChars.nil)⟩
    · by_cases hu : c = 117
      · subst hu
        simp only [escapeFail, if_neg hesc, if_true, Option.map_eq_none'] at h
        obtain ⟨a, b, c, d, t', rfl, ha, hb', hc, hd⟩ := hexFail_none h
        exact ⟨[117, a, b, c, d], t', rfl,
          JChars.append hb (JChars.uni ha hb' hc hd JChars.nil)⟩
      · simp [escapeFail, hesc, hu] at h

end pjson
namespace pjson

/-! ## Soundness: the bytes that a scan goes over are a text of the grammar -/

theorem allWs_cons {c : Nat} {w : List Nat} (hc : isws c = true) (hw : AllWs w) : AllWs (c :: w) := by
  intro x hx
  rcases List.mem_cons.mp hx with rfl | hx
  · exact (isws_iff _).mp hc
  · exact hw x hx

theorem allWs_append {a b : List Nat} (ha : AllWs a) (hb : AllWs b) : AllWs (a ++ b) := by
  intro x hx
  rcases List.mem_append.mp hx with hx | hx
  · exact ha x hx
  · exact hb x hx

theorem allWs_nil : AllWs [] := fun _ h => absurd h (List.not_mem_nil _)

theorem members_ws_cons {c : Nat} {m : List Nat} (hc : isws c = true) (h : Derives .members m) :
    Derives .members (c :: m) := by
  cases h with
  | member h1 h2 h3 h4 h5 h6 => exact Derives.member (allWs_cons hc h1) h2 h3 h4 h5 h6
  | members h1 h2 h3 h4 h5 h6 h7 => exact Derives.members (allWs_cons hc h1) h2 h3 h4 h5 h6 h7

theorem elements_ws_cons {c : Nat} {es : List Nat} (hc : isws c = true) (h : Derives .elements es) :
    Derives .elements (c :: es) := by
  cases h with
  | element h1 h2 h3 => exact Derives.element (allWs_cons hc h1) h2 h3
  | elements h1 h2 h3 h4 => exact Derives.elements (allWs_cons hc h1) h2 h3 h4

/-- A key, a colon, a value and what follows it up to `}` make a member list -/
theorem members_of {k w2 w3 v tl : List Nat} (hk : JString k) (h2 : AllWs w2) (h3 : AllWs w3)
    (hv : Derives .value v) (ht : Tail 125 tl) :
    ∃ m, Derives .members m ∧ k ++ (w2 ++ 58 :: (w3 ++ v ++ tl)) = m ++ [125] := by
  obtain ⟨w4, h4, ht⟩ := ht
  rcases ht with rfl | ⟨t, hi, rfl⟩
  · refine ⟨_, Derives.member allWs_nil hk h2 h3 hv h4, ?_⟩
    simp
  · simp only [Items, if_true] at hi
    refine ⟨_, Derives.members allWs_nil hk h2 h3 hv h4 hi, ?_⟩
    simp

/-- A value and what follows it up to `]` make an element list -/
theorem elements_of {w1 v tl : List Nat} (h1 : AllWs w1) (hv : Derives .value v) (ht : Tail 93 tl) :
    ∃ es, Derives .elements es ∧ w1 ++ v ++ tl = es ++ [93] := by
  obtain ⟨w4, h4, ht⟩ := ht
  rcases ht with rfl | ⟨t, hi, rfl⟩
  · refine ⟨_, Derives.element h1 hv h4, ?_⟩
    simp
  · simp only [Items] at hi
    rw [if_neg (by decide)] at hi
    refine ⟨_, Derives.elements h1 hv h4 hi, ?_⟩
    simp

theorem shape_afterComma {e i : Nat} {x : List Nat} (he : e = 125 ∨ e = 93)
    (h : Shape (afterComma e i) x) : ∃ t, Items e t ∧ x = t ++ [e] := by
  rcases he with rfl | rfl
  · simp only [afterComma, if_true, Shape] at h
    obtain ⟨m, hm, rfl⟩ := h
    exact ⟨m, by simp only [Items, if_true]; exact hm, rfl⟩
  · have hne : ¬ (93 : Nat) = 125 := by decide
    simp only [afterComma, if_neg hne, Shape] at h
    obtain ⟨m, hm, rfl⟩ := h
    exact ⟨m, by simp only [Items, if_neg hne]; exact hm, rfl⟩

/-- The bytes from the cursor of a program point to the cursor at which its code ends
without a stop have the shape of the program point -/
theorem exec_shape {json : List UInt8} {c : Call} {f : Option vfn} {log : List Event} {s : St}
    (h : Exec json c f log s) : c.inb json → c.good json → s.stop = false →
    Shape c (slice json c.pos s.i) := by
  induction h with
  | any_eob _ | obj_eob _ | next_eob _ | arr_eob _ | elems_eob _ | any_bad _ _ _ _ _
  | obj_bad _ _ _ _ | next_bad _ _ _ | key_fail _ | colon_fail _ | sep_fail _
  | any_obj_stop _ _ | any_arr_stop _ _ | key_stop _ _ | colon_stop _ _ | sep_stop _ _ _ _ =>
    intro _ _ hs; cases hs
  | member_stop _ hst _ => intro _ _ hs; rw [hst] at hs; cases hs
  | @any_ws i d f log c s hc hw hsub ih =>
    intro hb _ hs
    have hlt := rd_lt hc
    have hb1 : (Call.any (i + 1) d).inb json := hlt
    obtain ⟨w, v, h1, h2, h3⟩ := ih hb1 trivial hs
    have hle := (exec_bounds hsub hb1).1
    simp only [Call.pos] at h3 hle ⊢
    refine ⟨c :: w, v, allWs_cons hw h1, h2, ?_⟩
    rw [slice_cons hc (by omega), h3]
    rfl
  | @any_scalar i d f log c j info ok stop hc hw hsc =>
    intro _ _ hs
    obtain ⟨hst, hok, _, _⟩ := vanyTail_go hs
    subst hst
    obtain ⟨j1, info1, ok1, h1, _, _, h4⟩ := scalar_spec hc hsc
    simp only [Run.ret.injEq, Prod.mk.injEq] at h1
    obtain ⟨rfl, rfl, rfl, h5⟩ := h1
    have hok1 : ok = true := by revert h5; cases ok <;> simp
    simp only [Call.pos, vanyTail_i]
    exact ⟨[], _, allWs_nil, (h4 hok1).2, rfl⟩
  | @any_obj i d f log s hc hr hsub ih =>
    intro _ _ hs
    have hlt := rd_lt hc
    have hb1 : (Call.object (i + 1)).inb json := hlt
    have hs1 := (vanyClose_go hs).1
    have hle := (exec_bounds hsub hb1).1
    have := ih hb1 trivial hs1
    simp only [Call.pos, vanyClose_i, Shape] at this hle ⊢
    refine ⟨[], _, allWs_nil, ?_, (slice_cons hc (by omega)).trans rfl⟩
    rcases this with ⟨w, h1, h2⟩ | ⟨m, h1, h2⟩
    · rw [h2]; exact Derives.emptyObject h1
    · rw [h2]; exact Derives.object h1
  | @any_arr i d f log s hc hr hsub ih =>
    intro _ _ hs
    have hlt := rd_lt hc
    have hb1 : (Call.array (i + 1)).inb json := hlt
    have hs1 := (vanyClose_go hs).1
    have hle := (exec_bounds hsub hb1).1
    have := ih hb1 trivial hs1
    simp only [Call.pos, vanyClose_i, Shape] at this hle ⊢
    refine ⟨[], _, allWs_nil, ?_, (slice_cons hc (by omega)).trans rfl⟩
    rcases this with ⟨w, h1, h2⟩ | ⟨m, h1, h2⟩
    · rw [h2]; exact Derives.emptyArray h1
    · rw [h2]; exact Derives.array h1
  | @obj_ws i f log c s hc hw hsub ih =>
    intro _ _ hs
    have hlt := rd_lt hc
    have hb1 : (Call.object (i + 1)).inb json := hlt
    have hle := (exec_bounds hsub hb1).1
    have := ih hb1 trivial hs
    simp only [Call.pos, Shape] at this hle ⊢
    rw [slice_cons hc (by omega)]
    rcases this with ⟨w, h1, h2⟩ | ⟨m, h1, h2⟩
    · exact Or.inl ⟨c :: w, allWs_cons hw h1, by rw [h2]; rfl⟩
    · exact Or.inr ⟨c :: m, members_ws_cons hw h1, by rw [h2]; rfl⟩
  | @arr_ws i f log c s hc hw hsub ih =>
    intro _ _ hs
    have hlt := rd_lt hc
    have hb1 : (Call.array (i + 1)).inb json := hlt
    have hle := (exec_bounds hsub hb1).1
    have := ih hb1 trivial hs
    simp only [Call.pos, Shape] at this hle ⊢
    rw [slice_cons hc (by omega)]
    rcases this with ⟨w, h1, h2⟩ | ⟨m, h1, h2⟩
    · exact Or.inl ⟨c :: w, allWs_cons hw h1, by rw [h2]; rfl⟩
    · exact Or.inr ⟨c :: m, elements_ws_cons hw h1, by rw [h2]; rfl⟩
  | @next_ws i f log c s hc hw hsub ih =>
    intro _ _ hs
    have hlt := rd_lt hc
    have hb1 : (Call.next (i + 1)).inb json := hlt
    have hle := (exec_bounds hsub hb1).1
    have := ih hb1 trivial hs
    simp only [Call.pos, Shape] at this hle ⊢
    rw [slice_cons hc (by omega)]
    obtain ⟨m, h1, h2⟩ := this
    exact ⟨c :: m, members_ws_cons hw h1, by rw [h2]; rfl⟩
  | @elems_ws i f log c s hc hw hsub ih =>
    intro _ _ hs
    have hlt := rd_lt hc
    have hb1 : (Call.elems (i + 1)).inb json := hlt
    have hle := (exec_bounds hsub hb1).1
    have := ih hb1 trivial hs
    simp only [Call.pos, Shape] at this hle ⊢
    rw [slice_cons hc (by omega)]
    obtain ⟨m, h1, h2⟩ := this
    exact ⟨c :: m, elements_ws_cons hw h1, by rw [h2]; rfl⟩
  | @obj_close i f log hc =>
    intro _ _ _
    simp only [Call.pos, Shape]
    exact Or.inl ⟨[], allWs_nil, slice_one hc⟩
  | @arr_close i f log hc =>
    intro _ _ _
    simp only [Call.pos, Shape]
    exact Or.inl ⟨[], allWs_nil, slice_one hc⟩
  | @obj_key i f log s hc hsub ih =>
    intro _ _ hs
    exact Or.inr (ih (rd_lt hc) hc hs)
  | @next_key i f log s hc hsub ih =>
    intro _ _ hs
    exact ih (rd_lt hc) hc hs
  | @arr_elems i f log c s hc hw hne hsub ih =>
    intro hb _ hs
    exact Or.inr (ih hb trivial hs)
  | @elems_go i f log c s hc hw hsub ih =>
    intro hb _ hs
    obtain ⟨w3, v, tl, h1, h2, h3, h4⟩ := ih hb (Or.inr rfl) hs
    simp only [Call.pos, Shape] at h4 ⊢
    rw [h4]
    exact elements_of h1 h2 h3
  | @key_go i f log j info ok s hv hr hsub ih =>
    intro hb hg hs
    simp only [Call.good] at hg
    obtain ⟨_, h2, h3, h4, _⟩ := vstring_JString hg hv
    have hb1 : (Call.colon j).inb json := h3
    have hle := (exec_bounds hsub hb1).1
    obtain ⟨w2, w3, v, tl, f1, f2, f3, f4, f5⟩ := ih hb1 trivial hs
    simp only [Call.pos, Shape] at f5 hle ⊢
    rw [← slice_append json (show i ≤ j by omega) hle, f5]
    exact members_of h4 f1 f2 f3 f4
  | @colon_go i f log j ok s hv hr hsub ih =>
    intro hb _ hs
    simp only [Call.inb, Call.pos] at hb
    obtain ⟨_, h2, h3, h4, h5⟩ := vcolon_go hv
    have hb1 : (Call.member 125 j).inb json := h4 hb
    have hle := (exec_bounds hsub hb1).1
    obtain ⟨w3, v, tl, f1, f2, f3, f4⟩ := ih hb1 (Or.inl rfl) hs
    simp only [Call.pos, Shape] at f4 hle ⊢
    refine ⟨slice json i (j - 1), w3, v, tl, allWs_of_isws h5, f1, f2, f3, ?_⟩
    rw [← f4, ← slice_append json (show i ≤ j - 1 by omega) (show j - 1 ≤ s.i by omega)]
    congr 1
    have := slice_cons h3 (show j - 1 < s.i by omega)
    rw [this]
    congr 2
    omega
  | @member_go e i f log s t h1 hst h2 ih1 ih2 =>
    intro hb hg hs
    have hb0 : (Call.any i Info.Value).inb json := hb
    have hbd := exec_bounds h1 hb0
    have hb1 : (Call.sep e s.i).inb json := (hbd.2.2 hst).2.2
    have hle := (exec_bounds h2 hb1).1
    obtain ⟨w, v, f1, f2, f3⟩ := ih1 hb0 trivial hst
    have f4 := ih2 hb1 hg hs
    simp only [Call.pos, Shape] at f3 f4 hle hbd ⊢
    refine ⟨w, v, _, f1, f2, f4, ?_⟩
    rw [← f3, slice_append json hbd.1 hle]
  | @sep_close e i f log j ok hv hc =>
    intro _ _ _
    obtain ⟨_, h2, h3, _, h5⟩ := vcomma_go hv
    simp only [Call.pos, Shape]
    exact ⟨slice json i j, allWs_of_isws h5, Or.inl (slice_snoc hc h2)⟩
  | @sep_go e i f log j ok c s hv hc hce hr hsub ih =>
    intro _ hg hs
    simp only [Call.good] at hg
    obtain ⟨_, h2, h3, _, h5⟩ := vcomma_go hv
    have h44 := comma_byte hv hc hce
    have hb1 : (afterComma e (j + 1)).inb json := afterComma_inb h3
    have hle := (exec_bounds hsub hb1).1
    have := ih hb1 (afterComma_good json _ _) hs
    rw [afterComma_pos] at this hle
    obtain ⟨t, f1, f2⟩ := shape_afterComma hg this
    simp only [Call.pos, Shape]
    refine ⟨slice json i j, allWs_of_isws h5, Or.inr ⟨t, f1, ?_⟩⟩
    rw [← slice_append json h2 (show j ≤ s.i by omega), slice_cons h44 (by omega), f2]
    simp

/-- A scan from the root that goes through went over whitespace and a value -/
theorem root_value {json : List UInt8} {f : Option vfn} {log : List Event} {s : St}
    (h : Exec json (.any 0 Info.Start) f log s) (hs : s.stop = false)
    (hw : skipWs json s.i = json.length) : JsonText (vals json) := by
  obtain ⟨w, v, h1, h2, h3⟩ := exec_shape h (Nat.zero_le _) trivial hs
  have hb := (exec_bounds h (Nat.zero_le _)).2.2 hs
  simp only [Call.pos] at h3
  refine ⟨w, v, slice json s.i json.length, h1, h2, ?_, ?_⟩
  · have := skipWs_slice json s.i
    rw [hw] at this
    exact allWs_of_isws this
  · rw [← h3, slice_append json (Nat.zero_le _) hb.2.2, slice_all]

/-- A positive result of `Parse` without a visitor: the input is a text of the grammar -/
theorem parse_sound {json : List UInt8} {f : Option vfn} {r : Int} (hf : NonZero f)
    (hp : Parse json f = Run.ret r) (hr : 0 < r) : JsonText (vals json) := by
  obtain ⟨s, hs⟩ := exec_total json (.any 0 Info.Start) f [] (Nat.zero_le _)
  obtain ⟨h1, _, _, h4, _⟩ := parse_pos hs hf hp hr
  exact root_value hs h1 h4

end pjson
namespace pjson

/-! ## Completeness: the scan without a visitor goes over every text of the grammar -/

theorem not_ws_of {c : Nat} (h : ¬ IsWs c) : isws c = false :=
  Bool.eq_false_iff.mpr (fun hw => h ((isws_iff c).mp hw))

/-- Whitespace that is followed by a byte that is none, or by the end of the buffer -/
theorem skipWs_of_drop {json : List UInt8} {i : Nat} {w t : List Nat} (hw : AllWs w)
    (hd : (vals json).drop i = w ++ t) (ht : ∀ c ∈ t.head?, isws c = false) :
    skipWs json i = i + w.length := by
  unfold skipWs
  refine findFrom_of_drop hd ?_ ?_
  · intro c hc
    simp [isws_of_allWs hw c hc]
  · intro c hc
    simp [ht c hc]

theorem jnumber_head {s : List Nat} (h : JNumber s) :
    ∃ c t, s = c :: t ∧ (c = 45 ∨ (48 ≤ c ∧ c ≤ 57)) := by
  obtain ⟨sign, int, frac, exp, hsign, hint, _, _, rfl⟩ := h
  rcases hsign with rfl | rfl
  · rcases hint with rfl | ⟨d, ds, h1, h2, _, rfl⟩
    · exact ⟨48, _, rfl, Or.inr ⟨by omega, by omega⟩⟩
    · exact ⟨d, _, rfl, Or.inr ⟨by omega, h2⟩⟩
  · exact ⟨45, _, rfl, Or.inl rfl⟩

/-- A value starts with a byte that is no whitespace, comma, colon or closing bracket -/
theorem value_head {v : List Nat} (h : Derives .value v) :
    ∃ c t, v = c :: t ∧ isws c = false ∧ c ≠ 93 ∧ c ≠ 125 ∧ c ≠ 44 := by
  cases h with
  | str hs =>
    obtain ⟨body, _, rfl⟩ := hs
    exact ⟨34, _, rfl, by decide, by decide, by decide, by decide⟩
  | num hn =>
    obtain ⟨c, t, rfl, hc⟩ := jnumber_head hn
    refine ⟨c, t, rfl, not_ws_of ?_, ?_, ?_, ?_⟩
    · unfold IsWs; omega
    all_goals omega
  | litTrue => exact ⟨116, _, rfl, by decide, by decide, by decide, by decide⟩
  | litFalse => exact ⟨102, _, rfl, by decide, by decide, by decide, by decide⟩
  | litNull => exact ⟨110, _, rfl, by decide, by decide, by decide, by decide⟩
  | emptyObject _ => exact ⟨123, _, rfl, by decide, by decide, by decide, by decide⟩
  | object _ => exact ⟨123, _, rfl, by decide, by decide, by decide, by decide⟩
  | emptyArray _ => exact ⟨91, _, rfl, by decide, by decide, by decide, by decide⟩
  | array _ => exact ⟨91, _, rfl, by decide, by decide, by decide, by decide⟩

theorem string_complete {json : List UInt8} {i d : Nat} {s rest : List Nat} (log : List Event)
    (hs : JString s) (hd : (vals json).drop i = s ++ rest) :
    Exec json (.any i d) none log ⟨i + s.length, true, false, log⟩ := by
  obtain ⟨body, hb, rfl⟩ := hs
  obtain ⟨hc, hd1⟩ := rd_of_drop (show (vals json).drop i = 34 :: (body ++ 34 :: rest) by
    rw [hd]; simp)
  obtain ⟨info, hv⟩ := vstring_complete json hb hd1
  have hsc : scalar json 34 i =
      some (Run.ret (i + 1 + body.length + 1, info ||| Info.String, true, false)) := by
    unfold scalar
    simp only [if_true, hv, Run.ret_bind, Run.pure_eq]
  have := @Exec.any_scalar json _ d none log _ _ _ _ _ hc (by decide) hsc
  rw [vanyTail_none] at this
  have he : i + (34 :: body ++ [34]).length = i + 1 + body.length + 1 := by
    simp only [List.length_cons, List.length_append, List.length_nil]; omega
  rw [he]
  exact this

theorem number_complete {json : List UInt8} {i d : Nat} {s rest : List Nat} (log : List Event)
    (hs : JNumber s) (hd : (vals json).drop i = s ++ rest) (hr : Delim rest) :
    Exec json (.any i d) none log ⟨i + s.length, true, false, log⟩ := by
  obtain ⟨c, t, hct, hc⟩ := jnumber_head hs
  obtain ⟨hrd, _⟩ := rd_of_drop (show (vals json).drop i = c :: (t ++ rest) by
    rw [hd, hct]; rfl)
  obtain ⟨info, hv⟩ := vnumber_complete hd hs hr
  have hnum : c = 45 ∨ isnum c = true := by
    rcases hc with h | h
    · exact Or.inl h
    · exact Or.inr ((isnum_iff c).mpr h)
  have hsc : scalar json c i =
      some (Run.ret (i + s.length, info ||| Info.Number, true, false)) := by
    unfold scalar
    rw [if_neg (by omega), if_neg (by omega), if_pos hnum]
    simp only [hv, Run.ret_bind, Run.pure_eq]
  have hw : isws c = false := not_ws_of (by unfold IsWs; omega)
  have := @Exec.any_scalar json _ d none log _ _ _ _ _ hrd hw hsc
  rw [vanyTail_none] at this
  exact this

theorem true_complete {json : List UInt8} {i d : Nat} {rest : List Nat} (log : List Event)
    (hd : (vals json).drop i = [116, 114, 117, 101] ++ rest) :
    Exec json (.any i d) none log ⟨i + 4, true, false, log⟩ := by
  obtain ⟨hc, _⟩ := rd_of_drop (show (vals json).drop i = 116 :: ([114, 117, 101] ++ rest) from hd)
  have hsl : slice json i (i + 4) = [116, 114, 117, 101] := slice_eq_of_drop hd
  have hsc := scalar_true hc
  rw [if_pos hsl] at hsc
  have := @Exec.any_scalar json _ d none log _ _ _ _ _ hc (by decide) hsc
  rw [vanyTail_none] at this
  exact this

theorem null_complete {json : List UInt8} {i d : Nat} {rest : List Nat} (log : List Event)
    (hd : (vals json).drop i = [110, 117, 108, 108] ++ rest) :
    Exec json (.any i d) none log ⟨i + 4, true, false, log⟩ := by
  obtain ⟨hc, _⟩ := rd_of_drop (show (vals json).drop i = 110 :: ([117, 108, 108] ++ rest) from hd)
  have hsl : slice json i (i + 4) = [110, 117, 108, 108] := slice_eq_of_drop hd
  have hsc := scalar_null hc
  rw [if_pos hsl] at hsc
  have := @Exec.any_scalar json _ d none log _ _ _ _ _ hc (by decide) hsc
  rw [vanyTail_none] at this
  exact this

theorem false_complete {json : List UInt8} {i d : Nat} {rest : List Nat} (log : List Event)
    (hd : (vals json).drop i = [102, 97, 108, 115, 101] ++ rest) :
    Exec json (.any i d) none log ⟨i + 5, true, false, log⟩ := by
  obtain ⟨hc, _⟩ := rd_of_drop
    (show (vals json).drop i = 102 :: ([97, 108, 115, 101] ++ rest) from hd)
  have hsl : slice json i (i + 5) = [102, 97, 108, 115, 101] := slice_eq_of_drop hd
  have hsc := scalar_false hc
  rw [if_pos hsl] at hsc
  have := @Exec.any_scalar json _ d none log _ _ _ _ _ hc (by decide) hsc
  rw [vanyTail_none] at this
  exact this

theorem fire_none_ne (log : List Event) (e : Event) : (fire none log e).1 ≠ 0 := by
  rw [fire_none]; exact one_ne_zero

theorem any_obj_none {json : List UInt8} {i : Nat} {log : List Event} {s : St} (d : Nat)
    (hc : rd json i = Run.ret 123) (h : Exec json (.object (i + 1)) none log s)
    (hs : s.stop = false) : Exec json (.any i d) none log ⟨s.i, true, false, s.log⟩ := by
  have := @Exec.any_obj json i d none log s hc (fire_none_ne _ _)
    (by rw [fire_none, inner_none]; exact h)
  rw [vanyClose_none] at this
  simpa only [hs, Bool.false_eq_true, if_false] using this

theorem any_arr_none {json : List UInt8} {i : Nat} {log : List Event} {s : St} (d : Nat)
    (hc : rd json i = Run.ret 91) (h : Exec json (.array (i + 1)) none log s)
    (hs : s.stop = false) : Exec json (.any i d) none log ⟨s.i, true, false, s.log⟩ := by
  have := @Exec.any_arr json i d none log s hc (fire_none_ne _ _)
    (by rw [fire_none, inner_none]; exact h)
  rw [vanyClose_none] at this
  simpa only [hs, Bool.false_eq_true, if_false] using this

theorem delim_ws_then {w rest : List Nat} {c : Nat} (hw : AllWs w)
    (hc : c = 44 ∨ c = 93 ∨ c = 125) : Delim (w ++ c :: rest) := by
  intro x hx
  cases w with
  | nil =>
    simp only [List.nil_append, List.head?_cons, Option.mem_def, Option.some.injEq] at hx
    subst hx
    exact Or.inr hc
  | cons a w =>
    simp only [List.cons_append, List.head?_cons, Option.mem_def, Option.some.injEq] at hx
    subst hx
    exact Or.inl ((isws_iff _).mpr (hw _ (List.mem_cons_self _ _)))

/-- Whitespace and the closing byte after a member value or an element -/
theorem sep_close_of {json : List UInt8} {i e : Nat} {w rest : List Nat} (log : List Event)
    (hw : AllWs w) (hd : (vals json).drop i = w ++ e :: rest) (he : isws e = false) :
    Exec json (.sep e i) none log ⟨i + w.length + 1, true, false, log⟩ := by
  have hsk : skipWs json i = i + w.length := skipWs_of_drop hw hd (by simp [he])
  have hc := (rd_of_drop (drop_add_of_drop hd)).1
  have hv := vcomma_eq json i e he
  unfold commaRes at hv
  rw [hsk, if_pos (Or.inr hc)] at hv
  exact Exec.sep_close hv hc

/-- Whitespace and a comma after a member value or an element -/
theorem sep_go_of {json : List UInt8} {i e : Nat} {w rest : List Nat} {log : List Event} {s : St}
    (hw : AllWs w) (hd : (vals json).drop i = w ++ 44 :: rest) (he : isws e = false)
    (h44 : e ≠ 44) (h : Exec json (afterComma e (i + w.length + 1)) none log s) :
    Exec json (.sep e i) none log s := by
  have hsk : skipWs json i = i + w.length := skipWs_of_drop hw hd (by simp; decide)
  have hc := (rd_of_drop (drop_add_of_drop hd)).1
  have hv := vcomma_eq json i e he
  unfold commaRes at hv
  rw [hsk, if_pos (Or.inl hc)] at hv
  exact @Exec.sep_go json e i none log _ _ 44 s hv hc (fun h => h44 h.symm)
    (fire_none_ne _ _) (by rw [fire_none]; exact h)

/-- A key, whitespace and the colon -/
theorem key_of {json : List UInt8} {p : Nat} {k w2 rest : List Nat} {log : List Event} {s : St}
    (hk : JString k) (hw : AllWs w2) (hd : (vals json).drop p = k ++ (w2 ++ 58 :: rest))
    (h : Exec json (.member 125 (p + k.length + w2.length + 1)) none log s) :
    rd json p = Run.ret 34 ∧ Exec json (.key p) none log s := by
  obtain ⟨body, hb, rfl⟩ := hk
  obtain ⟨hc, hd1⟩ := rd_of_drop (show (vals json).drop p =
      34 :: (body ++ 34 :: (w2 ++ 58 :: rest)) by rw [hd]; simp)
  obtain ⟨info, hv⟩ := vstring_complete json hb hd1
  have hq : p + 1 + body.length + 1 = p + (34 :: body ++ [34]).length := by
    simp only [List.length_cons, List.length_append, List.length_nil]; omega
  rw [hq] at hv
  have hd2 : (vals json).drop (p + (34 :: body ++ [34]).length) = w2 ++ 58 :: rest :=
    drop_add_of_drop hd
  have hsk := skipWs_of_drop hw hd2 (by simp; decide)
  have h58 := (rd_of_drop (drop_add_of_drop hd2)).1
  have hcol := vcolon_eq json (p + (34 :: body ++ [34]).length)
  unfold colonRes at hcol
  rw [hsk, if_pos h58] at hcol
  refine ⟨hc, ?_⟩
  refine @Exec.key_go json p none log _ info true s hv (fire_none_ne _ _) ?_
  rw [fire_none]
  refine @Exec.colon_go json _ none log _ true s hcol (fire_none_ne _ _) ?_
  rw [fire_none]
  exact h

/-- Whitespace and a value -/
theorem any_skip_of {json : List UInt8} {i : Nat} {w v rest : List Nat} (d : Nat)
    (log : List Event) (hw : AllWs w) (hv : Derives .value v) (hc : Complete .value v)
    (hd : (vals json).drop i = w ++ (v ++ rest)) (hr : Delim rest) :
    Exec json (.any i d) none log ⟨i + w.length + v.length, true, false, log⟩ := by
  obtain ⟨c, t, rfl, hcw, _⟩ := value_head hv
  have hsk : skipWs json i = i + w.length := skipWs_of_drop hw hd (by simp [hcw])
  have := hc json (i + w.length) d rest log (drop_add_of_drop hd) (fun _ _ _ => hr)
  rw [← hsk] at this
  have h2 := exec_any_skip i this
  rwa [hsk] at h2

/-- Whitespace, a value and what follows it up to the closing byte -/
theorem member_of {json : List UInt8} {i e : Nat} {w v rest : List Nat} {log : List Event} {t : St}
    (hw : AllWs w) (hv : Derives .value v) (hc : Complete .value v)
    (hd : (vals json).drop i = w ++ (v ++ rest)) (hr : Delim rest)
    (h : Exec json (.sep e (i + w.length + v.length)) none log t) :
    Exec json (.member e i) none log t :=
  Exec.member_go (any_skip_of Info.Value log hw hv hc hd hr) rfl h

theorem member_of0 {json : List UInt8} {i e : Nat} {v rest : List Nat} {log : List Event} {t : St}
    (hv : Derives .value v) (hc : Complete .value v)
    (hd : (vals json).drop i = v ++ rest) (hr : Delim rest)
    (h : Exec json (.sep e (i + v.length)) none log t) :
    Exec json (.member e i) none log t :=
  @member_of json i e [] v rest log t allWs_nil hv hc hd hr h

theorem first_of_value {json : List UInt8} {i : Nat} {w v rest : List Nat} (hw : AllWs w)
    (hv : Derives .value v) (hd : (vals json).drop i = w ++ (v ++ rest)) :
    skipWs json i = i + w.length ∧ ∃ c, rd json (i + w.length) = Run.ret c ∧ c ≠ 93 := by
  obtain ⟨c, t, rfl, hcw, h93, _⟩ := value_head hv
  exact ⟨skipWs_of_drop hw hd (by simp [hcw]), c, (rd_of_drop (drop_add_of_drop hd)).1, h93⟩

theorem first_of_key {json : List UInt8} {i : Nat} {w k rest : List Nat} (hw : AllWs w)
    (hk : JString k) (hd : (vals json).drop i = w ++ (k ++ rest)) :
    skipWs json i = i + w.length := by
  obtain ⟨body, _, rfl⟩ := hk
  exact skipWs_of_drop hw hd (by simp; decide)

/-- The scan without a visitor goes over every text that the grammar derives -/
theorem derives_complete {sym : Sym} {x : List Nat} (h : Derives sym x) : Complete sym x := by
  induction h with
  | str hs => intro json i d rest log hd _; exact string_complete log hs hd
  | num hn =>
    intro json i d rest log hd hr
    obtain ⟨c, t, rfl, hc⟩ := jnumber_head hn
    refine number_complete log hn hd (hr c rfl ?_)
    rcases hc with h | h
    · exact Or.inl h
    · exact Or.inr ((isnum_iff c).mpr h)
  | litTrue => intro json i d rest log hd _; exact true_complete log hd
  | litFalse => intro json i d rest log hd _; exact false_complete log hd
  | litNull => intro json i d rest log hd _; exact null_complete log hd
  | @emptyObject w hw =>
    intro json i d rest log hd _
    obtain ⟨hc, hd1⟩ := rd_of_drop (show (vals json).drop i = 123 :: (w ++ 125 :: rest) by
      rw [hd]; simp)
    have hsk := skipWs_of_drop hw hd1 (by simp; decide)
    have h125 := (rd_of_drop (drop_add_of_drop hd1)).1
    have h1 : Exec json (.object (skipWs json (i + 1))) none log
        ⟨i + 1 + w.length + 1, true, false, log⟩ := by
      rw [hsk]; exact Exec.obj_close h125
    have h2 := any_obj_none d hc (exec_object_skip _ h1) rfl
    have he : i + (123 :: w ++ [125]).length = i + 1 + w.length + 1 := by
      simp only [List.length_cons, List.length_append, List.length_nil]; omega
    rw [he]
    exact h2
  | @emptyArray w hw =>
    intro json i d rest log hd _
    obtain ⟨hc, hd1⟩ := rd_of_drop (show (vals json).drop i = 91 :: (w ++ 93 :: rest) by
      rw [hd]; simp)
    have hsk := skipWs_of_drop hw hd1 (by simp; decide)
    have h93 := (rd_of_drop (drop_add_of_drop hd1)).1
    have h1 : Exec json (.array (skipWs json (i + 1))) none log
        ⟨i + 1 + w.length + 1, true, false, log⟩ := by
      rw [hsk]; exact Exec.arr_close h93
    have h2 := any_arr_none d hc (exec_array_skip _ h1) rfl
    have he : i + (91 :: w ++ [93]).length = i + 1 + w.length + 1 := by
      simp only [List.length_cons, List.length_append, List.length_nil]; omega
    rw [he]
    exact h2
  | @object m hm ih =>
    intro json i d rest log hd _
    obtain ⟨hc, hd1⟩ := rd_of_drop (show (vals json).drop i = 123 :: (m ++ 125 :: rest) by
      rw [hd]; simp)
    obtain ⟨hq, hk⟩ := ih json (i + 1) rest log hd1
    have h2 := any_obj_none d hc (exec_object_skip _ (Exec.obj_key hq hk)) rfl
    have he : i + (123 :: m ++ [125]).length = i + 1 + m.length + 1 := by
      simp only [List.length_cons, List.length_append, List.length_nil]; omega
    rw [he]
    exact h2
  | @array es hes ih =>
    intro json i d rest log hd _
    obtain ⟨hc, hd1⟩ := rd_of_drop (show (vals json).drop i = 91 :: (es ++ 93 :: rest) by
      rw [hd]; simp)
    obtain ⟨c, hq, h93, hk⟩ := ih json (i + 1) rest log hd1
    have hw := skipWs_not_ws hq
    have h2 := any_arr_none d hc
      (exec_array_skip _ (Exec.arr_elems hq hw h93 (Exec.elems_go hq hw hk))) rfl
    have he : i + (91 :: es ++ [93]).length = i + 1 + es.length + 1 := by
      simp only [List.length_cons, List.length_append, List.length_nil]; omega
    rw [he]
    exact h2
  | @element w1 v w2 h1 hv h2 ih =>
    intro json i rest log hd
    have hd1 : (vals json).drop i = w1 ++ (v ++ (w2 ++ 93 :: rest)) := by rw [hd]; simp
    obtain ⟨hsk, c, hc, h93⟩ := first_of_value h1 hv hd1
    have hdp := drop_add_of_drop hd1
    have hd2 := drop_add_of_drop hdp
    have hsep := sep_close_of log h2 hd2 (by decide)
    have hm := member_of0 hv ih hdp (delim_ws_then h2 (Or.inr (Or.inl rfl))) hsep
    have he : i + (w1 ++ v ++ w2).length + 1 = i + w1.length + v.length + w2.length + 1 := by
      simp only [List.length_append]; omega
    rw [hsk, he]
    exact ⟨c, hc, h93, hm⟩
  | @elements w1 v w2 es h1 hv h2 hes ihv ihes =>
    intro json i rest log hd
    have hd1 : (vals json).drop i = w1 ++ (v ++ (w2 ++ 44 :: (es ++ 93 :: rest))) := by
      rw [hd]; simp
    obtain ⟨hsk, c, hc, h93⟩ := first_of_value h1 hv hd1
    have hdp := drop_add_of_drop hd1
    have hd2 := drop_add_of_drop hdp
    have hd3 := (rd_of_drop (drop_add_of_drop hd2)).2
    obtain ⟨c1, hq, _, hk⟩ := ihes json _ rest log hd3
    have helems := exec_elems_skip _ (Exec.elems_go hq (skipWs_not_ws hq) hk)
    have hsep := @sep_go_of json _ 93 w2 _ log _ h2 hd2 (by decide) (by decide)
      (by unfold afterComma; rw [if_neg (by decide)]; exact helems)
    have hm := member_of0 hv ihv hdp (delim_ws_then h2 (Or.inl rfl)) hsep
    have he : i + (w1 ++ v ++ w2 ++ 44 :: es).length + 1 =
        i + w1.length + v.length + w2.length + 1 + es.length + 1 := by
      simp only [List.length_append, List.length_cons]; omega
    rw [hsk, he]
    exact ⟨c, hc, h93, hm⟩
  | @member w1 k w2 w3 v w4 h1 hk h2 h3 hv h4 ih =>
    intro json i rest log hd
    have hd1 : (vals json).drop i =
        w1 ++ (k ++ (w2 ++ 58 :: (w3 ++ (v ++ (w4 ++ 125 :: rest))))) := by rw [hd]; simp
    have hsk := first_of_key h1 hk hd1
    have hdp := drop_add_of_drop hd1
    have hdm := (rd_of_drop (drop_add_of_drop (drop_add_of_drop hdp))).2
    have hds := drop_add_of_drop (drop_add_of_drop hdm)
    have hsep := sep_close_of log h4 hds (by decide)
    have hm := member_of h3 hv ih hdm (delim_ws_then h4 (Or.inr (Or.inr rfl))) hsep
    obtain ⟨hq, hkey⟩ := key_of hk h2 hdp hm
    have he : i + (w1 ++ k ++ w2 ++ 58 :: (w3 ++ v ++ w4)).length + 1 =
        i + w1.length + k.length + w2.length + 1 + w3.length + v.length + w4.length + 1 := by
      simp only [List.length_append, List.length_cons]; omega
    rw [hsk, he]
    exact ⟨hq, hkey⟩
  | @members w1 k w2 w3 v w4 ms h1 hk h2 h3 hv h4 hms ihv ihms =>
    intro json i rest log hd
    have hd1 : (vals json).drop i =
        w1 ++ (k ++ (w2 ++ 58 :: (w3 ++ (v ++ (w4 ++ 44 :: (ms ++ 125 :: rest)))))) := by
      rw [hd]; simp
    have hsk := first_of_key h1 hk hd1
    have hdp := drop_add_of_drop hd1
    have hdm := (rd_of_drop (drop_add_of_drop (drop_add_of_drop hdp))).2
    have hds := drop_add_of_drop (drop_add_of_drop hdm)
    have hd3 := (rd_of_drop (drop_add_of_drop hds)).2
    obtain ⟨hq1, hk1⟩ := ihms json _ rest log hd3
    have hnext := exec_next_skip _ (Exec.next_key hq1 hk1)
    have hsep := @sep_go_of json _ 125 w4 _ log _ h4 hds (by decide) (by decide)
      (by unfold afterComma; rw [if_pos rfl]; exact hnext)
    have hm := member_of h3 hv ihv hdm (delim_ws_then h4 (Or.inl rfl)) hsep
    obtain ⟨hq, hkey⟩ := key_of hk h2 hdp hm
    have he : i + (w1 ++ k ++ w2 ++ 58 :: (w3 ++ v ++ w4) ++ 44 :: ms).length + 1 =
        i + w1.length + k.length + w2.length + 1 + w3.length + v.length + w4.length + 1 +
          ms.length + 1 := by
      simp only [List.length_append, List.length_cons]; omega
    rw [hsk, he]
    exact ⟨hq, hkey⟩

/-- A text of the grammar: the scan from the root goes through at the end of the value,
which only whitespace follows -/
theorem text_complete {json : List UInt8} (h : JsonText (vals json)) :
    ∃ s, Exec json (.any 0 Info.Start) none [] s ∧ s.stop = false ∧
      skipWs json s.i = json.length := by
  obtain ⟨w1, v, w2, h1, hv, h2, he⟩ := h
  have hd : (vals json).drop 0 = w1 ++ (v ++ (w2 ++ [])) := by
    rw [List.drop_zero, he]; simp
  have hdelim : Delim (w2 ++ []) := by
    intro c hc
    rw [List.append_nil] at hc
    cases w2 with
    | nil => cases hc
    | cons a w =>
      simp only [List.head?_cons, Option.mem_def, Option.some.injEq] at hc
      subst hc
      exact Or.inl ((isws_iff _).mpr (h2 _ (List.mem_cons_self _ _)))
  have hex := any_skip_of Info.Start [] h1 hv (derives_complete hv) hd hdelim
  refine ⟨_, hex, rfl, ?_⟩
  have hd2 := drop_add_of_drop (drop_add_of_drop hd)
  have hsk := skipWs_of_drop h2 hd2 (by simp)
  have hlen : json.length = w1.length + v.length + w2.length := by
    rw [← vals_length, he]; simp only [List.length_append]
  simp only at hsk ⊢
  rw [hsk]; omega

/-- Every text of the grammar makes `Parse` return the length of the input, with every
visitor that never answers 0 -/
theorem parse_complete {json : List UInt8} (f : Option vfn) (hf : NonZero f)
    (h : JsonText (vals json)) : Parse json f = Run.ret (json.length : Int) := by
  obtain ⟨s, hs, hst, hw⟩ := text_complete h
  rw [Parse_quiet json f hf]
  exact parse_len hs hst hw

end pjson
namespace pjson

/-! ## The ranges of the events are the minified text -/

theorem cat_nil (json : List UInt8) : cat json [] = [] := rfl

theorem cat_append (json : List UInt8) (a b : List Event) :
    cat json (a ++ b) = cat json a ++ cat json b := by
  simp [cat, List.flatMap_append]

theorem cat_one (json : List UInt8) (e : Event) : cat json [e] = slice json e.start e.fin := by
  simp [cat, List.flatMap]

theorem Outs.nil : Outs [] [] := fun _ => rfl

theorem Outs.glue {a oa b ob : List Nat} (ha : Outs a oa) (hb : Outs b ob) :
    Outs (a ++ b) (oa ++ ob) := by
  intro y
  rw [List.append_assoc, ha, hb, List.append_assoc]

theorem strip_ws {c : Nat} (hc : IsWs c) (b : Bool) (s : List Nat) :
    strip false b (c :: s) = strip false false s := by
  unfold IsWs at hc
  rw [strip, if_pos hc]

theorem strip_plain {c : Nat} (hc : ¬ IsWs c) (hq : c ≠ 34) (b : Bool) (s : List Nat) :
    strip false b (c :: s) = c :: strip false false s := by
  unfold IsWs at hc
  rw [strip, if_neg hc, if_neg hq]

theorem strip_quote (b : Bool) (s : List Nat) :
    strip false b (34 :: s) = 34 :: strip true false s := by
  rw [strip, if_neg (by decide), if_pos rfl]

theorem strip_in {c : Nat} (h1 : c ≠ 92) (h2 : c ≠ 34) (s : List Nat) :
    strip true false (c :: s) = c :: strip true false s := by
  rw [strip, if_neg h1, if_neg h2]

theorem strip_esc (c : Nat) (s : List Nat) :
    strip true false (92 :: c :: s) = 92 :: c :: strip true false s := by
  rw [strip, if_pos rfl, strip]

theorem strip_close (s : List Nat) : strip true false (34 :: s) = 34 :: strip false false s := by
  rw [strip, if_neg (by decide), if_pos rfl]

theorem Outs.ws {w : List Nat} (h : AllWs w) : Outs w [] := by
  induction w with
  | nil => exact Outs.nil
  | cons c w ih =>
    intro y
    have := ih (fun x hx => h x (List.mem_cons_of_mem _ hx)) y
    simp only [minify, List.cons_append, List.nil_append] at this ⊢
    rw [strip_ws (h c (List.mem_cons_self _ _)), this]

theorem Outs.plain {x : List Nat} (h : ∀ c ∈ x, ¬ IsWs c ∧ c ≠ 34) : Outs x x := by
  induction x with
  | nil => exact Outs.nil
  | cons c x ih =>
    intro y
    have := ih (fun a ha => h a (List.mem_cons_of_mem _ ha)) y
    have hc := h c (List.mem_cons_self _ _)
    simp only [minify, List.cons_append] at this ⊢
    rw [strip_plain hc.1 hc.2, this]

theorem hex_in {c : Nat} (h : IsHex c) : c ≠ 92 ∧ c ≠ 34 := by
  unfold IsHex IsDigit at h
  omega

theorem strip_chars {body : List Nat} (h : JChars body) (y : List Nat) :
    strip true false (body ++ 34 :: y) = body ++ 34 :: strip false false y := by
  induction h with
  | nil => exact strip_close y
  | plain _ h2 h3 _ ih =>
    rw [List.cons_append, strip_in h3 h2, ih, List.cons_append]
  | esc _ _ ih =>
    simp only [List.cons_append]
    rw [strip_esc, ih]
  | uni ha hb hc hd _ ih =>
    simp only [List.cons_append]
    rw [strip_esc, strip_in (hex_in ha).1 (hex_in ha).2, strip_in (hex_in hb).1 (hex_in hb).2,
      strip_in (hex_in hc).1 (hex_in hc).2, strip_in (hex_in hd).1 (hex_in hd).2, ih]

theorem Outs.string {s : List Nat} (h : JString s) : Outs s s := by
  obtain ⟨body, hb, rfl⟩ := h
  intro y
  simp only [minify, List.cons_append, List.append_assoc, List.singleton_append,
    List.nil_append]
  rw [strip_quote, strip_chars hb]

theorem Outs.number {s : List Nat} (h : JNumber s) : Outs s s := by
  obtain ⟨sign, int, frac, exp, hsign, hint, hfrac, hexp, rfl⟩ := h
  refine Outs.plain ?_
  intro c hc
  have hcases : c = 45 ∨ IsDigit c ∨ c = 46 ∨ c = 101 ∨ c = 69 ∨ c = 43 := by
    simp only [List.mem_append] at hc
    rcases hc with ((hc | hc) | hc) | hc
    · rcases hsign with rfl | rfl
      · cases hc
      · simp only [List.mem_singleton] at hc; exact Or.inl hc
    · exact Or.inr (Or.inl ((jint_digits hint).2 c hc))
    · rcases (jfrac_bytes hfrac).2 c hc with h | h
      · exact Or.inr (Or.inr (Or.inl h))
      · exact Or.inr (Or.inl h)
    · rcases (jexp_bytes hexp).2 c hc with h | h | h | h | h
      · exact Or.inr (Or.inr (Or.inr (Or.inl h)))
      · exact Or.inr (Or.inr (Or.inr (Or.inr (Or.inl h))))
      · exact Or.inr (Or.inr (Or.inr (Or.inr (Or.inr h))))
      · exact Or.inl h
      · exact Or.inr (Or.inl h)
  unfold IsWs
  unfold IsDigit at hcases
  omega

/-- A string, number or literal is its own minified form -/
theorem Outs.value {v : List Nat} (h : Derives .value v)
    (hh : ∀ c ∈ v.head?, c ≠ 123 ∧ c ≠ 91) : Outs v v := by
  cases h with
  | str hs => exact Outs.string hs
  | num hn => exact Outs.number hn
  | litTrue => exact Outs.plain (by decide)
  | litFalse => exact Outs.plain (by decide)
  | litNull => exact Outs.plain (by decide)
  | emptyObject _ => exact absurd rfl (hh 123 rfl).1
  | object _ => exact absurd rfl (hh 123 rfl).1
  | emptyArray _ => exact absurd rfl (hh 91 rfl).2
  | array _ => exact absurd rfl (hh 91 rfl).2

theorem scalar_not_open {json : List UInt8} {c i : Nat} {r : Run (Nat × Nat × Bool × Bool)}
    (h : scalar json c i = some r) : c ≠ 123 ∧ c ≠ 91 := by
  unfold scalar at h
  by_cases h1 : c = 34
  · omega
  · rw [if_neg h1] at h
    by_cases h2 : c = 123 ∨ c = 91
    · rw [if_pos h2] at h; cases h
    · omega

theorem scalar_outs {json : List UInt8} {i c j info : Nat}
    (hc : rd json i = Run.ret c) (hs : scalar json c i = some (Run.ret (j, info, true, false))) :
    Outs (slice json i j) (slice json i j) := by
  obtain ⟨j1, info1, ok1, h1, h2, _, h4⟩ := scalar_spec hc hs
  simp only [Run.ret.injEq, Prod.mk.injEq] at h1
  obtain ⟨rfl, rfl, rfl, _⟩ := h1
  refine Outs.value (h4 rfl).2 ?_
  intro x hx
  rw [slice_cons hc h2] at hx
  simp only [List.head?_cons, Option.mem_def, Option.some.injEq] at hx
  subst hx
  exact scalar_not_open hs

theorem Outs.byte {c : Nat} (h1 : ¬ IsWs c) (h2 : c ≠ 34) : Outs [c] [c] :=
  Outs.plain (by
    intro x hx
    simp only [List.mem_singleton] at hx
    subst hx
    exact ⟨h1, h2⟩)

theorem Outs.ws_cons {c : Nat} {x out : List Nat} (hc : isws c = true) (h : Outs x out) :
    Outs (c :: x) out := by
  have := (Outs.ws (allWs_cons hc allWs_nil)).glue h
  simpa using this

theorem Outs.closer {e : Nat} (h : e = 125 ∨ e = 93) : Outs [e] [e] := by
  rcases h with rfl | rfl <;> exact Outs.byte (by decide) (by decide)

theorem inner_keep {f : Option vfn} {r : Int} (h : r ≠ -1) : inner f r = f := by
  unfold inner; rw [if_neg h]

/-- With a visitor that never stops the scan and never skips a container, the ranges of
the events that the code at a program point delivers, and its closing byte if it has
one, are the minified form of the bytes that it goes over -/
theorem exec_outs {json : List UInt8} {c : Call} {f : Option vfn} {log : List Event} {s : St}
    (h : Exec json c f log s) : ∀ g, f = some g → (∀ l e, g l e ≠ 0 ∧ g l e ≠ -1) →
    c.inb json → c.good json → s.stop = false →
    ∃ new, s.log = log ++ new ∧
      Outs (slice json c.pos s.i) (cat json new ++ c.closer.toList) := by
  induction h with
  | any_eob _ | obj_eob _ | next_eob _ | arr_eob _ | elems_eob _ | any_bad _ _ _ _ _
  | obj_bad _ _ _ _ | next_bad _ _ _ | key_fail _ | colon_fail _ | sep_fail _
  | any_obj_stop _ _ | any_arr_stop _ _ | key_stop _ _ | colon_stop _ _ | sep_stop _ _ _ _ =>
    intro _ _ _ _ _ hs; cases hs
  | member_stop _ hst _ => intro _ _ _ _ _ hs; rw [hst] at hs; cases hs
  | @any_ws i d f log c s hc hw hsub ih =>
    intro g hf hg hb _ hs
    have hb1 : (Call.any (i + 1) d).inb json := rd_lt hc
    obtain ⟨new, h1, h2⟩ := ih g hf hg hb1 trivial hs
    have hle := (exec_bounds hsub hb1).1
    simp only [Call.pos] at h2 hle ⊢
    refine ⟨new, h1, ?_⟩
    rw [slice_cons hc (by omega)]
    exact Outs.ws_cons hw h2
  | @any_scalar i d f log c j info ok stop hc hw hsc =>
    intro g hf _ _ _ hs
    subst hf
    obtain ⟨hst, hok, _, hlog⟩ := vanyTail_go hs
    subst hst
    obtain ⟨j1, info1, ok1, h1, _, _, _⟩ := scalar_spec hc hsc
    simp only [Run.ret.injEq, Prod.mk.injEq] at h1
    obtain ⟨rfl, rfl, rfl, h5⟩ := h1
    have hok1 : ok = true := by revert h5; cases ok <;> simp
    subst hok1
    refine ⟨[⟨i, j, info ||| tailInfo (some g) d⟩], by rw [hlog, fire_some], ?_⟩
    simp only [Call.pos, vanyTail_i, Call.closer, Option.toList, List.append_nil, cat_one]
    exact scalar_outs hc hsc
  | @any_obj i d f log s hc hr hsub ih =>
    intro g hf hg _ _ hs
    subst hf
    have hb1 : (Call.object (i + 1)).inb json := rd_lt hc
    obtain ⟨hs1, _, _, hlog⟩ := vanyClose_go hs
    have hsub1 := hsub
    rw [inner_keep (by rw [fire_some]; exact (hg _ _).2), fire_some] at hsub1
    have hle := (exec_bounds hsub hb1).1
    obtain ⟨hq0, hq⟩ := exec_closer hsub trivial hs1 125 rfl
    obtain ⟨new, h1, h2⟩ := ih g (by rw [inner_keep (by rw [fire_some]; exact (hg _ _).2)])
      hg hb1 trivial hs1
    rw [fire_some] at h1
    refine ⟨openEv Info.Object i d :: new ++
      [⟨s.i - 1, s.i, Info.Object ||| Info.Close ||| closeInfo (some g) d⟩], ?_, ?_⟩
    · rw [hlog, fire_some, h1]; simp
    · simp only [Call.pos, vanyClose_i, Call.closer, Option.toList, List.append_nil] at h2 hle ⊢
      rw [slice_cons hc (by omega)]
      have hcl : slice json (s.i - 1) s.i = [125] := by
        have := slice_one hq
        rwa [Nat.sub_add_cancel hq0] at this
      have hop : slice json i (i + 1) = [123] := slice_one hc
      have hcat : cat json (openEv Info.Object i d :: new ++
          [⟨s.i - 1, s.i, Info.Object ||| Info.Close ||| closeInfo (some g) d⟩]) =
          [123] ++ (cat json new ++ [125]) := by
        rw [show openEv Info.Object i d :: new ++
          [⟨s.i - 1, s.i, Info.Object ||| Info.Close ||| closeInfo (some g) d⟩] =
          [openEv Info.Object i d] ++ (new ++
          [⟨s.i - 1, s.i, Info.Object ||| Info.Close ||| closeInfo (some g) d⟩]) from rfl,
          cat_append, cat_append, cat_one, cat_one]
        simp only [openEv]
        rw [hop, hcl]
      rw [hcat]
      exact (Outs.byte (by decide) (by decide)).glue h2
  | @any_arr i d f log s hc hr hsub ih =>
    intro g hf hg _ _ hs
    subst hf
    have hb1 : (Call.array (i + 1)).inb json := rd_lt hc
    obtain ⟨hs1, _, _, hlog⟩ := vanyClose_go hs
    have hle := (exec_bounds hsub hb1).1
    obtain ⟨hq0, hq⟩ := exec_closer hsub trivial hs1 93 rfl
    obtain ⟨new, h1, h2⟩ := ih g (by rw [inner_keep (by rw [fire_some]; exact (hg _ _).2)])
      hg hb1 trivial hs1
    rw [fire_some] at h1
    refine ⟨openEv Info.Array i d :: new ++
      [⟨s.i - 1, s.i, Info.Array ||| Info.Close ||| closeInfo (some g) d⟩], ?_, ?_⟩
    · rw [hlog, fire_some, h1]; simp
    · simp only [Call.pos, vanyClose_i, Call.closer, Option.toList, List.append_nil] at h2 hle ⊢
      rw [slice_cons hc (by omega)]
      have hcl : slice json (s.i - 1) s.i = [93] := by
        have := slice_one hq
        rwa [Nat.sub_add_cancel hq0] at this
      have hop : slice json i (i + 1) = [91] := slice_one hc
      have hcat : cat json (openEv Info.Array i d :: new ++
          [⟨s.i - 1, s.i, Info.Array ||| Info.Close ||| closeInfo (some g) d⟩]) =
          [91] ++ (cat json new ++ [93]) := by
        rw [show openEv Info.Array i d :: new ++
          [⟨s.i - 1, s.i, Info.Array ||| Info.Close ||| closeInfo (some g) d⟩] =
          [openEv Info.Array i d] ++ (new ++
          [⟨s.i - 1, s.i, Info.Array ||| Info.Close ||| closeInfo (some g) d⟩]) from rfl,
          cat_append, cat_append, cat_one, cat_one]
        simp only [openEv]
        rw [hop, hcl]
      rw [hcat]
      exact (Outs.byte (by decide) (by decide)).glue h2
  | @obj_ws i f log c s hc hw hsub ih =>
    intro g hf hg _ _ hs
    have hb1 : (Call.object (i + 1)).inb json := rd_lt hc
    obtain ⟨new, h1, h2⟩ := ih g hf hg hb1 trivial hs
    have hle := (exec_bounds hsub hb1).1
    simp only [Call.pos] at h2 hle ⊢
    refine ⟨new, h1, ?_⟩
    rw [slice_cons hc (by omega)]
    exact Outs.ws_cons hw h2
  | @arr_ws i f log c s hc hw hsub ih =>
    intro g hf hg _ _ hs
    have hb1 : (Call.array (i + 1)).inb json := rd_lt hc
    obtain ⟨new, h1, h2⟩ := ih g hf hg hb1 trivial hs
    have hle := (exec_bounds hsub hb1).1
    simp only [Call.pos] at h2 hle ⊢
    refine ⟨new, h1, ?_⟩
    rw [slice_cons hc (by omega)]
    exact Outs.ws_cons hw h2
  | @next_ws i f log c s hc hw hsub ih =>
    intro g hf hg _ _ hs
    have hb1 : (Call.next (i + 1)).inb json := rd_lt hc
    obtain ⟨new, h1, h2⟩ := ih g hf hg hb1 trivial hs
    have hle := (exec_bounds hsub hb1).1
    simp only [Call.pos] at h2 hle ⊢
    refine ⟨new, h1, ?_⟩
    rw [slice_cons hc (by omega)]
    exact Outs.ws_cons hw h2
  | @elems_ws i f log c s hc hw hsub ih =>
    intro g hf hg _ _ hs
    have hb1 : (Call.elems (i + 1)).inb json := rd_lt hc
    obtain ⟨new, h1, h2⟩ := ih g hf hg hb1 trivial hs
    have hle := (exec_bounds hsub hb1).1
    simp only [Call.pos] at h2 hle ⊢
    refine ⟨new, h1, ?_⟩
    rw [slice_cons hc (by omega)]
    exact Outs.ws_cons hw h2
  | @obj_close i f log hc =>
    intro _ _ _ _ _ _
    refine ⟨[], (List.append_nil _).symm, ?_⟩
    simp only [Call.pos, Call.closer, Option.toList, cat_nil, List.nil_append]
    rw [slice_one hc]
    exact Outs.byte (by decide) (by decide)
  | @arr_close i f log hc =>
    intro _ _ _ _ _ _
    refine ⟨[], (List.append_nil _).symm, ?_⟩
    simp only [Call.pos, Call.closer, Option.toList, cat_nil, List.nil_append]
    rw [slice_one hc]
    exact Outs.byte (by decide) (by decide)
  | @obj_key i f log s hc hsub ih =>
    intro g hf hg _ _ hs
    exact ih g hf hg (rd_lt hc) hc hs
  | @next_key i f log s hc hsub ih =>
    intro g hf hg _ _ hs
    exact ih g hf hg (rd_lt hc) hc hs
  | @arr_elems i f log c s hc hw hne hsub ih =>
    intro g hf hg hb _ hs
    exact ih g hf hg hb trivial hs
  | @elems_go i f log c s hc hw hsub ih =>
    intro g hf hg hb _ hs
    exact ih g hf hg hb (Or.inr rfl) hs
  | @key_go i f log j info ok s hv hr hsub ih =>
    intro g hf hg hb hgd hs
    subst hf
    simp only [Call.good] at hgd
    obtain ⟨_, h2, h3, h4, _⟩ := vstring_JString hgd hv
    have hb1 : (Call.colon j).inb json := h3
    have hle := (exec_bounds hsub hb1).1
    obtain ⟨new, f1, f2⟩ := ih g rfl hg hb1 trivial hs
    rw [fire_some] at f1
    refine ⟨⟨i, j, info ||| Info.Key ||| Info.String⟩ :: new, by rw [f1]; simp, ?_⟩
    simp only [Call.pos, Call.closer] at f2 hle ⊢
    rw [← slice_append json (show i ≤ j by omega) hle,
      show (⟨i, j, info ||| Info.Key ||| Info.String⟩ :: new : List Event) =
        [⟨i, j, info ||| Info.Key ||| Info.String⟩] ++ new from rfl,
      cat_append, cat_one, List.append_assoc]
    exact (Outs.string h4).glue f2
  | @colon_go i f log j ok s hv hr hsub ih =>
    intro g hf hg hb _ hs
    subst hf
    simp only [Call.inb, Call.pos] at hb
    obtain ⟨_, h2, h3, h4, h5⟩ := vcolon_go hv
    have hb1 : (Call.member 125 j).inb json := h4 hb
    have hle := (exec_bounds hsub hb1).1
    obtain ⟨new, f1, f2⟩ := ih g rfl hg hb1 (Or.inl rfl) hs
    rw [fire_some] at f1
    refine ⟨⟨j - 1, j, Info.Colon⟩ :: new, by rw [f1]; simp, ?_⟩
    simp only [Call.pos, Call.closer] at f2 hle ⊢
    have hj : j - 1 + 1 = j := by omega
    have hcol : slice json (j - 1) j = [58] := by
      have := slice_one h3
      rwa [hj] at this
    rw [← slice_append json (show i ≤ j - 1 by omega) (show j - 1 ≤ s.i by omega),
      ← slice_append json (show j - 1 ≤ j by omega) hle,
      show (⟨j - 1, j, Info.Colon⟩ :: new : List Event) = [⟨j - 1, j, Info.Colon⟩] ++ new from rfl,
      cat_append, cat_one, List.append_assoc, hcol]
    have := (Outs.ws (allWs_of_isws h5)).glue
      ((@Outs.byte 58 (by decide) (by decide)).glue f2)
    simpa using this
  | @member_go e i f log s t h1 hst h2 ih1 ih2 =>
    intro g hf hg hb hgd hs
    have hb0 : (Call.any i Info.Value).inb json := hb
    have hbd := exec_bounds h1 hb0
    have hb1 : (Call.sep e s.i).inb json := (hbd.2.2 hst).2.2
    have hle := (exec_bounds h2 hb1).1
    obtain ⟨n1, f1, f2⟩ := ih1 g hf hg hb0 trivial hst
    obtain ⟨n2, f3, f4⟩ := ih2 g hf hg hb1 hgd hs
    refine ⟨n1 ++ n2, by rw [f3, f1, List.append_assoc], ?_⟩
    simp only [Call.pos, Call.closer, Option.toList, List.append_nil] at f2 f4 hle hbd ⊢
    rw [← slice_append json hbd.1 hle, cat_append, List.append_assoc]
    exact f2.glue f4
  | @sep_close e i f log j ok hv hc =>
    intro _ _ _ _ hgd _
    obtain ⟨_, h2, h3, _, h5⟩ := vcomma_go hv
    refine ⟨[], (List.append_nil _).symm, ?_⟩
    simp only [Call.pos, Call.closer, Option.toList, cat_nil, List.nil_append]
    rw [slice_snoc hc h2]
    have := (Outs.ws (allWs_of_isws h5)).glue (Outs.closer hgd)
    simpa using this
  | @sep_go e i f log j ok c s hv hc hce hr hsub ih =>
    intro g hf hg _ hgd hs
    subst hf
    simp only [Call.good] at hgd
    obtain ⟨_, h2, h3, _, h5⟩ := vcomma_go hv
    have h44 := comma_byte hv hc hce
    have hb1 : (afterComma e (j + 1)).inb json := afterComma_inb h3
    have hle := (exec_bounds hsub hb1).1
    obtain ⟨new, f1, f2⟩ := ih g rfl hg hb1 (afterComma_good json _ _) hs
    rw [afterComma_pos] at f2 hle
    rw [afterComma_closer _ hgd] at f2
    rw [fire_some] at f1
    refine ⟨⟨j, j + 1, Info.Comma⟩ :: new, by rw [f1]; simp, ?_⟩
    simp only [Call.pos, Call.closer] at f2 ⊢
    rw [← slice_append json h2 (show j ≤ s.i by omega),
      ← slice_append json (show j ≤ j + 1 by omega) hle,
      show (⟨j, j + 1, Info.Comma⟩ :: new : List Event) = [⟨j, j + 1, Info.Comma⟩] ++ new from rfl,
      cat_append, cat_one, List.append_assoc, slice_one h44]
    have := (Outs.ws (allWs_of_isws h5)).glue
      ((@Outs.byte 44 (by decide) (by decide)).glue f2)
    simpa using this

/-- A scan from the root that goes through, with a visitor that never stops the scan and
never skips a container: the ranges of the events, one after the other, are the minified
input -/
theorem root_outs {json : List UInt8} {g : vfn} {s : St}
    (hg : ∀ l e, g l e ≠ 0 ∧ g l e ≠ -1)
    (h : Exec json (.any 0 Info.Start) (some g) [] s) (hs : s.stop = false)
    (hw : skipWs json s.i = json.length) : cat json s.log = minify (vals json) := by
  obtain ⟨new, h1, h2⟩ := exec_outs h g rfl hg (Nat.zero_le _) trivial hs
  have hb := (exec_bounds h (Nat.zero_le _)).2.2 hs
  simp only [Call.pos, Call.closer, Option.toList, List.append_nil, List.nil_append] at h1 h2
  have hws : AllWs (slice json s.i json.length) := by
    have := skipWs_slice json s.i
    rw [hw] at this
    exact allWs_of_isws this
  have := (h2.glue (Outs.ws hws)) []
  rw [slice_append json (Nat.zero_le _) hb.2.2, slice_all] at this
  simp only [List.append_nil] at this
  rw [h1, this]
  simp [minify, strip]

end pjson
namespace pjson

/-! ## The events are delivered in the order of the buffer -/

theorem fire_sorted {f : Option vfn} {log : List Event} {ev : Event} {p q : Nat}
    (hp : log.Pairwise (fun a b => a.fin ≤ b.start)) (hb : ∀ e ∈ log, e.fin ≤ p)
    (h1 : p ≤ ev.start) (h2 : ev.fin ≤ q) (h3 : p ≤ q) :
    (fire f log ev).2.Pairwise (fun a b => a.fin ≤ b.start) ∧
      ∀ e ∈ (fire f log ev).2, e.fin ≤ q := by
  cases f with
  | none => exact ⟨hp, fun e he => Nat.le_trans (hb e he) h3⟩
  | some g =>
    rw [fire_some]
    refine ⟨List.pairwise_append.mpr ⟨hp, List.pairwise_singleton _ _, ?_⟩, ?_⟩
    · intro a ha b hb'
      rw [List.mem_singleton] at hb'
      subst hb'
      exact Nat.le_trans (hb a ha) h1
    · intro e he
      rcases List.mem_append.mp he with he | he
      · exact Nat.le_trans (hb e he) h3
      · rw [List.mem_singleton] at he
        subst he
        exact h2

theorem afterComma_closer_len (e i : Nat) : (afterComma e i).closer.toList.length = 1 := by
  unfold afterComma; split <;> rfl

/-- The ranges of the events follow each other in the buffer, and they end before the
cursor (before the closing byte, for the code of a member list) -/
theorem exec_sorted {json : List UInt8} {c : Call} {f : Option vfn} {log : List Event} {s : St}
    (h : Exec json c f log s) : c.inb json → (∀ e ∈ log, e.fin ≤ c.pos) →
    log.Pairwise (fun a b => a.fin ≤ b.start) →
    s.log.Pairwise (fun a b => a.fin ≤ b.start) ∧
      (s.stop = false → ∀ e ∈ s.log, e.fin + c.closer.toList.length ≤ s.i) := by
  induction h with
  | any_eob _ | obj_eob _ | next_eob _ | arr_eob _ | elems_eob _ | any_bad _ _ _ _ _
  | obj_bad _ _ _ _ | next_bad _ _ _ | key_fail _ | colon_fail _ | sep_fail _ =>
    intro _ _ hp; exact ⟨hp, fun h => by cases h⟩
  | @any_ws i d f log c s hc hw hsub ih =>
    intro _ hb hp
    exact ih (rd_lt hc) (fun e he => Nat.le_succ_of_le (hb e he)) hp
  | @obj_ws i f log c s hc hw hsub ih =>
    intro _ hb hp
    exact ih (rd_lt hc) (fun e he => Nat.le_succ_of_le (hb e he)) hp
  | @arr_ws i f log c s hc hw hsub ih =>
    intro _ hb hp
    exact ih (rd_lt hc) (fun e he => Nat.le_succ_of_le (hb e he)) hp
  | @next_ws i f log c s hc hw hsub ih =>
    intro _ hb hp
    exact ih (rd_lt hc) (fun e he => Nat.le_succ_of_le (hb e he)) hp
  | @elems_ws i f log c s hc hw hsub ih =>
    intro _ hb hp
    exact ih (rd_lt hc) (fun e he => Nat.le_succ_of_le (hb e he)) hp
  | @any_scalar i d f log c j info ok stop hc hw hsc =>
    intro _ hb hp
    simp only [Call.pos] at hb
    have hij := (scalar_bounds hc hsc).2.1
    cases stop
    · have hf := @fire_sorted f log ⟨i, j, info ||| tailInfo f d⟩ i j hp hb (Nat.le_refl _)
        (Nat.le_refl _) (by omega)
      by_cases hz : (fire f log ⟨i, j, info ||| tailInfo f d⟩).1 = 0
      · rw [vanyTail_zero hz]; exact ⟨hf.1, fun h => by cases h⟩
      · rw [vanyTail_nonzero hz]; exact ⟨hf.1, fun _ => hf.2⟩
    · rw [vanyTail_stop]; exact ⟨hp, fun h => by cases h⟩
  | @any_obj_stop i d f log hc hr =>
    intro _ hb hp
    exact ⟨(@fire_sorted f log (openEv Info.Object i d) i (i + 1) hp hb (Nat.le_refl _)
      (Nat.le_refl _) (Nat.le_succ _)).1, fun h => by cases h⟩
  | @any_arr_stop i d f log hc hr =>
    intro _ hb hp
    exact ⟨(@fire_sorted f log (openEv Info.Array i d) i (i + 1) hp hb (Nat.le_refl _)
      (Nat.le_refl _) (Nat.le_succ _)).1, fun h => by cases h⟩
  | @any_obj i d f log s hc hr hsub ih =>
    intro _ hb hp
    have h1 := @fire_sorted f log (openEv Info.Object i d) i (i + 1) hp hb (Nat.le_refl _)
      (Nat.le_refl _) (Nat.le_succ _)
    have h2 := ih (rd_lt hc) h1.2 h1.1
    cases hs : s.stop
    · have h3 := h2.2 hs
      simp only [Call.closer, Option.toList, List.length_singleton] at h3
      have hf := @fire_sorted f s.log
        ⟨s.i - 1, s.i, Info.Object ||| Info.Close ||| closeInfo f d⟩ (s.i - 1) s.i h2.1
        (fun e he => by have := h3 e he; omega) (Nat.le_refl _) (Nat.le_refl _) (Nat.sub_le _ _)
      by_cases hz : (fire f s.log
          ⟨s.i - 1, s.i, Info.Object ||| Info.Close ||| closeInfo f d⟩).1 = 0
      · rw [vanyClose_zero hs hz]; exact ⟨hf.1, fun h => by cases h⟩
      · rw [vanyClose_nonzero hs hz]; exact ⟨hf.1, fun _ => hf.2⟩
    · rw [vanyClose_stop hs]; exact ⟨h2.1, fun h => by rw [hs] at h; cases h⟩
  | @any_arr i d f log s hc hr hsub ih =>
    intro _ hb hp
    have h1 := @fire_sorted f log (openEv Info.Array i d) i (i + 1) hp hb (Nat.le_refl _)
      (Nat.le_refl _) (Nat.le_succ _)
    have h2 := ih (rd_lt hc) h1.2 h1.1
    cases hs : s.stop
    · have h3 := h2.2 hs
      simp only [Call.closer, Option.toList, List.length_singleton] at h3
      have hf := @fire_sorted f s.log
        ⟨s.i - 1, s.i, Info.Array ||| Info.Close ||| closeInfo f d⟩ (s.i - 1) s.i h2.1
        (fun e he => by have := h3 e he; omega) (Nat.le_refl _) (Nat.le_refl _) (Nat.sub_le _ _)
      by_cases hz : (fire f s.log
          ⟨s.i - 1, s.i, Info.Array ||| Info.Close ||| closeInfo f d⟩).1 = 0
      · rw [vanyClose_zero hs hz]; exact ⟨hf.1, fun h => by cases h⟩
      · rw [vanyClose_nonzero hs hz]; exact ⟨hf.1, fun _ => hf.2⟩
    · rw [vanyClose_stop hs]; exact ⟨h2.1, fun h => by rw [hs] at h; cases h⟩
  | obj_close _ | arr_close _ =>
    intro _ hb hp
    refine ⟨hp, fun _ e he => ?_⟩
    have := hb e he
    simp only [Call.pos, Call.closer, Option.toList, List.length_singleton] at this ⊢
    omega
  | @obj_key i f log s hc hsub ih => intro _ hb hp; exact ih (rd_lt hc) hb hp
  | @next_key i f log s hc hsub ih => intro _ hb hp; exact ih (rd_lt hc) hb hp
  | @arr_elems i f log c s hc hw hne hsub ih => intro h0 hb hp; exact ih h0 hb hp
  | @elems_go i f log c s hc hw hsub ih => intro h0 hb hp; exact ih h0 hb hp
  | @key_stop i f log j info ok hv hr =>
    intro h0 hb hp
    have hj := (vstring_bounds h0 hv).2.1
    exact ⟨(@fire_sorted f log ⟨i, j, info ||| Info.Key ||| Info.String⟩ i j hp hb
      (Nat.le_refl _) (Nat.le_refl _) (by omega)).1, fun h => by cases h⟩
  | @key_go i f log j info ok s hv hr hsub ih =>
    intro h0 hb hp
    have hj := vstring_bounds h0 hv
    have h1 := @fire_sorted f log ⟨i, j, info ||| Info.Key ||| Info.String⟩ i j hp hb
      (Nat.le_refl _) (Nat.le_refl _) (by omega)
    exact ih hj.2.2.1 h1.2 h1.1
  | @colon_stop i f log j ok hv hr =>
    intro h0 hb hp
    have hj := (vcolon_go hv).2.1
    exact ⟨(@fire_sorted f log ⟨j - 1, j, Info.Colon⟩ i j hp hb
      (by dsimp only; omega) (Nat.le_refl _) (by omega)).1, fun h => by cases h⟩
  | @colon_go i f log j ok s hv hr hsub ih =>
    intro h0 hb hp
    have hj := vcolon_go hv
    have h1 := @fire_sorted f log ⟨j - 1, j, Info.Colon⟩ i j hp hb
      (by dsimp only; omega) (Nat.le_refl _) (by omega)
    exact ih (hj.2.2.2.1 h0) h1.2 h1.1
  | @member_stop e i f log s h1 hst ih =>
    intro h0 hb hp
    exact ⟨(ih h0 hb hp).1, fun h => by rw [hst] at h; cases h⟩
  | @member_go e i f log s t h1 hst h2 ih1 ih2 =>
    intro h0 hb hp
    have hb0 : (Call.any i Info.Value).inb json := h0
    have f1 := ih1 hb0 hb hp
    have hbd := (exec_bounds h1 hb0).2.2 hst
    exact ih2 hbd.2.2 (fun e he => by
      have := f1.2 hst e he
      simpa [Call.closer] using this) f1.1
  | @sep_close e i f log j ok hv hc =>
    intro _ hb hp
    have hj := (vcomma_go hv).2.1
    refine ⟨hp, fun _ x hx => ?_⟩
    have := hb x hx
    simp only [Call.pos, Call.closer, Option.toList, List.length_singleton] at this ⊢
    omega
  | @sep_stop e i f log j ok c hv hc hce hr =>
    intro _ hb hp
    have hj := (vcomma_go hv).2.1
    exact ⟨(@fire_sorted f log ⟨j, j + 1, Info.Comma⟩ i (j + 1) hp hb hj (Nat.le_refl _)
      (by omega)).1, fun h => by cases h⟩
  | @sep_go e i f log j ok c s hv hc hce hr hsub ih =>
    intro _ hb hp
    have hj := vcomma_go hv
    have h1 := @fire_sorted f log ⟨j, j + 1, Info.Comma⟩ i (j + 1) hp hb hj.2.1 (Nat.le_refl _)
      (by omega)
    have h2 := ih (afterComma_inb hj.2.2.1) (by rw [afterComma_pos]; exact h1.2) h1.1
    rw [afterComma_closer_len] at h2
    exact h2

/-- The events that `Parse` delivers follow each other in the buffer -/
theorem events_sorted {json : List UInt8} {f : Option vfn} {log : List Event}
    (h : events json f = Run.ret log) : log.Pairwise (fun a b => a.fin ≤ b.start) := by
  obtain ⟨s, hs⟩ := exec_total json (.any 0 Info.Start) f [] (Nat.zero_le _)
  rw [events_eq hs] at h
  simp only [Run.ret.injEq] at h
  subst h
  exact (exec_sorted hs (Nat.zero_le _) (fun e he => by cases he) List.Pairwise.nil).1

end pjson
namespace pjson

/-! ## Skipped containers -/

theorem exec_det {json : List UInt8} {c : Call} {f : Option vfn} {log : List Event} {s t : St}
    (h : Exec json c f log s) (h2 : Exec json c f log t) (hb : c.inb json) : s = t := by
  have hf : fits json (3 * json.length + 3) c := by
    have : c.need ≤ 3 := by cases c <;> simp [Call.need]
    unfold fits; omega
  have e1 := run_of_exec h _ hf hb
  have e2 := run_of_exec h2 _ hf hb
  rw [e1] at e2
  simpa using e2

theorem obj_value {json : List UInt8} {i : Nat} {f : Option vfn} {log : List Event} {s : St}
    (hc : rd json i = Run.ret 123) (h : Exec json (.object (i + 1)) f log s)
    (hs : s.stop = false) : Derives .value (slice json i s.i) := by
  have hb1 : (Call.object (i + 1)).inb json := rd_lt hc
  have hle := (exec_bounds h hb1).1
  have := exec_shape h hb1 trivial hs
  simp only [Call.pos, Shape] at this hle
  rw [slice_cons hc (by omega)]
  rcases this with ⟨w, h1, h2⟩ | ⟨m, h1, h2⟩
  · rw [h2]; exact Derives.emptyObject h1
  · rw [h2]; exact Derives.object h1

theorem arr_value {json : List UInt8} {i : Nat} {f : Option vfn} {log : List Event} {s : St}
    (hc : rd json i = Run.ret 91) (h : Exec json (.array (i + 1)) f log s)
    (hs : s.stop = false) : Derives .value (slice json i s.i) := by
  have hb1 : (Call.array (i + 1)).inb json := rd_lt hc
  have hle := (exec_bounds h hb1).1
  have := exec_shape h hb1 trivial hs
  simp only [Call.pos, Shape] at this hle
  rw [slice_cons hc (by omega)]
  rcases this with ⟨w, h1, h2⟩ | ⟨m, h1, h2⟩
  · rw [h2]; exact Derives.emptyArray h1
  · rw [h2]; exact Derives.array h1

/-- A value scanner that stops at a bracket, with a visitor that never answers 0: no
value of the grammar starts at the bracket -/
theorem any_stop_invalid {json : List UInt8} {i d c : Nat} {f : Option vfn} {log : List Event}
    {s : St} (h : Exec json (.any i d) f log s) (hf : NonZero f) (hs : s.stop = true)
    (hc : rd json i = Run.ret c) (hcn : c = 123 ∨ c = 91) : ¬ ValueAt json i := by
  rintro ⟨x, rest, hd, hv⟩
  have hq := exec_quiet h hf []
  obtain ⟨c0, t, rfl, _⟩ := value_head hv
  have hc0 := (rd_of_drop (show (vals json).drop i = c0 :: (t ++ rest) from hd)).1
  rw [hc] at hc0
  simp only [Run.ret.injEq] at hc0
  subst hc0
  have hcomp := derives_complete hv json i d rest [] hd (by
    intro c1 hc1 hnum
    simp only [List.head?_cons, Option.mem_def, Option.some.injEq] at hc1
    subst hc1
    exfalso
    rcases hcn with rfl | rfl
    · revert hnum; decide
    · revert hnum; decide)
  have := exec_det hq hcomp (Nat.le_of_lt (rd_lt hc))
  rw [hs] at this
  simp only [St.mk.injEq] at this
  exact absurd this.2.2.1 (by decide)

theorem skips_nil (json : List UInt8) (g : vfn) : Skips json g [] := by
  intro l e r h
  cases l <;> cases h

theorem lastNotSkip_nil (g : vfn) : LastNotSkip g [] := by
  intro l e h
  cases l <;> cases h

theorem skips_snoc {json : List UInt8} {g : vfn} {log : List Event} {e : Event}
    (hk : Skips json g log) (hl : LastNotSkip g log)
    (he : ¬ (hasBit e.info Info.Open = true ∧ g log e = -1)) :
    Skips json g (log ++ [e]) ∧ LastNotSkip g (log ++ [e]) := by
  constructor
  · intro l a r h ha hg
    rcases List.eq_nil_or_concat r with rfl | ⟨r1, y, rfl⟩
    · obtain ⟨h4, h5⟩ := List.append_inj' h rfl
      simp only [List.cons.injEq, and_true] at h5
      subst h4 h5
      exact absurd ⟨ha, hg⟩ he
    · have h3 : log ++ [e] = (l ++ a :: r1) ++ [y] := by simpa using h
      obtain ⟨h4, _⟩ := List.append_inj' h3 rfl
      rcases hk l a r1 h4 ha hg with ⟨h6, _⟩ | ⟨cl, r2, h6, h7⟩
      · subst h6
        exact absurd ⟨ha, hg⟩ (hl l a h4)
      · subst h6
        exact Or.inr ⟨cl, r2 ++ [y], by simp, h7⟩
  · intro l a h
    obtain ⟨h4, h5⟩ := List.append_inj' h rfl
    simp only [List.cons.injEq, and_true] at h5
    subst h4 h5
    exact he

theorem skips_snoc_last {json : List UInt8} {g : vfn} {log : List Event} {e : Event}
    (hk : Skips json g log) (hl : LastNotSkip g log) (he : ¬ ValueAt json e.start) :
    Skips json g (log ++ [e]) := by
  intro l a r h ha hg
  rcases List.eq_nil_or_concat r with rfl | ⟨r1, y, rfl⟩
  · obtain ⟨h4, h5⟩ := List.append_inj' h rfl
    simp only [List.cons.injEq, and_true] at h5
    subst h4 h5
    exact Or.inl ⟨rfl, he⟩
  · have h3 : log ++ [e] = (l ++ a :: r1) ++ [y] := by simpa using h
    obtain ⟨h4, _⟩ := List.append_inj' h3 rfl
    rcases hk l a r1 h4 ha hg with ⟨h6, _⟩ | ⟨cl, r2, h6, h7⟩
    · subst h6
      exact absurd ⟨ha, hg⟩ (hl l a h4)
    · subst h6
      exact Or.inr ⟨cl, r2 ++ [y], by simp, h7⟩

theorem skips_snoc_pair {json : List UInt8} {g : vfn} {log : List Event} {e cl : Event}
    (hk : Skips json g log) (hl : LastNotSkip g log) (hc : Closes json e cl)
    (ho : hasBit cl.info Info.Open = false) :
    Skips json g (log ++ [e] ++ [cl]) ∧ LastNotSkip g (log ++ [e] ++ [cl]) := by
  constructor
  · intro l a r h ha hg
    rcases List.eq_nil_or_concat r with rfl | ⟨r1, y, rfl⟩
    · obtain ⟨_, h5⟩ := List.append_inj' h rfl
      simp only [List.cons.injEq, and_true] at h5
      subst h5
      rw [ho] at ha
      cases ha
    · have h3 : log ++ [e] ++ [cl] = (l ++ a :: r1) ++ [y] := by simpa using h
      obtain ⟨h4, h5⟩ := List.append_inj' h3 rfl
      simp only [List.cons.injEq, and_true] at h5
      subst h5
      rcases List.eq_nil_or_concat r1 with rfl | ⟨r2, z, rfl⟩
      · obtain ⟨_, h7⟩ := List.append_inj' h4 rfl
        simp only [List.cons.injEq, and_true] at h7
        subst h7
        exact Or.inr ⟨cl, [], rfl, hc⟩
      · have h6 : log ++ [e] = (l ++ a :: r2) ++ [z] := by simpa using h4
        obtain ⟨h7, _⟩ := List.append_inj' h6 rfl
        rcases hk l a r2 h7 ha hg with ⟨h8, _⟩ | ⟨c2, r3, h8, h9⟩
        · subst h8
          exact absurd ⟨ha, hg⟩ (hl l a h7)
        · subst h8
          exact Or.inr ⟨c2, r3 ++ [z] ++ [cl], by simp, h9⟩
  · intro l a h
    obtain ⟨_, h5⟩ := List.append_inj' h rfl
    simp only [List.cons.injEq, and_true] at h5
    subst h5
    rw [ho]
    rintro ⟨h1, _⟩
    cases h1

theorem scalar_no_open : ∀ x ∈ scalarInfos, ∀ r : Bool,
    hasBit (x ||| tailRole r) Info.Open = false := by decide

theorem tail_not_open {f : Option vfn} {d x : Nat} (hd : d = Info.Value ∨ d = Info.Start)
    (hx : x ∈ scalarInfos) (hf : f ≠ none) : hasBit (x ||| tailInfo f d) Info.Open = false := by
  rcases hd with rfl | rfl
  · rw [tailInfo_value]
    exact scalar_no_open x hx false
  · rw [tailInfo_start hf]
    exact scalar_no_open x hx true

theorem close_bits {f : Option vfn} {kind d : Nat} (hk : kind = Info.Object ∨ kind = Info.Array)
    (hd : d = Info.Value ∨ d = Info.Start) (hf : f ≠ none) :
    hasBit (kind ||| Info.Close ||| closeInfo f d) Info.Open = false ∧
    hasBit (kind ||| Info.Close ||| closeInfo f d) Info.Close = true ∧
    hasBit (kind ||| Info.Close ||| closeInfo f d) Info.Object =
      hasBit (kind ||| Info.Open ||| d) Info.Object ∧
    hasBit (kind ||| Info.Close ||| closeInfo f d) Info.Array =
      hasBit (kind ||| Info.Open ||| d) Info.Array := by
  rcases hd with rfl | rfl
  · rw [closeInfo_value]
    rcases hk with rfl | rfl <;> decide
  · rw [closeInfo_start hf]
    rcases hk with rfl | rfl <;> decide

theorem key_not_open {info : Nat} (h : info = 0 ∨ info = Info.Escaped) :
    hasBit (info ||| Info.Key ||| Info.String) Info.Open = false := by
  rcases h with rfl | rfl <;> decide

theorem closes_obj {json : List UInt8} {i d : Nat} {g : vfn} {s : St}
    (hd : d = Info.Value ∨ d = Info.Start) (hc : rd json i = Run.ret 123)
    {log : List Event} {f : Option vfn} (h : Exec json (.object (i + 1)) f log s)
    (hs : s.stop = false) :
    Closes json (openEv Info.Object i d)
      ⟨s.i - 1, s.i, Info.Object ||| Info.Close ||| closeInfo (some g) d⟩ := by
  obtain ⟨hq0, hq⟩ := exec_closer h trivial hs 125 rfl
  obtain ⟨_, b2, b3, b4⟩ := @close_bits (some g) Info.Object d (Or.inl rfl) hd (by simp)
  exact ⟨b2, by dsimp only; omega, b3, b4, Or.inl ⟨hc, hq⟩, obj_value hc h hs⟩

theorem closes_arr {json : List UInt8} {i d : Nat} {g : vfn} {s : St}
    (hd : d = Info.Value ∨ d = Info.Start) (hc : rd json i = Run.ret 91)
    {log : List Event} {f : Option vfn} (h : Exec json (.array (i + 1)) f log s)
    (hs : s.stop = false) :
    Closes json (openEv Info.Array i d)
      ⟨s.i - 1, s.i, Info.Array ||| Info.Close ||| closeInfo (some g) d⟩ := by
  obtain ⟨hq0, hq⟩ := exec_closer h trivial hs 93 rfl
  obtain ⟨_, b2, b3, b4⟩ := @close_bits (some g) Info.Array d (Or.inr rfl) hd (by simp)
  exact ⟨b2, by dsimp only; omega, b3, b4, Or.inr ⟨hc, hq⟩, arr_value hc h hs⟩

theorem nonZero_some {g : vfn} (hg : ∀ l e, g l e ≠ 0) : NonZero (some g) := by
  intro g1 h1 l e
  simp only [Option.some.injEq] at h1
  subst h1
  exact hg l e

/-- The end of `vany` for an object or array after its Open event, with a visitor that
never answers 0 -/
theorem skips_container {json : List UInt8} {g : vfn} {kind i d : Nat} {log : List Event}
    {s : St} (hg : ∀ l e, g l e ≠ 0) (hk : kind = Info.Object ∨ kind = Info.Array)
    (hd : d = Info.Value ∨ d = Info.Start)
    (hany : Exec json (.any i d) (some g) log (vanyClose kind d s (some g)))
    (hc : ∃ c, rd json i = Run.ret c ∧ (c = 123 ∨ c = 91))
    (hcl : s.stop = false → Closes json (openEv kind i d)
      ⟨s.i - 1, s.i, kind ||| Info.Close ||| closeInfo (some g) d⟩)
    (hsk : Skips json g log) (hl : LastNotSkip g log)
    (hsub : g log (openEv kind i d) = -1 → s.log = log ++ [openEv kind i d])
    (hin : g log (openEv kind i d) ≠ -1 →
      Skips json g (log ++ [openEv kind i d]) → LastNotSkip g (log ++ [openEv kind i d]) →
      Skips json g s.log ∧ (s.stop = false → LastNotSkip g s.log)) :
    Skips json g (vanyClose kind d s (some g)).log ∧
      ((vanyClose kind d s (some g)).stop = false →
        LastNotSkip g (vanyClose kind d s (some g)).log) := by
  have hbits := @close_bits (some g) kind d hk hd (by simp)
  by_cases hr : g log (openEv kind i d) = -1
  · have hlog := hsub hr
    cases hs : s.stop
    · rw [vanyClose_nonzero hs (NonZero.fire_ne (nonZero_some hg) _ _), fire_some, hlog]
      exact ⟨(skips_snoc_pair hsk hl (hcl hs) hbits.1).1,
        fun _ => (skips_snoc_pair hsk hl (hcl hs) hbits.1).2⟩
    · have hst : (vanyClose kind d s (some g)).stop = true := by rw [vanyClose_stop hs]; exact hs
      obtain ⟨c, hc1, hc2⟩ := hc
      have hinv := any_stop_invalid hany (nonZero_some hg) hst hc1 hc2
      rw [vanyClose_stop hs, hlog]
      exact ⟨skips_snoc_last hsk hl hinv, fun h => by rw [hs] at h; cases h⟩
  · have h1 := skips_snoc hsk hl (fun h => hr h.2)
    have h2 := hin hr h1.1 h1.2
    cases hs : s.stop
    · rw [vanyClose_nonzero hs (NonZero.fire_ne (nonZero_some hg) _ _), fire_some]
      have h3 := skips_snoc h2.1 (h2.2 hs) (e := ⟨s.i - 1, s.i, kind ||| Info.Close |||
        closeInfo (some g) d⟩) (by rw [hbits.1]; rintro ⟨h, _⟩; cases h)
      exact ⟨h3.1, fun _ => h3.2⟩
    · rw [vanyClose_stop hs]
      exact ⟨h2.1, fun h => by rw [hs] at h; cases h⟩

/-- With a visitor that never answers 0, the scan keeps the log such that every Open
event that was answered with -1 is followed by the Close event of its container, unless
the scan stopped inside the container -/
theorem exec_skips {json : List UInt8} {c : Call} {f : Option vfn} {log : List Event} {s : St}
    (h : Exec json c f log s) : ∀ g, f = some g → (∀ l e, g l e ≠ 0) →
    c.inb json → c.good json → c.rooted → Skips json g log → LastNotSkip g log →
    Skips json g s.log ∧ (s.stop = false → LastNotSkip g s.log) := by
  induction h with
  | any_eob _ | obj_eob _ | next_eob _ | arr_eob _ | elems_eob _ | any_bad _ _ _ _ _
  | obj_bad _ _ _ _ | next_bad _ _ _ | key_fail _ | colon_fail _ | sep_fail _ =>
    intro _ _ _ _ _ _ hk _; exact ⟨hk, fun h => by cases h⟩
  | obj_close _ | arr_close _ | sep_close _ _ =>
    intro _ _ _ _ _ _ hk hl; exact ⟨hk, fun _ => hl⟩
  | any_obj_stop _ hr | any_arr_stop _ hr | key_stop _ hr | colon_stop _ hr
  | sep_stop _ _ _ hr =>
    intro g hf hg; subst hf; exact absurd hr (hg _ _)
  | @any_ws i d f log c s hc hw hsub ih =>
    intro g hf hg _ _ hr hk hl
    exact ih g hf hg (rd_lt hc) trivial hr hk hl
  | @obj_ws i f log c s hc hw hsub ih =>
    intro g hf hg _ _ _ hk hl
    exact ih g hf hg (rd_lt hc) trivial trivial hk hl
  | @arr_ws i f log c s hc hw hsub ih =>
    intro g hf hg _ _ _ hk hl
    exact ih g hf hg (rd_lt hc) trivial trivial hk hl
  | @next_ws i f log c s hc hw hsub ih =>
    intro g hf hg _ _ _ hk hl
    exact ih g hf hg (rd_lt hc) trivial trivial hk hl
  | @elems_ws i f log c s hc hw hsub ih =>
    intro g hf hg _ _ _ hk hl
    exact ih g hf hg (rd_lt hc) trivial trivial hk hl
  | @obj_key i f log s hc hsub ih =>
    intro g hf hg _ _ _ hk hl
    exact ih g hf hg (rd_lt hc) hc trivial hk hl
  | @next_key i f log s hc hsub ih =>
    intro g hf hg _ _ _ hk hl
    exact ih g hf hg (rd_lt hc) hc trivial hk hl
  | @arr_elems i f log c s hc hw hne hsub ih =>
    intro g hf hg hb _ _ hk hl
    exact ih g hf hg hb trivial trivial hk hl
  | @elems_go i f log c s hc hw hsub ih =>
    intro g hf hg hb _ _ hk hl
    exact ih g hf hg hb (Or.inr rfl) trivial hk hl
  | @any_scalar i d f log c j info ok stop hc hw hs =>
    intro g hf hg _ _ hr hk hl
    subst hf
    cases stop
    · rw [vanyTail_nonzero (NonZero.fire_ne (nonZero_some hg) _ _), fire_some]
      have := skips_snoc hk hl (e := ⟨i, j, info ||| tailInfo (some g) d⟩) (by
        rw [tail_not_open hr (scalar_info hc hs) (by simp)]
        rintro ⟨h, _⟩; cases h)
      exact ⟨this.1, fun _ => this.2⟩
    · rw [vanyTail_stop]; exact ⟨hk, fun h => by cases h⟩
  | @any_obj i d f log s hc hr hsub ih =>
    intro g hf hg _ _ hd hk hl
    subst hf
    refine skips_container hg (Or.inl rfl) hd (Exec.any_obj hc hr hsub) ⟨123, hc, Or.inl rfl⟩
      (fun hs => closes_obj hd hc hsub hs) hk hl ?_ ?_
    · intro h1
      have h2 := hsub
      rw [fire_some] at h2
      simp only [inner, h1, if_true] at h2
      exact exec_none_log h2 rfl
    · intro h1 h2 h3
      exact ih g (by rw [fire_some]; exact inner_keep h1) hg (rd_lt hc) trivial trivial
        (by rw [fire_some]; exact h2) (by rw [fire_some]; exact h3)
  | @any_arr i d f log s hc hr hsub ih =>
    intro g hf hg _ _ hd hk hl
    subst hf
    refine skips_container hg (Or.inr rfl) hd (Exec.any_arr hc hr hsub) ⟨91, hc, Or.inr rfl⟩
      (fun hs => closes_arr hd hc hsub hs) hk hl ?_ ?_
    · intro h1
      have h2 := hsub
      rw [fire_some] at h2
      simp only [inner, h1, if_true] at h2
      exact exec_none_log h2 rfl
    · intro h1 h2 h3
      exact ih g (by rw [fire_some]; exact inner_keep h1) hg (rd_lt hc) trivial trivial
        (by rw [fire_some]; exact h2) (by rw [fire_some]; exact h3)
  | @key_go i f log j info ok s hv hr hsub ih =>
    intro g hf hg hb _ _ hk hl
    subst hf
    have hj := vstring_bounds hb hv
    have h1 := skips_snoc hk hl (e := ⟨i, j, info ||| Info.Key ||| Info.String⟩) (by
      rw [key_not_open (vstring_flags hv).2]
      rintro ⟨h, _⟩; cases h)
    exact ih g rfl hg hj.2.2.1 trivial trivial (by rw [fire_some]; exact h1.1)
      (by rw [fire_some]; exact h1.2)
  | @colon_go i f log j ok s hv hr hsub ih =>
    intro g hf hg hb _ _ hk hl
    subst hf
    have hj := vcolon_go hv
    have h1 := skips_snoc hk hl (e := ⟨j - 1, j, Info.Colon⟩) (by
      rintro ⟨h, _⟩
      have h0 : hasBit Info.Colon Info.Open = true := h
      revert h0; decide)
    exact ih g rfl hg (hj.2.2.2.1 hb) (Or.inl rfl) trivial (by rw [fire_some]; exact h1.1)
      (by rw [fire_some]; exact h1.2)
  | @member_stop e i f log s h1 hst ih =>
    intro g hf hg hb _ _ hk hl
    exact ⟨(ih g hf hg hb trivial (Or.inl rfl) hk hl).1, fun h => by rw [hst] at h; cases h⟩
  | @member_go e i f log s t h1 hst h2 ih1 ih2 =>
    intro g hf hg hb hgd _ hk hl
    have hb0 : (Call.any i Info.Value).inb json := hb
    have f1 := ih1 g hf hg hb0 trivial (Or.inl rfl) hk hl
    have hbd := (exec_bounds h1 hb0).2.2 hst
    exact ih2 g hf hg hbd.2.2 hgd trivial f1.1 (f1.2 hst)
  | @sep_go e i f log j ok c s hv hc hce hr hsub ih =>
    intro g hf hg _ _ _ hk hl
    subst hf
    have hj := vcomma_go hv
    have h1 := skips_snoc hk hl (e := ⟨j, j + 1, Info.Comma⟩) (by
      rintro ⟨h, _⟩
      have h0 : hasBit Info.Comma Info.Open = true := h
      revert h0; decide)
    exact ih g rfl hg (afterComma_inb hj.2.2.1) (afterComma_good json _ _)
      (afterComma_rooted _ _) (by rw [fire_some]; exact h1.1) (by rw [fire_some]; exact h1.2)

end pjson
namespace pjson

/-! ## The skip of a container, and the properties of `Parse` -/

theorem skip_valid_aux {json : List UInt8} {g : vfn} {p d c kind : Nat} {x rest : List Nat}
    {log : List Event} {s : St} (hg : ∀ l e, g l e ≠ 0)
    (hany : Exec json (.any p d) (some g) log (vanyClose kind d s (some g)))
    (hlog : s.log = log ++ [openEv kind p d])
    (hc : rd json p = Run.ret c) (hcn : c = 123 ∨ c = 91)
    (hd : (vals json).drop p = x ++ rest) (hv : Derives .value x) :
    Exec json (.any p d) (some g) log ⟨p + x.length, true, false,
      log ++ [openEv kind p d,
        ⟨p + x.length - 1, p + x.length, kind ||| Info.Close ||| closeInfo (some g) d⟩]⟩ := by
  cases hst : s.stop
  · have hq := exec_quiet hany (nonZero_some hg) []
    obtain ⟨c0, t, rfl, _⟩ := value_head hv
    have hc0 := (rd_of_drop (show (vals json).drop p = c0 :: (t ++ rest) from hd)).1
    rw [hc] at hc0
    simp only [Run.ret.injEq] at hc0
    subst hc0
    have hcomp := derives_complete hv json p d rest [] hd (by
      intro c1 hc1 hnum
      simp only [List.head?_cons, Option.mem_def, Option.some.injEq] at hc1
      subst hc1
      exfalso
      rcases hcn with rfl | rfl
      · revert hnum; decide
      · revert hnum; decide)
    have hdet := exec_det hq hcomp (Nat.le_of_lt (rd_lt hc))
    simp only [St.mk.injEq, vanyClose_i] at hdet
    have hi := hdet.1
    rw [vanyClose_nonzero hst (NonZero.fire_ne (nonZero_some hg) _ _), fire_some, hlog, hi] at hany
    simpa using hany
  · exfalso
    have hst2 : (vanyClose kind d s (some g)).stop = true := by rw [vanyClose_stop hst]; exact hst
    exact any_stop_invalid hany (nonZero_some hg) hst2 hc hcn ⟨x, rest, hd, hv⟩

/-- The value scanner at the opening bracket of a container that is a value of the
grammar, with a visitor that never answers 0 and answers -1 on the Open event: it
delivers the Open event and the Close event and nothing else, and it ends just after the
container, ok and without a stop -/
theorem skip_valid {json : List UInt8} {g : vfn} {p d c kind : Nat} {x rest : List Nat}
    {log : List Event} (hg : ∀ l e, g l e ≠ 0) (hc : rd json p = Run.ret c)
    (hk : (c = 123 ∧ kind = Info.Object) ∨ (c = 91 ∧ kind = Info.Array))
    (hd : (vals json).drop p = x ++ rest) (hv : Derives .value x)
    (hs : g log (openEv kind p d) = -1) :
    Exec json (.any p d) (some g) log ⟨p + x.length, true, false,
      log ++ [openEv kind p d,
        ⟨p + x.length - 1, p + x.length, kind ||| Info.Close ||| closeInfo (some g) d⟩]⟩ := by
  rcases hk with ⟨rfl, rfl⟩ | ⟨rfl, rfl⟩
  · obtain ⟨s, hsub⟩ := exec_total json (.object (p + 1)) none (log ++ [openEv Info.Object p d])
      (rd_lt hc)
    have hany := @Exec.any_obj json p d (some g) log s hc (NonZero.fire_ne (nonZero_some hg) _ _)
      (by rw [fire_some]; simp only [inner, hs, if_true]; exact hsub)
    exact skip_valid_aux hg hany (exec_none_log hsub rfl) hc (Or.inl rfl) hd hv
  · obtain ⟨s, hsub⟩ := exec_total json (.array (p + 1)) none (log ++ [openEv Info.Array p d])
      (rd_lt hc)
    have hany := @Exec.any_arr json p d (some g) log s hc (NonZero.fire_ne (nonZero_some hg) _ _)
      (by rw [fire_some]; simp only [inner, hs, if_true]; exact hsub)
    exact skip_valid_aux hg hany (exec_none_log hsub rfl) hc (Or.inr rfl) hd hv

/-- The events that `Parse` delivers with a visitor that never answers 0: every Open
event that was answered with -1 is followed by the Close event of its container, or it
is the last event and no value starts at its bracket -/
theorem parse_skips {json : List UInt8} {g : vfn} {log : List Event} (hg : ∀ l e, g l e ≠ 0)
    (h : events json (some g) = Run.ret log) : Skips json g log := by
  obtain ⟨s, hs⟩ := exec_total json (.any 0 Info.Start) (some g) [] (Nat.zero_le _)
  rw [events_eq hs] at h
  simp only [Run.ret.injEq] at h
  subst h
  exact (exec_skips hs g rfl hg (Nat.zero_le _) trivial (Or.inr rfl) (skips_nil json g)
    (lastNotSkip_nil g)).1

/-- The ranges of the events that `Parse` delivers when it succeeds with a visitor that
never stops the scan and never skips a container are the minified input -/
theorem parse_outs {json : List UInt8} {g : vfn} {r : Int} {log : List Event}
    (hg : ∀ l e, g l e ≠ 0 ∧ g l e ≠ -1) (hp : Parse json (some g) = Run.ret r) (hr : 0 < r)
    (h : events json (some g) = Run.ret log) : cat json log = minify (vals json) := by
  obtain ⟨s, hs⟩ := exec_total json (.any 0 Info.Start) (some g) [] (Nat.zero_le _)
  rw [events_eq hs] at h
  simp only [Run.ret.injEq] at h
  subst h
  obtain ⟨h1, _, _, h4, _⟩ := parse_pos hs (nonZero_some (fun l e => (hg l e).1)) hp hr
  exact root_outs hg hs h1 h4

theorem events_total (json : List UInt8) (f : Option vfn) : ∃ log, events json f = Run.ret log := by
  obtain ⟨s, hs⟩ := exec_total json (.any 0 Info.Start) f [] (Nat.zero_le _)
  exact ⟨s.log, events_eq hs⟩

theorem jsonText_pos {json : List UInt8} (h : JsonText (vals json)) : 0 < json.length := by
  obtain ⟨w1, v, w2, _, hv, _, he⟩ := h
  obtain ⟨c, t, rfl, _⟩ := value_head hv
  rw [← vals_length, he]
  simp only [List.length_append, List.length_cons]
  omega

end pjson
namespace pjson

/-! ## The bytes between the events are whitespace -/

theorem tiles_ws {json : List UInt8} {p m q : Nat} {l : List Event} (hpm : p ≤ m)
    (hw : AllWs (slice json p m)) (h : Tiles json m l q) : Tiles json p l q := by
  cases l with
  | nil =>
    obtain ⟨h1, h2⟩ := h
    refine ⟨Nat.le_trans hpm h1, ?_⟩
    rw [← slice_append json hpm h1]
    exact allWs_append hw h2
  | cons e r =>
    obtain ⟨h1, h2, h3, h4⟩ := h
    refine ⟨Nat.le_trans hpm h1, ?_, h3, h4⟩
    rw [← slice_append json hpm h1]
    exact allWs_append hw h2

theorem tiles_append {json : List UInt8} {a b : List Event} : ∀ {p m q : Nat},
    Tiles json p a m → Tiles json m b q → Tiles json p (a ++ b) q := by
  induction a with
  | nil =>
    intro p m q h1 h2
    exact tiles_ws h1.1 h1.2 h2
  | cons e r ih =>
    intro p m q h1 h2
    obtain ⟨f1, f2, f3, f4⟩ := h1
    exact ⟨f1, f2, f3, ih f4 h2⟩

theorem tiles_nil (json : List UInt8) (p : Nat) : Tiles json p [] p := by
  refine ⟨Nat.le_refl _, ?_⟩
  rw [slice_self]
  exact allWs_nil

theorem tiles_one (json : List UInt8) {p j : Nat} (info : Nat) (h : p < j) :
    Tiles json p [⟨p, j, info⟩] j := by
  refine ⟨Nat.le_refl _, ?_, h, tiles_nil json j⟩
  rw [slice_self]
  exact allWs_nil

theorem tiles_cons {json : List UInt8} {p j q : Nat} (info : Nat) {l : List Event} (h : p < j)
    (hl : Tiles json j l q) : Tiles json p (⟨p, j, info⟩ :: l) q :=
  @tiles_append json [⟨p, j, info⟩] l p j q (tiles_one json info h) hl

theorem tiles_ws_one {json : List UInt8} {p q c : Nat} {l : List Event}
    (hc : rd json p = Run.ret c) (hw : isws c = true) (h : Tiles json (p + 1) l q) :
    Tiles json p l q := by
  refine tiles_ws (Nat.le_succ p) ?_ h
  rw [slice_one hc]
  exact allWs_cons hw allWs_nil

/-- With a visitor that never stops the scan and never skips a container, the events
that the code at a program point delivers cover the bytes that it goes over, but for
whitespace and its closing byte -/
theorem exec_tiles {json : List UInt8} {c : Call} {f : Option vfn} {log : List Event} {s : St}
    (h : Exec json c f log s) : ∀ g, f = some g → (∀ l e, g l e ≠ 0 ∧ g l e ≠ -1) →
    c.inb json → c.good json → s.stop = false →
    ∃ new, s.log = log ++ new ∧ c.pos + c.closer.toList.length ≤ s.i ∧
      Tiles json c.pos new (s.i - c.closer.toList.length) := by
  induction h with
  | any_eob _ | obj_eob _ | next_eob _ | arr_eob _ | elems_eob _ | any_bad _ _ _ _ _
  | obj_bad _ _ _ _ | next_bad _ _ _ | key_fail _ | colon_fail _ | sep_fail _
  | any_obj_stop _ _ | any_arr_stop _ _ | key_stop _ _ | colon_stop _ _ | sep_stop _ _ _ _ =>
    intro _ _ _ _ _ hs; cases hs
  | member_stop _ hst _ => intro _ _ _ _ _ hs; rw [hst] at hs; cases hs
  | @any_ws i d f log c s hc hw hsub ih =>
    intro g hf hg hb _ hs
    obtain ⟨new, h1, h2, h3⟩ := ih g hf hg (rd_lt hc) trivial hs
    simp only [Call.pos, Call.closer, Option.toList, List.length_nil] at h2 h3 ⊢
    exact ⟨new, h1, by omega, tiles_ws_one hc hw h3⟩
  | @obj_ws i f log c s hc hw hsub ih =>
    intro g hf hg hb _ hs
    obtain ⟨new, h1, h2, h3⟩ := ih g hf hg (rd_lt hc) trivial hs
    simp only [Call.pos, Call.closer, Option.toList, List.length_singleton] at h2 h3 ⊢
    exact ⟨new, h1, by omega, tiles_ws_one hc hw h3⟩
  | @arr_ws i f log c s hc hw hsub ih =>
    intro g hf hg hb _ hs
    obtain ⟨new, h1, h2, h3⟩ := ih g hf hg (rd_lt hc) trivial hs
    simp only [Call.pos, Call.closer, Option.toList, List.length_singleton] at h2 h3 ⊢
    exact ⟨new, h1, by omega, tiles_ws_one hc hw h3⟩
  | @next_ws i f log c s hc hw hsub ih =>
    intro g hf hg hb _ hs
    obtain ⟨new, h1, h2, h3⟩ := ih g hf hg (rd_lt hc) trivial hs
    simp only [Call.pos, Call.closer, Option.toList, List.length_singleton] at h2 h3 ⊢
    exact ⟨new, h1, by omega, tiles_ws_one hc hw h3⟩
  | @elems_ws i f log c s hc hw hsub ih =>
    intro g hf hg hb _ hs
    obtain ⟨new, h1, h2, h3⟩ := ih g hf hg (rd_lt hc) trivial hs
    simp only [Call.pos, Call.closer, Option.toList, List.length_singleton] at h2 h3 ⊢
    exact ⟨new, h1, by omega, tiles_ws_one hc hw h3⟩
  | @any_scalar i d f log c j info ok stop hc hw hsc =>
    intro g hf _ _ _ hs
    subst hf
    obtain ⟨hst, _, _, hlog⟩ := vanyTail_go hs
    subst hst
    have hij := (scalar_bounds hc hsc).2.1
    refine ⟨[⟨i, j, info ||| tailInfo (some g) d⟩], by rw [hlog, fire_some], ?_, ?_⟩
    · simp only [Call.pos, vanyTail_i, Call.closer, Option.toList, List.length_nil]; omega
    · simp only [Call.pos, vanyTail_i, Call.closer, Option.toList, List.length_nil, Nat.sub_zero]
      exact tiles_one json _ hij
  | @any_obj i d f log s hc hr hsub ih =>
    intro g hf hg _ _ hs
    subst hf
    obtain ⟨hs1, _, _, hlog⟩ := vanyClose_go hs
    obtain ⟨new, h1, h2, h3⟩ := ih g (by rw [inner_keep (by rw [fire_some]; exact (hg _ _).2)])
      hg (rd_lt hc) trivial hs1
    rw [fire_some] at h1
    simp only [Call.pos, Call.closer, Option.toList, List.length_singleton] at h2 h3
    refine ⟨openEv Info.Object i d :: new ++
      [⟨s.i - 1, s.i, Info.Object ||| Info.Close ||| closeInfo (some g) d⟩], ?_, ?_, ?_⟩
    · rw [hlog, fire_some, h1]; simp
    · simp only [Call.pos, vanyClose_i, Call.closer, Option.toList, List.length_nil]; omega
    · simp only [Call.pos, vanyClose_i, Call.closer, Option.toList, List.length_nil, Nat.sub_zero]
      exact tiles_cons _ (Nat.lt_succ_self i)
        (tiles_append h3 (tiles_one json _ (by omega)))
  | @any_arr i d f log s hc hr hsub ih =>
    intro g hf hg _ _ hs
    subst hf
    obtain ⟨hs1, _, _, hlog⟩ := vanyClose_go hs
    obtain ⟨new, h1, h2, h3⟩ := ih g (by rw [inner_keep (by rw [fire_some]; exact (hg _ _).2)])
      hg (rd_lt hc) trivial hs1
    rw [fire_some] at h1
    simp only [Call.pos, Call.closer, Option.toList, List.length_singleton] at h2 h3
    refine ⟨openEv Info.Array i d :: new ++
      [⟨s.i - 1, s.i, Info.Array ||| Info.Close ||| closeInfo (some g) d⟩], ?_, ?_, ?_⟩
    · rw [hlog, fire_some, h1]; simp
    · simp only [Call.pos, vanyClose_i, Call.closer, Option.toList, List.length_nil]; omega
    · simp only [Call.pos, vanyClose_i, Call.closer, Option.toList, List.length_nil, Nat.sub_zero]
      exact tiles_cons _ (Nat.lt_succ_self i)
        (tiles_append h3 (tiles_one json _ (by omega)))
  | @obj_close i f log hc =>
    intro _ _ _ _ _ _
    refine ⟨[], (List.append_nil _).symm, ?_, ?_⟩
    · simp only [Call.pos, Call.closer, Option.toList, List.length_singleton]; omega
    · simp only [Call.pos, Call.closer, Option.toList, List.length_singleton,
        Nat.add_sub_cancel]
      exact tiles_nil json i
  | @arr_close i f log hc =>
    intro _ _ _ _ _ _
    refine ⟨[], (List.append_nil _).symm, ?_, ?_⟩
    · simp only [Call.pos, Call.closer, Option.toList, List.length_singleton]; omega
    · simp only [Call.pos, Call.closer, Option.toList, List.length_singleton,
        Nat.add_sub_cancel]
      exact tiles_nil json i
  | @obj_key i f log s hc hsub ih =>
    intro g hf hg _ _ hs
    exact ih g hf hg (rd_lt hc) hc hs
  | @next_key i f log s hc hsub ih =>
    intro g hf hg _ _ hs
    exact ih g hf hg (rd_lt hc) hc hs
  | @arr_elems i f log c s hc hw hne hsub ih =>
    intro g hf hg hb _ hs
    exact ih g hf hg hb trivial hs
  | @elems_go i f log c s hc hw hsub ih =>
    intro g hf hg hb _ hs
    exact ih g hf hg hb (Or.inr rfl) hs
  | @key_go i f log j info ok s hv hr hsub ih =>
    intro g hf hg hb hgd hs
    subst hf
    simp only [Call.good] at hgd
    obtain ⟨_, h2, h3, _, _⟩ := vstring_JString hgd hv
    obtain ⟨new, f1, f2, f3⟩ := ih g rfl hg h3 trivial hs
    rw [fire_some] at f1
    simp only [Call.pos, Call.closer, Option.toList, List.length_singleton] at f2 f3 ⊢
    exact ⟨⟨i, j, info ||| Info.Key ||| Info.String⟩ :: new, by rw [f1]; simp, by omega,
      tiles_cons _ (by omega) f3⟩
  | @colon_go i f log j ok s hv hr hsub ih =>
    intro g hf hg hb _ hs
    subst hf
    simp only [Call.inb, Call.pos] at hb
    obtain ⟨_, h2, h3, h4, h5⟩ := vcolon_go hv
    obtain ⟨new, f1, f2, f3⟩ := ih g rfl hg (h4 hb) (Or.inl rfl) hs
    rw [fire_some] at f1
    simp only [Call.pos, Call.closer, Option.toList, List.length_singleton] at f2 f3 ⊢
    refine ⟨⟨j - 1, j, Info.Colon⟩ :: new, by rw [f1]; simp, by omega, ?_⟩
    exact tiles_ws (show i ≤ j - 1 by omega) (allWs_of_isws h5) (tiles_cons _ (by omega) f3)
  | @member_go e i f log s t h1 hst h2 ih1 ih2 =>
    intro g hf hg hb hgd hs
    have hb0 : (Call.any i Info.Value).inb json := hb
    have hbd := exec_bounds h1 hb0
    have hb1 : (Call.sep e s.i).inb json := (hbd.2.2 hst).2.2
    obtain ⟨n1, f1, f2, f3⟩ := ih1 g hf hg hb0 trivial hst
    obtain ⟨n2, f4, f5, f6⟩ := ih2 g hf hg hb1 hgd hs
    simp only [Call.pos, Call.closer, Option.toList, List.length_nil, Nat.sub_zero,
      List.length_singleton] at f2 f3 f5 f6 ⊢
    exact ⟨n1 ++ n2, by rw [f4, f1, List.append_assoc], by omega, tiles_append f3 f6⟩
  | @sep_close e i f log j ok hv hc =>
    intro _ _ _ _ _ _
    obtain ⟨_, h2, h3, _, h5⟩ := vcomma_go hv
    refine ⟨[], (List.append_nil _).symm, ?_, ?_⟩
    · simp only [Call.pos, Call.closer, Option.toList, List.length_singleton]; omega
    · simp only [Call.pos, Call.closer, Option.toList, List.length_singleton,
        Nat.add_sub_cancel]
      exact ⟨h2, allWs_of_isws h5⟩
  | @sep_go e i f log j ok c s hv hc hce hr hsub ih =>
    intro g hf hg _ hgd hs
    subst hf
    obtain ⟨_, h2, h3, _, h5⟩ := vcomma_go hv
    obtain ⟨new, f1, f2, f3⟩ := ih g rfl hg (afterComma_inb h3) (afterComma_good json _ _) hs
    rw [afterComma_pos, afterComma_closer_len] at f2 f3
    rw [fire_some] at f1
    simp only [Call.pos, Call.closer, Option.toList, List.length_singleton] at f2 f3 ⊢
    refine ⟨⟨j, j + 1, Info.Comma⟩ :: new, by rw [f1]; simp, by omega, ?_⟩
    exact tiles_ws h2 (allWs_of_isws h5) (tiles_cons _ (Nat.lt_succ_self j) f3)

/-- A scan from the root that goes through, with a visitor that never stops the scan and
never skips a container: the events cover the buffer but for whitespace -/
theorem root_tiles {json : List UInt8} {g : vfn} {s : St}
    (hg : ∀ l e, g l e ≠ 0 ∧ g l e ≠ -1)
    (h : Exec json (.any 0 Info.Start) (some g) [] s) (hs : s.stop = false)
    (hw : skipWs json s.i = json.length) : Tiles json 0 s.log json.length := by
  obtain ⟨new, h1, _, h3⟩ := exec_tiles h g rfl hg (Nat.zero_le _) trivial hs
  have hb := (exec_bounds h (Nat.zero_le _)).2.2 hs
  simp only [Call.pos, Call.closer, Option.toList, List.length_nil, Nat.sub_zero,
    List.nil_append] at h1 h3
  have hws : AllWs (slice json s.i json.length) := by
    have := skipWs_slice json s.i
    rw [hw] at this
    exact allWs_of_isws this
  rw [h1]
  have := tiles_append h3 (show Tiles json s.i [] json.length from ⟨hb.2.2, hws⟩)
  simpa using this

theorem parse_tiles {json : List UInt8} {g : vfn} {r : Int} {log : List Event}
    (hg : ∀ l e, g l e ≠ 0 ∧ g l e ≠ -1) (hp : Parse json (some g) = Run.ret r) (hr : 0 < r)
    (h : events json (some g) = Run.ret log) : Tiles json 0 log json.length := by
  obtain ⟨s, hs⟩ := exec_total json (.any 0 Info.Start) (some g) [] (Nat.zero_le _)
  rw [events_eq hs] at h
  simp only [Run.ret.injEq] at h
  subst h
  obtain ⟨h1, _, _, h4, _⟩ := parse_pos hs (nonZero_some (fun l e => (hg l e).1)) hp hr
  exact root_tiles hg hs h1 h4

end pjson
namespace pjson

/-! ## The events with a visitor that skips, out of the events without skips -/

theorem prune_keep {v : vfn} {hist : List Event} {e : Event} (r : List Event)
    (h : ¬ (hasBit e.info Info.Open = true ∧ v hist e = -1)) :
    prune v hist 0 (e :: r) = e :: prune v (hist ++ [e]) 0 r := by
  rw [prune, if_neg h]

theorem prune_skip {v : vfn} {hist : List Event} {e : Event} (r : List Event)
    (h1 : hasBit e.info Info.Open = true) (h2 : v hist e = -1) :
    prune v hist 0 (e :: r) = e :: prune v (hist ++ [e]) 1 r := by
  rw [prune, if_pos ⟨h1, h2⟩]

theorem prune_in_open {v : vfn} {e : Event} (hist : List Event) (d : Nat) (r : List Event)
    (h : hasBit e.info Info.Open = true) :
    prune v hist (d + 1) (e :: r) = prune v hist (d + 2) r := by
  rw [prune, if_pos h]

theorem prune_in_close {v : vfn} {e : Event} (hist : List Event) (d : Nat) (r : List Event)
    (h1 : hasBit e.info Info.Open = false) (h2 : hasBit e.info Info.Close = true) :
    prune v hist (d + 2) (e :: r) = prune v hist (d + 1) r := by
  rw [prune, if_neg (by rw [h1]; decide), if_pos h2, if_neg (Nat.succ_ne_zero d)]

theorem prune_in_last {v : vfn} {e : Event} (hist : List Event) (r : List Event)
    (h1 : hasBit e.info Info.Open = false) (h2 : hasBit e.info Info.Close = true) :
    prune v hist 1 (e :: r) = e :: prune v (hist ++ [e]) 0 r := by
  rw [prune, if_neg (by rw [h1]; decide), if_pos h2, if_pos rfl]

theorem prune_in_other {v : vfn} {e : Event} (hist : List Event) (d : Nat) (r : List Event)
    (h1 : hasBit e.info Info.Open = false) (h2 : hasBit e.info Info.Close = false) :
    prune v hist (d + 1) (e :: r) = prune v hist (d + 1) r := by
  rw [prune, if_neg (by rw [h1]; decide), if_neg (by rw [h2]; decide)]

theorem scalar_no_close : ∀ x ∈ scalarInfos, ∀ r : Bool,
    hasBit (x ||| tailRole r) Info.Close = false := by decide

theorem tail_not_close {f : Option vfn} {d x : Nat} (hd : d = Info.Value ∨ d = Info.Start)
    (hx : x ∈ scalarInfos) (hf : f ≠ none) : hasBit (x ||| tailInfo f d) Info.Close = false := by
  rcases hd with rfl | rfl
  · rw [tailInfo_value]
    exact scalar_no_close x hx false
  · rw [tailInfo_start hf]
    exact scalar_no_close x hx true

theorem key_not_close {info : Nat} (h : info = 0 ∨ info = Info.Escaped) :
    hasBit (info ||| Info.Key ||| Info.String) Info.Close = false := by
  rcases h with rfl | rfl <;> decide

theorem open_is_open {kind d : Nat} (hk : kind = Info.Object ∨ kind = Info.Array)
    (hd : d = Info.Value ∨ d = Info.Start) : hasBit (kind ||| Info.Open ||| d) Info.Open = true := by
  rcases hk with rfl | rfl <;> rcases hd with rfl | rfl <;> decide

theorem deep_cons_other {e : Event} {new : List Event} {d d2 : Nat}
    (h1 : hasBit e.info Info.Open = false) (h2 : hasBit e.info Info.Close = false)
    (h : ∀ (v : vfn) hist rest, prune v hist (d + 1) (new ++ rest) = prune v hist (d2 + 1) rest) :
    ∀ (v : vfn) hist rest,
      prune v hist (d + 1) (e :: new ++ rest) = prune v hist (d2 + 1) rest := by
  intro v hist rest
  rw [List.cons_append, prune_in_other hist d _ h1 h2, h]

/-- With a visitor that never stops the scan and never skips a container, the events
that the code at a program point delivers open and close containers in pairs, but for
containers that are left open when the scan stops: read at the depth `d + 1` inside a
skipped container they lead to a depth `d2 + 1` that is not smaller, and to the same
depth when the scan goes on -/
theorem exec_bal {json : List UInt8} {c : Call} {f : Option vfn} {log : List Event} {s : St}
    (h : Exec json c f log s) : ∀ g, f = some g → (∀ l e, g l e ≠ 0 ∧ g l e ≠ -1) →
    c.rooted → ∃ new, s.log = log ++ new ∧ ∀ d, ∃ d2, d ≤ d2 ∧ (s.stop = false → d2 = d) ∧
      ∀ (v : vfn) hist rest,
        prune v hist (d + 1) (new ++ rest) = prune v hist (d2 + 1) rest := by
  induction h with
  | any_eob _ | obj_eob _ | next_eob _ | arr_eob _ | elems_eob _ | any_bad _ _ _ _ _
  | obj_bad _ _ _ _ | next_bad _ _ _ | key_fail _ | colon_fail _ | sep_fail _
  | obj_close _ | arr_close _ | sep_close _ _ =>
    intro _ _ _ _
    exact ⟨[], (List.append_nil _).symm, fun d => ⟨d, Nat.le_refl _, fun _ => rfl,
      fun _ _ _ => rfl⟩⟩
  | any_obj_stop _ hr | any_arr_stop _ hr | key_stop _ hr | colon_stop _ hr
  | sep_stop _ _ _ hr =>
    intro g hf hg; subst hf; exact absurd hr (hg _ _).1
  | any_ws _ _ _ ih => intro g hf hg hr; exact ih g hf hg hr
  | obj_ws _ _ _ ih | arr_ws _ _ _ ih | next_ws _ _ _ ih | elems_ws _ _ _ ih
  | obj_key _ _ ih | next_key _ _ ih | arr_elems _ _ _ _ ih | elems_go _ _ _ ih =>
    intro g hf hg _; exact ih g hf hg trivial
  | @any_scalar i d f log c j info ok stop hc hw hs =>
    intro g hf hg hr
    subst hf
    cases stop
    · rw [vanyTail_nonzero (NonZero.fire_ne (nonZero_some (fun l e => (hg l e).1)) _ _),
        fire_some]
      refine ⟨[⟨i, j, info ||| tailInfo (some g) d⟩], rfl, fun d0 => ⟨d0, Nat.le_refl _,
        fun _ => rfl, ?_⟩⟩
      exact @deep_cons_other ⟨i, j, info ||| tailInfo (some g) d⟩ [] d0 d0
        (tail_not_open hr (scalar_info hc hs) (by simp))
        (tail_not_close hr (scalar_info hc hs) (by simp)) (fun _ _ _ => rfl)
    · rw [vanyTail_stop]
      exact ⟨[], (List.append_nil _).symm, fun d => ⟨d, Nat.le_refl _, (fun h => by cases h),
        fun _ _ _ => rfl⟩⟩
  | @any_obj i d f log s hc hr hsub ih =>
    intro g hf hg hd
    subst hf
    obtain ⟨new, h1, h2⟩ := ih g (by rw [inner_keep (by rw [fire_some]; exact (hg _ _).2)])
      hg trivial
    rw [fire_some] at h1
    have hbits := @close_bits (some g) Info.Object d (Or.inl rfl) hd (by simp)
    have hopen := @open_is_open Info.Object d (Or.inl rfl) hd
    cases hs : s.stop
    · rw [vanyClose_nonzero hs (NonZero.fire_ne (nonZero_some (fun l e => (hg l e).1)) _ _),
        fire_some, h1]
      refine ⟨openEv Info.Object i d :: new ++
        [⟨s.i - 1, s.i, Info.Object ||| Info.Close ||| closeInfo (some g) d⟩], by simp, ?_⟩
      intro d0
      obtain ⟨d2, _, f2, f3⟩ := h2 (d0 + 1)
      have hd2 := f2 hs
      subst hd2
      refine ⟨d0, Nat.le_refl _, fun _ => rfl, ?_⟩
      intro v hist rest
      simp only [List.cons_append, List.append_assoc, List.nil_append]
      rw [@prune_in_open v (openEv Info.Object i d) hist d0 _ hopen, f3,
        @prune_in_close v ⟨s.i - 1, s.i, Info.Object ||| Info.Close ||| closeInfo (some g) d⟩
          hist d0 _ hbits.1 hbits.2.1]
    · rw [vanyClose_stop hs, h1]
      refine ⟨openEv Info.Object i d :: new, by simp, ?_⟩
      intro d0
      obtain ⟨d2, f1, _, f3⟩ := h2 (d0 + 1)
      refine ⟨d2, by omega, (fun h => by rw [hs] at h; cases h), ?_⟩
      intro v hist rest
      rw [List.cons_append, @prune_in_open v (openEv Info.Object i d) hist d0 _ hopen, f3]
  | @any_arr i d f log s hc hr hsub ih =>
    intro g hf hg hd
    subst hf
    obtain ⟨new, h1, h2⟩ := ih g (by rw [inner_keep (by rw [fire_some]; exact (hg _ _).2)])
      hg trivial
    rw [fire_some] at h1
    have hbits := @close_bits (some g) Info.Array d (Or.inr rfl) hd (by simp)
    have hopen := @open_is_open Info.Array d (Or.inr rfl) hd
    cases hs : s.stop
    · rw [vanyClose_nonzero hs (NonZero.fire_ne (nonZero_some (fun l e => (hg l e).1)) _ _),
        fire_some, h1]
      refine ⟨openEv Info.Array i d :: new ++
        [⟨s.i - 1, s.i, Info.Array ||| Info.Close ||| closeInfo (some g) d⟩], by simp, ?_⟩
      intro d0
      obtain ⟨d2, _, f2, f3⟩ := h2 (d0 + 1)
      have hd2 := f2 hs
      subst hd2
      refine ⟨d0, Nat.le_refl _, fun _ => rfl, ?_⟩
      intro v hist rest
      simp only [List.cons_append, List.append_assoc, List.nil_append]
      rw [@prune_in_open v (openEv Info.Array i d) hist d0 _ hopen, f3,
        @prune_in_close v ⟨s.i - 1, s.i, Info.Array ||| Info.Close ||| closeInfo (some g) d⟩
          hist d0 _ hbits.1 hbits.2.1]
    · rw [vanyClose_stop hs, h1]
      refine ⟨openEv Info.Array i d :: new, by simp, ?_⟩
      intro d0
      obtain ⟨d2, f1, _, f3⟩ := h2 (d0 + 1)
      refine ⟨d2, by omega, (fun h => by rw [hs] at h; cases h), ?_⟩
      intro v hist rest
      rw [List.cons_append, @prune_in_open v (openEv Info.Array i d) hist d0 _ hopen, f3]
  | @key_go i f log j info ok s hv hr hsub ih =>
    intro g hf hg _
    subst hf
    obtain ⟨new, h1, h2⟩ := ih g rfl hg trivial
    rw [fire_some] at h1
    refine ⟨⟨i, j, info ||| Info.Key ||| Info.String⟩ :: new, by rw [h1]; simp, ?_⟩
    intro d0
    obtain ⟨d2, f1, f2, f3⟩ := h2 d0
    exact ⟨d2, f1, f2, deep_cons_other (key_not_open (vstring_flags hv).2)
      (key_not_close (vstring_flags hv).2) f3⟩
  | @colon_go i f log j ok s hv hr hsub ih =>
    intro g hf hg _
    subst hf
    obtain ⟨new, h1, h2⟩ := ih g rfl hg trivial
    rw [fire_some] at h1
    refine ⟨⟨j - 1, j, Info.Colon⟩ :: new, by rw [h1]; simp, ?_⟩
    intro d0
    obtain ⟨d2, f1, f2, f3⟩ := h2 d0
    exact ⟨d2, f1, f2, @deep_cons_other ⟨j - 1, j, Info.Colon⟩ new d0 d2
      (show hasBit Info.Colon Info.Open = false by decide)
      (show hasBit Info.Colon Info.Close = false by decide) f3⟩
  | @sep_go e i f log j ok c s hv hc hce hr hsub ih =>
    intro g hf hg _
    subst hf
    obtain ⟨new, h1, h2⟩ := ih g rfl hg (afterComma_rooted _ _)
    rw [fire_some] at h1
    refine ⟨⟨j, j + 1, Info.Comma⟩ :: new, by rw [h1]; simp, ?_⟩
    intro d0
    obtain ⟨d2, f1, f2, f3⟩ := h2 d0
    exact ⟨d2, f1, f2, @deep_cons_other ⟨j, j + 1, Info.Comma⟩ new d0 d2
      (show hasBit Info.Comma Info.Open = false by decide)
      (show hasBit Info.Comma Info.Close = false by decide) f3⟩
  | @member_stop e i f log s h1 hst ih =>
    intro g hf hg _
    obtain ⟨new, f1, f2⟩ := ih g hf hg (Or.inl rfl)
    refine ⟨new, f1, ?_⟩
    intro d0
    obtain ⟨d2, g1, _, g3⟩ := f2 d0
    exact ⟨d2, g1, (fun h => by rw [hst] at h; cases h), g3⟩
  | @member_go e i f log s t h1 hst h2 ih1 ih2 =>
    intro g hf hg _
    obtain ⟨n1, f1, f2⟩ := ih1 g hf hg (Or.inl rfl)
    obtain ⟨n2, f3, f4⟩ := ih2 g hf hg trivial
    refine ⟨n1 ++ n2, by rw [f3, f1, List.append_assoc], ?_⟩
    intro d0
    obtain ⟨d1, _, g2, g3⟩ := f2 d0
    have hd1 := g2 hst
    rw [hd1] at g3
    obtain ⟨d2, k1, k2, k3⟩ := f4 d0
    refine ⟨d2, k1, k2, ?_⟩
    intro v hist rest
    rw [List.append_assoc, g3, k3]

theorem sim_refl (v : vfn) (log logF : List Event) (stop : Bool) :
    Sim v log logF log logF stop :=
  ⟨[], [], (List.append_nil _).symm, (List.append_nil _).symm, rfl, fun _ rest => by simp⟩

theorem sim_weaken {v : vfn} {log logF a b : List Event} (stop : Bool)
    (h : Sim v log logF a b false) : Sim v log logF a b stop := by
  obtain ⟨new, newF, h1, h2, h3, h4⟩ := h
  exact ⟨new, newF, h1, h2, h3, fun _ => h4 rfl⟩

theorem sim_cons {v : vfn} {log logF a b : List Event} {e : Event} {stop : Bool}
    (hne : ¬ (hasBit e.info Info.Open = true ∧ v log e = -1))
    (h : Sim v (log ++ [e]) (logF ++ [e]) a b stop) : Sim v log logF a b stop := by
  obtain ⟨new, newF, h1, h2, h3, h4⟩ := h
  refine ⟨e :: new, e :: newF, by rw [h1]; simp, by rw [h2]; simp, ?_, ?_⟩
  · rw [prune_keep _ hne, h3]
  · intro hs rest
    rw [List.cons_append, prune_keep _ hne, h4 hs]
    simp

theorem sim_trans {v : vfn} {log logF a b a2 b2 : List Event} {stop : Bool}
    (h : Sim v log logF a b false) (h2 : Sim v a b a2 b2 stop) : Sim v log logF a2 b2 stop := by
  obtain ⟨n1, m1, rfl, rfl, f3, f4⟩ := h
  obtain ⟨n2, m2, rfl, rfl, g3, g4⟩ := h2
  refine ⟨n1 ++ n2, m1 ++ m2, by simp, by simp, ?_, ?_⟩
  · rw [f4 rfl, g3]
  · intro hs rest
    rw [List.append_assoc, f4 rfl, g4 hs]
    simp

theorem sim_snoc {v : vfn} {log logF a b : List Event} {e : Event} (stop : Bool)
    (ho : hasBit e.info Info.Open = false) (h : Sim v log logF a b false) :
    Sim v log logF (a ++ [e]) (b ++ [e]) stop :=
  sim_trans h (sim_cons (by rw [ho]; rintro ⟨h, _⟩; cases h) (sim_refl v _ _ stop))

theorem prune_nil (v : vfn) (hist : List Event) (d : Nat) : prune v hist d [] = [] := by
  cases d <;> rfl

theorem sim_skip_stop {v : vfn} {log logF newF : List Event} {e : Event}
    (ho : hasBit e.info Info.Open = true) (hs : v log e = -1)
    (hb : ∃ d2, ∀ (v : vfn) hist rest,
      prune v hist (0 + 1) (newF ++ rest) = prune v hist (d2 + 1) rest) :
    Sim v log logF (log ++ [e]) (logF ++ [e] ++ newF) true := by
  obtain ⟨d2, h⟩ := hb
  refine ⟨[e], e :: newF, rfl, by simp, ?_, fun h => by cases h⟩
  have h2 := h v (log ++ [e]) []
  rw [List.append_nil, prune_nil] at h2
  rw [prune_skip _ ho hs, h2]

theorem sim_skip_go {v : vfn} {log logF newF : List Event} {e cl : Event} (stop : Bool)
    (ho : hasBit e.info Info.Open = true) (hs : v log e = -1)
    (hco : hasBit cl.info Info.Open = false) (hcc : hasBit cl.info Info.Close = true)
    (hb : ∀ (v : vfn) hist rest, prune v hist (0 + 1) (newF ++ rest) = prune v hist (0 + 1) rest) :
    Sim v log logF (log ++ [e] ++ [cl]) (logF ++ [e] ++ newF ++ [cl]) stop := by
  have key : ∀ rest, prune v log 0 ((e :: newF ++ [cl]) ++ rest) =
      [e, cl] ++ prune v (log ++ [e, cl]) 0 rest := by
    intro rest
    simp only [List.cons_append, List.append_assoc, List.nil_append]
    rw [prune_skip _ ho hs, hb, prune_in_last _ _ hco hcc]
    simp
  refine ⟨[e, cl], e :: newF ++ [cl], by simp, by simp, ?_, fun _ => key⟩
  have := key []
  simpa [prune_nil] using this

/-- The end of `vany` for an object or array, with the visitor `v` and with a visitor
that always answers 1 -/
theorem sim_container {v : vfn} {kind i d : Nat} {log logF : List Event} {s sF : St}
    (hv : ∀ l e, v l e ≠ 0) (hk : kind = Info.Object ∨ kind = Info.Array)
    (hd : d = Info.Value ∨ d = Info.Start)
    (hi : sF.i = s.i) (hok : sF.ok = s.ok) (hst : sF.stop = s.stop)
    (hin : v log (openEv kind i d) ≠ -1 →
      Sim v (log ++ [openEv kind i d]) (logF ++ [openEv kind i d]) s.log sF.log s.stop)
    (hskip : v log (openEv kind i d) = -1 → s.log = log ++ [openEv kind i d] ∧
      ∃ newF, sF.log = logF ++ [openEv kind i d] ++ newF ∧ ∀ d0, ∃ d2, d0 ≤ d2 ∧
        (sF.stop = false → d2 = d0) ∧ ∀ (v : vfn) hist rest,
          prune v hist (d0 + 1) (newF ++ rest) = prune v hist (d2 + 1) rest) :
    (vanyClose kind d sF (some (fun _ _ => 1))).i = (vanyClose kind d s (some v)).i ∧
    (vanyClose kind d sF (some (fun _ _ => 1))).ok = (vanyClose kind d s (some v)).ok ∧
    (vanyClose kind d sF (some (fun _ _ => 1))).stop = (vanyClose kind d s (some v)).stop ∧
    Sim v log logF (vanyClose kind d s (some v)).log
      (vanyClose kind d sF (some (fun _ _ => 1))).log (vanyClose kind d s (some v)).stop := by
  have hbits := @close_bits (some v) kind d hk hd (by simp)
  have hopen : hasBit (openEv kind i d).info Info.Open = true := open_is_open hk hd
  have hone : NonZero (some (fun _ _ => 1 : vfn)) := nonZero_some (fun _ _ => one_ne_zero)
  have hcl : closeInfo (some (fun _ _ => 1 : vfn)) d = closeInfo (some v) d := rfl
  cases hs : s.stop
  · have hsF : sF.stop = false := by rw [hst, hs]
    rw [vanyClose_nonzero hs (NonZero.fire_ne (nonZero_some hv) _ _), fire_some,
      vanyClose_nonzero hsF (NonZero.fire_ne hone _ _), fire_some, hi, hcl]
    refine ⟨rfl, rfl, rfl, ?_⟩
    by_cases hr : v log (openEv kind i d) = -1
    · obtain ⟨h1, newF, h2, h3⟩ := hskip hr
      obtain ⟨d2, _, h4, h5⟩ := h3 0
      rw [h4 hsF] at h5
      dsimp only
      rw [h1, h2]
      exact sim_skip_go false hopen hr hbits.1 hbits.2.1 h5
    · have h1 := hin hr
      rw [hs] at h1
      exact sim_snoc false hbits.1 (sim_cons (fun h => hr h.2) h1)
  · have hsF : sF.stop = true := by rw [hst, hs]
    rw [vanyClose_stop hs, vanyClose_stop hsF]
    refine ⟨hi, hok, hst, ?_⟩
    rw [hs]
    by_cases hr : v log (openEv kind i d) = -1
    · obtain ⟨h1, newF, h2, h3⟩ := hskip hr
      obtain ⟨d2, _, _, h5⟩ := h3 0
      rw [h1, h2]
      exact sim_skip_stop hopen hr ⟨d2, h5⟩
    · have h1 := hin hr
      rw [hs] at h1
      exact sim_cons (fun h => hr h.2) h1

theorem nonZero_one : NonZero (some (fun _ _ => 1 : vfn)) := nonZero_some (fun _ _ => one_ne_zero)

theorem noSkip_one : ∀ (l : List Event) (e : Event),
    (fun _ _ => 1 : vfn) l e ≠ 0 ∧ (fun _ _ => 1 : vfn) l e ≠ -1 :=
  fun _ _ => ⟨one_ne_zero, (show (1 : Int) ≠ -1 by decide)⟩

theorem inner_one (r : Int) (h : r ≠ -1) :
    inner (some (fun _ _ => 1 : vfn)) r = some (fun _ _ => 1) := inner_keep h

theorem any_obj_one {json : List UInt8} {i d : Nat} {logF : List Event} {sF : St}
    (hc : rd json i = Run.ret 123)
    (hF : Exec json (.object (i + 1)) (some (fun _ _ => 1)) (logF ++ [openEv Info.Object i d]) sF) :
    Exec json (.any i d) (some (fun _ _ => 1)) logF
      (vanyClose Info.Object d sF (some (fun _ _ => 1))) := by
  refine Exec.any_obj hc (NonZero.fire_ne nonZero_one _ _) ?_
  rw [fire_some, inner_one _ (show (1 : Int) ≠ -1 by decide)]
  exact hF

theorem any_arr_one {json : List UInt8} {i d : Nat} {logF : List Event} {sF : St}
    (hc : rd json i = Run.ret 91)
    (hF : Exec json (.array (i + 1)) (some (fun _ _ => 1)) (logF ++ [openEv Info.Array i d]) sF) :
    Exec json (.any i d) (some (fun _ _ => 1)) logF
      (vanyClose Info.Array d sF (some (fun _ _ => 1))) := by
  refine Exec.any_arr hc (NonZero.fire_ne nonZero_one _ _) ?_
  rw [fire_some, inner_one _ (show (1 : Int) ≠ -1 by decide)]
  exact hF

/-- The states in which the code at a program point ends with two visitors that never
answer 0 differ in the log only -/
theorem exec_same {json : List UInt8} {c : Call} {f f2 : Option vfn} {log log2 : List Event}
    {s s2 : St} (h : Exec json c f log s) (h2 : Exec json c f2 log2 s2) (hf : NonZero f)
    (hf2 : NonZero f2) (hb : c.inb json) : s2.i = s.i ∧ s2.ok = s.ok ∧ s2.stop = s.stop := by
  have := exec_det (exec_quiet h2 hf2 []) (exec_quiet h hf []) hb
  simp only [St.mk.injEq] at this
  exact ⟨this.1, this.2.1, this.2.2.1⟩

/-- The scan with a visitor `v` that never answers 0, next to the scan with a visitor that
always answers 1: they end at the same cursor with the same flags, and the events of the
first are what `prune` leaves of the events of the second -/
theorem exec_prune {json : List UInt8} {c : Call} {f : Option vfn} {log : List Event} {s : St}
    (h : Exec json c f log s) : ∀ v, f = some v → (∀ l e, v l e ≠ 0) → c.inb json → c.rooted →
    ∀ logF, ∃ sF, Exec json c (some (fun _ _ => 1)) logF sF ∧ sF.i = s.i ∧ sF.ok = s.ok ∧
      sF.stop = s.stop ∧ Sim v log logF s.log sF.log s.stop := by
  induction h with
  | any_obj_stop _ hr | any_arr_stop _ hr | key_stop _ hr | colon_stop _ hr
  | sep_stop _ _ _ hr =>
    intro v hf hv; subst hf; exact absurd hr (hv _ _)
  | any_eob h => intro v _ _ _ _ logF; exact ⟨_, Exec.any_eob h, rfl, rfl, rfl, sim_refl _ _ _ _⟩
  | obj_eob h => intro v _ _ _ _ logF; exact ⟨_, Exec.obj_eob h, rfl, rfl, rfl, sim_refl _ _ _ _⟩
  | next_eob h => intro v _ _ _ _ logF; exact ⟨_, Exec.next_eob h, rfl, rfl, rfl, sim_refl _ _ _ _⟩
  | arr_eob h => intro v _ _ _ _ logF; exact ⟨_, Exec.arr_eob h, rfl, rfl, rfl, sim_refl _ _ _ _⟩
  | elems_eob h =>
    intro v _ _ _ _ logF; exact ⟨_, Exec.elems_eob h, rfl, rfl, rfl, sim_refl _ _ _ _⟩
  | any_bad h1 h2 h3 h4 h5 =>
    intro v _ _ _ _ logF
    exact ⟨_, Exec.any_bad h1 h2 h3 h4 h5, rfl, rfl, rfl, sim_refl _ _ _ _⟩
  | obj_bad h1 h2 h3 h4 =>
    intro v _ _ _ _ logF
    exact ⟨_, Exec.obj_bad h1 h2 h3 h4, rfl, rfl, rfl, sim_refl _ _ _ _⟩
  | next_bad h1 h2 h3 =>
    intro v _ _ _ _ logF
    exact ⟨_, Exec.next_bad h1 h2 h3, rfl, rfl, rfl, sim_refl _ _ _ _⟩
  | key_fail h1 =>
    intro v _ _ _ _ logF; exact ⟨_, Exec.key_fail h1, rfl, rfl, rfl, sim_refl _ _ _ _⟩
  | colon_fail h1 =>
    intro v _ _ _ _ logF; exact ⟨_, Exec.colon_fail h1, rfl, rfl, rfl, sim_refl _ _ _ _⟩
  | sep_fail h1 =>
    intro v _ _ _ _ logF; exact ⟨_, Exec.sep_fail h1, rfl, rfl, rfl, sim_refl _ _ _ _⟩
  | obj_close h1 =>
    intro v _ _ _ _ logF; exact ⟨_, Exec.obj_close h1, rfl, rfl, rfl, sim_refl _ _ _ _⟩
  | arr_close h1 =>
    intro v _ _ _ _ logF; exact ⟨_, Exec.arr_close h1, rfl, rfl, rfl, sim_refl _ _ _ _⟩
  | sep_close h1 h2 =>
    intro v _ _ _ _ logF; exact ⟨_, Exec.sep_close h1 h2, rfl, rfl, rfl, sim_refl _ _ _ _⟩
  | any_ws hc hw _ ih =>
    intro v hf hv _ hr logF
    obtain ⟨sF, hF, h1⟩ := ih v hf hv (rd_lt hc) hr logF
    exact ⟨sF, Exec.any_ws hc hw hF, h1⟩
  | obj_ws hc hw _ ih =>
    intro v hf hv _ _ logF
    obtain ⟨sF, hF, h1⟩ := ih v hf hv (rd_lt hc) trivial logF
    exact ⟨sF, Exec.obj_ws hc hw hF, h1⟩
  | arr_ws hc hw _ ih =>
    intro v hf hv _ _ logF
    obtain ⟨sF, hF, h1⟩ := ih v hf hv (rd_lt hc) trivial logF
    exact ⟨sF, Exec.arr_ws hc hw hF, h1⟩
  | next_ws hc hw _ ih =>
    intro v hf hv _ _ logF
    obtain ⟨sF, hF, h1⟩ := ih v hf hv (rd_lt hc) trivial logF
    exact ⟨sF, Exec.next_ws hc hw hF, h1⟩
  | elems_ws hc hw _ ih =>
    intro v hf hv _ _ logF
    obtain ⟨sF, hF, h1⟩ := ih v hf hv (rd_lt hc) trivial logF
    exact ⟨sF, Exec.elems_ws hc hw hF, h1⟩
  | obj_key hc _ ih =>
    intro v hf hv _ _ logF
    obtain ⟨sF, hF, h1⟩ := ih v hf hv (rd_lt hc) trivial logF
    exact ⟨sF, Exec.obj_key hc hF, h1⟩
  | next_key hc _ ih =>
    intro v hf hv _ _ logF
    obtain ⟨sF, hF, h1⟩ := ih v hf hv (rd_lt hc) trivial logF
    exact ⟨sF, Exec.next_key hc hF, h1⟩
  | arr_elems hc hw hne _ ih =>
    intro v hf hv hb _ logF
    obtain ⟨sF, hF, h1⟩ := ih v hf hv hb trivial logF
    exact ⟨sF, Exec.arr_elems hc hw hne hF, h1⟩
  | elems_go hc hw _ ih =>
    intro v hf hv hb _ logF
    obtain ⟨sF, hF, h1⟩ := ih v hf hv hb trivial logF
    exact ⟨sF, Exec.elems_go hc hw hF, h1⟩
  | @any_scalar i d f log c j info ok stop hc hw hs =>
    intro v hf hv _ hr logF
    subst hf
    refine ⟨_, @Exec.any_scalar json i d (some (fun _ _ => 1)) logF c j info ok stop hc hw hs, ?_⟩
    cases stop
    · rw [vanyTail_nonzero (NonZero.fire_ne (nonZero_some hv) _ _), fire_some,
        vanyTail_nonzero (NonZero.fire_ne nonZero_one _ _), fire_some]
      refine ⟨rfl, rfl, rfl, ?_⟩
      have hti : tailInfo (some (fun _ _ => 1 : vfn)) d = tailInfo (some v) d := rfl
      rw [hti]
      exact sim_cons (by
        rw [tail_not_open hr (scalar_info hc hs) (by simp)]
        rintro ⟨h, _⟩; cases h) (sim_refl v _ _ false)
    · rw [vanyTail_stop, vanyTail_stop]
      exact ⟨rfl, rfl, rfl, sim_refl _ _ _ _⟩
  | @any_obj i d f log s hc hr hsub ih =>
    intro v hf hv _ hd logF
    subst hf
    have main : ∃ sF, Exec json (.object (i + 1)) (some (fun _ _ => 1))
        (logF ++ [openEv Info.Object i d]) sF ∧ sF.i = s.i ∧ sF.ok = s.ok ∧ sF.stop = s.stop ∧
        (v log (openEv Info.Object i d) ≠ -1 → Sim v (log ++ [openEv Info.Object i d])
          (logF ++ [openEv Info.Object i d]) s.log sF.log s.stop) ∧
        (v log (openEv Info.Object i d) = -1 → s.log = log ++ [openEv Info.Object i d] ∧
          ∃ newF, sF.log = logF ++ [openEv Info.Object i d] ++ newF ∧ ∀ d0, ∃ d2, d0 ≤ d2 ∧
            (sF.stop = false → d2 = d0) ∧ ∀ (v : vfn) hist rest,
              prune v hist (d0 + 1) (newF ++ rest) = prune v hist (d2 + 1) rest) := by
      by_cases hsk : v log (openEv Info.Object i d) = -1
      · have h2 := hsub
        rw [fire_some] at h2
        simp only [inner, hsk, if_true] at h2
        obtain ⟨sF, hF⟩ := exec_total json (.object (i + 1)) (some (fun _ _ => 1))
          (logF ++ [openEv Info.Object i d]) (rd_lt hc)
        obtain ⟨e1, e2, e3⟩ := exec_same h2 hF nonZero_none nonZero_one (rd_lt hc)
        exact ⟨sF, hF, e1, e2, e3, fun h => absurd hsk h,
          fun _ => ⟨exec_none_log h2 rfl, exec_bal hF _ rfl noSkip_one trivial⟩⟩
      · obtain ⟨sF, hF, e1, e2, e3, e4⟩ := ih v (by rw [fire_some]; exact inner_keep hsk) hv
          (rd_lt hc) trivial (logF ++ [openEv Info.Object i d])
        exact ⟨sF, hF, e1, e2, e3, fun _ => e4, fun h => absurd h hsk⟩
    obtain ⟨sF, hF, e1, e2, e3, e4, e5⟩ := main
    exact ⟨_, any_obj_one hc hF, sim_container hv (Or.inl rfl) hd e1 e2 e3 e4 e5⟩
  | @any_arr i d f log s hc hr hsub ih =>
    intro v hf hv _ hd logF
    subst hf
    have main : ∃ sF, Exec json (.array (i + 1)) (some (fun _ _ => 1))
        (logF ++ [openEv Info.Array i d]) sF ∧ sF.i = s.i ∧ sF.ok = s.ok ∧ sF.stop = s.stop ∧
        (v log (openEv Info.Array i d) ≠ -1 → Sim v (log ++ [openEv Info.Array i d])
          (logF ++ [openEv Info.Array i d]) s.log sF.log s.stop) ∧
        (v log (openEv Info.Array i d) = -1 → s.log = log ++ [openEv Info.Array i d] ∧
          ∃ newF, sF.log = logF ++ [openEv Info.Array i d] ++ newF ∧ ∀ d0, ∃ d2, d0 ≤ d2 ∧
            (sF.stop = false → d2 = d0) ∧ ∀ (v : vfn) hist rest,
              prune v hist (d0 + 1) (newF ++ rest) = prune v hist (d2 + 1) rest) := by
      by_cases hsk : v log (openEv Info.Array i d) = -1
      · have h2 := hsub
        rw [fire_some] at h2
        simp only [inner, hsk, if_true] at h2
        obtain ⟨sF, hF⟩ := exec_total json (.array (i + 1)) (some (fun _ _ => 1))
          (logF ++ [openEv Info.Array i d]) (rd_lt hc)
        obtain ⟨e1, e2, e3⟩ := exec_same h2 hF nonZero_none nonZero_one (rd_lt hc)
        exact ⟨sF, hF, e1, e2, e3, fun h => absurd hsk h,
          fun _ => ⟨exec_none_log h2 rfl, exec_bal hF _ rfl noSkip_one trivial⟩⟩
      · obtain ⟨sF, hF, e1, e2, e3, e4⟩ := ih v (by rw [fire_some]; exact inner_keep hsk) hv
          (rd_lt hc) trivial (logF ++ [openEv Info.Array i d])
        exact ⟨sF, hF, e1, e2, e3, fun _ => e4, fun h => absurd h hsk⟩
    obtain ⟨sF, hF, e1, e2, e3, e4, e5⟩ := main
    exact ⟨_, any_arr_one hc hF, sim_container hv (Or.inr rfl) hd e1 e2 e3 e4 e5⟩
  | @key_go i f log j info ok s hv0 hr hsub ih =>
    intro v hf hv hb _ logF
    subst hf
    have hj := vstring_bounds hb hv0
    obtain ⟨sF, hF, e1, e2, e3, e4⟩ := ih v rfl hv hj.2.2.1 trivial
      (logF ++ [⟨i, j, info ||| Info.Key ||| Info.String⟩])
    refine ⟨sF, Exec.key_go hv0 (NonZero.fire_ne nonZero_one _ _) hF, e1, e2, e3, ?_⟩
    exact sim_cons (by
      rw [key_not_open (vstring_flags hv0).2]
      rintro ⟨h, _⟩; cases h) e4
  | @colon_go i f log j ok s hv0 hr hsub ih =>
    intro v hf hv hb _ logF
    subst hf
    have hj := vcolon_go hv0
    obtain ⟨sF, hF, e1, e2, e3, e4⟩ := ih v rfl hv (hj.2.2.2.1 hb) trivial
      (logF ++ [⟨j - 1, j, Info.Colon⟩])
    refine ⟨sF, Exec.colon_go hv0 (NonZero.fire_ne nonZero_one _ _) hF, e1, e2, e3, ?_⟩
    exact sim_cons (by
      rintro ⟨h, _⟩
      have h0 : hasBit Info.Colon Info.Open = true := h
      revert h0; decide) e4
  | @member_stop e i f log s h1 hst ih =>
    intro v hf hv hb _ logF
    obtain ⟨sF, hF, e1, e2, e3, e4⟩ := ih v hf hv hb (Or.inl rfl) logF
    exact ⟨sF, Exec.member_stop hF (by rw [e3, hst]), e1, e2, e3, e4⟩
  | @member_go e i f log s t h1 hst h2 ih1 ih2 =>
    intro v hf hv hb _ logF
    have hb0 : (Call.any i Info.Value).inb json := hb
    have hbd := (exec_bounds h1 hb0).2.2 hst
    obtain ⟨sF, hF, e1, e2, e3, e4⟩ := ih1 v hf hv hb0 (Or.inl rfl) logF
    obtain ⟨tF, hG, g1, g2, g3, g4⟩ := ih2 v hf hv hbd.2.2 trivial sF.log
    rw [← e1] at hG
    rw [hst] at e4
    exact ⟨tF, Exec.member_go hF (by rw [e3, hst]) hG, g1, g2, g3, sim_trans e4 g4⟩
  | @sep_go e i f log j ok c s hv0 hc hce hr hsub ih =>
    intro v hf hv _ _ logF
    subst hf
    have hj := vcomma_go hv0
    obtain ⟨sF, hF, e1, e2, e3, e4⟩ := ih v rfl hv (afterComma_inb hj.2.2.1)
      (afterComma_rooted _ _) (logF ++ [⟨j, j + 1, Info.Comma⟩])
    refine ⟨sF, Exec.sep_go hv0 hc hce (NonZero.fire_ne nonZero_one _ _) hF, e1, e2, e3, ?_⟩
    exact sim_cons (by
      rintro ⟨h, _⟩
      have h0 : hasBit Info.Comma Info.Open = true := h
      revert h0; decide) e4

/-- The events that `Parse` delivers with a visitor `v` that never answers 0 are what
`prune` leaves of the events that it delivers with a visitor that always answers 1 -/
theorem parse_prune {json : List UInt8} {v : vfn} {log full : List Event}
    (hv : ∀ l e, v l e ≠ 0) (h : events json (some v) = Run.ret log)
    (hF : events json (some (fun _ _ => 1)) = Run.ret full) : log = prune v [] 0 full := by
  obtain ⟨s, hs⟩ := exec_total json (.any 0 Info.Start) (some v) [] (Nat.zero_le _)
  obtain ⟨sF, hsF, _, _, _, new, newF, h1, h2, h3, _⟩ :=
    exec_prune hs v rfl hv (Nat.zero_le _) (Or.inr rfl) []
  rw [events_eq hs] at h
  rw [events_eq hsF] at hF
  simp only [Run.ret.injEq] at h hF
  rw [← h, ← hF, h1, h2, List.nil_append, List.nil_append, h3]

end pjson
namespace pjson

/-! ## Reads inside the buffer, ranges of the events, the unrolled loop -/

theorem rd_panic_iff (json : List UInt8) (k : Nat) : rd json k = Run.panic ↔ ¬ k < json.length := by
  constructor
  · intro h hlt
    obtain ⟨c, hc⟩ := rd_total hlt
    rw [hc] at h
    cases h
  · exact rd_panic

theorem parse_total (json : List UInt8) (f : Option vfn) : ∃ r, Parse json f = Run.ret r := by
  obtain ⟨s, hs, _⟩ := vdoc_total json f
  exact ⟨_, Parse_eq hs⟩

theorem vstringWith_total (u : Bool) (json : List UInt8) {i : Nat} (hi : i ≤ json.length) :
    ∃ r, vstringWith u json i = Run.ret r := by
  obtain ⟨j, info, ok, h, _⟩ :=
    vstringLoop_spec u json (json.length + 1) i 0 (Nat.succ_pos _) (by omega) hi
  exact ⟨_, h⟩

/-- The string scanner with the unrolled loop and without it -/
theorem vstringWith_unroll (json : List UInt8) (i : Nat) :
    vstringWith true json i = vstringWith false json i :=
  vstringLoop_unroll json _ i 0

/-- The range of an event lies in the buffer and is not empty -/
theorem ev_range {json : List UInt8} {root : Bool} {e : Event} (h : Ev json root e) :
    e.start < e.fin ∧ e.fin ≤ json.length := by
  cases h with
  | opnObj hc => exact ⟨Nat.lt_succ_self _, rd_lt hc⟩
  | opnArr hc => exact ⟨Nat.lt_succ_self _, rd_lt hc⟩
  | clsObj h0 hc =>
    have := rd_lt hc
    exact ⟨by dsimp only; omega, by dsimp only; omega⟩
  | clsArr h0 hc =>
    have := rd_lt hc
    exact ⟨by dsimp only; omega, by dsimp only; omega⟩
  | scalar hc hw hs =>
    obtain ⟨_, h1, h2⟩ := scalar_bounds hc hs
    exact ⟨h1, h2⟩
  | key _ hq hv =>
    obtain ⟨_, h1, h2, _⟩ := vstring_JString hq hv
    exact ⟨by dsimp only; omega, h2⟩
  | colon _ h0 hc =>
    have := rd_lt hc
    exact ⟨by dsimp only; omega, by dsimp only; omega⟩
  | comma _ hc => exact ⟨Nat.lt_succ_self _, rd_lt hc⟩

/-- The ranges of the events that `Parse` delivers lie in the buffer and are not empty -/
theorem events_range {json : List UInt8} {f : Option vfn} {log : List Event}
    (h : events json f = Run.ret log) : ∀ x ∈ log, x.start < x.fin ∧ x.fin ≤ json.length := by
  obtain ⟨log2, h2, h3⟩ := parse_evs json f
  rw [h] at h2
  simp only [Run.ret.injEq] at h2
  subst h2
  intro x hx
  obtain ⟨root, hr⟩ := h3 x hx
  exact ev_range hr

end pjson
namespace pjson

/-! ## The claims -/

/-- C3 (the code at a failing input): a visitor that answers 0 on the Open event of
the bracket at offset 0 makes `Parse` return 0, the start of that event and not a
positive value or its end 1; a visitor that answers 0 on the first Comma event of
` [ 1,2,3 ] `, whose range is [4, 5), makes `Parse` return 4. -/
theorem stop_on_open_or_comma_returns_start :
    Parse (bytes "\x7b\x7d") (some (fun _ _ => 0)) = Run.ret 0 ∧
    events (bytes "\x7b\x7d") (some (fun _ _ => 0)) =
      Run.ret [⟨0, 1, Info.Object ||| Info.Open ||| Info.Start⟩] ∧
    Parse (bytes " [ 1,2,3 ] ")
      (some (fun _ e => if e.info &&& Info.Comma = Info.Comma then 0 else 1)) = Run.ret 4 ∧
    events (bytes " [ 1,2,3 ] ")
      (some (fun _ e => if e.info &&& Info.Comma = Info.Comma then 0 else 1)) =
      Run.ret [⟨1, 2, Info.Array ||| Info.Open ||| Info.Start⟩,
        ⟨3, 4, Info.Number ||| Info.Value⟩, ⟨4, 5, Info.Comma⟩] := by
  decide!

/-- C4: for every buffer and every visitor `Parse` delivers a sequence of events, and
an event of it on which the visitor answered 0 (given the events before it) is the
last one: the visitor is not called again.  On the buffer of the test an always-0
visitor sees the Open event of the first bracket only. -/
theorem stop_ends_event_stream (json : List UInt8) (v : vfn) :
    (∃ log, events json (some v) = Run.ret log ∧
      ∀ l e r, log = l ++ e :: r → v l e = 0 → r = []) ∧
    events (bytes " \x7b \"hello\" : [ 1, 2, 3 ], \"jello\" : [ 4, 5, 6 ] \x7d ")
      (some (fun _ _ => 0)) = Run.ret [⟨1, 2, Info.Object ||| Info.Open ||| Info.Start⟩] := by
  refine ⟨?_, by decide!⟩
  obtain ⟨s, hs, _⟩ := vdoc_total json (some v)
  exact ⟨s.log, events_eq hs, (exec_answered hs (Or.inr rfl) (answered_nil v)).1⟩

/-- C5 (the code at a failing input): on the three bytes `[1,` the result of `Parse`
without a visitor is -4, so the reported position 4 is larger than the length 3 of
the buffer. -/
theorem truncated_array_offset_past_end :
    Parse (bytes "[1,") none = Run.ret (-4) ∧ (bytes "[1,").length = 3 := by
  decide!

/-- C7: for every buffer and every visitor that never answers 0, `Parse` with the
visitor returns what `Parse` without a visitor returns, and that is a result (the
scan neither runs out of its budget nor reads outside the buffer). -/
theorem visitor_without_stop_keeps_verdict (json : List UInt8) (v : vfn)
    (hv : ∀ l e, v l e ≠ 0) :
    Parse json (some v) = Parse json none ∧ ∃ r, Parse json none = Run.ret r := by
  refine ⟨Parse_quiet json (some v) ?_, ?_⟩
  · intro g hg l e
    cases hg
    exact hv l e
  · obtain ⟨s, hs, _⟩ := vdoc_total json none
    exact ⟨_, Parse_eq hs⟩

theorem visitor_without_stop_keeps_verdict_witness :
    (∀ (l : List Event) (e : Event), (fun _ _ => -1 : vfn) l e ≠ 0) ∧
    Parse (bytes "[1, [2, x], 3]") (some (fun _ _ => -1)) = Parse (bytes "[1, [2, x], 3]") none :=
  ⟨fun _ _ => by simp,
    (visitor_without_stop_keeps_verdict (bytes "[1, [2, x], 3]") (fun _ _ => -1)
      (fun _ _ => by simp)).1⟩

/-- C9: when `Parse` returns a positive result with a visitor that never answers 0,
let `c` be the first byte of the buffer that is no whitespace.  (a) If `c` is no
opening bracket, exactly one event is delivered and it carries Start and End.
(b) If `c` is an opening bracket, the first event is its Open event with Start and
without End, the last event is a Close event of the same kind with End and without
Start, and (c) no event between them carries Start or End. -/
theorem root_start_end_marks (json : List UInt8) (v : vfn) (hv : ∀ l e, v l e ≠ 0) (r : Int)
    (hp : Parse json (some v) = Run.ret r) (hr : 0 < r) :
    ∃ log c, events json (some v) = Run.ret log ∧ rd json (skipWs json 0) = Run.ret c ∧
      (c ≠ 123 ∧ c ≠ 91 → ∃ e, log = [e] ∧ e.start = skipWs json 0 ∧
        hasBit e.info Info.Start = true ∧ hasBit e.info Info.End = true ∧
        hasBit e.info Info.Open = false ∧ hasBit e.info Info.Close = false) ∧
      (c = 123 ∨ c = 91 → ∃ o mid cl, log = o :: mid ++ [cl] ∧
        o.start = skipWs json 0 ∧ o.fin = skipWs json 0 + 1 ∧
        hasBit o.info Info.Open = true ∧ hasBit o.info Info.Start = true ∧
        hasBit o.info Info.End = false ∧
        hasBit cl.info Info.Close = true ∧ hasBit cl.info Info.End = true ∧
        hasBit cl.info Info.Start = false ∧
        hasBit o.info Info.Object = hasBit cl.info Info.Object ∧
        hasBit o.info Info.Array = hasBit cl.info Info.Array ∧
        hasBit o.info Info.Object = decide (c = 123) ∧
        ∀ e ∈ mid, hasBit e.info Info.Start = false ∧ hasBit e.info Info.End = false) := by
  have hnz : NonZero (some v) := by
    intro g hg l e
    cases hg
    exact hv l e
  obtain ⟨s, hs, _⟩ := vdoc_total json (some v)
  obtain ⟨hst, _, _, _, _⟩ := parse_pos hs hnz hp hr
  obtain ⟨c, hc, hcase⟩ := root_shape hs hst
  refine ⟨s.log, c, events_eq hs, hc, ?_, ?_⟩
  · rintro ⟨h1, h2⟩
    rcases hcase with ⟨_, _, x, hx, hl⟩ | ⟨h3, _⟩ | ⟨h3, _⟩
    · refine ⟨_, by simpa using hl, rfl, ?_⟩
      have : ∀ x ∈ scalarInfos, hasBit (x ||| (Info.Start ||| Info.End)) Info.Start = true ∧
          hasBit (x ||| (Info.Start ||| Info.End)) Info.End = true ∧
          hasBit (x ||| (Info.Start ||| Info.End)) Info.Open = false ∧
          hasBit (x ||| (Info.Start ||| Info.End)) Info.Close = false := by decide
      exact this x hx
    · exact absurd h3 h1
    · exact absurd h3 h2
  · intro hb
    have hmid : ∀ x ∈ innerInfos, hasBit x Info.Start = false ∧ hasBit x Info.End = false := by
      decide
    rcases hcase with ⟨h1, h2, _⟩ | ⟨h3, mid, hm, hl⟩ | ⟨h3, mid, hm, hl⟩
    · rcases hb with hb | hb
      · exact absurd hb h1
      · exact absurd hb h2
    · subst h3
      refine ⟨_, mid, _, by simpa using hl, rfl, rfl, ?_, ?_, ?_, ?_, ?_, ?_, ?_, ?_, ?_,
        fun e he => hmid _ (hm e he)⟩ <;> dsimp only <;> decide
    · subst h3
      refine ⟨_, mid, _, by simpa using hl, rfl, rfl, ?_, ?_, ?_, ?_, ?_, ?_, ?_, ?_, ?_,
        fun e he => hmid _ (hm e he)⟩ <;> dsimp only <;> decide

theorem root_start_end_marks_witness :
    ∃ log c, events (bytes "[1]") (some (fun _ _ => 1)) = Run.ret log ∧
      rd (bytes "[1]") (skipWs (bytes "[1]") 0) = Run.ret c ∧
      (c ≠ 123 ∧ c ≠ 91 → ∃ e, log = [e] ∧ e.start = skipWs (bytes "[1]") 0 ∧
        hasBit e.info Info.Start = true ∧ hasBit e.info Info.End = true ∧
        hasBit e.info Info.Open = false ∧ hasBit e.info Info.Close = false) ∧
      (c = 123 ∨ c = 91 → ∃ o mid cl, log = o :: mid ++ [cl] ∧
        o.start = skipWs (bytes "[1]") 0 ∧ o.fin = skipWs (bytes "[1]") 0 + 1 ∧
        hasBit o.info Info.Open = true ∧ hasBit o.info Info.Start = true ∧
        hasBit o.info Info.End = false ∧
        hasBit cl.info Info.Close = true ∧ hasBit cl.info Info.End = true ∧
        hasBit cl.info Info.Start = false ∧
        hasBit o.info Info.Object = hasBit cl.info Info.Object ∧
        hasBit o.info Info.Array = hasBit cl.info Info.Array ∧
        hasBit o.info Info.Object = decide (c = 123) ∧
        ∀ e ∈ mid, hasBit e.info Info.Start = false ∧ hasBit e.info Info.End = false) :=
  root_start_end_marks (bytes "[1]") (fun _ _ => 1) (fun _ _ => by simp) 3 (by decide!)
    (by decide)

/-- C10: for every buffer and every visitor (or none) `Parse` delivers a sequence of
events, and the info of each of them has exactly one of the bits String, Number,
True, False, Null, Object, Array, Comma, Colon, does not have both Open and Close,
and has Open or Close exactly when it has Object or Array. -/
theorem one_kind_per_event (json : List UInt8) (f : Option vfn) :
    ∃ log, events json f = Run.ret log ∧ ∀ e ∈ log,
      kindCount e.info = 1 ∧ ¬ (hasBit e.info Info.Open = true ∧ hasBit e.info Info.Close = true) ∧
      ((hasBit e.info Info.Open = true ∨ hasBit e.info Info.Close = true) ↔
        (hasBit e.info Info.Object = true ∨ hasBit e.info Info.Array = true)) := by
  obtain ⟨s, hs, _⟩ := vdoc_total json f
  refine ⟨s.log, events_eq hs, ?_⟩
  obtain ⟨new, hn, hall⟩ := root_infos hs
  rw [List.nil_append] at hn
  rw [hn]
  have hk : ∀ x, x ∈ rootInfos ∨ x ∈ innerInfos → kindCount x = 1 ∧
      ¬ (hasBit x Info.Open = true ∧ hasBit x Info.Close = true) ∧
      ((hasBit x Info.Open = true ∨ hasBit x Info.Close = true) ↔
        (hasBit x Info.Object = true ∨ hasBit x Info.Array = true)) := by
    have h1 : ∀ x ∈ rootInfos, kindCount x = 1 ∧
      ¬ (hasBit x Info.Open = true ∧ hasBit x Info.Close = true) ∧
      ((hasBit x Info.Open = true ∨ hasBit x Info.Close = true) ↔
        (hasBit x Info.Object = true ∨ hasBit x Info.Array = true)) := by decide
    have h2 : ∀ x ∈ innerInfos, kindCount x = 1 ∧
      ¬ (hasBit x Info.Open = true ∧ hasBit x Info.Close = true) ∧
      ((hasBit x Info.Open = true ∨ hasBit x Info.Close = true) ↔
        (hasBit x Info.Object = true ∨ hasBit x Info.Array = true)) := by decide
    intro x hx
    rcases hx with hx | hx
    · exact h1 x hx
    · exact h2 x hx
  intro e he
  exact hk _ (hall e he)

/-- C11: for every buffer and every visitor, in the events that `Parse` delivers
(1) a Key event has the info Key|String or Key|String|Escaped; (2) a Key event that has
a successor is followed by an event with the info Colon whose range is the one byte of a
colon; (3) an event with the Comma bit has the info Comma and its range is the one byte
of a comma; (4) an event with Value has none of Key, Start, End; (5) every event after
the first one is a Key, Colon or Comma event or carries Value, or it is the last event and
a Close event with End (the end of the root).  The two buffers of the test give the
events listed there, and `Parse` returns 7 on the second. -/
theorem role_bits_inside_containers (json : List UInt8) (f : Option vfn) :
    (∃ log, events json f = Run.ret log ∧
      (∀ e ∈ log, hasBit e.info Info.Key = true →
        (e.info = Info.Key ||| Info.String ∨
          e.info = Info.Key ||| Info.String ||| Info.Escaped)) ∧
      (∀ l e e' r, log = l ++ e :: e' :: r → hasBit e.info Info.Key = true →
        e'.info = Info.Colon ∧ e'.fin = e'.start + 1 ∧ rd json e'.start = Run.ret 58) ∧
      (∀ e ∈ log, hasBit e.info Info.Comma = true →
        e.info = Info.Comma ∧ e.fin = e.start + 1 ∧ rd json e.start = Run.ret 44) ∧
      (∀ e ∈ log, hasBit e.info Info.Value = true →
        hasBit e.info Info.Key = false ∧ hasBit e.info Info.Start = false ∧
          hasBit e.info Info.End = false) ∧
      (∀ l e r, log = l ++ e :: r → l ≠ [] →
        hasBit e.info Info.Key = true ∨ e.info = Info.Colon ∨ e.info = Info.Comma ∨
          hasBit e.info Info.Value = true ∨
          (r = [] ∧ hasBit e.info Info.Close = true ∧ hasBit e.info Info.End = true))) ∧
    events (bytes " \x7b \"a\" : \"b\" , \"c\" : [ 1 , 2 , 3 ] \x7d ") (some (fun _ _ => 1)) =
      Run.ret [⟨1, 2, Info.Start ||| Info.Open ||| Info.Object⟩,
        ⟨3, 6, Info.Key ||| Info.String⟩, ⟨7, 8, Info.Colon⟩,
        ⟨9, 12, Info.Value ||| Info.String⟩, ⟨13, 14, Info.Comma⟩,
        ⟨15, 18, Info.Key ||| Info.String⟩, ⟨19, 20, Info.Colon⟩,
        ⟨21, 22, Info.Value ||| Info.Open ||| Info.Array⟩,
        ⟨23, 24, Info.Value ||| Info.Number⟩, ⟨25, 26, Info.Comma⟩,
        ⟨27, 28, Info.Value ||| Info.Number⟩, ⟨29, 30, Info.Comma⟩,
        ⟨31, 32, Info.Value ||| Info.Number⟩,
        ⟨33, 34, Info.Value ||| Info.Close ||| Info.Array⟩,
        ⟨35, 36, Info.End ||| Info.Close ||| Info.Object⟩] ∧
    events (bytes "\x7b\"a\":1\x7d") (some (fun _ _ => 1)) =
      Run.ret [⟨0, 1, Info.Start ||| Info.Open ||| Info.Object⟩,
        ⟨1, 4, Info.Key ||| Info.String⟩, ⟨4, 5, Info.Colon⟩,
        ⟨5, 6, Info.Value ||| Info.Number⟩,
        ⟨6, 7, Info.End ||| Info.Close ||| Info.Object⟩] ∧
    Parse (bytes "\x7b\"a\":1\x7d") (some (fun _ _ => 1)) = Run.ret 7 := by
  refine ⟨?_, by decide!, by decide!, by decide!⟩
  obtain ⟨log, h1, h2, h3⟩ := parse_events json f
  obtain ⟨log', h4, h5⟩ := parse_evs json f
  obtain rfl := events_unique h1 h4
  have hval : ∀ e ∈ log, hasBit e.info Info.Value = true →
      hasBit e.info Info.Key = false ∧ hasBit e.info Info.Start = false ∧
        hasBit e.info Info.End = false := by
    intro e he hv
    obtain ⟨root, hr⟩ := h5 e he
    have hm := ev_info_mem hr
    cases root
    · exact value_roles_inner _ hm hv
    · rw [(value_roles_root _ hm).1] at hv
      cases hv
  refine ⟨log, h1, ?_, h2, ?_, hval, ?_⟩
  · intro e he hk
    obtain ⟨root, hr⟩ := h5 e he
    exact (ev_key hr hk).1
  · intro e he hc
    obtain ⟨root, hr⟩ := h5 e he
    exact ev_comma hr hc
  · intro l e r hl hne
    rcases h3 with rfl | ⟨e0, mid, he0, hm, rfl | ⟨cl, hcl, hb, rfl⟩⟩
    · cases l <;> cases hl
    · have hmem := later_event_open hl hne
      rcases inner_roles _ (ev_info_mem (hm e hmem)) with h | h | h | h
      · exact Or.inl h
      · exact Or.inr (Or.inl h)
      · exact Or.inr (Or.inr (Or.inl h))
      · exact Or.inr (Or.inr (Or.inr (Or.inl h)))
    · rcases later_event hl hne with hmem | ⟨hr, rfl⟩
      · rcases inner_roles _ (ev_info_mem (hm e hmem)) with h | h | h | h
        · exact Or.inl h
        · exact Or.inr (Or.inl h)
        · exact Or.inr (Or.inr (Or.inl h))
        · exact Or.inr (Or.inr (Or.inr (Or.inl h)))
      · exact Or.inr (Or.inr (Or.inr (Or.inr
          ⟨hr, hb, (value_roles_root _ (ev_info_mem hcl)).2 hb⟩)))

/-- C12: for every buffer and every visitor, every event that `Parse` delivers with the
Number bit has a range `[s, e)` inside the buffer whose bytes are a number of the JSON
grammar, with Sign set exactly when the byte at `s` is a minus sign, Dot set exactly when
a point is among the bytes of the range, and E set exactly when `e` or `E` is among them. -/
theorem number_detail_bits (json : List UInt8) (f : Option vfn) :
    ∃ log, events json f = Run.ret log ∧ ∀ e ∈ log, hasBit e.info Info.Number = true →
      e.start < e.fin ∧ e.fin ≤ json.length ∧ JNumber (slice json e.start e.fin) ∧
      (hasBit e.info Info.Sign = true ↔ rd json e.start = Run.ret 45) ∧
      (hasBit e.info Info.Dot = true ↔ 46 ∈ slice json e.start e.fin) ∧
      (hasBit e.info Info.E = true ↔
        (101 ∈ slice json e.start e.fin ∨ 69 ∈ slice json e.start e.fin)) := by
  obtain ⟨log, h1, h2⟩ := parse_evs json f
  refine ⟨log, h1, ?_⟩
  intro e he hn
  obtain ⟨root, hr⟩ := h2 e he
  exact ev_number hr hn

/-- C13: for every buffer and every visitor, every event that `Parse` delivers with the
String bit (a key or a value) has a range `[s, e)` inside the buffer with a quote at `s`
and at `e - 1` and `e - s ≥ 2`, its bytes are a string of the grammar, and Escaped is set
exactly when a backslash is among the bytes of the range. -/
theorem escaped_bit (json : List UInt8) (f : Option vfn) :
    ∃ log, events json f = Run.ret log ∧ ∀ e ∈ log, hasBit e.info Info.String = true →
      rd json e.start = Run.ret 34 ∧ e.start + 2 ≤ e.fin ∧ e.fin ≤ json.length ∧
      rd json (e.fin - 1) = Run.ret 34 ∧ JString (slice json e.start e.fin) ∧
      (hasBit e.info Info.Escaped = true ↔ 92 ∈ slice json e.start e.fin) := by
  obtain ⟨log, h1, h2⟩ := parse_evs json f
  refine ⟨log, h1, ?_⟩
  intro e he hn
  obtain ⟨root, hr⟩ := h2 e he
  exact ev_string hr hn

/-- C14: when the value scanner of `vdoc` (without a visitor) goes through and ends at
the offset `s.i`, then for the smallest offset `p ≥ s.i` that holds a byte that is no
whitespace `Parse` returns `-p`, and when only whitespace follows `Parse` returns the
length of the buffer.  On `-1.0 i` the result is -5. -/
theorem trailing_garbage_offset (json : List UInt8) (s : St)
    (h : vany json (budget json) 0 Info.Start none [] = Run.ret s) (hs : s.stop = false) :
    (∀ p, s.i ≤ p → (∀ k, s.i ≤ k → k < p → ∃ c, rd json k = Run.ret c ∧ isws c = true) →
      (∃ c, rd json p = Run.ret c ∧ isws c = false) → Parse json none = Run.ret (-(p : Int))) ∧
    ((∀ k, s.i ≤ k → k < json.length → ∃ c, rd json k = Run.ret c ∧ isws c = true) →
      Parse json none = Run.ret (json.length : Int)) ∧
    Parse (bytes "-1.0 i") none = Run.ret (-5) := by
  have he : Exec json (.any 0 Info.Start) none [] s := exec_of_run json _ _ _ _ _ h
  have hb := ((exec_bounds he (Nat.zero_le _)).2.2 hs).2.2
  refine ⟨?_, ?_, by decide!⟩
  · intro p hp hws ⟨c, hc, hw⟩
    have hsk : skipWs json s.i = p :=
      skipWs_eq (p - s.i) s.i (by omega) hws
        (fun c' hc' => by rw [hc] at hc'; cases hc'; exact hw)
    rw [Parse_eq he, finish_go hs]
    unfold docRes
    rw [hsk, if_pos (rd_lt hc)]
    dsimp only
    rw [verdict_fail]
  · intro hws
    exact parse_len he hs (skipWs_all hb hws)

theorem trailing_garbage_offset_witness :
    Parse (bytes "7 x") none = Run.ret (-((2 : Nat) : Int)) :=
  (trailing_garbage_offset (bytes "7 x") ⟨1, true, false, []⟩ (by decide!) rfl).1 2 (by decide)
    (fun k h1 h2 => by
      have hk : k = 1 := by
        have h3 : 1 ≤ k := h1
        omega
      subst hk
      exact ⟨32, by decide!, by decide⟩)
    ⟨120, by decide!, by decide⟩

/-- C15: when the string scanner, started at `i` just after the opening quote, has gone
over a string body `body` and reads a backslash at the offset `q = i + body.length`,
followed by the bytes `rest`: if the escape is one of the grammar (`escapeFail rest` is
`none`) the body with the escape is again a string body; otherwise the scanner fails at
the offset `q + n` that `escapeFail` gives (the byte after the backslash when it is no
escape letter, the first byte that is no hexadecimal digit after `\u`, the end of the
buffer when the escape is cut short), and when the string is a value or a key that the
scan of `Parse` reaches, `Parse` returns `-(q + n)`. -/
theorem invalid_escape_offset (json : List UInt8) :
    (∀ i body rest, JChars body → (vals json).drop i = body ++ 92 :: rest →
      (escapeFail rest = none → ∃ esc tail, rest = esc ++ tail ∧ JChars (body ++ 92 :: esc)) ∧
      (∀ n, escapeFail rest = some n →
        (∃ info, vstring json i = Run.ret (i + body.length + n, info, false, true)) ∧
        (∀ f0 j d f log, Reach json f0 (.any j d) f log →
          rd json (skipWs json j) = Run.ret 34 → i = skipWs json j + 1 →
          Parse json f0 = Run.ret (-((i + body.length + n : Nat) : Int))) ∧
        (∀ f0 k f log, Reach json f0 (.key k) f log → i = k + 1 →
          Parse json f0 = Run.ret (-((i + body.length + n : Nat) : Int))))) ∧
    (escapeFail [] = some 1 ∧ escapeFail [121, 34] = some 1 ∧
      escapeFail [117, 48, 49, 120, 34] = some 4 ∧ escapeFail [117, 48, 49] = some 4 ∧
      escapeFail [110, 34] = none ∧ escapeFail [117, 48, 49, 97, 70, 34] = none) ∧
    Parse (bytes " \x7b\"hel\\y\" : 1\x7d") none = Run.ret (-7) ∧
    Parse (bytes "\x7b\"hel\\y\":1\x7d") none = Run.ret (-6) := by
  refine ⟨?_, by decide, by decide!, by decide!⟩
  intro i body rest hb hd
  refine ⟨escape_ok hb, ?_⟩
  intro n hn
  obtain ⟨info, hv⟩ := vstring_escape_fail hb hd hn
  refine ⟨⟨info, hv⟩, ?_, ?_⟩
  · intro f0 j d f log hr hq hi
    exact (string_fail_parse hv).1 j d f log hr hq hi
  · intro f0 k f log hr hi
    exact (string_fail_parse hv).2 k f log hr hi

/-- C16: on a buffer of whitespace only (the empty buffer included) `Parse` returns
minus the length of the buffer, for every visitor and without one, and calls the visitor
never; the result is not positive.  The empty buffer gives 0 and one space gives -1. -/
theorem blank_input (json : List UInt8) (h : AllWs (vals json)) (f : Option vfn) :
    Parse json f = Run.ret (-(json.length : Int)) ∧ events json f = Run.ret [] ∧
    ¬ (0 < -(json.length : Int)) ∧
    Parse (bytes "") f = Run.ret 0 ∧ Parse (bytes " ") f = Run.ret (-1) := by
  have key : ∀ js : List UInt8, AllWs (vals js) →
      Parse js f = Run.ret (-(js.length : Int)) ∧ events js f = Run.ret [] := by
    intro js hjs
    have he := exec_blank hjs f
    refine ⟨?_, events_eq he⟩
    rw [Parse_eq he, finish_stop rfl, verdict_fail]
  refine ⟨(key json h).1, (key json h).2, by omega, ?_, ?_⟩
  · exact (key (bytes "") (by unfold AllWs; decide!)).1
  · exact (key (bytes " ") (by unfold AllWs; decide!)).1

theorem blank_input_witness :
    AllWs (vals (bytes " \t\r\n")) ∧
    Parse (bytes " \t\r\n") (some (fun _ _ => 0)) =
      Run.ret (-(((bytes " \t\r\n").length : Nat) : Int)) :=
  ⟨by unfold AllWs; decide!,
    (blank_input (bytes " \t\r\n") (by unfold AllWs; decide!) (some (fun _ _ => 0))).1⟩

/-- C17: for every buffer and every visitor `v`, `Parse` with the visitor `relax v`
(which answers 1 where `v` answers -1 on an event without the Open bit, and answers as
`v` elsewhere) returns what `Parse` with `v` returns and delivers the same events; both
are results. -/
theorem skip_on_non_open_is_continue (json : List UInt8) (v : vfn) :
    Parse json (some v) = Parse json (some (relax v)) ∧
    events json (some v) = events json (some (relax v)) ∧
    ∃ r log, Parse json (some v) = Run.ret r ∧ events json (some v) = Run.ret log := by
  obtain ⟨h1, h2⟩ := parse_relax json v
  obtain ⟨s, hs, _⟩ := vdoc_total json (some v)
  exact ⟨h1.symm, h2.symm, _, _, Parse_eq hs, events_eq hs⟩

/-- C18: when a number starts at `p` with a zero, or with a minus sign and a zero, and
the byte at the offset `q` just after the zero is a digit, then `Parse` without a visitor
returns `-q` when the number is the value of the document (`p` is the first offset that
holds no whitespace), and when it is the member value or array element of a member
(`Call.member`) that the scan reaches.  `00` gives -1, `-00` and `[00]` give -2. -/
theorem leading_zero_rejected (json : List UInt8) :
    (∀ p q d, ((rd json p = Run.ret 48 ∧ q = p + 1) ∨
        (rd json p = Run.ret 45 ∧ rd json (p + 1) = Run.ret 48 ∧ q = p + 2)) →
      rd json q = Run.ret d → isnum d = true →
      (skipWs json 0 = p → Parse json none = Run.ret (-(q : Int))) ∧
      (∀ e i f log, Reach json none (.member e i) f log → skipWs json i = p →
        Parse json none = Run.ret (-(q : Int)))) ∧
    Parse (bytes "00") none = Run.ret (-1) ∧ Parse (bytes "-00") none = Run.ret (-2) ∧
    Parse (bytes "[00]") none = Run.ret (-2) ∧
    Parse (bytes "\x7b\"a\": [1, -01]\x7d") none = Run.ret (-12) ∧
    Reach (bytes "[00]") none (.member 93 1) none [] := by
  refine ⟨?_, by decide!, by decide!, by decide!, by decide!, ?_⟩
  · intro p q d hz hd hn
    have hw : isws d = false := by
      revert hn
      unfold isnum isws ws
      intro hn
      simp only [Bool.and_eq_true, decide_eq_true_eq] at hn
      have h1 : ¬ (d = 32 ∨ d = 9 ∨ d = 10 ∨ d = 13) := by omega
      simp [h1]
    have h44 : d ≠ 44 := by rintro rfl; revert hn; decide
    have hsc : ∃ c info, rd json p = Run.ret c ∧
        scalar json c p = some (Run.ret (q, info, true, false)) := by
      rcases hz with ⟨h0, rfl⟩ | ⟨hm, h0, rfl⟩
      · exact ⟨48, _, h0, scalar_zero h0 hd hn⟩
      · exact ⟨45, _, hm, scalar_minus_zero hm h0 hd hn⟩
    obtain ⟨c, info, hc, hs⟩ := hsc
    constructor
    · intro hp
      subst hp
      exact root_fail_after hc hs hd hw
    · intro e i f log hr hp
      subst hp
      obtain ⟨rfl, rfl⟩ := reach_none hr
      have he := (reach_inb_good hr).2
      have hde : d ≠ e := by
        rcases he with rfl | rfl <;> (rintro rfl; revert hn; decide)
      have := (reach_parse hr (member_fail_after he hc hs hd hw h44 hde) rfl).1
      rwa [verdict_fail] at this
  · have h0 : rd (bytes "[00]") 0 = Run.ret 91 := by decide!
    have h1 : rd (bytes "[00]") 1 = Run.ret 48 := by decide!
    have r1 := Reach.step (@Reach.root (bytes "[00]") none)
      (Child.any_arr h0 (by simp [fire_none]))
    rw [inner_none, fire_none] at r1
    exact Reach.step (Reach.step r1 (Child.arr_elems h1 (by decide) (by decide)))
      (Child.elems_go h1 (by decide))

/-- C19: at a value that the scan reaches and whose first byte after whitespace, at the
offset `p`, is `t`, `n` or `f`: when the bytes from `p` on are the text `true`, `null` or
`false`, the value scanner goes on and (with a visitor) delivers the event with the range
`[p, p+4)`, `[p, p+4)` or `[p, p+5)` and the bit True, Null or False; otherwise it stops at
`p + 1` and `Parse` returns `-(p + 1)`.  `fals0` gives -1 and ` tru` gives -2. -/
theorem literal_matchers (json : List UInt8) :
    (∀ f0 i d f log, Reach json f0 (.any i d) f log →
      (rd json (skipWs json i) = Run.ret 116 →
        (slice json (skipWs json i) (skipWs json i + 4) = [116, 114, 117, 101] →
          (∀ m, 3 * json.length + 1 ≤ m + 3 * i → vany json m i d f log =
            Run.ret (vanyTail (skipWs json i) (skipWs json i + 4) Info.True d true false f log)) ∧
          (∀ g, f = some g →
            (vanyTail (skipWs json i) (skipWs json i + 4) Info.True d true false f log).log =
              log ++ [⟨skipWs json i, skipWs json i + 4, Info.True ||| tailInfo f d⟩])) ∧
        (slice json (skipWs json i) (skipWs json i + 4) ≠ [116, 114, 117, 101] →
          (∀ m, 3 * json.length + 1 ≤ m + 3 * i →
            vany json m i d f log = Run.ret ⟨skipWs json i + 1, false, true, log⟩) ∧
          Parse json f0 = Run.ret (-((skipWs json i + 1 : Nat) : Int)))) ∧
      (rd json (skipWs json i) = Run.ret 110 →
        (slice json (skipWs json i) (skipWs json i + 4) = [110, 117, 108, 108] →
          (∀ m, 3 * json.length + 1 ≤ m + 3 * i → vany json m i d f log =
            Run.ret (vanyTail (skipWs json i) (skipWs json i + 4) Info.Null d true false f log)) ∧
          (∀ g, f = some g →
            (vanyTail (skipWs json i) (skipWs json i + 4) Info.Null d true false f log).log =
              log ++ [⟨skipWs json i, skipWs json i + 4, Info.Null ||| tailInfo f d⟩])) ∧
        (slice json (skipWs json i) (skipWs json i + 4) ≠ [110, 117, 108, 108] →
          (∀ m, 3 * json.length + 1 ≤ m + 3 * i →
            vany json m i d f log = Run.ret ⟨skipWs json i + 1, false, true, log⟩) ∧
          Parse json f0 = Run.ret (-((skipWs json i + 1 : Nat) : Int)))) ∧
      (rd json (skipWs json i) = Run.ret 102 →
        (slice json (skipWs json i) (skipWs json i + 5) = [102, 97, 108, 115, 101] →
          (∀ m, 3 * json.length + 1 ≤ m + 3 * i → vany json m i d f log =
            Run.ret (vanyTail (skipWs json i) (skipWs json i + 5) Info.False d true false f log)) ∧
          (∀ g, f = some g →
            (vanyTail (skipWs json i) (skipWs json i + 5) Info.False d true false f log).log =
              log ++ [⟨skipWs json i, skipWs json i + 5, Info.False ||| tailInfo f d⟩])) ∧
        (slice json (skipWs json i) (skipWs json i + 5) ≠ [102, 97, 108, 115, 101] →
          (∀ m, 3 * json.length + 1 ≤ m + 3 * i →
            vany json m i d f log = Run.ret ⟨skipWs json i + 1, false, true, log⟩) ∧
          Parse json f0 = Run.ret (-((skipWs json i + 1 : Nat) : Int))))) ∧
    Parse (bytes "fals0") none = Run.ret (-1) ∧ Parse (bytes " tru") none = Run.ret (-2) ∧
    Parse (bytes "True") none = Run.ret 0 ∧
    events (bytes " [true, false,null]") (some (fun _ _ => 1)) =
      Run.ret [⟨1, 2, Info.Array ||| Info.Open ||| Info.Start⟩,
        ⟨2, 6, Info.True ||| Info.Value⟩, ⟨6, 7, Info.Comma⟩,
        ⟨8, 13, Info.False ||| Info.Value⟩, ⟨13, 14, Info.Comma⟩,
        ⟨14, 18, Info.Null ||| Info.Value⟩,
        ⟨18, 19, Info.Array ||| Info.Close ||| Info.End⟩] := by
  refine ⟨?_, by decide!, by decide!, by decide!, by decide!⟩
  intro f0 i d f log hr
  refine ⟨?_, ?_, ?_⟩
  · intro hc
    exact literal_at hr hc (scalar_true hc)
  · intro hc
    exact literal_at hr hc (scalar_null hc)
  · intro hc
    exact literal_at hr hc (scalar_false hc)

/-- C20: `isws` is true for exactly the bytes 0x20, 0x09, 0x0A and 0x0D.  At a program
point that the scan reaches (other than the start of a key), a first byte after the
whitespace that is no digit and starts no token (quote, bracket, minus, `t`, `n`, `f`,
colon, comma) makes `Parse` return minus its offset, which is not positive; so do the
bytes 0x0C, 0x0B, 0x00 and 0xA0.  After the value of the document every byte that is no
whitespace makes `Parse` fail (C14). -/
theorem whitespace_is_four_bytes :
    (∀ b : Nat, isws b = true ↔ (b = 0x20 ∨ b = 0x09 ∨ b = 0x0A ∨ b = 0x0D)) ∧
    (∀ json f0 c f log b, Reach json f0 c f log → (∀ i, c ≠ .key i) →
      rd json (skipWs json c.pos) = Run.ret b → isnum b = false →
      b ∉ [34, 123, 91, 45, 116, 110, 102, 125, 93, 58, 44] →
      Parse json f0 = Run.ret (-(skipWs json c.pos : Int)) ∧
        ¬ (0 < -(skipWs json c.pos : Int))) ∧
    (∀ b ∈ [0x0C, 0x0B, 0x00, 0xA0], isws b = false ∧ isnum b = false ∧
      b ∉ [34, 123, 91, 45, 116, 110, 102, 125, 93, 58, 44]) ∧
    Parse (bytes "\x0c1") none = Run.ret 0 ∧ Parse (bytes "[1,\x0b2]") none = Run.ret (-3) ∧
    Parse (bytes "\x7b\"a\"\x00:1\x7d") none = Run.ret (-4) ∧
    Parse (bytes "1 \x0c") none = Run.ret (-2) := by
  refine ⟨?_, ?_, by decide, by decide!, by decide!, by decide!, by decide!⟩
  · intro b
    exact isws_iff b
  · intro json f0 c f log b hr hk hb hn hl
    have he := bad_byte_fail f log (reach_inb_good hr).2 hk hb hn hl
    have := (reach_parse hr he rfl).1
    rw [verdict_fail] at this
    exact ⟨this, by omega⟩

/-- C1: for every buffer, when `Parse` without a visitor returns a positive value the
bytes of the buffer are a JSON text of the grammar of RFC 8259 as `JsonText` states it:
whitespace (space, tab, LF, CR), one value, whitespace; a string body holds bytes from
0x20 on other than the quote and the backslash, the two-byte escapes of `IsEscape` and
`\u` with four hexadecimal digits; a number is a `JNumber`. -/
theorem positive_result_is_json_text (json : List UInt8) (r : Int)
    (hp : Parse json none = Run.ret r) (hr : 0 < r) : JsonText (vals json) :=
  parse_sound (f := none) (by intro g hg; cases hg) hp hr

theorem positive_result_is_json_text_witness :
    Parse (bytes " [1, \x7b\"a\\n\": -2.5e3\x7d, null] ") none = Run.ret 28 ∧
    JsonText (vals (bytes " [1, \x7b\"a\\n\": -2.5e3\x7d, null] ")) :=
  ⟨by decide!, positive_result_is_json_text _ 28 (by decide!) (by decide)⟩

/-- C2: for every buffer whose bytes are a JSON text of the grammar (a value between
optional whitespace), `Parse` without a visitor and `Parse` with a visitor that always
answers 1 both return the length of the buffer, and the length is positive. -/
theorem json_text_is_fully_consumed (json : List UInt8) (h : JsonText (vals json)) :
    Parse json none = Run.ret (json.length : Int) ∧
    (∀ v : vfn, (∀ l e, v l e = 1) → Parse json (some v) = Run.ret (json.length : Int)) ∧
    0 < json.length := by
  refine ⟨parse_complete none (by intro g hg; cases hg) h, ?_, jsonText_pos h⟩
  intro v hv
  refine parse_complete (some v) (nonZero_some ?_) h
  intro l e
  rw [hv l e]
  exact one_ne_zero

theorem json_text_is_fully_consumed_witness :
    JsonText (vals (bytes " true ")) ∧ Parse (bytes " true ") none = Run.ret 6 :=
  have h : JsonText (vals (bytes " true ")) :=
    ⟨[32], [116, 114, 117, 101], [32], by unfold AllWs; decide, Derives.litTrue,
      by unfold AllWs; decide, by decide⟩
  ⟨h, (json_text_is_fully_consumed (bytes " true ") h).1⟩

/-- C6: for every buffer and every visitor `v` that never answers 0.  (a) The events
that `Parse` delivers with `v` are what `prune` leaves of the events that it delivers
with a visitor that always answers 1: outside a skipped container every event is
delivered, an Open event that `v` answers with -1 is followed by no event of the inside
of its container, next comes the Close event that ends the container, and after it the
events are delivered as before.  (b) In the events delivered with `v`, for every Open
event `e` that `v` answered with -1: the events before it end at or before its bracket,
and either it is the last event and no value of the grammar starts at its bracket, or the
next event `cl` is the Close event of the container (`Closes`: the Close bit, the Object
and Array bits of `e`, the one byte of the closing bracket of the same kind, and the bytes
from bracket to bracket are a value) and every later event starts at or after the end of
`cl`.  (c) At the opening bracket at `p` of a container that is a value `x` of the
grammar, the value scanner `vany` with such a visitor delivers the Open and the Close
event only and returns just after the container, ok and without a stop.  (d) On the
buffer of the test, skipping every Open event of an array gives the ranges
`\x7b"hello":[],"jello":[]\x7d`. -/
theorem skipped_container_events (json : List UInt8) (v : vfn) (hv : ∀ l e, v l e ≠ 0) :
    (∃ log full, events json (some v) = Run.ret log ∧
      events json (some (fun _ _ => 1)) = Run.ret full ∧ log = prune v [] 0 full ∧
      ∀ l e r, log = l ++ e :: r → hasBit e.info Info.Open = true → v l e = -1 →
        (∀ x ∈ l, x.fin ≤ e.start) ∧
        ((r = [] ∧ ¬ ValueAt json e.start) ∨
          ∃ cl r', r = cl :: r' ∧ Closes json e cl ∧ ∀ x ∈ r', cl.fin ≤ x.start)) ∧
    (∀ (p d c kind : Nat) (x rest : List Nat) (log : List Event) (n : Nat),
      rd json p = Run.ret c →
      ((c = 123 ∧ kind = Info.Object) ∨ (c = 91 ∧ kind = Info.Array)) →
      (vals json).drop p = x ++ rest → Derives .value x → v log (openEv kind p d) = -1 →
      3 * json.length + 1 ≤ n + 3 * p →
      vany json n p d (some v) log = Run.ret ⟨p + x.length, true, false,
        log ++ [openEv kind p d,
          ⟨p + x.length - 1, p + x.length, kind ||| Info.Close ||| closeInfo (some v) d⟩]⟩) ∧
    (∃ log, events (bytes " \x7b \"hello\" : [ 1, 2, 3 ], \"jello\" : [ 4, 5, 6 ] \x7d ")
        (some (fun _ e => if e.info &&& (Info.Open ||| Info.Array) = Info.Open ||| Info.Array
          then -1 else 1)) = Run.ret log ∧
      cat (bytes " \x7b \"hello\" : [ 1, 2, 3 ], \"jello\" : [ 4, 5, 6 ] \x7d ") log =
        vals (bytes "\x7b\"hello\":[],\"jello\":[]\x7d")) := by
  refine ⟨?_, ?_, ?_⟩
  · obtain ⟨log, hlog⟩ := events_total json (some v)
    obtain ⟨full, hfull⟩ := events_total json (some (fun _ _ => 1))
    refine ⟨log, full, hlog, hfull, parse_prune hv hlog hfull, ?_⟩
    intro l e r hsplit ho hs
    have hsorted := events_sorted hlog
    rw [hsplit] at hsorted
    obtain ⟨_, h2, h3⟩ := List.pairwise_append.mp hsorted
    refine ⟨fun x hx => h3 x hx e (List.mem_cons_self _ _), ?_⟩
    rcases parse_skips hv hlog l e r hsplit ho hs with h | ⟨cl, r1, hr, hc⟩
    · exact Or.inl h
    · refine Or.inr ⟨cl, r1, hr, hc, ?_⟩
      rw [hr] at h2
      have h4 := (List.pairwise_cons.mp h2).2
      exact fun x hx => (List.pairwise_cons.mp h4).1 x hx
  · intro p d c kind x rest log n hc hk hd hx hs hn
    exact vany_of_exec (skip_valid hv hc hk hd hx hs) (Nat.le_of_lt (rd_lt hc)) n hn
  · exact ⟨[⟨1, 2, 5184⟩, ⟨3, 10, 16386⟩, ⟨11, 12, 512⟩, ⟨13, 14, 36992⟩, ⟨23, 24, 41088⟩,
      ⟨24, 25, 256⟩, ⟨26, 33, 16386⟩, ⟨34, 35, 512⟩, ⟨36, 37, 36992⟩, ⟨46, 47, 41088⟩,
      ⟨48, 49, 10304⟩], by decide!, by decide!⟩

theorem skipped_container_events_witness :
    (∀ (l : List Event) (e : Event), (fun _ _ => -1 : vfn) l e ≠ 0) ∧
    events (bytes "[1, [2], 3]") (some (fun _ _ => -1)) =
      Run.ret [⟨0, 1, 5248⟩, ⟨10, 11, 10368⟩] ∧
    ∃ log full, events (bytes "[1, [2], 3]") (some (fun _ _ => -1)) = Run.ret log ∧
      events (bytes "[1, [2], 3]") (some (fun _ _ => 1)) = Run.ret full ∧
      log = prune (fun _ _ => -1) [] 0 full :=
  ⟨fun _ _ => by simp, by decide!,
    (skipped_container_events (bytes "[1, [2], 3]") (fun _ _ => -1) (fun _ _ => by simp)).1.imp
      (fun _ h => h.imp (fun _ h2 => ⟨h2.1, h2.2.1, h2.2.2.1⟩))⟩

/-- C8: for every buffer on which `Parse` with a visitor that always answers 1 returns a
positive value, the bytes of the ranges of the delivered events, one range after the
other in the order of delivery, are the bytes of the buffer without the whitespace
(space, tab, LF, CR) outside string literals (`minify`); and (`Tiles`) the ranges lie one
after the other from the start to the end of the buffer, none is empty, and every byte
that lies in none of them is whitespace, so that no byte lies in two of them. -/
theorem event_ranges_rebuild_minified_input (json : List UInt8) (v : vfn)
    (hv : ∀ l e, v l e = 1) (r : Int) (hp : Parse json (some v) = Run.ret r) (hr : 0 < r) :
    ∃ log, events json (some v) = Run.ret log ∧ cat json log = minify (vals json) ∧
      Tiles json 0 log json.length ∧ log.Pairwise (fun a b => a.fin ≤ b.start) := by
  obtain ⟨log, hlog⟩ := events_total json (some v)
  have hg : ∀ l e, v l e ≠ 0 ∧ v l e ≠ -1 := by
    intro l e
    rw [hv l e]
    exact ⟨one_ne_zero, by decide⟩
  exact ⟨log, hlog, parse_outs hg hp hr hlog, parse_tiles hg hp hr hlog, events_sorted hlog⟩

theorem event_ranges_rebuild_minified_input_witness :
    Parse (bytes " \x7b \"a b\" : [ 1 , \"\\\" \" ] \x7d ") (some (fun _ _ => 1)) = Run.ret 27 ∧
    minify (vals (bytes " \x7b \"a b\" : [ 1 , \"\\\" \" ] \x7d ")) =
      vals (bytes "\x7b\"a b\":[1,\"\\\" \"]\x7d") ∧
    ∃ log, events (bytes " \x7b \"a b\" : [ 1 , \"\\\" \" ] \x7d ") (some (fun _ _ => 1)) =
        Run.ret log ∧
      cat (bytes " \x7b \"a b\" : [ 1 , \"\\\" \" ] \x7d ") log =
        minify (vals (bytes " \x7b \"a b\" : [ 1 , \"\\\" \" ] \x7d ")) ∧
      Tiles (bytes " \x7b \"a b\" : [ 1 , \"\\\" \" ] \x7d ") 0 log
        (bytes " \x7b \"a b\" : [ 1 , \"\\\" \" ] \x7d ").length ∧
      log.Pairwise (fun a b => a.fin ≤ b.start) :=
  ⟨by decide!, by decide!,
    event_ranges_rebuild_minified_input (bytes " \x7b \"a b\" : [ 1 , \"\\\" \" ] \x7d ")
      (fun _ _ => 1) (fun _ _ => rfl) 27 (by decide!) (by decide)⟩

/-- C21: an index expression `json[k]` is the read `rd json k`, which panics exactly when
`k` is not below the length, and a panic ends the run.  For every buffer: `Parse` returns
a result with every visitor and without one, so no read of the scan is outside the
buffer; the string scanner returns a result from every offset up to the length, with the
unrolled loop and without it; the number scanner, called one byte after a minus sign or a
digit, returns a result (its step back stays in the buffer); the literal matchers return a
result from every offset; and where `vcomma` returns without a stop, the byte that the
caller tests next is in the buffer.  On the empty buffer and on truncated inputs `Parse`
returns the results listed. -/
theorem no_read_outside_the_buffer (json : List UInt8) :
    (∀ k, rd json k = Run.panic ↔ ¬ k < json.length) ∧
    (∀ f : Option vfn, ∃ r, Parse json f = Run.ret r) ∧
    (∀ u i, i ≤ json.length → ∃ r, vstringWith u json i = Run.ret r) ∧
    (∀ i c, rd json i = Run.ret c → (c = 45 ∨ isnum c = true) →
      ∃ r, vnumber json (i + 1) = Run.ret r) ∧
    (∀ i, (∃ r, vtrue json i = Run.ret r) ∧ (∃ r, vfalse json i = Run.ret r) ∧
      (∃ r, vnull json i = Run.ret r)) ∧
    (∀ i e j ok, vcomma json i e = Run.ret (j, ok, false) → ∃ c, rd json j = Run.ret c) ∧
    [Parse (bytes "") none, Parse (bytes "-") none, Parse (bytes "1.") none,
      Parse (bytes "1e+") none, Parse (bytes "tr") none, Parse (bytes "fals") none,
      Parse (bytes "\"\\") none, Parse (bytes "\"\\u12") none,
      Parse (bytes "\"abcdefgh") none, Parse (bytes "[1,") none,
      Parse (bytes "\x7b\"a\":1,") none] =
      [Run.ret 0, Run.ret (-1), Run.ret (-2), Run.ret (-3), Run.ret (-1), Run.ret (-1),
        Run.ret (-2), Run.ret (-5), Run.ret (-9), Run.ret (-4), Run.ret (-7)] := by
  refine ⟨rd_panic_iff json, parse_total json, fun u i hi => vstringWith_total u json hi, ?_,
    ?_, ?_, by decide!⟩
  · intro i c hc hcn
    obtain ⟨j, info, ok, h, _⟩ := vnumber_spec hc hcn
    exact ⟨_, h⟩
  · intro i
    exact ⟨⟨_, vtrue_eq json i⟩, ⟨_, vfalse_eq json i⟩, ⟨_, vnull_eq json i⟩⟩
  · intro i e j ok h
    exact rd_total (vcomma_go h).2.2.1

/-- C22: for every buffer and every visitor (or none), whether the scan goes through or
fails, `Parse` delivers a sequence of events in which every event has a range that is
not empty and lies in the buffer (`start < end` and `end` at most the length), every
event starts at or after the end of every event before it, and so the start of an event
is at or after the end of the event just before it.  On `[1, x` a visitor that always
answers 1 sees three events before the scan fails. -/
theorem event_ranges_in_bounds_and_ordered (json : List UInt8) (f : Option vfn) :
    (∃ log, events json f = Run.ret log ∧
      (∀ x ∈ log, x.start < x.fin ∧ x.fin ≤ json.length) ∧
      log.Pairwise (fun a b => a.fin ≤ b.start) ∧
      ∀ l a b r, log = l ++ a :: b :: r → a.fin ≤ b.start) ∧
    Parse (bytes "[1, x") (some (fun _ _ => 1)) = Run.ret (-4) ∧
    events (bytes "[1, x") (some (fun _ _ => 1)) =
      Run.ret [⟨0, 1, Info.Array ||| Info.Open ||| Info.Start⟩,
        ⟨1, 2, Info.Number ||| Info.Value⟩, ⟨2, 3, Info.Comma⟩] := by
  refine ⟨?_, by decide!, by decide!⟩
  obtain ⟨log, hlog⟩ := events_total json f
  have hs := events_sorted hlog
  refine ⟨log, hlog, events_range hlog, hs, ?_⟩
  intro l a b r hsplit
  rw [hsplit] at hs
  obtain ⟨_, h2, _⟩ := List.pairwise_append.mp hs
  exact (List.pairwise_cons.mp h2).1 b (List.mem_cons_self _ _)

/-- C23: for every buffer and every offset, the string scanner with the unrolled loop
(`vstringWith true`, which is `vstring`) returns what the string scanner without it
(`vstringWith false`) returns, whose scanning loop is the loop over single bytes; the two
scanning loops end in the same way, at the first byte from the offset on that is a quote,
a backslash or below 0x20 (`scanRes`); and from an offset up to the length both return a
result.  On a buffer with eleven plain bytes, an escape and the closing quote both return
the offset 14 with the Escaped bit. -/
theorem unrolled_string_scan_is_plain_scan (json : List UInt8) (i : Nat) :
    vstringWith true json i = vstringWith false json i ∧
    vstring json i = vstringWith true json i ∧
    scan false json i = scanPlain json (json.length + 1) i ∧
    scan true json i = scan false json i ∧
    scan true json i = Run.ret (scanRes json i) ∧
    (i ≤ json.length → ∃ r, vstringWith false json i = Run.ret r) ∧
    vstringWith true (bytes "abcdefghijk\\n\"x") 0 = Run.ret (14, Info.Escaped, true, false) ∧
    vstringWith false (bytes "abcdefghijk\\n\"x") 0 = Run.ret (14, Info.Escaped, true, false) := by
  refine ⟨vstringWith_unroll json i, rfl, rfl, ?_, scan_eq true json i,
    fun hi => vstringWith_total false json hi, by decide!, by decide!⟩
  rw [scan_eq, scan_eq]

end pjson
